import Mathlib

/-!
# postcard-go: varint, zigzag and the scalar/string/bytes (de)serializers

A shallow embedding of `varint.go`, `zigzag.go`, `errors.go`, `serializer.go`
and `deserializer.go`: the codecs, the scalar, string and byte-sequence
(de)serializers, the traversal of values by kind, enums, and single
characters.

Conventions of the embedding.

* A Go `byte` is a `Fin 256`; a `[]byte` (and a Go `string`, which is a byte
  sequence) is a `List Byte`.
* Unsigned machine integers `uintK` are natural numbers below `2 ^ K`; every
  operation that can leave that range is followed by an explicit `% 2 ^ K`.
  Signed machine integers `intK` are integers in `[-2 ^ (K-1), 2 ^ (K-1))`;
  conversions to `intK` are `Int.bmod _ (2 ^ K)` (two's complement).
* Go's `int` and `uint` are 64 bits wide (the branch `^uint(0) == math.MaxUint64`).
* The read position of a `Deserializer` is a natural number: the field is
  unexported, starts at `0` and is only ever increased by the package.
* A Go run-time panic (index or slice bounds out of range) is the outcome
  `Res.panic`, respectively `none` for the pure encoders.
* The buffer of a `Serializer` is the list of its bytes. `SerializeToSlice`
  writes into an array that its argument may share, so for it the serializer
  is given a second time, as `BackedSerializer`, over an explicit backing
  array with offset, length and capacity.
-/

namespace Postcard

/-- A Go `byte`. -/
abbrev Byte := Fin 256

/-- The conversion `byte(x)` of an unsigned integer: truncation to 8 bits. -/
def toByte (x : Nat) : Byte := ⟨x % 256, Nat.mod_lt x (by decide)⟩

/-- The error values built with `fmt.Errorf`, by message. -/
inductive Msg where
  | expectedSlice
  | expectedArray
  | expectedMap
  | expectedStruct
  | unsupportedType
  | cannotDeserializeIntoNil
  | expectedPointer
  | expectedPointerToSlice
  | expectedPointerToArray
  | expectedPointerToMap
  deriving DecidableEq, Repr

/-- The error values of `errors.go`, and those built with `fmt.Errorf`. -/
inductive Error where
  | ErrWontImplement
  | ErrNotYetImplemented
  | ErrSerializeBufferFull
  | ErrSerializeSeqLengthUnknown
  | ErrDeserializeUnexpectedEnd
  | ErrDeserializeBadVarint
  | ErrDeserializeBadBool
  | ErrDeserializeBadChar
  | ErrDeserializeBadUtf8
  | ErrDeserializeBadOption
  | ErrDeserializeBadEnum
  | ErrDeserializeBadEncoding
  | ErrDeserializeBadCrc
  | ErrSerdeSerCustom
  | ErrSerdeDeCustom
  | ErrCollectStrError
  | Errorf (m : Msg)
  deriving DecidableEq, Repr

/-- Outcome of a Go call returning `(value, error)`: a value with a `nil`
error, a non-`nil` error, or a run-time panic. -/
inductive Res (α : Type) where
  | ok (v : α)
  | err (e : Error)
  | panic
  deriving DecidableEq, Repr

/-! ## varint.go -/

def bitsPerByte : Nat := 8

def bitsPerVarintByte : Nat := 7

/-- `varintMax(size)`: the number of varint bytes of a `size`-byte integer. -/
def varintMax (size : Nat) : Nat :=
  let bits := size * bitsPerByte
  let roundupBits := bits + (bitsPerVarintByte - 1)
  roundupBits / bitsPerVarintByte

/-- `maxOfLastByte(size)`: the largest value the last varint byte may hold. -/
def maxOfLastByte (size : Nat) : Nat :=
  let maxBits := size * 8
  let extraBits := maxBits % 7
  ((1 <<< extraBits) - 1) % 256

/-- The indexed store `buf[i] = b`; `none` is the index-out-of-range panic. -/
def storeAt (buf : List Byte) (i : Nat) (b : Byte) : Option (List Byte) :=
  if i < buf.length then some (buf.set i b) else none

/-- The loop `for value >= 128 { buf[i] = byte(value&0x7F) | 0x80; value >>= 7; i++ }`
of the three encoders, returning the final `(buf, value, i)`. Every iteration
stores into a fresh slot of `buf`, so `slots` (the buffer length) bounds the
number of iterations that can run before the store panics; `none` is that panic. -/
def encodeVarintLoop : Nat → List Byte → Nat → Nat → Option (List Byte × Nat × Nat)
  | 0, buf, value, i => if value ≥ 128 then none else some (buf, value, i)
  | slots + 1, buf, value, i =>
    if value ≥ 128 then
      match storeAt buf i (toByte ((toByte (value &&& 0x7F)).val ||| 0x80)) with
      | none => none
      | some buf1 => encodeVarintLoop slots buf1 (value >>> 7) (i + 1)
    else some (buf, value, i)

/-- The common body of `encodeVarintUint16/32/64`, which differ only in the
integer type of `n` and in the argument `size` of `varintMax`. -/
def encodeVarintSized (size : Nat) (n : Nat) : Option (List Byte) :=
  let maxLen := varintMax size
  let buf : List Byte := List.replicate maxLen 0
  if n < 128 then
    (storeAt buf 0 (toByte n)).map (fun b => b.take 1)
  else
    match encodeVarintLoop maxLen buf n 0 with
    | none => none
    | some (buf1, value, i) =>
      (storeAt buf1 i (toByte value)).map (fun b => b.take (i + 1))

def encodeVarintUint16 (n : Nat) : Option (List Byte) := encodeVarintSized 2 n

def encodeVarintUint32 (n : Nat) : Option (List Byte) := encodeVarintSized 4 n

def encodeVarintUint64 (n : Nat) : Option (List Byte) := encodeVarintSized 8 n

/-- `encodeVarintUint(n uint)` on a platform whose `uint` has 64 bits. -/
def encodeVarintUint (n : Nat) : Option (List Byte) := encodeVarintUint64 (n % 2 ^ 64)

/-- The loop `for i := 0; i < maxLen; i++ { ... }` of the three decoders
followed by the final `return 0, ErrDeserializeBadVarint`; the first argument
is the number `maxLen - i` of iterations still to run, `w` the bit width of
`out`. Returns the outcome and the new value of `*pos`. -/
def decodeVarintLoop (w maxLen maxLast : Nat) (data : List Byte) :
    Nat → Nat → Nat → Nat → Res Nat × Nat
  | 0, pos, _, _ => (Res.err Error.ErrDeserializeBadVarint, pos)
  | todo + 1, pos, out, i =>
    if h : pos < data.length then
      let val : Nat := (data[pos]).val
      let pos1 := pos + 1
      let carry := val &&& 0x7F
      let out1 := out ||| ((carry <<< (7 * i)) % 2 ^ w)
      if val &&& 0x80 = 0 then
        if i = maxLen - 1 ∧ val > maxLast then
          (Res.err Error.ErrDeserializeBadVarint, pos1)
        else (Res.ok out1, pos1)
      else decodeVarintLoop w maxLen maxLast data todo pos1 out1 (i + 1)
    else (Res.err Error.ErrDeserializeUnexpectedEnd, pos)

/-- The common body of `decodeVarintUint16/32/64`. -/
def decodeVarintSized (size : Nat) (data : List Byte) (pos : Nat) : Res Nat × Nat :=
  let maxLen := varintMax size
  let maxLast := maxOfLastByte size
  decodeVarintLoop (size * 8) maxLen maxLast data maxLen pos 0 0

def decodeVarintUint16 (data : List Byte) (pos : Nat) : Res Nat × Nat :=
  decodeVarintSized 2 data pos

def decodeVarintUint32 (data : List Byte) (pos : Nat) : Res Nat × Nat :=
  decodeVarintSized 4 data pos

def decodeVarintUint64 (data : List Byte) (pos : Nat) : Res Nat × Nat :=
  decodeVarintSized 8 data pos

/-- `decodeVarintUint` on a platform whose `uint` has 64 bits. -/
def decodeVarintUint (data : List Byte) (pos : Nat) : Res Nat × Nat :=
  decodeVarintUint64 data pos

/-! ## zigzag.go -/

/-- Conversion to `intK`: the two's complement value of the low `k` bits. -/
def toInt (k : Nat) (x : Int) : Int := Int.bmod x (2 ^ k)

/-- Conversion to `uintK`: the low `k` bits as an unsigned number. -/
def toUint (k : Nat) (x : Int) : Nat := (x % 2 ^ k).toNat

/-- The common body of `zigzagEncodeInt16/32/64`:
`uintK((n << 1) ^ (n >> (K-1)))` in `intK` arithmetic. -/
def zigzagEncodeSized (k : Nat) (n : Int) : Nat :=
  toUint k (Int.xor (toInt k (n * 2)) (n >>> (k - 1)))

/-- The common body of `zigzagDecodeInt16/32/64`:
`intK((n>>1) & 0x7F..F) ^ -(intK(n & 0b1))`. -/
def zigzagDecodeSized (k : Nat) (n : Nat) : Int :=
  Int.xor (toInt k (((n >>> 1) &&& (2 ^ (k - 1) - 1) : Nat) : Int))
    (toInt k (-(toInt k ((n &&& 0b1 : Nat) : Int))))

def zigzagEncodeInt16 (n : Int) : Nat := zigzagEncodeSized 16 n

def zigzagDecodeInt16 (n : Nat) : Int := zigzagDecodeSized 16 n

def zigzagEncodeInt32 (n : Int) : Nat := zigzagEncodeSized 32 n

def zigzagDecodeInt32 (n : Nat) : Int := zigzagDecodeSized 32 n

def zigzagEncodeInt64 (n : Int) : Nat := zigzagEncodeSized 64 n

def zigzagDecodeInt64 (n : Nat) : Int := zigzagDecodeSized 64 n

/-- `zigzagEncodeInt(n int)` with a 64-bit `int`. -/
def zigzagEncodeInt (n : Int) : Nat := toUint 64 (zigzagEncodeInt64 (toInt 64 n))

/-- `zigzagDecodeInt(n uint)` with a 64-bit `uint`. -/
def zigzagDecodeInt (n : Nat) : Int := toInt 64 (zigzagDecodeInt64 (n % 2 ^ 64))

/-! ## serializer.go -/

/-- The `Serializer`: an append-only output buffer. -/
structure Serializer where
  buf : List Byte
  deriving DecidableEq, Repr

def NewSerializer (buf : List Byte) : Serializer := { buf := buf }

def Serializer.Result (s : Serializer) : Res (List Byte) := Res.ok s.buf

def Serializer.pushByte (s : Serializer) (b : Byte) : Res Unit × Serializer :=
  (Res.ok (), { buf := s.buf ++ [b] })

def Serializer.pushBytes (s : Serializer) (data : List Byte) : Res Unit × Serializer :=
  (Res.ok (), { buf := s.buf ++ data })

/-- The common body of `pushVarintUint16/32/64` and `pushVarintUint`:
`s.buf = append(s.buf, enc(n)...); return nil`. -/
def Serializer.pushEncoded (s : Serializer) (enc : Option (List Byte)) : Res Unit × Serializer :=
  match enc with
  | some bs => (Res.ok (), { buf := s.buf ++ bs })
  | none => (Res.panic, s)

def Serializer.pushVarintUint16 (s : Serializer) (n : Nat) : Res Unit × Serializer :=
  s.pushEncoded (encodeVarintUint16 n)

def Serializer.pushVarintUint32 (s : Serializer) (n : Nat) : Res Unit × Serializer :=
  s.pushEncoded (encodeVarintUint32 n)

def Serializer.pushVarintUint64 (s : Serializer) (n : Nat) : Res Unit × Serializer :=
  s.pushEncoded (encodeVarintUint64 n)

def Serializer.pushVarintUint (s : Serializer) (n : Nat) : Res Unit × Serializer :=
  s.pushEncoded (encodeVarintUint n)

def Serializer.SerializeInt16 (s : Serializer) (v : Int) : Res Unit × Serializer :=
  let zzv := zigzagEncodeInt16 v
  s.pushVarintUint16 zzv

def Serializer.SerializeInt32 (s : Serializer) (v : Int) : Res Unit × Serializer :=
  let zzv := zigzagEncodeInt32 v
  s.pushVarintUint32 zzv

def Serializer.SerializeInt64 (s : Serializer) (v : Int) : Res Unit × Serializer :=
  let zzv := zigzagEncodeInt64 v
  s.pushVarintUint64 zzv

/-- `SerializeString(v string)`; `uint(len(v))` is `v.length % 2 ^ 64`. -/
def Serializer.SerializeString (s : Serializer) (v : List Byte) : Res Unit × Serializer :=
  match s.pushVarintUint (v.length % 2 ^ 64) with
  | (Res.ok (), s1) => s1.pushBytes v
  | (Res.err e, s1) => (Res.err e, s1)
  | (Res.panic, s1) => (Res.panic, s1)

def Serializer.SerializeBytes (s : Serializer) (v : List Byte) : Res Unit × Serializer :=
  match s.pushVarintUint (v.length % 2 ^ 64) with
  | (Res.ok (), s1) => s1.pushBytes v
  | (Res.err e, s1) => (Res.err e, s1)
  | (Res.panic, s1) => (Res.panic, s1)

/-! ## deserializer.go -/

/-- The `Deserializer`: the input and the read position. -/
structure Deserializer where
  data : List Byte
  pos : Nat
  deriving DecidableEq, Repr

def NewDeserializer (data : List Byte) : Deserializer := { data := data, pos := 0 }

def Deserializer.popByte (d : Deserializer) : Res Byte × Deserializer :=
  if h : d.pos < d.data.length then
    let b := d.data[d.pos]
    (Res.ok b, { d with pos := d.pos + 1 })
  else (Res.err Error.ErrDeserializeUnexpectedEnd, d)

/-- `takeBytes(n int)`. The sum `d.pos+n` is computed in 64-bit `int`
arithmetic; the slice expression `d.data[d.pos : d.pos+n]` panics when its
upper bound is below its lower bound. -/
def Deserializer.takeBytes (d : Deserializer) (n : Int) : Res (List Byte) × Deserializer :=
  let hi := toInt 64 ((d.pos : Int) + n)
  if hi > (d.data.length : Int) then (Res.err Error.ErrDeserializeUnexpectedEnd, d)
  else if hi < (d.pos : Int) then (Res.panic, d)
  else
    let result := (d.data.take hi.toNat).drop d.pos
    (Res.ok result, { d with pos := hi.toNat })

/-- Running one of the varint decoders on `d.data` and `&d.pos`. -/
def Deserializer.runVarint (d : Deserializer) (dec : List Byte → Nat → Res Nat × Nat) :
    Res Nat × Deserializer :=
  let r := dec d.data d.pos
  (r.1, { d with pos := r.2 })

def Deserializer.DeserializeUint16 (d : Deserializer) : Res Nat × Deserializer :=
  d.runVarint decodeVarintUint16

def Deserializer.DeserializeUint32 (d : Deserializer) : Res Nat × Deserializer :=
  d.runVarint decodeVarintUint32

def Deserializer.DeserializeUint64 (d : Deserializer) : Res Nat × Deserializer :=
  d.runVarint decodeVarintUint64

def Deserializer.DeserializeUint (d : Deserializer) : Res Nat × Deserializer :=
  d.runVarint decodeVarintUint

/-- The common body of `DeserializeInt16/32/64`: decode the varint, return the
error if there is one, else the zigzag-decoded value. -/
def Deserializer.zigzagAfter (d : Deserializer) (dec : List Byte → Nat → Res Nat × Nat)
    (zz : Nat → Int) : Res Int × Deserializer :=
  match d.runVarint dec with
  | (Res.ok v, d1) => (Res.ok (zz v), d1)
  | (Res.err e, d1) => (Res.err e, d1)
  | (Res.panic, d1) => (Res.panic, d1)

def Deserializer.DeserializeInt16 (d : Deserializer) : Res Int × Deserializer :=
  d.zigzagAfter decodeVarintUint16 zigzagDecodeInt16

def Deserializer.DeserializeInt32 (d : Deserializer) : Res Int × Deserializer :=
  d.zigzagAfter decodeVarintUint32 zigzagDecodeInt32

def Deserializer.DeserializeInt64 (d : Deserializer) : Res Int × Deserializer :=
  d.zigzagAfter decodeVarintUint64 zigzagDecodeInt64

/-- The tail shared by both branches of `DeserializeString`: take `n` bytes
(`n` is `int(sz)`), validate them, convert them to a string. -/
def Deserializer.takeValid (valid : List Byte → Bool) (d : Deserializer) (n : Int) :
    Res (List Byte) × Deserializer :=
  match d.takeBytes n with
  | (Res.ok bytes, d1) =>
    if !valid bytes then (Res.err Error.ErrDeserializeBadUtf8, d1)
    else (Res.ok bytes, d1)
  | (Res.err e, d1) => (Res.err e, d1)
  | (Res.panic, d1) => (Res.panic, d1)

/-- `DeserializeString`, with the standard library's `utf8.Valid` as the
parameter `valid`. -/
def Deserializer.DeserializeString (valid : List Byte → Bool) (d : Deserializer) :
    Res (List Byte) × Deserializer :=
  match d.DeserializeUint with
  | (Res.ok sz, d1) =>
    if sz > 4 then Deserializer.takeValid valid d1 (toInt 64 sz)
    else Deserializer.takeValid valid d1 (toInt 64 sz)
  | (Res.err e, d1) => (Res.err e, d1)
  | (Res.panic, d1) => (Res.panic, d1)

def Deserializer.DeserializeBytes (d : Deserializer) : Res (List Byte) × Deserializer :=
  match d.DeserializeUint with
  | (Res.ok sz, d1) => d1.takeBytes (toInt 64 sz)
  | (Res.err e, d1) => (Res.err e, d1)
  | (Res.panic, d1) => (Res.panic, d1)

/-- Well-formed UTF-8 in the sense of the Go standard library's `utf8.Valid`:
a concatenation of shortest-form encodings of Unicode scalar values. -/
def utf8Valid : List Byte → Bool
  | [] => true
  | [b0] => b0.val < 0x80
  | [b0, b1] =>
    if b0.val < 0x80 then utf8Valid [b1]
    else 0xC2 ≤ b0.val ∧ b0.val ≤ 0xDF ∧ 0x80 ≤ b1.val ∧ b1.val ≤ 0xBF
  | b0 :: b1 :: b2 :: rest =>
    if b0.val < 0x80 then utf8Valid (b1 :: b2 :: rest)
    else if 0xC2 ≤ b0.val ∧ b0.val ≤ 0xDF then
      0x80 ≤ b1.val ∧ b1.val ≤ 0xBF ∧ utf8Valid (b2 :: rest)
    else if 0xE0 ≤ b0.val ∧ b0.val ≤ 0xEF then
      (if b0.val = 0xE0 then 0xA0 else 0x80) ≤ b1.val ∧
        b1.val ≤ (if b0.val = 0xED then 0x9F else 0xBF) ∧
        0x80 ≤ b2.val ∧ b2.val ≤ 0xBF ∧ utf8Valid rest
    else if 0xF0 ≤ b0.val ∧ b0.val ≤ 0xF4 then
      match rest with
      | [] => false
      | b3 :: rest1 =>
        (if b0.val = 0xF0 then 0x90 else 0x80) ≤ b1.val ∧
          b1.val ≤ (if b0.val = 0xF4 then 0x8F else 0xBF) ∧
          0x80 ≤ b2.val ∧ b2.val ≤ 0xBF ∧ 0x80 ≤ b3.val ∧ b3.val ≤ 0xBF ∧ utf8Valid rest1
    else false

/-! ## Values, types and the standard library

The serializer and the deserializer inspect their argument through `reflect`.
A `Value` is the dynamic value an `interface{}` holds: its constructor is the
`reflect.Kind`, and a slice additionally records its element type, which the
code inspects. A `Ty` is a static type, as seen through `reflect.Type`. Values
of the named type `Varint`, whose declaration is not part of the sources, are
not represented. -/

/-- A struct field: its name, whether it is exported (`PkgPath == ""`), and
its type or value. -/
structure StructField (α : Type) where
  name : String
  exported : Bool
  val : α
  deriving Repr

/-- A static Go type; `other` stands for the kinds without a case in the code
(`uintptr`, complex numbers, channels, functions, unsafe pointers). -/
inductive Ty where
  | bool
  | int
  | int8
  | int16
  | int32
  | int64
  | uint
  | uint8
  | uint16
  | uint32
  | uint64
  | float32
  | float64
  | string
  | slice (elem : Ty)
  | array (len : Nat) (elem : Ty)
  | map (key elem : Ty)
  | struct (fields : List (StructField Ty))
  | ptr (elem : Ty)
  | iface
  | other
  deriving Repr

/-- A dynamic Go value. Integers are mathematical integers (in the range of
their kind when well formed), floats are their IEEE-754 bit patterns, strings
are byte sequences. A slice has its element type, whether it is `nil`, its
`len` elements and the further elements within its capacity; a map has
whether it is `nil` and its entries in the order `MapKeys` enumerates them.
`nil` is the `nil` interface value. -/
inductive Value where
  | nil
  | bool (b : Bool)
  | int (v : Int)
  | int8 (v : Int)
  | int16 (v : Int)
  | int32 (v : Int)
  | int64 (v : Int)
  | uint (v : Nat)
  | uint8 (v : Nat)
  | uint16 (v : Nat)
  | uint32 (v : Nat)
  | uint64 (v : Nat)
  | float32 (bits : Nat)
  | float64 (bits : Nat)
  | string (s : List Byte)
  | slice (elem : Ty) (isNil : Bool) (xs spare : List Value)
  | array (xs : List Value)
  | map (isNil : Bool) (entries : List (Value × Value))
  | struct (fields : List (StructField Value))
  | nilPtr
  | ptr (target : Value)
  | other
  deriving Repr

/-- The standard-library functions the code calls, as parameters:
`utf8.Valid`, and the bit pattern of `float32(float64(x))` for the `float32`
with the given bit pattern (the trip through `reflect`'s `Float`/`SetFloat`). -/
structure Lib where
  utf8Valid : List Byte → Bool
  float32Conv : Nat → Nat


/-! ## serializer.go and deserializer.go: the remaining scalars -/

/-- `binary.LittleEndian.PutUint16/32/64` into a fresh buffer of `k` bytes:
byte `i` is `byte(n >> (8 * i))`. -/
def littleEndianBytes : Nat → Nat → List Byte
  | 0, _ => []
  | k + 1, n => toByte n :: littleEndianBytes k (n >>> 8)

/-- `binary.LittleEndian.Uint16/32/64` of a byte slice. -/
def littleEndianValue : List Byte → Nat
  | [] => 0
  | b :: bs => b.val ||| (littleEndianValue bs <<< 8)

def encodeUint16LE (n : Nat) : List Byte := littleEndianBytes 2 n

def encodeUint32LE (n : Nat) : List Byte := littleEndianBytes 4 n

def encodeUint64LE (n : Nat) : List Byte := littleEndianBytes 8 n

/-- The common body of `decodeUint16LE/32LE/64LE` for a `k`-byte integer. -/
def decodeFixedLE (k : Nat) (data : List Byte) (pos : Nat) : Res Nat × Nat :=
  if pos + k > data.length then (Res.err Error.ErrDeserializeUnexpectedEnd, pos)
  else
    let val := littleEndianValue ((data.take (pos + k)).drop pos)
    (Res.ok val, pos + k)

def decodeUint16LE (data : List Byte) (pos : Nat) : Res Nat × Nat := decodeFixedLE 2 data pos

def decodeUint32LE (data : List Byte) (pos : Nat) : Res Nat × Nat := decodeFixedLE 4 data pos

def decodeUint64LE (data : List Byte) (pos : Nat) : Res Nat × Nat := decodeFixedLE 8 data pos

/-- `encodeFloat32LE`; a float is its bit pattern, so `math.Float32bits` is
the identity. -/
def encodeFloat32LE (bits : Nat) : List Byte := littleEndianBytes 4 bits

def encodeFloat64LE (bits : Nat) : List Byte := littleEndianBytes 8 bits

def decodeFloat32LE (data : List Byte) (pos : Nat) : Res Nat × Nat := decodeFixedLE 4 data pos

def decodeFloat64LE (data : List Byte) (pos : Nat) : Res Nat × Nat := decodeFixedLE 8 data pos

/-- Sequencing of serializer steps: `if err := step; err != nil { return err }`
followed by `next`. -/
def Serializer.andThen (r : Res Unit × Serializer)
    (next : Serializer → Res Unit × Serializer) : Res Unit × Serializer :=
  match r with
  | (Res.ok (), s1) => next s1
  | (Res.err e, s1) => (Res.err e, s1)
  | (Res.panic, s1) => (Res.panic, s1)

def Serializer.SerializeBool (s : Serializer) (v : Bool) : Res Unit × Serializer :=
  if v then s.pushByte 1 else s.pushByte 0

/-- `SerializeInt8`: the byte `uint8(v)`. -/
def Serializer.SerializeInt8 (s : Serializer) (v : Int) : Res Unit × Serializer :=
  s.pushByte (toByte (toUint 8 v))

def Serializer.SerializeInt (s : Serializer) (v : Int) : Res Unit × Serializer :=
  let zzv := zigzagEncodeInt v
  s.pushVarintUint zzv

def Serializer.SerializeUint8 (s : Serializer) (v : Nat) : Res Unit × Serializer :=
  s.pushByte (toByte v)

def Serializer.SerializeUint16 (s : Serializer) (v : Nat) : Res Unit × Serializer :=
  s.pushVarintUint16 v

def Serializer.SerializeUint32 (s : Serializer) (v : Nat) : Res Unit × Serializer :=
  s.pushVarintUint32 v

def Serializer.SerializeUint64 (s : Serializer) (v : Nat) : Res Unit × Serializer :=
  s.pushVarintUint64 v

def Serializer.SerializeUint (s : Serializer) (v : Nat) : Res Unit × Serializer :=
  s.pushVarintUint v

def Serializer.SerializeFloat32 (s : Serializer) (bits : Nat) : Res Unit × Serializer :=
  (Res.ok (), { buf := s.buf ++ encodeFloat32LE bits })

def Serializer.SerializeFloat64 (s : Serializer) (bits : Nat) : Res Unit × Serializer :=
  (Res.ok (), { buf := s.buf ++ encodeFloat64LE bits })

/-- Sequencing of deserializer steps: `x, err := step; if err != nil { return err }`
followed by `next x`. -/
def Deserializer.andThen {α β : Type} (r : Res α × Deserializer)
    (next : α → Deserializer → Res β × Deserializer) : Res β × Deserializer :=
  match r with
  | (Res.ok x, d1) => next x d1
  | (Res.err e, d1) => (Res.err e, d1)
  | (Res.panic, d1) => (Res.panic, d1)

def Deserializer.DeserializeBool (d : Deserializer) : Res Bool × Deserializer :=
  Deserializer.andThen d.popByte fun b d1 =>
    if b = 0 then (Res.ok false, d1)
    else if b = 1 then (Res.ok true, d1)
    else (Res.err Error.ErrDeserializeBadBool, d1)

/-- `DeserializeInt8`: the byte read, converted with `int8(b)`. -/
def Deserializer.DeserializeInt8 (d : Deserializer) : Res Int × Deserializer :=
  Deserializer.andThen d.popByte fun b d1 => (Res.ok (toInt 8 (b.val : Int)), d1)

def Deserializer.DeserializeInt (d : Deserializer) : Res Int × Deserializer :=
  d.zigzagAfter decodeVarintUint zigzagDecodeInt

def Deserializer.DeserializeUint8 (d : Deserializer) : Res Nat × Deserializer :=
  Deserializer.andThen d.popByte fun b d1 => (Res.ok b.val, d1)

def Deserializer.DeserializeFloat32 (d : Deserializer) : Res Nat × Deserializer :=
  d.runVarint decodeFloat32LE

def Deserializer.DeserializeFloat64 (d : Deserializer) : Res Nat × Deserializer :=
  d.runVarint decodeFloat64LE

/-! ## serializer.go: values -/

/-- `val.Type().Elem().Kind() == reflect.Uint8`. -/
def Ty.isUint8 : Ty → Bool
  | Ty.uint8 => true
  | _ => false

/-- An element of a `[]uint8` as a byte (`val.Bytes()`). -/
def Value.asByte : Value → Byte
  | Value.uint8 v => toByte v
  | _ => 0

mutual
/-- `SerializeValue`. The cases `Slice`, `Array`, `Map` and `Struct` run the
bodies of `SerializeSlice`, `SerializeArray`, `SerializeMap` and
`SerializeStruct` after their kind check, which succeeds there. -/
def Serializer.SerializeValue (L : Lib) : Serializer → Value → Res Unit × Serializer
  | s, Value.nil => s.pushByte 0
  | s, Value.bool b => s.SerializeBool b
  | s, Value.int v => s.SerializeInt (toInt 64 v)
  | s, Value.int8 v => s.SerializeInt8 (toInt 8 v)
  | s, Value.int16 v => s.SerializeInt16 (toInt 16 v)
  | s, Value.int32 v => s.SerializeInt32 (toInt 32 v)
  | s, Value.int64 v => s.SerializeInt64 v
  | s, Value.uint v => s.SerializeUint (v % 2 ^ 64)
  | s, Value.uint8 v => s.SerializeUint8 (v % 2 ^ 8)
  | s, Value.uint16 v => s.SerializeUint16 (v % 2 ^ 16)
  | s, Value.uint32 v => s.SerializeUint32 (v % 2 ^ 32)
  | s, Value.uint64 v => s.SerializeUint64 v
  | s, Value.float32 bits => s.SerializeFloat32 (L.float32Conv bits)
  | s, Value.float64 bits => s.SerializeFloat64 bits
  | s, Value.string str => s.SerializeString str
  | s, Value.slice elem _ xs _ =>
    if elem.isUint8 then s.SerializeBytes (xs.map Value.asByte)
    else
      Serializer.andThen (s.pushVarintUint (xs.length % 2 ^ 64)) fun s1 =>
        Serializer.SerializeElems L s1 xs
  | s, Value.array xs => Serializer.SerializeElems L s xs
  | s, Value.map _ entries =>
    Serializer.andThen (s.pushVarintUint (entries.length % 2 ^ 64)) fun s1 =>
      Serializer.SerializeEntries L s1 entries
  | s, Value.struct fields => Serializer.SerializeFields L s fields
  | s, Value.nilPtr => s.pushByte 0
  | s, Value.ptr target => Serializer.SerializeValue L s target
  | s, Value.other => (Res.err (Error.Errorf Msg.unsupportedType), s)
/-- The loop `for i := 0; i < val.Len(); i++` of `SerializeSlice` and
`SerializeArray` over the elements. -/
def Serializer.SerializeElems (L : Lib) : Serializer → List Value → Res Unit × Serializer
  | s, [] => (Res.ok (), s)
  | s, x :: xs =>
    Serializer.andThen (Serializer.SerializeValue L s x) fun s1 =>
      Serializer.SerializeElems L s1 xs
/-- The loop `for _, key := range keys` of `SerializeMap`: each key, then
the value stored under it. -/
def Serializer.SerializeEntries (L : Lib) :
    Serializer → List (Value × Value) → Res Unit × Serializer
  | s, [] => (Res.ok (), s)
  | s, (key, value) :: rest =>
    Serializer.andThen (Serializer.SerializeValue L s key) fun s1 =>
      Serializer.andThen (Serializer.SerializeValue L s1 value) fun s2 =>
        Serializer.SerializeEntries L s2 rest
/-- The loop `for i := 0; i < val.NumField(); i++` of `SerializeStruct`,
skipping the fields with a non-empty `PkgPath`. -/
def Serializer.SerializeFields (L : Lib) :
    Serializer → List (StructField Value) → Res Unit × Serializer
  | s, [] => (Res.ok (), s)
  | s, f :: fs =>
    if !f.exported then Serializer.SerializeFields L s fs
    else
      Serializer.andThen (Serializer.SerializeValue L s f.val) fun s1 =>
        Serializer.SerializeFields L s1 fs
end

/-- `SerializeOption(v interface{})`. -/
def Serializer.SerializeOption (L : Lib) (s : Serializer) : Value → Res Unit × Serializer
  | Value.nil => s.pushByte 0
  | Value.nilPtr => s.pushByte 0
  | Value.ptr target =>
    Serializer.andThen (s.pushByte 1) fun s1 => s1.SerializeValue L target
  | v => Serializer.andThen (s.pushByte 1) fun s1 => s1.SerializeValue L v

/-- `SerializeSlice(v interface{})`: every slice, also one of bytes, takes the
element-wise path here. -/
def Serializer.SerializeSlice (L : Lib) (s : Serializer) : Value → Res Unit × Serializer
  | Value.slice _ _ xs _ =>
    Serializer.andThen (s.pushVarintUint (xs.length % 2 ^ 64)) fun s1 =>
      Serializer.SerializeElems L s1 xs
  | _ => (Res.err (Error.Errorf Msg.expectedSlice), s)

def Serializer.SerializeArray (L : Lib) (s : Serializer) : Value → Res Unit × Serializer
  | Value.array xs => Serializer.SerializeElems L s xs
  | _ => (Res.err (Error.Errorf Msg.expectedArray), s)

def Serializer.SerializeMap (L : Lib) (s : Serializer) : Value → Res Unit × Serializer
  | Value.map _ entries =>
    Serializer.andThen (s.pushVarintUint (entries.length % 2 ^ 64)) fun s1 =>
      Serializer.SerializeEntries L s1 entries
  | _ => (Res.err (Error.Errorf Msg.expectedMap), s)

/-- `SerializeStruct(v interface{})`: a pointer is followed once. -/
def Serializer.SerializeStruct (L : Lib) (s : Serializer) : Value → Res Unit × Serializer
  | Value.struct fields => Serializer.SerializeFields L s fields
  | Value.ptr (Value.struct fields) => Serializer.SerializeFields L s fields
  | _ => (Res.err (Error.Errorf Msg.expectedStruct), s)

/-- `Serialize(v interface{}) ([]byte, error)`. -/
def Serialize (L : Lib) (v : Value) : Res (List Byte) :=
  let s := NewSerializer []
  match s.SerializeValue L v with
  | (Res.ok (), s1) => s1.Result
  | (Res.err e, _) => Res.err e
  | (Res.panic, _) => Res.panic

/-! ## deserializer.go: values -/

mutual
/-- The zero value of a type (`reflect.Zero`, `reflect.New(t).Elem()`). -/
def zeroOf : Ty → Value
  | Ty.bool => Value.bool false
  | Ty.int => Value.int 0
  | Ty.int8 => Value.int8 0
  | Ty.int16 => Value.int16 0
  | Ty.int32 => Value.int32 0
  | Ty.int64 => Value.int64 0
  | Ty.uint => Value.uint 0
  | Ty.uint8 => Value.uint8 0
  | Ty.uint16 => Value.uint16 0
  | Ty.uint32 => Value.uint32 0
  | Ty.uint64 => Value.uint64 0
  | Ty.float32 => Value.float32 0
  | Ty.float64 => Value.float64 0
  | Ty.string => Value.string []
  | Ty.slice elem => Value.slice elem true [] []
  | Ty.array len elem => Value.array (List.replicate len (zeroOf elem))
  | Ty.map _ _ => Value.map true []
  | Ty.struct fields => Value.struct (zeroFields fields)
  | Ty.ptr _ => Value.nilPtr
  | Ty.iface => Value.nil
  | Ty.other => Value.other
/-- The zero values of the fields of a struct type. -/
def zeroFields : List (StructField Ty) → List (StructField Value)
  | [] => []
  | f :: fs => { name := f.name, exported := f.exported, val := zeroOf f.val } :: zeroFields fs
end

/-- The argument `v interface{}` of the `Deserialize...` methods: the `nil`
interface, a value that is not a pointer, a `nil` pointer, or a pointer to a
variable of type `ty` that currently holds `cur`. -/
inductive Target where
  | nil
  | nonPointer
  | nilPointer
  | pointer (ty : Ty) (cur : Value)
  deriving Repr

/-- The elements of the slice a `DeserializeSlice` target holds after
`slice.Set(reflect.MakeSlice(.., n, n))` (target `nil` or of capacity below
`n`) or `slice.SetLen(n)`, with the elements left within the capacity; `none`
is the panic of both calls on a negative `n`. Memory is unbounded. -/
def sliceTargets (elem : Ty) (old : Value) (n : Int) : Option (List Value × List Value) :=
  if n < 0 then none
  else
    match old with
    | Value.slice _ isNil xs spare =>
      if isNil ∨ ((xs.length + spare.length : Nat) : Int) < n then
        some (List.replicate n.toNat (zeroOf elem), [])
      else some ((xs ++ spare).take n.toNat, (xs ++ spare).drop n.toNat)
    | _ => some (List.replicate n.toNat (zeroOf elem), [])

/-- The loop `for i := 0; i < n; i++ { DeserializeValue(&elems[i]) }` of
`DeserializeSlice` and `DeserializeArray`, over the current elements. -/
def Deserializer.loopElems (step : Value → Deserializer → Res Value × Deserializer) :
    List Value → Deserializer → Res (List Value) × Deserializer
  | [], d => (Res.ok [], d)
  | cur :: rest, d =>
    Deserializer.andThen (step cur d) fun v d1 =>
      Deserializer.andThen (Deserializer.loopElems step rest d1) fun vs d2 =>
        (Res.ok (v :: vs), d2)

/-- Key equality of `m.SetMapIndex`, for keys of boolean, integer and string
kind; keys of other kinds are not compared. -/
def Value.keyEq : Value → Value → Bool
  | Value.bool a, Value.bool b => a == b
  | Value.int a, Value.int b => a == b
  | Value.int8 a, Value.int8 b => a == b
  | Value.int16 a, Value.int16 b => a == b
  | Value.int32 a, Value.int32 b => a == b
  | Value.int64 a, Value.int64 b => a == b
  | Value.uint a, Value.uint b => a == b
  | Value.uint8 a, Value.uint8 b => a == b
  | Value.uint16 a, Value.uint16 b => a == b
  | Value.uint32 a, Value.uint32 b => a == b
  | Value.uint64 a, Value.uint64 b => a == b
  | Value.string a, Value.string b => a == b
  | _, _ => false

/-- `m.SetMapIndex(key, value)` on the entries of a map. -/
def setMapIndex (key value : Value) : List (Value × Value) → List (Value × Value)
  | [] => [(key, value)]
  | (k, v) :: rest =>
    if k.keyEq key then (k, value) :: rest else (k, v) :: setMapIndex key value rest

/-- The loop `for i := 0; i < int(sz); i++` of `DeserializeMap`: a fresh key,
a fresh value, then `m.SetMapIndex(key, value)`. -/
def Deserializer.loopEntries (stepKey stepVal : Deserializer → Res Value × Deserializer) :
    Nat → List (Value × Value) → Deserializer → Res (List (Value × Value)) × Deserializer
  | 0, entries, d => (Res.ok entries, d)
  | n + 1, entries, d =>
    Deserializer.andThen (stepKey d) fun key d1 =>
      Deserializer.andThen (stepVal d1) fun value d2 =>
        Deserializer.loopEntries stepKey stepVal n (setMapIndex key value entries) d2

/-- The rest of `DeserializeSlice` once the target holds its `int(sz)`
elements: the loop over them, run by `loop`; `none` is the panic of
`reflect.MakeSlice` and `SetLen`. -/
def Deserializer.fillSlice (elem : Ty)
    (loop : List Value → Deserializer → Res (List Value) × Deserializer)
    (targets : Option (List Value × List Value)) (d1 : Deserializer) :
    Res Value × Deserializer :=
  match targets with
  | none => (Res.panic, d1)
  | some (elems, spare) =>
    Deserializer.andThen (loop elems d1) fun xs d2 =>
      (Res.ok (Value.slice elem false xs spare), d2)

/-- The loop of `DeserializeMap` for the count `n = int(sz)`; a negative `n`
runs no iteration. -/
def Deserializer.fillMap (stepKey stepVal : Deserializer → Res Value × Deserializer)
    (n : Int) (entries : List (Value × Value)) (d1 : Deserializer) :
    Res (List (Value × Value)) × Deserializer :=
  Deserializer.loopEntries stepKey stepVal n.toNat entries d1

/-- The entries of the map a `DeserializeMap` target holds. -/
def Value.mapEntries : Value → List (Value × Value)
  | Value.map _ entries => entries
  | _ => []

/-- The fields of the struct a `DeserializeStruct` target holds. -/
def Value.structFields : Value → List (StructField Value)
  | Value.struct fields => fields
  | _ => []

/-- The elements of the array a `DeserializeArray` target holds. -/
def Value.arrayElems : Value → List Value
  | Value.array xs => xs
  | _ => []

/-- The current value of the next field of a struct target. -/
def fieldValue (ty : Ty) : List (StructField Value) → Value
  | [] => zeroOf ty
  | f :: _ => f.val

mutual
/-- `DeserializeValue(v)` for a non-`nil` pointer `v` to a variable of type
`ty` holding `cur`: the `switch val.Kind()`, returning the variable's new
value. The cases `Slice`, `Array`, `Map` and `Struct` run the bodies of
`DeserializeSlice`, `DeserializeArray`, `DeserializeMap` and
`DeserializeStruct` after their kind checks, which succeed there. -/
def Deserializer.decodeInto (L : Lib) : Ty → Value → Deserializer → Res Value × Deserializer
  | Ty.bool, _, d => Deserializer.andThen d.DeserializeBool fun b d1 => (Res.ok (Value.bool b), d1)
  | Ty.int, _, d => Deserializer.andThen d.DeserializeInt fun v d1 => (Res.ok (Value.int v), d1)
  | Ty.int8, _, d => Deserializer.andThen d.DeserializeInt8 fun v d1 => (Res.ok (Value.int8 v), d1)
  | Ty.int16, _, d =>
    Deserializer.andThen d.DeserializeInt16 fun v d1 => (Res.ok (Value.int16 v), d1)
  | Ty.int32, _, d =>
    Deserializer.andThen d.DeserializeInt32 fun v d1 => (Res.ok (Value.int32 v), d1)
  | Ty.int64, _, d =>
    Deserializer.andThen d.DeserializeInt64 fun v d1 => (Res.ok (Value.int64 v), d1)
  | Ty.uint, _, d => Deserializer.andThen d.DeserializeUint fun v d1 => (Res.ok (Value.uint v), d1)
  | Ty.uint8, _, d =>
    Deserializer.andThen d.DeserializeUint8 fun v d1 => (Res.ok (Value.uint8 v), d1)
  | Ty.uint16, _, d =>
    Deserializer.andThen d.DeserializeUint16 fun v d1 => (Res.ok (Value.uint16 v), d1)
  | Ty.uint32, _, d =>
    Deserializer.andThen d.DeserializeUint32 fun v d1 => (Res.ok (Value.uint32 v), d1)
  | Ty.uint64, _, d =>
    Deserializer.andThen d.DeserializeUint64 fun v d1 => (Res.ok (Value.uint64 v), d1)
  | Ty.float32, _, d =>
    Deserializer.andThen d.DeserializeFloat32 fun bits d1 =>
      (Res.ok (Value.float32 (L.float32Conv bits)), d1)
  | Ty.float64, _, d =>
    Deserializer.andThen d.DeserializeFloat64 fun bits d1 => (Res.ok (Value.float64 bits), d1)
  | Ty.string, _, d =>
    Deserializer.andThen (d.DeserializeString L.utf8Valid) fun str d1 =>
      (Res.ok (Value.string str), d1)
  | Ty.slice elem, cur, d =>
    if elem.isUint8 then
      Deserializer.andThen d.DeserializeBytes fun bytes d1 =>
        (Res.ok (Value.slice elem false (bytes.map fun b => Value.uint8 b.val) []), d1)
    else
      Deserializer.andThen d.DeserializeUint fun sz d1 =>
        Deserializer.fillSlice elem (Deserializer.loopElems (Deserializer.decodeInto L elem))
          (sliceTargets elem cur (toInt 64 sz)) d1
  | Ty.array _ elem, cur, d =>
    Deserializer.andThen
      (Deserializer.loopElems (Deserializer.decodeInto L elem) cur.arrayElems d) fun xs d1 =>
        (Res.ok (Value.array xs), d1)
  | Ty.map key elem, cur, d =>
    Deserializer.andThen d.DeserializeUint fun sz d1 =>
      Deserializer.andThen
        (Deserializer.fillMap (Deserializer.decodeInto L key (zeroOf key))
          (Deserializer.decodeInto L elem (zeroOf elem)) (toInt 64 sz) cur.mapEntries d1)
        fun entries d2 => (Res.ok (Value.map false entries), d2)
  | Ty.struct fields, cur, d =>
    Deserializer.andThen (Deserializer.decodeFields L fields cur.structFields d) fun fs d1 =>
      (Res.ok (Value.struct fs), d1)
  | Ty.ptr _, _, d => (Res.err (Error.Errorf Msg.unsupportedType), d)
  | Ty.iface, _, d => (Res.err (Error.Errorf Msg.unsupportedType), d)
  | Ty.other, _, d => (Res.err (Error.Errorf Msg.unsupportedType), d)
/-- The loop `for i := 0; i < val.NumField(); i++` of `DeserializeStruct`
over the fields of the type and their current values; an unexported field
keeps its value. -/
def Deserializer.decodeFields (L : Lib) :
    List (StructField Ty) → List (StructField Value) → Deserializer →
      Res (List (StructField Value)) × Deserializer
  | [], _, d => (Res.ok [], d)
  | f :: fs, cur, d =>
    if !f.exported then
      Deserializer.andThen (Deserializer.decodeFields L fs cur.tail d) fun rest d1 =>
        (Res.ok ({ name := f.name, exported := f.exported, val := fieldValue f.val cur } :: rest),
          d1)
    else
      Deserializer.andThen (Deserializer.decodeInto L f.val (fieldValue f.val cur) d) fun v d1 =>
        Deserializer.andThen (Deserializer.decodeFields L fs cur.tail d1) fun rest d2 =>
          (Res.ok ({ name := f.name, exported := f.exported, val := v } :: rest), d2)
end

/-- `DeserializeOption(v interface{})`, returning the new state of `v`. -/
def Deserializer.DeserializeOption (L : Lib) (d : Deserializer) (v : Target) :
    Res Target × Deserializer :=
  Deserializer.andThen d.popByte fun b d1 =>
    if b = 0 then
      match v with
      | Target.pointer ty _ => (Res.ok (Target.pointer ty (zeroOf ty)), d1)
      | Target.nilPointer => (Res.panic, d1)
      | Target.nonPointer => (Res.ok Target.nonPointer, d1)
      | Target.nil => (Res.ok Target.nil, d1)
    else if b = 1 then
      match v with
      | Target.nil => (Res.err (Error.Errorf Msg.cannotDeserializeIntoNil), d1)
      | Target.nonPointer => (Res.err (Error.Errorf Msg.expectedPointer), d1)
      | Target.nilPointer => (Res.panic, d1)
      | Target.pointer ty cur =>
        Deserializer.andThen (Deserializer.decodeInto L ty cur d1) fun x d2 =>
          (Res.ok (Target.pointer ty x), d2)
    else (Res.err Error.ErrDeserializeBadOption, d1)

/-- `DeserializeValue(v interface{})`, returning the new state of `v`. -/
def Deserializer.DeserializeValue (L : Lib) (d : Deserializer) (v : Target) :
    Res Target × Deserializer :=
  match v with
  | Target.nil => d.DeserializeOption L Target.nil
  | Target.nonPointer => (Res.err (Error.Errorf Msg.expectedPointer), d)
  | Target.nilPointer => (Res.panic, d)
  | Target.pointer ty cur =>
    Deserializer.andThen (Deserializer.decodeInto L ty cur d) fun x d1 =>
      (Res.ok (Target.pointer ty x), d1)

/-- `Deserialize(data []byte, v interface{}) error`, returning the new state
of `v`. -/
def Deserialize (L : Lib) (data : List Byte) (v : Target) : Res Target :=
  ((NewDeserializer data).DeserializeValue L v).1

/-! ## serializer.go and deserializer.go: enums, buffers and single characters -/

/-- `SerializeEnum(variantIndex uint32, value interface{})`; the `nil`
interface is `Value.nil`. -/
def Serializer.SerializeEnum (L : Lib) (s : Serializer) (variantIndex : Nat) (value : Value) :
    Res Unit × Serializer :=
  Serializer.andThen (s.pushVarintUint32 variantIndex) fun s1 =>
    match value with
    | Value.nil => (Res.ok (), s1)
    | v => s1.SerializeValue L v

/-- `DeserializeEnum(variantIndex *uint32, value interface{})`. The argument
`variantIndex` is `none` for a `nil` pointer and otherwise holds the current
value of `*variantIndex`; the result is the outcome with the new state of
`value`, and the new state of `*variantIndex`, which is written before the
payload is decoded. -/
def Deserializer.DeserializeEnum (L : Lib) (d : Deserializer) (variantIndex : Option Nat)
    (value : Target) : (Res Target × Deserializer) × Option Nat :=
  match d.DeserializeUint32 with
  | (Res.ok v, d1) =>
    match value with
    | Target.nil => ((Res.ok Target.nil, d1), variantIndex.map fun _ => v)
    | t => (d1.DeserializeValue L t, variantIndex.map fun _ => v)
  | (Res.err e, d1) => ((Res.err e, d1), variantIndex)
  | (Res.panic, d1) => ((Res.panic, d1), variantIndex)

/-! ### `SerializeToSlice`: the serializer over the storage of the caller's buffer

`SerializeToSlice` starts its serializer from `buf[:0]`, a slice that keeps the
backing array of `buf`: `append` writes into that array while the capacity
lasts, and a value that shares the array is read from it while it is being
written. The definitions below repeat the serializer with this storage made
explicit. -/

/-- A `[]byte` with its storage: the slice `arr[off : off+len]` of the backing
array `arr`, of capacity `cap`. -/
structure Buffer where
  arr : List Byte
  off : Nat
  len : Nat
  cap : Nat
  deriving DecidableEq, Repr

/-- The `Serializer` whose `buf` began as a slice of the caller's array. While
`moved` is `none`, `s.buf` is the slice `arr[off : off+len]` of capacity `cap`,
and `arr` is the caller's array as the writes so far have left it. Once
`append` has had to allocate, `moved` holds the bytes of `s.buf`, which then
live in storage of their own, and `arr` is not written any more. -/
structure BackedSerializer where
  arr : List Byte
  off : Nat
  len : Nat
  cap : Nat
  moved : Option (List Byte)
  deriving DecidableEq, Repr

/-- `NewSerializer(buf)` for a buffer with its storage. -/
def NewBackedSerializer (buf : Buffer) : BackedSerializer :=
  { arr := buf.arr, off := buf.off, len := buf.len, cap := buf.cap, moved := none }

/-- The bytes of `s.buf`. -/
def BackedSerializer.buf (s : BackedSerializer) : List Byte :=
  match s.moved with
  | some own => own
  | none => (s.arr.drop s.off).take s.len

/-- The built-in `append(s.buf, data...)`, assigned back to `s.buf`: when the
capacity suffices the bytes are written into the array right after the slice,
which grows over them; otherwise the slice and `data` are copied to a new
array and the old one is left as it is. `data` is read before it is written. -/
def BackedSerializer.append (s : BackedSerializer) (data : List Byte) : BackedSerializer :=
  match s.moved with
  | some own => { s with moved := some (own ++ data) }
  | none =>
    if s.len + data.length ≤ s.cap then
      { s with
        arr := s.arr.take (s.off + s.len) ++ data ++ s.arr.drop (s.off + s.len + data.length),
        len := s.len + data.length }
    else { s with moved := some ((s.arr.drop s.off).take s.len ++ data) }

def BackedSerializer.Result (s : BackedSerializer) : Res (List Byte) := Res.ok s.buf

def BackedSerializer.pushByte (s : BackedSerializer) (b : Byte) : Res Unit × BackedSerializer :=
  (Res.ok (), s.append [b])

def BackedSerializer.pushBytes (s : BackedSerializer) (data : List Byte) :
    Res Unit × BackedSerializer :=
  (Res.ok (), s.append data)

def BackedSerializer.pushEncoded (s : BackedSerializer) (enc : Option (List Byte)) :
    Res Unit × BackedSerializer :=
  match enc with
  | some bs => (Res.ok (), s.append bs)
  | none => (Res.panic, s)

def BackedSerializer.pushVarintUint16 (s : BackedSerializer) (n : Nat) :
    Res Unit × BackedSerializer :=
  s.pushEncoded (encodeVarintUint16 n)

def BackedSerializer.pushVarintUint32 (s : BackedSerializer) (n : Nat) :
    Res Unit × BackedSerializer :=
  s.pushEncoded (encodeVarintUint32 n)

def BackedSerializer.pushVarintUint64 (s : BackedSerializer) (n : Nat) :
    Res Unit × BackedSerializer :=
  s.pushEncoded (encodeVarintUint64 n)

def BackedSerializer.pushVarintUint (s : BackedSerializer) (n : Nat) :
    Res Unit × BackedSerializer :=
  s.pushEncoded (encodeVarintUint n)

def BackedSerializer.andThen (r : Res Unit × BackedSerializer)
    (next : BackedSerializer → Res Unit × BackedSerializer) : Res Unit × BackedSerializer :=
  match r with
  | (Res.ok (), s1) => next s1
  | (Res.err e, s1) => (Res.err e, s1)
  | (Res.panic, s1) => (Res.panic, s1)

def BackedSerializer.SerializeBool (s : BackedSerializer) (v : Bool) :
    Res Unit × BackedSerializer :=
  if v then s.pushByte 1 else s.pushByte 0

def BackedSerializer.SerializeInt8 (s : BackedSerializer) (v : Int) :
    Res Unit × BackedSerializer :=
  s.pushByte (toByte (toUint 8 v))

def BackedSerializer.SerializeInt16 (s : BackedSerializer) (v : Int) :
    Res Unit × BackedSerializer :=
  let zzv := zigzagEncodeInt16 v
  s.pushVarintUint16 zzv

def BackedSerializer.SerializeInt32 (s : BackedSerializer) (v : Int) :
    Res Unit × BackedSerializer :=
  let zzv := zigzagEncodeInt32 v
  s.pushVarintUint32 zzv

def BackedSerializer.SerializeInt64 (s : BackedSerializer) (v : Int) :
    Res Unit × BackedSerializer :=
  let zzv := zigzagEncodeInt64 v
  s.pushVarintUint64 zzv

def BackedSerializer.SerializeInt (s : BackedSerializer) (v : Int) :
    Res Unit × BackedSerializer :=
  let zzv := zigzagEncodeInt v
  s.pushVarintUint zzv

def BackedSerializer.SerializeUint8 (s : BackedSerializer) (v : Nat) :
    Res Unit × BackedSerializer :=
  s.pushByte (toByte v)

def BackedSerializer.SerializeUint16 (s : BackedSerializer) (v : Nat) :
    Res Unit × BackedSerializer :=
  s.pushVarintUint16 v

def BackedSerializer.SerializeUint32 (s : BackedSerializer) (v : Nat) :
    Res Unit × BackedSerializer :=
  s.pushVarintUint32 v

def BackedSerializer.SerializeUint64 (s : BackedSerializer) (v : Nat) :
    Res Unit × BackedSerializer :=
  s.pushVarintUint64 v

def BackedSerializer.SerializeUint (s : BackedSerializer) (v : Nat) :
    Res Unit × BackedSerializer :=
  s.pushVarintUint v

def BackedSerializer.SerializeFloat32 (s : BackedSerializer) (bits : Nat) :
    Res Unit × BackedSerializer :=
  (Res.ok (), s.append (encodeFloat32LE bits))

def BackedSerializer.SerializeFloat64 (s : BackedSerializer) (bits : Nat) :
    Res Unit × BackedSerializer :=
  (Res.ok (), s.append (encodeFloat64LE bits))

def BackedSerializer.SerializeString (s : BackedSerializer) (v : List Byte) :
    Res Unit × BackedSerializer :=
  match s.pushVarintUint (v.length % 2 ^ 64) with
  | (Res.ok (), s1) => s1.pushBytes v
  | (Res.err e, s1) => (Res.err e, s1)
  | (Res.panic, s1) => (Res.panic, s1)

/-- `SerializeBytes(v []byte)` for a `v` that has storage of its own. -/
def BackedSerializer.SerializeBytes (s : BackedSerializer) (v : List Byte) :
    Res Unit × BackedSerializer :=
  match s.pushVarintUint (v.length % 2 ^ 64) with
  | (Res.ok (), s1) => s1.pushBytes v
  | (Res.err e, s1) => (Res.err e, s1)
  | (Res.panic, s1) => (Res.panic, s1)

/-- `SerializeBytes(v []byte)` for `v = arr[lo : hi]`, a slice of the array the
serializer writes into: `len(v)` is `hi - lo`, and `pushBytes(v)` reads the
bytes of `v` from the array as the length prefix has left it. -/
def BackedSerializer.SerializeBytesAt (s : BackedSerializer) (lo hi : Nat) :
    Res Unit × BackedSerializer :=
  match s.pushVarintUint ((hi - lo) % 2 ^ 64) with
  | (Res.ok (), s1) => s1.pushBytes ((s1.arr.take hi).drop lo)
  | (Res.err e, s1) => (Res.err e, s1)
  | (Res.panic, s1) => (Res.panic, s1)

mutual
/-- `SerializeValue` on a value that shares no storage with the serializer:
the cases of `Serializer.SerializeValue`, each `append` going to the storage. -/
def BackedSerializer.SerializeValue (L : Lib) :
    BackedSerializer → Value → Res Unit × BackedSerializer
  | s, Value.nil => s.pushByte 0
  | s, Value.bool b => s.SerializeBool b
  | s, Value.int v => s.SerializeInt (toInt 64 v)
  | s, Value.int8 v => s.SerializeInt8 (toInt 8 v)
  | s, Value.int16 v => s.SerializeInt16 (toInt 16 v)
  | s, Value.int32 v => s.SerializeInt32 (toInt 32 v)
  | s, Value.int64 v => s.SerializeInt64 v
  | s, Value.uint v => s.SerializeUint (v % 2 ^ 64)
  | s, Value.uint8 v => s.SerializeUint8 (v % 2 ^ 8)
  | s, Value.uint16 v => s.SerializeUint16 (v % 2 ^ 16)
  | s, Value.uint32 v => s.SerializeUint32 (v % 2 ^ 32)
  | s, Value.uint64 v => s.SerializeUint64 v
  | s, Value.float32 bits => s.SerializeFloat32 (L.float32Conv bits)
  | s, Value.float64 bits => s.SerializeFloat64 bits
  | s, Value.string str => s.SerializeString str
  | s, Value.slice elem _ xs _ =>
    if elem.isUint8 then s.SerializeBytes (xs.map Value.asByte)
    else
      BackedSerializer.andThen (s.pushVarintUint (xs.length % 2 ^ 64)) fun s1 =>
        BackedSerializer.SerializeElems L s1 xs
  | s, Value.array xs => BackedSerializer.SerializeElems L s xs
  | s, Value.map _ entries =>
    BackedSerializer.andThen (s.pushVarintUint (entries.length % 2 ^ 64)) fun s1 =>
      BackedSerializer.SerializeEntries L s1 entries
  | s, Value.struct fields => BackedSerializer.SerializeFields L s fields
  | s, Value.nilPtr => s.pushByte 0
  | s, Value.ptr target => BackedSerializer.SerializeValue L s target
  | s, Value.other => (Res.err (Error.Errorf Msg.unsupportedType), s)
/-- The element loop of `SerializeSlice` and `SerializeArray`. -/
def BackedSerializer.SerializeElems (L : Lib) :
    BackedSerializer → List Value → Res Unit × BackedSerializer
  | s, [] => (Res.ok (), s)
  | s, x :: xs =>
    BackedSerializer.andThen (BackedSerializer.SerializeValue L s x) fun s1 =>
      BackedSerializer.SerializeElems L s1 xs
/-- The key loop of `SerializeMap`. -/
def BackedSerializer.SerializeEntries (L : Lib) :
    BackedSerializer → List (Value × Value) → Res Unit × BackedSerializer
  | s, [] => (Res.ok (), s)
  | s, (key, value) :: rest =>
    BackedSerializer.andThen (BackedSerializer.SerializeValue L s key) fun s1 =>
      BackedSerializer.andThen (BackedSerializer.SerializeValue L s1 value) fun s2 =>
        BackedSerializer.SerializeEntries L s2 rest
/-- The field loop of `SerializeStruct`. -/
def BackedSerializer.SerializeFields (L : Lib) :
    BackedSerializer → List (StructField Value) → Res Unit × BackedSerializer
  | s, [] => (Res.ok (), s)
  | s, f :: fs =>
    if !f.exported then BackedSerializer.SerializeFields L s fs
    else
      BackedSerializer.andThen (BackedSerializer.SerializeValue L s f.val) fun s1 =>
        BackedSerializer.SerializeFields L s1 fs
end

/-- The argument `v` of `SerializeToSlice`, as far as its storage matters:
a value that shares no storage with `buf`, or the `[]byte` that is the slice
`arr[lo : hi]` of the backing array of `buf`. -/
inductive BufValue where
  | detached (v : Value)
  | window (lo hi : Nat)

/-- `SerializeToSlice(v interface{}, buf []byte)`: the serializer starts from
`buf[:0]`, which has the storage and the capacity of `buf` and no elements.
A `[]byte` takes the `Slice` case of `SerializeValue` with element kind
`Uint8`, which is `SerializeBytes(val.Bytes())`. -/
def SerializeToSlice (L : Lib) (v : BufValue) (buf : Buffer) : Res (List Byte) :=
  let s := NewBackedSerializer { buf with len := 0 }
  let r :=
    match v with
    | BufValue.detached x => s.SerializeValue L x
    | BufValue.window lo hi => s.SerializeBytesAt lo hi
  match r with
  | (Res.ok (), s1) => s1.Result
  | (Res.err e, _) => Res.err e
  | (Res.panic, _) => Res.panic

/-- The package-level `SerializeBytes(v []byte) ([]byte, error)`. -/
def SerializeBytes (v : List Byte) : Res (List Byte) :=
  let s := NewSerializer []
  match s.SerializeBytes v with
  | (Res.ok (), s1) => s1.Result
  | (Res.err e, _) => Res.err e
  | (Res.panic, _) => Res.panic

/-- The package-level `DeserializeBytes(data []byte) ([]byte, error)`. -/
def DeserializeBytes (data : List Byte) : Res (List Byte) :=
  ((NewDeserializer data).DeserializeBytes).1

/-- The package-level `DeserializeString(data []byte) (string, error)`. -/
def DeserializeString (valid : List Byte → Bool) (data : List Byte) : Res (List Byte) :=
  ((NewDeserializer data).DeserializeString valid).1

/-- The constant `utf8.RuneError`, U+FFFD. -/
def runeError : Nat := 0xFFFD

/-- The Go standard library's `utf8.EncodeRune(buf, r)` for a `rune` (`int32`)
`r`, as the bytes `buf[:n]` it writes: the UTF-8 encoding of `r`, and that of
U+FFFD when `r` is negative, above U+10FFFF or a surrogate. -/
def utf8EncodeRune (r : Int) : List Byte :=
  let i := toUint 32 r
  if i ≤ 0x7F then [toByte i]
  else if i ≤ 0x7FF then [toByte (0xC0 + i / 64), toByte (0x80 + i % 64)]
  else if i > 0x10FFFF ∨ (0xD800 ≤ i ∧ i ≤ 0xDFFF) then [0xEF, 0xBF, 0xBD]
  else if i ≤ 0xFFFF then
    [toByte (0xE0 + i / 4096), toByte (0x80 + i / 64 % 64), toByte (0x80 + i % 64)]
  else
    [toByte (0xF0 + i / 262144), toByte (0x80 + i / 4096 % 64), toByte (0x80 + i / 64 % 64),
      toByte (0x80 + i % 64)]

/-- The Go standard library's `utf8.DecodeRune(p)`: the first code point of
`p` and its width in bytes; `(RuneError, 0)` for an empty `p`, and
`(RuneError, 1)` where `p` does not start with the shortest-form encoding of a
Unicode scalar value. Bytes after the first code point are not looked at. -/
def utf8DecodeRune : List Byte → Nat × Nat
  | [] => (runeError, 0)
  | b0 :: rest =>
    if b0.val < 0x80 then (b0.val, 1)
    else if 0xC2 ≤ b0.val ∧ b0.val ≤ 0xDF then
      match rest with
      | b1 :: _ =>
        if 0x80 ≤ b1.val ∧ b1.val ≤ 0xBF then (b0.val % 32 * 64 + b1.val % 64, 2)
        else (runeError, 1)
      | [] => (runeError, 1)
    else if 0xE0 ≤ b0.val ∧ b0.val ≤ 0xEF then
      match rest with
      | b1 :: b2 :: _ =>
        if (if b0.val = 0xE0 then 0xA0 else 0x80) ≤ b1.val ∧
            b1.val ≤ (if b0.val = 0xED then 0x9F else 0xBF) ∧
            0x80 ≤ b2.val ∧ b2.val ≤ 0xBF then
          (b0.val % 16 * 4096 + b1.val % 64 * 64 + b2.val % 64, 3)
        else (runeError, 1)
      | _ => (runeError, 1)
    else if 0xF0 ≤ b0.val ∧ b0.val ≤ 0xF4 then
      match rest with
      | b1 :: b2 :: b3 :: _ =>
        if (if b0.val = 0xF0 then 0x90 else 0x80) ≤ b1.val ∧
            b1.val ≤ (if b0.val = 0xF4 then 0x8F else 0xBF) ∧
            0x80 ≤ b2.val ∧ b2.val ≤ 0xBF ∧ 0x80 ≤ b3.val ∧ b3.val ≤ 0xBF then
          (b0.val % 8 * 262144 + b1.val % 64 * 4096 + b2.val % 64 * 64 + b3.val % 64, 4)
        else (runeError, 1)
      | _ => (runeError, 1)
    else (runeError, 1)

/-- `SerializeRune(r rune)`, with the standard library's `utf8.EncodeRune` as
the parameter `encodeRune`. -/
def SerializeRune (encodeRune : Int → List Byte) (r : Int) : Res (List Byte) :=
  SerializeBytes (encodeRune r)

/-- `DeserializeRune(data []byte) (rune, error)`, with the standard library's
`utf8.DecodeRune` as the parameter `decodeRune`; the width it returns is
discarded. -/
def DeserializeRune (decodeRune : List Byte → Nat × Nat) (data : List Byte) : Res Nat :=
  (Deserializer.andThen (NewDeserializer data).DeserializeUint fun sz d1 =>
    if sz > 4 then ((Res.err Error.ErrDeserializeBadChar : Res Nat), d1)
    else
      Deserializer.andThen (d1.takeBytes (toInt 64 sz)) fun bytes d2 =>
        if (decodeRune bytes).1 = runeError then (Res.err Error.ErrDeserializeBadChar, d2)
        else (Res.ok (decodeRune bytes).1, d2)).1

/-! ## Reference functions used to state and prove the properties -/

/-- The canonical varint of `n`: 7-bit groups, least significant first, every
group but the last flagged with the high bit. `len` bounds the number of
continuation bytes. -/
def canonicalVarint : Nat → Nat → List Byte
  | 0, n => [toByte n]
  | len + 1, n =>
    if n < 128 then [toByte n] else toByte (n % 128 + 128) :: canonicalVarint len (n / 128)

/-- The number a sequence of varint bytes denotes: the sum of
`(b_i mod 128) * 128 ^ i`, as an unbounded natural number. -/
def varintValue : List Byte → Nat
  | [] => 0
  | b :: bs => b.val % 128 + 128 * varintValue bs

/-- The decoder as a function of the bytes at the cursor: the outcome and
the number of bytes consumed, for a decoder that may still read `todo` bytes. -/
def scanVarint (maxLast : Nat) : Nat → List Byte → Res Nat × Nat
  | 0, _ => (Res.err Error.ErrDeserializeBadVarint, 0)
  | _ + 1, [] => (Res.err Error.ErrDeserializeUnexpectedEnd, 0)
  | todo + 1, b :: bs =>
    if b.val < 128 then
      if todo = 0 ∧ b.val > maxLast then (Res.err Error.ErrDeserializeBadVarint, 1)
      else (Res.ok b.val, 1)
    else
      match scanVarint maxLast todo bs with
      | (Res.ok v, c) => (Res.ok (b.val % 128 + 128 * v), c + 1)
      | (Res.err e, c) => (Res.err e, c + 1)
      | (Res.panic, c) => (Res.panic, c + 1)

/-- Re-basing a `scanVarint` outcome at accumulator `out`, scale `scale` and
cursor `pos`. -/
def liftScan (out scale pos : Nat) : Res Nat × Nat → Res Nat × Nat
  | (Res.ok v, c) => (Res.ok (out + scale * v), pos + c)
  | (Res.err e, c) => (Res.err e, pos + c)
  | (Res.panic, c) => (Res.panic, pos + c)

/-- Well-formed minimal encoder output for `n` within `maxLen` bytes: between 1
and `maxLen` bytes, every byte but the last with the high bit set, the last
with the high bit clear, the length the least `L ≥ 1` with `n < 2 ^ (7 * L)`,
and a zero last byte only in the one-byte output `[0x00]`. -/
def MinimalVarint (maxLen n : Nat) (bs : List Byte) : Prop :=
  ∃ pre last, bs = pre ++ [last] ∧ 1 ≤ bs.length ∧ bs.length ≤ maxLen ∧
    (∀ b ∈ pre, b.val &&& 0x80 ≠ 0) ∧ last.val &&& 0x80 = 0 ∧
    n < 2 ^ (7 * bs.length) ∧ (∀ L, 1 ≤ L → n < 2 ^ (7 * L) → bs.length ≤ L) ∧
    (last = 0 → bs = [0x00])

/-- A serializer step appends to the buffer, with an outcome and appended
bytes that do not depend on the buffer it starts from. -/
def Framed (F : Serializer → Res Unit × Serializer) : Prop :=
  ∀ s : Serializer, F s = ((F { buf := [] }).1, { buf := s.buf ++ (F { buf := [] }).2.buf })

/-- The values of the exported fields of a struct, in declared order. -/
def exportedValues (fields : List (StructField Value)) : List Value :=
  (fields.filter fun f => f.exported).map fun f => f.val

/-- The decoder step `f` reads the encoding `enc` as `x`: started at a cursor
where the input continues with `enc`, it returns `x` and advances the cursor
by `len(enc)`; started where the input ends with a strict prefix of `enc`, it
fails with `ErrDeserializeUnexpectedEnd`. Positions stay below `2^63`, the
range of a Go `int`. -/
def Decodes {α : Type} (f : Deserializer → Res α × Deserializer) (enc : List Byte) (x : α) :
    Prop :=
  ∀ (data : List Byte) (pos : Nat), pos ≤ data.length → pos + enc.length < 2 ^ 63 →
    (∀ rest, data.drop pos = enc ++ rest →
      f { data := data, pos := pos } = (Res.ok x, { data := data, pos := pos + enc.length })) ∧
    (∀ tail, tail ≠ [] → data.drop pos ++ tail = enc →
      ∃ p, f { data := data, pos := pos } =
        (Res.err Error.ErrDeserializeUnexpectedEnd, { data := data, pos := p }))

mutual
/-- The value `v` is a well-formed value of type `ty` built from the shapes
bool, integers of every width, floats, strings, byte sequences, slices, arrays
and structs: integers are in the range of their kind, strings are valid UTF-8,
lengths are those of Go slices and strings (below `2^63`), a slice has the
element type of its type and an array the length of its type. -/
def Conforms (L : Lib) : Ty → Value → Prop
  | Ty.bool, v => ∃ b, v = Value.bool b
  | Ty.int, v => ∃ n, v = Value.int n ∧ -2 ^ 63 ≤ n ∧ n < 2 ^ 63
  | Ty.int8, v => ∃ n, v = Value.int8 n ∧ -2 ^ 7 ≤ n ∧ n < 2 ^ 7
  | Ty.int16, v => ∃ n, v = Value.int16 n ∧ -2 ^ 15 ≤ n ∧ n < 2 ^ 15
  | Ty.int32, v => ∃ n, v = Value.int32 n ∧ -2 ^ 31 ≤ n ∧ n < 2 ^ 31
  | Ty.int64, v => ∃ n, v = Value.int64 n ∧ -2 ^ 63 ≤ n ∧ n < 2 ^ 63
  | Ty.uint, v => ∃ n, v = Value.uint n ∧ n < 2 ^ 64
  | Ty.uint8, v => ∃ n, v = Value.uint8 n ∧ n < 2 ^ 8
  | Ty.uint16, v => ∃ n, v = Value.uint16 n ∧ n < 2 ^ 16
  | Ty.uint32, v => ∃ n, v = Value.uint32 n ∧ n < 2 ^ 32
  | Ty.uint64, v => ∃ n, v = Value.uint64 n ∧ n < 2 ^ 64
  | Ty.float32, v => ∃ bits, v = Value.float32 bits
  | Ty.float64, v => ∃ bits, v = Value.float64 bits
  | Ty.string, v => ∃ s, v = Value.string s ∧ s.length < 2 ^ 63 ∧ L.utf8Valid s = true
  | Ty.slice elem, v =>
    ∃ isNil xs spare, v = Value.slice elem isNil xs spare ∧ xs.length < 2 ^ 63 ∧
      ∀ x ∈ xs, Conforms L elem x
  | Ty.array len elem, v =>
    ∃ xs, v = Value.array xs ∧ xs.length = len ∧ ∀ x ∈ xs, Conforms L elem x
  | Ty.struct fields, v => ∃ vals, v = Value.struct vals ∧ ConformsFields L fields vals
  | Ty.map _ _, _ => False
  | Ty.ptr _, _ => False
  | Ty.iface, _ => False
  | Ty.other, _ => False
/-- The field values `vals` are well-formed values of the fields `fields`;
an unexported field may hold anything. -/
def ConformsFields (L : Lib) : List (StructField Ty) → List (StructField Value) → Prop
  | [], vals => vals = []
  | f :: fs, vals =>
    ∃ g gs, vals = g :: gs ∧ g.exported = f.exported ∧
      (f.exported = true → Conforms L f.val g.val) ∧ ConformsFields L fs gs
end

/-- A library instance for concrete evaluations: `utf8Valid`, and the
`float32` conversion that keeps the bit pattern (exact on every value that is
not a NaN). -/
def stdLib : Lib := { utf8Valid := utf8Valid, float32Conv := id }

/-- The type `BasicStruct` of `TestSerializeDeserializeStruct`. -/
def BasicStructTy : Ty :=
  Ty.struct [⟨"A", true, Ty.uint16⟩, ⟨"B", true, Ty.uint8⟩, ⟨"C", true, Ty.uint64⟩,
    ⟨"D", true, Ty.uint32⟩]

/-- The value `BasicStruct{A: a, B: b, C: c, D: d}`. -/
def BasicStruct (a b c d : Nat) : Value :=
  Value.struct [⟨"A", true, Value.uint16 a⟩, ⟨"B", true, Value.uint8 b⟩,
    ⟨"C", true, Value.uint64 c⟩, ⟨"D", true, Value.uint32 d⟩]

/-- The wire form of a `[]int`: the varint of the length, then the
zigzag varint of each element. -/
def intSliceEncoding (xs : List Int) : List Byte :=
  canonicalVarint 9 xs.length ++ (xs.map fun x => canonicalVarint 9 (zigzagEncodeInt x)).flatten

/-- An entry of a `map[string]int` as a pair of values. -/
def mapEntry (kv : List Byte × Int) : Value × Value := (Value.string kv.1, Value.int kv.2)

/-- The wire form of one entry of a `map[string]int`: the key as a string,
then the value as a zigzag varint. -/
def entryEncoding (kv : List Byte × Int) : List Byte :=
  (canonicalVarint 9 kv.1.length ++ kv.1) ++ canonicalVarint 9 (zigzagEncodeInt kv.2)

/-- The wire form of a `map[string]int` whose entries are enumerated in the
order `es`: the varint of their number, then each entry. -/
def mapEncoding (es : List (List Byte × Int)) : List Byte :=
  canonicalVarint 9 es.length ++ (es.map entryEncoding).flatten

/-- Every error the outcome `r` may carry satisfies `P`. -/
def ErrsIn {α : Type} (P : Error → Prop) (r : Res α × Deserializer) : Prop :=
  ∀ e, r.1 = Res.err e → P e

/-- The state after the step that gave `r` from the state `d`: the same
input, and a cursor that has not moved back and is within the input. -/
def CursorOK {α : Type} (d : Deserializer) (r : Res α × Deserializer) : Prop :=
  r.2.data = d.data ∧ d.pos ≤ r.2.pos ∧ r.2.pos ≤ d.data.length

/-- The decoder step `f` keeps the cursor invariant from every state whose
cursor is within the input. -/
def Advances {α : Type} (f : Deserializer → Res α × Deserializer) : Prop :=
  ∀ d : Deserializer, d.pos ≤ d.data.length → CursorOK d (f d)

/-- The value as a decoder leaves it in its target: a slice comes back
non-`nil` and without spare capacity, every other value as it is. -/
def Value.settled : Value → Value
  | Value.slice elem _ xs _ => Value.slice elem false xs []
  | v => v

/-- The value `v` is a well-formed value of type `ty` of scalar, string or
byte-sequence shape: an integer in the range of its kind, a float given by
its bit pattern (a `float32` one that the conversion through `float64` keeps),
a valid UTF-8 string, or a byte sequence; lengths are below `2^63`. -/
def Flat (L : Lib) : Ty → Value → Prop
  | Ty.bool, v => ∃ b, v = Value.bool b
  | Ty.int, v => ∃ n, v = Value.int n ∧ -2 ^ 63 ≤ n ∧ n < 2 ^ 63
  | Ty.int8, v => ∃ n, v = Value.int8 n ∧ -2 ^ 7 ≤ n ∧ n < 2 ^ 7
  | Ty.int16, v => ∃ n, v = Value.int16 n ∧ -2 ^ 15 ≤ n ∧ n < 2 ^ 15
  | Ty.int32, v => ∃ n, v = Value.int32 n ∧ -2 ^ 31 ≤ n ∧ n < 2 ^ 31
  | Ty.int64, v => ∃ n, v = Value.int64 n ∧ -2 ^ 63 ≤ n ∧ n < 2 ^ 63
  | Ty.uint, v => ∃ n, v = Value.uint n ∧ n < 2 ^ 64
  | Ty.uint8, v => ∃ n, v = Value.uint8 n ∧ n < 2 ^ 8
  | Ty.uint16, v => ∃ n, v = Value.uint16 n ∧ n < 2 ^ 16
  | Ty.uint32, v => ∃ n, v = Value.uint32 n ∧ n < 2 ^ 32
  | Ty.uint64, v => ∃ n, v = Value.uint64 n ∧ n < 2 ^ 64
  | Ty.float32, v => ∃ bits, v = Value.float32 bits ∧ bits < 2 ^ 32 ∧ L.float32Conv bits = bits
  | Ty.float64, v => ∃ bits, v = Value.float64 bits ∧ bits < 2 ^ 64
  | Ty.string, v => ∃ s, v = Value.string s ∧ s.length < 2 ^ 63 ∧ L.utf8Valid s = true
  | Ty.slice elem, v =>
    elem = Ty.uint8 ∧ ∃ (isNil : Bool) (bytes : List Byte) (spare : List Value),
      v = Value.slice Ty.uint8 isNil (bytes.map fun b => Value.uint8 b.val) spare ∧
        bytes.length < 2 ^ 63
  | Ty.array _ _, _ => False
  | Ty.map _ _, _ => False
  | Ty.struct _, _ => False
  | Ty.ptr _, _ => False
  | Ty.iface, _ => False
  | Ty.other, _ => False

/-- The bit pattern of `float32(float64(x))` for the `float32` with the bit
pattern `bits`, as IEEE-754 conversions compute it: every number, infinity and
quiet NaN is kept, and a signalling NaN (exponent all ones, fraction not zero,
top fraction bit clear) comes back quiet, with its top fraction bit set. -/
def float32ViaFloat64 (bits : Nat) : Nat :=
  if bits / 2 ^ 23 % 256 = 255 ∧ bits % 2 ^ 23 ≠ 0 ∧ bits / 2 ^ 22 % 2 = 0 then bits + 2 ^ 22
  else bits

/-- A library instance with the IEEE-754 conversion of `float32` values. -/
def ieeeLib : Lib := { utf8Valid := utf8Valid, float32Conv := float32ViaFloat64 }

/-- The value that `v` denotes when `SerializeToSlice` is called on a buffer
with the backing array `arr`: the slice `arr[lo : hi]` is a non-nil `[]byte`
with the bytes of `arr` from `lo` up to `hi`. -/
def BufValue.value (arr : List Byte) : BufValue → Value
  | BufValue.detached v => v
  | BufValue.window lo hi =>
    Value.slice Ty.uint8 false (((arr.take hi).drop lo).map fun b => Value.uint8 b.val)
      ((arr.drop hi).map fun b => Value.uint8 b.val)

/-- The slice `s.buf` lies within its array. -/
def BackedSerializer.InArray (s : BackedSerializer) : Prop :=
  s.moved = none → s.off + s.len ≤ s.arr.length

/-- The serializer that holds the bytes of `s.buf` and no storage. -/
def BackedSerializer.view (s : BackedSerializer) : Serializer := { buf := s.buf }

/-- The step `F` on a serializer with storage does what the step `G` does on
the bytes alone: same outcome, same bytes in `s.buf`. -/
def Simulates (F : BackedSerializer → Res Unit × BackedSerializer)
    (G : Serializer → Res Unit × Serializer) : Prop :=
  ∀ s : BackedSerializer, s.InArray →
    (F s).2.InArray ∧ (F s).1 = (G s.view).1 ∧ (F s).2.view = (G s.view).2

/-! ## Lemmas on the varint codec -/

set_option maxRecDepth 100000 in
theorem byte_and_7F (b : Byte) : b.val &&& 0x7F = b.val % 128 := by
  revert b; decide

set_option maxRecDepth 100000 in
theorem byte_and_80 (b : Byte) : b.val &&& 0x80 = 0 ↔ b.val < 128 := by
  revert b; decide

theorem or_shift_eq_add (out carry s : Nat) (h : out < 2 ^ s) :
    out ||| (carry <<< s) = out + 2 ^ s * carry := by
  rw [Nat.shiftLeft_eq, Nat.mul_comm carry, Nat.lor_comm, ← Nat.mul_add_lt_is_or h, Nat.add_comm]

theorem liftScan_unit (pos : Nat) (r : Res Nat × Nat) :
    liftScan 0 1 pos r = (r.1, pos + r.2) := by
  rcases r with ⟨r, c⟩
  cases r <;> simp [liftScan]

theorem carry_fits (w maxLen maxLast i t c : Nat)
    (hw : 7 * (maxLen - 1) ≤ w) (hlast : (maxLast + 1) * 2 ^ (7 * (maxLen - 1)) = 2 ^ w)
    (hi : i + (t + 1) = maxLen) (hc : (1 ≤ t ∧ c < 128) ∨ (t = 0 ∧ c ≤ maxLast)) :
    2 ^ (7 * i) * c < 2 ^ w := by
  rcases hc with ⟨ht, hc⟩ | ⟨ht, hc⟩
  · have h1 : 2 ^ (7 * i) * c < 2 ^ (7 * i) * 128 :=
      Nat.mul_lt_mul_of_pos_left hc (by positivity)
    have h2 : 2 ^ (7 * i) * 128 = 2 ^ (7 * i + 7) := by rw [Nat.pow_add]
    have h3 : 2 ^ (7 * i + 7) ≤ 2 ^ w := Nat.pow_le_pow_right (by decide) (by omega)
    omega
  · have hi1 : i = maxLen - 1 := by omega
    subst hi1
    have h1 : 2 ^ (7 * (maxLen - 1)) * c < 2 ^ (7 * (maxLen - 1)) * (maxLast + 1) :=
      Nat.mul_lt_mul_of_pos_left (by omega) (by positivity)
    rw [Nat.mul_comm _ (maxLast + 1), hlast] at h1
    exact h1

theorem accumulate_eq (w out c i : Nat) (hout : out < 2 ^ (7 * i)) (hfit : 2 ^ (7 * i) * c < 2 ^ w) :
    out ||| ((c <<< (7 * i)) % 2 ^ w) = out + 2 ^ (7 * i) * c := by
  have h : c <<< (7 * i) = 2 ^ (7 * i) * c := by rw [Nat.shiftLeft_eq, Nat.mul_comm]
  rw [Nat.mod_eq_of_lt (by rw [h]; exact hfit)]
  exact or_shift_eq_add out c (7 * i) hout

theorem accumulate_lt (w out c i : Nat) (hout : out < 2 ^ (7 * i)) (hc : c < 128) :
    out ||| ((c <<< (7 * i)) % 2 ^ w) < 2 ^ (7 * (i + 1)) := by
  apply Nat.or_lt_two_pow
  · exact lt_of_lt_of_le hout (Nat.pow_le_pow_right (by decide) (by omega))
  · apply lt_of_le_of_lt (Nat.mod_le _ _)
    rw [Nat.shiftLeft_eq]
    have h1 : c * 2 ^ (7 * i) < 128 * 2 ^ (7 * i) :=
      Nat.mul_lt_mul_of_pos_right hc (by positivity)
    have h2 : 128 * 2 ^ (7 * i) = 2 ^ (7 * (i + 1)) := by
      rw [show 7 * (i + 1) = 7 + 7 * i by ring, Nat.pow_add]
    omega

theorem scanVarint_cons_high (maxLast t : Nat) (b : Byte) (bs : List Byte) (h : ¬ b.val < 128) :
    scanVarint maxLast (t + 1) (b :: bs) =
      match scanVarint maxLast t bs with
      | (Res.ok v, c) => (Res.ok (b.val % 128 + 128 * v), c + 1)
      | (Res.err e, c) => (Res.err e, c + 1)
      | (Res.panic, c) => (Res.panic, c + 1) := by
  rw [scanVarint]; simp only [h, if_false]

theorem scanVarint_cons_low (maxLast t : Nat) (b : Byte) (bs : List Byte) (h : b.val < 128) :
    scanVarint maxLast (t + 1) (b :: bs) =
      if t = 0 ∧ b.val > maxLast then (Res.err Error.ErrDeserializeBadVarint, 1)
      else (Res.ok b.val, 1) := by
  rw [scanVarint]; simp only [h, if_true]

theorem decodeVarintLoop_eq_scan (w maxLen maxLast : Nat) (data : List Byte)
    (hw : 7 * (maxLen - 1) ≤ w) (hlast : (maxLast + 1) * 2 ^ (7 * (maxLen - 1)) = 2 ^ w) :
    ∀ (todo pos out i : Nat), i + todo = maxLen → out < 2 ^ (7 * i) →
      decodeVarintLoop w maxLen maxLast data todo pos out i =
        liftScan out (2 ^ (7 * i)) pos (scanVarint maxLast todo (data.drop pos)) := by
  intro todo
  induction todo with
  | zero => intro pos out i _ _; simp [decodeVarintLoop, scanVarint, liftScan]
  | succ t ih =>
    intro pos out i hi hout
    by_cases hp : pos < data.length
    · rw [List.drop_eq_getElem_cons hp]
      generalize hb : data[pos] = b
      have hcarry : b.val &&& 0x7F = b.val % 128 := byte_and_7F b
      have hb128 : b.val % 128 < 128 := Nat.mod_lt _ (by decide)
      by_cases hlow : b.val < 128
      · have hflag : b.val &&& 0x80 = 0 := (byte_and_80 b).2 hlow
        have hmod : b.val % 128 = b.val := Nat.mod_eq_of_lt hlow
        by_cases hbad : t = 0 ∧ b.val > maxLast
        · have hbad2 : i = maxLen - 1 ∧ b.val > maxLast := ⟨by omega, hbad.2⟩
          simp [decodeVarintLoop, scanVarint, liftScan, hp, hb, hflag, hlow, hbad, hbad2]
        · have hbad2 : ¬ (i = maxLen - 1 ∧ b.val > maxLast) := by
            intro h; exact hbad ⟨by omega, h.2⟩
          have hfit : 2 ^ (7 * i) * b.val < 2 ^ w :=
            carry_fits w maxLen maxLast i t b.val hw hlast hi (by omega)
          have hacc := accumulate_eq w out b.val i hout hfit
          simp [decodeVarintLoop, scanVarint, liftScan, hp, hb, hflag, hlow, hbad, hbad2, hcarry,
            hmod, hacc]
      · have hflag : ¬ (b.val &&& 0x80 = 0) := fun h => hlow ((byte_and_80 b).1 h)
        have hstep := ih (pos + 1) (out ||| (((b.val % 128) <<< (7 * i)) % 2 ^ w)) (i + 1)
          (by omega) (accumulate_lt w out _ i hout hb128)
        rcases Nat.eq_zero_or_pos t with ht | ht
        · subst ht
          simp [decodeVarintLoop, scanVarint, liftScan, hp, hb, hflag, hlow, hcarry]
        · have hfit : 2 ^ (7 * i) * (b.val % 128) < 2 ^ w :=
            carry_fits w maxLen maxLast i t _ hw hlast hi (Or.inl ⟨ht, hb128⟩)
          have hacc := accumulate_eq w out (b.val % 128) i hout hfit
          rw [hacc] at hstep
          unfold decodeVarintLoop
          simp only [hp, dite_true, hb, hflag, if_false, hcarry, hacc, hstep]
          rw [scanVarint_cons_high maxLast t b _ hlow]
          rcases hs : scanVarint maxLast t (List.drop (pos + 1) data) with ⟨r, c⟩
          cases r with
          | ok v =>
            simp only [liftScan, Prod.mk.injEq, Res.ok.injEq]
            constructor
            · rw [show 7 * (i + 1) = 7 * i + 7 by ring, Nat.pow_add]; ring
            · omega
          | err e => simp only [liftScan, Prod.mk.injEq, true_and]; omega
          | panic => simp only [liftScan, Prod.mk.injEq, true_and]; omega
    · have hnil : data.drop pos = [] := List.drop_eq_nil_of_le (by omega)
      simp [decodeVarintLoop, hp, hnil, scanVarint, liftScan]

theorem decodeVarintUint16_eq_scan (data : List Byte) (pos : Nat) :
    decodeVarintUint16 data pos =
      ((scanVarint 3 3 (data.drop pos)).1, pos + (scanVarint 3 3 (data.drop pos)).2) := by
  have h := decodeVarintLoop_eq_scan 16 3 3 data (by decide) (by decide) 3 pos 0 0 rfl (by decide)
  rw [← liftScan_unit]
  exact h

theorem decodeVarintUint32_eq_scan (data : List Byte) (pos : Nat) :
    decodeVarintUint32 data pos =
      ((scanVarint 15 5 (data.drop pos)).1, pos + (scanVarint 15 5 (data.drop pos)).2) := by
  have h := decodeVarintLoop_eq_scan 32 5 15 data (by decide) (by decide) 5 pos 0 0 rfl (by decide)
  rw [← liftScan_unit]
  exact h

theorem decodeVarintUint64_eq_scan (data : List Byte) (pos : Nat) :
    decodeVarintUint64 data pos =
      ((scanVarint 1 10 (data.drop pos)).1, pos + (scanVarint 1 10 (data.drop pos)).2) := by
  have h := decodeVarintLoop_eq_scan 64 10 1 data (by decide) (by decide) 10 pos 0 0 rfl (by decide)
  rw [← liftScan_unit]
  exact h

theorem take_succ_set (buf : List Byte) (i : Nat) (x : Byte) (h : i < buf.length) :
    (buf.set i x).take (i + 1) = buf.take i ++ [x] := by
  induction buf generalizing i with
  | nil => simp at h
  | cons a as ih =>
    cases i with
    | zero => simp
    | succ j =>
      have hj : j < as.length := by simpa using h
      simp [List.set, List.take, ih j hj]

theorem continuation_byte (value : Nat) :
    toByte ((toByte (value &&& 0x7F)).val ||| 0x80) = toByte (value % 128 + 128) := by
  have h1 : value &&& 0x7F = value % 128 := Nat.and_pow_two_sub_one_eq_mod value 7
  have h2 : value % 128 < 128 := Nat.mod_lt _ (by decide)
  have h3 : (toByte (value % 128)).val = value % 128 := by
    show value % 128 % 256 = value % 128
    omega
  have h4 : (value % 128) ||| 0x80 = value % 128 + 128 := by
    have := or_shift_eq_add (value % 128) 1 7 (by simpa using h2)
    simpa using this
  rw [h1, h3, h4]

theorem encodeVarintLoop_spec :
    ∀ (slots : Nat) (buf : List Byte) (value i : Nat),
      buf.length = i + (slots + 1) → value < 128 ^ (slots + 1) →
      ∃ buf1 v1 i1, encodeVarintLoop (slots + 1) buf value i = some (buf1, v1, i1) ∧
        i1 < buf1.length ∧
        (buf1.set i1 (toByte v1)).take (i1 + 1) = buf.take i ++ canonicalVarint slots value := by
  intro slots
  induction slots with
  | zero =>
    intro buf value i hlen hv
    have hv1 : value < 128 := by simpa using hv
    refine ⟨buf, value, i, ?_, by omega, ?_⟩
    · simp [encodeVarintLoop]; omega
    · rw [take_succ_set buf i _ (by omega)]; simp [canonicalVarint]
  | succ s ih =>
    intro buf value i hlen hv
    by_cases hsmall : value < 128
    · refine ⟨buf, value, i, ?_, by omega, ?_⟩
      · rw [encodeVarintLoop]; simp; omega
      · rw [take_succ_set buf i _ (by omega)]; simp [canonicalVarint, hsmall]
    · have hi : i < buf.length := by omega
      have hdiv : value >>> 7 = value / 128 := Nat.shiftRight_eq_div_pow value 7
      have hv2 : value / 128 < 128 ^ (s + 1) := by
        rw [Nat.div_lt_iff_lt_mul (by decide)]
        rw [Nat.pow_succ] at hv
        exact hv
      obtain ⟨buf1, v1, i1, hrun, hi1, htake⟩ :=
        ih (buf.set i (toByte (value % 128 + 128))) (value / 128) (i + 1)
          (by rw [List.length_set]; omega) hv2
      refine ⟨buf1, v1, i1, ?_, hi1, ?_⟩
      · rw [encodeVarintLoop]
        simp only [ge_iff_le, Nat.not_lt.mp hsmall, if_true, storeAt, hi, continuation_byte, hdiv]
        exact hrun
      · rw [htake, take_succ_set buf i _ hi]
        simp [canonicalVarint, hsmall]

theorem encodeVarintSized_eq (size n : Nat) (hL : 1 ≤ varintMax size)
    (hn : n < 128 ^ varintMax size) :
    encodeVarintSized size n = some (canonicalVarint (varintMax size - 1) n) := by
  obtain ⟨m, hm⟩ : ∃ m, varintMax size = m + 1 := ⟨varintMax size - 1, by omega⟩
  unfold encodeVarintSized
  simp only [hm] at hn ⊢
  by_cases hsmall : n < 128
  · have hc : canonicalVarint m n = [toByte n] := by
      cases m <;> simp [canonicalVarint, hsmall]
    simp [hsmall, storeAt, hc, List.replicate_succ]
  · obtain ⟨buf1, v1, i1, hrun, hi1, htake⟩ :=
      encodeVarintLoop_spec m (List.replicate (m + 1) 0) n 0 (by simp) hn
    simp only [hsmall, if_false, hrun, storeAt, hi1, if_true]
    show some (List.take (i1 + 1) (buf1.set i1 (toByte v1))) = _
    rw [htake]; simp

theorem encodeVarintUint16_eq (n : Nat) (h : n < 2 ^ 16) :
    encodeVarintUint16 n = some (canonicalVarint 2 n) :=
  encodeVarintSized_eq 2 n (by decide) (lt_trans h (by decide))

theorem encodeVarintUint32_eq (n : Nat) (h : n < 2 ^ 32) :
    encodeVarintUint32 n = some (canonicalVarint 4 n) :=
  encodeVarintSized_eq 4 n (by decide) (lt_trans h (by decide))

theorem encodeVarintUint64_eq (n : Nat) (h : n < 2 ^ 64) :
    encodeVarintUint64 n = some (canonicalVarint 9 n) :=
  encodeVarintSized_eq 8 n (by decide) (lt_trans h (by decide))

theorem toByte_val_of_lt (x : Nat) (h : x < 256) : (toByte x).val = x := by
  show x % 256 = x
  exact Nat.mod_eq_of_lt h

theorem canonicalVarint_small (len n : Nat) (h : n < 128) :
    canonicalVarint len n = [toByte n] := by
  cases len <;> simp [canonicalVarint, h]

theorem scanVarint_canonical (maxLast : Nat) (hm : maxLast < 128) :
    ∀ (t len n : Nat) (rest : List Byte), t ≤ len → n < (maxLast + 1) * 128 ^ t →
      scanVarint maxLast (t + 1) (canonicalVarint len n ++ rest) =
        (Res.ok n, (canonicalVarint len n).length) := by
  intro t
  induction t with
  | zero =>
    intro len n rest _ hn
    have hsmall : n < 128 := by simp at hn; omega
    rw [canonicalVarint_small len n hsmall]
    have hv : (toByte n).val = n := toByte_val_of_lt n (by omega)
    simp only [List.singleton_append, List.length_singleton]
    rw [scanVarint_cons_low maxLast 0 _ _ (by rw [hv]; exact hsmall), hv]
    have hle : ¬ (n > maxLast) := by simp at hn; omega
    simp [hle]
  | succ t ih =>
    intro len n rest hlen hn
    by_cases hsmall : n < 128
    · rw [canonicalVarint_small len n hsmall]
      have hv : (toByte n).val = n := toByte_val_of_lt n (by omega)
      simp only [List.singleton_append, List.length_singleton]
      rw [scanVarint_cons_low maxLast (t + 1) _ _ (by rw [hv]; exact hsmall), hv]
      simp
    · obtain ⟨l, rfl⟩ : ∃ l, len = l + 1 := ⟨len - 1, by omega⟩
      have hv : (toByte (n % 128 + 128)).val = n % 128 + 128 := toByte_val_of_lt _ (by omega)
      have hdiv : n / 128 < (maxLast + 1) * 128 ^ t := by
        rw [Nat.div_lt_iff_lt_mul (by decide)]
        rw [Nat.pow_succ, ← Nat.mul_assoc] at hn
        exact hn
      have hrec := ih l (n / 128) rest (by omega) hdiv
      simp only [canonicalVarint, hsmall, if_false, List.cons_append, List.length_cons]
      rw [scanVarint_cons_high maxLast (t + 1) _ _ (by rw [hv]; omega), hrec, hv]
      simp only [Prod.mk.injEq, Res.ok.injEq, and_true]
      omega

theorem scanVarint_bad_iff (maxLast : Nat) (hm : maxLast < 128) :
    ∀ (t : Nat) (bs : List Byte),
      (scanVarint maxLast (t + 1) bs).1 = Res.err Error.ErrDeserializeBadVarint ↔
        (t + 1 ≤ bs.length ∧ (∀ j, j < t → 128 ≤ (bs.getD j 0).val) ∧
          maxLast < (bs.getD t 0).val) := by
  intro t
  induction t with
  | zero =>
    intro bs
    cases bs with
    | nil => simp [scanVarint]
    | cons b bs =>
      by_cases hlow : b.val < 128
      · rw [scanVarint_cons_low maxLast 0 b bs hlow]
        by_cases hgt : b.val > maxLast
        · simp [hgt]
        · simp [hgt]
      · rw [scanVarint_cons_high maxLast 0 b bs hlow]
        simp only [scanVarint]
        simp; omega
  | succ t ih =>
    intro bs
    cases bs with
    | nil => simp [scanVarint]
    | cons b bs =>
      by_cases hlow : b.val < 128
      · rw [scanVarint_cons_low maxLast (t + 1) b bs hlow]
        simp only [Nat.succ_ne_zero, false_and, if_false]
        constructor
        · intro h; cases h
        · rintro ⟨_, hall, _⟩
          have := hall 0 (by omega)
          simp at this; omega
      · rw [scanVarint_cons_high maxLast (t + 1) b bs hlow]
        have hrec := ih bs
        have hfst : (match scanVarint maxLast (t + 1) bs with
            | (Res.ok v, c) => (Res.ok (b.val % 128 + 128 * v), c + 1)
            | (Res.err e, c) => (Res.err e, c + 1)
            | (Res.panic, c) => (Res.panic, c + 1)).1 = Res.err Error.ErrDeserializeBadVarint ↔
            (scanVarint maxLast (t + 1) bs).1 = Res.err Error.ErrDeserializeBadVarint := by
          rcases scanVarint maxLast (t + 1) bs with ⟨r, c⟩
          cases r <;> simp
        rw [hfst, hrec]
        constructor
        · rintro ⟨hlen, hall, hlast⟩
          refine ⟨by simpa using hlen, ?_, by simpa using hlast⟩
          intro j hj
          cases j with
          | zero => simp; omega
          | succ j => simpa using hall j (by omega)
        · rintro ⟨hlen, hall, hlast⟩
          refine ⟨by simpa using hlen, ?_, by simpa using hlast⟩
          intro j hj
          simpa using hall (j + 1) (by omega)

theorem getD_drop_byte (data : List Byte) (pos j : Nat) :
    (data.drop pos).getD j 0 = data.getD (pos + j) 0 := by
  simp [List.getD_eq_getElem?_getD, List.getElem?_drop]

theorem bad_iff_at (maxLast t : Nat) (hm : maxLast < 128) (data : List Byte) (pos : Nat) :
    (scanVarint maxLast (t + 1) (data.drop pos)).1 = Res.err Error.ErrDeserializeBadVarint ↔
      (pos + (t + 1) ≤ data.length ∧
        (∀ j, j < t → (data.getD (pos + j) 0).val &&& 0x80 ≠ 0) ∧
        maxLast < (data.getD (pos + t) 0).val) := by
  rw [scanVarint_bad_iff maxLast hm t (data.drop pos)]
  simp only [getD_drop_byte, List.length_drop]
  have hbit : ∀ b : Byte, (b.val &&& 0x80 ≠ 0) ↔ 128 ≤ b.val := by
    intro b
    rw [Ne, byte_and_80 b]
    omega
  constructor
  · rintro ⟨h1, h2, h3⟩
    exact ⟨by omega, fun j hj => (hbit _).2 (h2 j hj), h3⟩
  · rintro ⟨h1, h2, h3⟩
    exact ⟨by omega, fun j hj => (hbit _).1 (h2 j hj), h3⟩

theorem decodeVarintUint16_at (pre rest : List Byte) (n : Nat) (h : n < 2 ^ 16) :
    decodeVarintUint16 (pre ++ (canonicalVarint 2 n ++ rest)) pre.length =
      (Res.ok n, pre.length + (canonicalVarint 2 n).length) := by
  rw [decodeVarintUint16_eq_scan, List.drop_left,
    scanVarint_canonical 3 (by decide) 2 2 n rest (le_refl _) (by omega)]

theorem decodeVarintUint32_at (pre rest : List Byte) (n : Nat) (h : n < 2 ^ 32) :
    decodeVarintUint32 (pre ++ (canonicalVarint 4 n ++ rest)) pre.length =
      (Res.ok n, pre.length + (canonicalVarint 4 n).length) := by
  rw [decodeVarintUint32_eq_scan, List.drop_left,
    scanVarint_canonical 15 (by decide) 4 4 n rest (le_refl _) (by omega)]

theorem decodeVarintUint64_at (pre rest : List Byte) (n : Nat) (h : n < 2 ^ 64) :
    decodeVarintUint64 (pre ++ (canonicalVarint 9 n ++ rest)) pre.length =
      (Res.ok n, pre.length + (canonicalVarint 9 n).length) := by
  rw [decodeVarintUint64_eq_scan, List.drop_left,
    scanVarint_canonical 1 (by decide) 9 9 n rest (le_refl _) (by omega)]

theorem decodeVarintUint16_zero (rest : List Byte) (n : Nat) (h : n < 2 ^ 16) :
    decodeVarintUint16 (canonicalVarint 2 n ++ rest) 0 =
      (Res.ok n, (canonicalVarint 2 n).length) := by
  simpa using decodeVarintUint16_at [] rest n h

theorem decodeVarintUint32_zero (rest : List Byte) (n : Nat) (h : n < 2 ^ 32) :
    decodeVarintUint32 (canonicalVarint 4 n ++ rest) 0 =
      (Res.ok n, (canonicalVarint 4 n).length) := by
  simpa using decodeVarintUint32_at [] rest n h

theorem decodeVarintUint64_zero (rest : List Byte) (n : Nat) (h : n < 2 ^ 64) :
    decodeVarintUint64 (canonicalVarint 9 n ++ rest) 0 =
      (Res.ok n, (canonicalVarint 9 n).length) := by
  simpa using decodeVarintUint64_at [] rest n h

/-- C1: for each width 16, 32 and 64, every unsigned `n` of that width and
every byte sequence `rest`, the encoder returns a byte sequence `bs`, and the
decoder run on `bs ++ rest` from cursor `0` returns `n` with no error and
leaves the cursor at `len(bs)`. -/
theorem varint_roundtrip (n : Nat) (rest : List Byte) :
    (n < 2 ^ 16 → ∃ bs, encodeVarintUint16 n = some bs ∧
      decodeVarintUint16 (bs ++ rest) 0 = (Res.ok n, bs.length)) ∧
    (n < 2 ^ 32 → ∃ bs, encodeVarintUint32 n = some bs ∧
      decodeVarintUint32 (bs ++ rest) 0 = (Res.ok n, bs.length)) ∧
    (n < 2 ^ 64 → ∃ bs, encodeVarintUint64 n = some bs ∧
      decodeVarintUint64 (bs ++ rest) 0 = (Res.ok n, bs.length)) :=
  ⟨fun h => ⟨_, encodeVarintUint16_eq n h, decodeVarintUint16_zero rest n h⟩,
   fun h => ⟨_, encodeVarintUint32_eq n h, decodeVarintUint32_zero rest n h⟩,
   fun h => ⟨_, encodeVarintUint64_eq n h, decodeVarintUint64_zero rest n h⟩⟩

theorem varint_roundtrip_witness :
    300 < 2 ^ 32 ∧ ∃ bs, encodeVarintUint32 300 = some bs ∧
      decodeVarintUint32 (bs ++ [0x07, 0xFF]) 0 = (Res.ok 300, bs.length) :=
  ⟨by decide, (varint_roundtrip 300 [0x07, 0xFF]).2.1 (by decide)⟩

/-- C2: for each width (L = 3, 5, 10 bytes; m = 0x03, 0x0F, 0x01) the decoder
returns `ErrDeserializeBadVarint` exactly when at least `L` bytes are available
at the cursor, the first `L - 1` of them have the high bit set and the `L`-th
is greater than `m`. `[0xFF,0xFF,0xFF,0xFF,0x1F]` is rejected as a 32-bit
varint and `[0xFF,0xFF,0xFF,0xFF,0x0F]` decodes to `2^32 - 1`. -/
theorem varint_overflow_rejection (data : List Byte) (pos : Nat) :
    (varintMax 2 = 3 ∧ varintMax 4 = 5 ∧ varintMax 8 = 10) ∧
    (maxOfLastByte 2 = 0x03 ∧ maxOfLastByte 4 = 0x0F ∧ maxOfLastByte 8 = 0x01) ∧
    ((decodeVarintUint16 data pos).1 = Res.err Error.ErrDeserializeBadVarint ↔
      (pos + 3 ≤ data.length ∧
        (∀ j, j < 2 → (data.getD (pos + j) 0).val &&& 0x80 ≠ 0) ∧
        0x03 < (data.getD (pos + 2) 0).val)) ∧
    ((decodeVarintUint32 data pos).1 = Res.err Error.ErrDeserializeBadVarint ↔
      (pos + 5 ≤ data.length ∧
        (∀ j, j < 4 → (data.getD (pos + j) 0).val &&& 0x80 ≠ 0) ∧
        0x0F < (data.getD (pos + 4) 0).val)) ∧
    ((decodeVarintUint64 data pos).1 = Res.err Error.ErrDeserializeBadVarint ↔
      (pos + 10 ≤ data.length ∧
        (∀ j, j < 9 → (data.getD (pos + j) 0).val &&& 0x80 ≠ 0) ∧
        0x01 < (data.getD (pos + 9) 0).val)) ∧
    (decodeVarintUint32 [0xFF, 0xFF, 0xFF, 0xFF, 0x1F] 0).1 =
      Res.err Error.ErrDeserializeBadVarint ∧
    (decodeVarintUint32 [0xFF, 0xFF, 0xFF, 0xFF, 0x0F] 0).1 = Res.ok (2 ^ 32 - 1) := by
  refine ⟨by decide, by decide, ?_, ?_, ?_, by decide, by decide⟩
  · rw [decodeVarintUint16_eq_scan]
    exact bad_iff_at 3 2 (by decide) data pos
  · rw [decodeVarintUint32_eq_scan]
    exact bad_iff_at 15 4 (by decide) data pos
  · rw [decodeVarintUint64_eq_scan]
    exact bad_iff_at 1 9 (by decide) data pos

theorem toByte_val (b : Byte) : toByte b.val = b := by
  apply Fin.ext
  show b.val % 256 = b.val
  exact Nat.mod_eq_of_lt b.isLt

theorem varintValue_cons (b : Byte) (bs : List Byte) :
    varintValue (b :: bs) = b.val % 128 + 128 * varintValue bs := rfl

theorem varintValue_single (b : Byte) : varintValue [b] = b.val % 128 := by
  simp [varintValue]

theorem varintValue_lt (pre : List Byte) (last : Byte) :
    varintValue (pre ++ [last]) < 128 ^ pre.length * (last.val % 128 + 1) := by
  induction pre with
  | nil => simp [varintValue_single]
  | cons b pre ih =>
    rw [List.cons_append, varintValue_cons, List.length_cons, Nat.pow_succ]
    have hb : b.val % 128 < 128 := Nat.mod_lt _ (by decide)
    have h : 128 * (varintValue (pre ++ [last]) + 1) ≤
        128 * (128 ^ pre.length * (last.val % 128 + 1)) := Nat.mul_le_mul_left _ ih
    calc b.val % 128 + 128 * varintValue (pre ++ [last])
        < 128 * (varintValue (pre ++ [last]) + 1) := by omega
      _ ≤ 128 * (128 ^ pre.length * (last.val % 128 + 1)) := h
      _ = 128 ^ pre.length * 128 * (last.val % 128 + 1) := by ring

theorem varintValue_pos (pre : List Byte) (last : Byte) (hl : last.val < 128)
    (h0 : last.val ≠ 0) : 1 ≤ varintValue (pre ++ [last]) := by
  cases pre with
  | nil => rw [List.nil_append, varintValue_single]; omega
  | cons b pre =>
    rw [List.cons_append, varintValue_cons]
    have := varintValue_pos pre last hl h0
    omega

theorem canonicalVarint_value (pre : List Byte) (last : Byte) :
    ∀ len, (∀ b ∈ pre, 128 ≤ b.val) → last.val < 128 → (pre = [] ∨ last.val ≠ 0) →
      pre.length ≤ len → canonicalVarint len (varintValue (pre ++ [last])) = pre ++ [last] := by
  induction pre with
  | nil =>
    intro len _ hl _ _
    have hv : varintValue ([] ++ [last]) = last.val := by
      rw [List.nil_append, varintValue_single]; omega
    rw [hv, canonicalVarint_small len _ hl, toByte_val]
    rfl
  | cons b pre ih =>
    intro len hpre hl hz hlen
    obtain ⟨l, rfl⟩ : ∃ l, len = l + 1 := ⟨len - 1, by simp at hlen; omega⟩
    have hz' : last.val ≠ 0 := by
      rcases hz with h | h
      · cases h
      · exact h
    have hb : 128 ≤ b.val := hpre b (List.mem_cons_self _ _)
    have hpos := varintValue_pos pre last hl hz'
    have hrec := ih l (fun x hx => hpre x (List.mem_cons_of_mem _ hx)) hl (Or.inr hz')
      (by simp at hlen; omega)
    have hbl := b.isLt
    rw [List.cons_append, varintValue_cons, canonicalVarint]
    have hbig : ¬ (b.val % 128 + 128 * varintValue (pre ++ [last]) < 128) := by omega
    have hmod : (b.val % 128 + 128 * varintValue (pre ++ [last])) % 128 + 128 = b.val := by omega
    have hdiv : (b.val % 128 + 128 * varintValue (pre ++ [last])) / 128 =
        varintValue (pre ++ [last]) := by omega
    simp only [hbig, if_false, hmod, hdiv, hrec, toByte_val]

theorem scanVarint_ok_inv (maxLast : Nat) :
    ∀ (t : Nat) (bs : List Byte) (v c : Nat), scanVarint maxLast t bs = (Res.ok v, c) →
      ∃ pre last, bs.take c = pre ++ [last] ∧ c = pre.length + 1 ∧ c ≤ t ∧
        (∀ b ∈ pre, 128 ≤ b.val) ∧ last.val < 128 ∧ v = varintValue (pre ++ [last]) ∧
        (c = t → last.val ≤ maxLast) := by
  intro t
  induction t with
  | zero => intro bs v c h; simp [scanVarint] at h
  | succ t ih =>
    intro bs v c h
    cases bs with
    | nil => simp [scanVarint] at h
    | cons b bs =>
      by_cases hlow : b.val < 128
      · rw [scanVarint_cons_low maxLast t b bs hlow] at h
        by_cases hbad : t = 0 ∧ b.val > maxLast
        · simp [hbad] at h
        · simp only [hbad, if_false, Prod.mk.injEq, Res.ok.injEq] at h
          obtain ⟨hv, hc⟩ := h
          subst hv hc
          refine ⟨[], b, by simp, by simp, by omega, by simp, hlow, ?_, ?_⟩
          · rw [List.nil_append, varintValue_single]; omega
          · intro h1; by_contra hgt; exact hbad ⟨by omega, by omega⟩
      · rw [scanVarint_cons_high maxLast t b bs hlow] at h
        rcases hs : scanVarint maxLast t bs with ⟨r, c1⟩
        rw [hs] at h
        cases r with
        | ok v1 =>
          simp only [Prod.mk.injEq, Res.ok.injEq] at h
          obtain ⟨hv, hc⟩ := h
          obtain ⟨pre, last, htake, hc1, hct, hpre, hl, hval, hmax⟩ := ih bs v1 c1 hs
          refine ⟨b :: pre, last, ?_, ?_, by omega, ?_, hl, ?_, ?_⟩
          · rw [← hc]; simp [List.take, htake]
          · simp; omega
          · intro x hx
            rcases List.mem_cons.1 hx with rfl | hx
            · omega
            · exact hpre x hx
          · rw [List.cons_append, varintValue_cons, ← hval, hv]
          · intro h1; exact hmax (by omega)
        | err e => simp at h
        | panic => simp at h

theorem scanVarint_ok_lt (maxLast : Nat) (hm : maxLast < 128) (t : Nat) (bs : List Byte)
    (v c : Nat) (h : scanVarint maxLast t bs = (Res.ok v, c)) :
    v < (maxLast + 1) * 128 ^ (t - 1) := by
  obtain ⟨pre, last, _, hc, hct, _, hl, hval, hmax⟩ := scanVarint_ok_inv maxLast t bs v c h
  have hlt := varintValue_lt pre last
  rw [← hval, Nat.mod_eq_of_lt hl] at hlt
  rcases Nat.lt_or_ge c t with hlt2 | hge
  · have h1 : 128 ^ pre.length * (last.val + 1) ≤ 128 ^ pre.length * 128 :=
      Nat.mul_le_mul_left _ (by omega)
    have h2 : 128 ^ pre.length * 128 = 128 ^ (pre.length + 1) := by rw [Nat.pow_succ]
    have h3 : 128 ^ (pre.length + 1) ≤ 128 ^ (t - 1) :=
      Nat.pow_le_pow_right (by decide) (by omega)
    have h4 : 128 ^ (t - 1) ≤ (maxLast + 1) * 128 ^ (t - 1) := Nat.le_mul_of_pos_left _ (by omega)
    omega
  · have hceq : c = t := by omega
    have h1 : 128 ^ pre.length * (last.val + 1) ≤ 128 ^ pre.length * (maxLast + 1) :=
      Nat.mul_le_mul_left _ (by have := hmax hceq; omega)
    have h2 : pre.length = t - 1 := by omega
    rw [h2] at h1 hlt
    calc v < 128 ^ (t - 1) * (last.val + 1) := hlt
      _ ≤ 128 ^ (t - 1) * (maxLast + 1) := h1
      _ = (maxLast + 1) * 128 ^ (t - 1) := Nat.mul_comm _ _

theorem canonicalVarint_shape :
    ∀ (len n : Nat), n < 128 ^ (len + 1) →
      ∃ pre last, canonicalVarint len n = pre ++ [last] ∧ (∀ b ∈ pre, 128 ≤ b.val) ∧
        last.val < 128 ∧ pre.length ≤ len ∧ n < 128 ^ (pre.length + 1) ∧
        (128 ^ pre.length ≤ n ∨ pre = []) ∧ last.val = n / 128 ^ pre.length := by
  intro len
  induction len with
  | zero =>
    intro n hn
    have hsmall : n < 128 := by simpa using hn
    refine ⟨[], toByte n, by simp [canonicalVarint], by simp, ?_, by simp, by simpa using hsmall,
      Or.inr rfl, ?_⟩
    · rw [toByte_val_of_lt n (by omega)]; exact hsmall
    · rw [toByte_val_of_lt n (by omega)]; simp
  | succ l ih =>
    intro n hn
    by_cases hsmall : n < 128
    · refine ⟨[], toByte n, by simp [canonicalVarint, hsmall], by simp, ?_, by simp,
        by simpa using hsmall, Or.inr rfl, ?_⟩
      · rw [toByte_val_of_lt n (by omega)]; exact hsmall
      · rw [toByte_val_of_lt n (by omega)]; simp
    · have hdiv : n / 128 < 128 ^ (l + 1) := by
        rw [Nat.div_lt_iff_lt_mul (by decide)]
        rw [Nat.pow_succ] at hn
        exact hn
      obtain ⟨pre, last, hcan, hpre, hl, hlen, hub, hlb, hlast⟩ := ih (n / 128) hdiv
      have hlb2 : 128 ^ pre.length ≤ n / 128 := by
        rcases hlb with h | h
        · exact h
        · rw [h]; simp; omega
      have hd : (toByte (n % 128 + 128)).val = n % 128 + 128 := toByte_val_of_lt _ (by omega)
      refine ⟨toByte (n % 128 + 128) :: pre, last, ?_, ?_, hl, by simp; omega, ?_, Or.inl ?_, ?_⟩
      · simp [canonicalVarint, hsmall, hcan]
      · intro x hx
        rcases List.mem_cons.1 hx with rfl | hx
        · rw [hd]; omega
        · exact hpre x hx
      · rw [List.length_cons, Nat.pow_succ]
        have := (Nat.div_lt_iff_lt_mul (by decide : 0 < 128)).1 hub
        exact this
      · rw [List.length_cons, Nat.pow_succ]
        exact (Nat.le_div_iff_mul_le (by decide : 0 < 128)).1 hlb2
      · rw [hlast, List.length_cons, Nat.pow_succ, Nat.div_div_eq_div_mul, Nat.mul_comm]

theorem pow128 (L : Nat) : 2 ^ (7 * L) = 128 ^ L := by
  rw [Nat.pow_mul]

theorem canonicalVarint_minimal (len n : Nat) (hn : n < 128 ^ (len + 1)) :
    MinimalVarint (len + 1) n (canonicalVarint len n) := by
  obtain ⟨pre, last, hcan, hpre, hl, hlen, hub, hlb, hlast⟩ := canonicalVarint_shape len n hn
  have hlength : (canonicalVarint len n).length = pre.length + 1 := by rw [hcan]; simp
  refine ⟨pre, last, hcan, by omega, by omega, ?_, (byte_and_80 last).2 hl, ?_, ?_, ?_⟩
  · intro b hb
    rw [Ne, byte_and_80 b]
    have := hpre b hb
    omega
  · rw [hlength, pow128]; exact hub
  · intro L hL hnL
    rw [pow128] at hnL
    rw [hlength]
    rcases hlb with h | h
    · have hlt : 128 ^ pre.length < 128 ^ L := lt_of_le_of_lt h hnL
      have := (Nat.pow_lt_pow_iff_right (by decide : 1 < 128)).1 hlt
      omega
    · rw [h]; simpa using hL
  · intro h0
    have hz : n / 128 ^ pre.length = 0 := by rw [← hlast, h0]; rfl
    rcases hlb with h | h
    · exfalso
      have hpos : 0 < 128 ^ pre.length := by positivity
      have := (Nat.div_eq_zero_iff hpos).1 hz
      omega
    · rw [hcan, h, h0]; rfl

theorem consumed_canonical_iff (maxLast t : Nat) (hm : maxLast < 128) (bs : List Byte)
    (v c : Nat) (hs : scanVarint maxLast (t + 1) bs = (Res.ok v, c)) :
    canonicalVarint t v = bs.take c ↔
      ((bs.take c).length = 1 ∨ (bs.take c).getLast? ≠ some 0) := by
  obtain ⟨pre, last, htake, hc, hct, hpre, hl, hval, _⟩ :=
    scanVarint_ok_inv maxLast (t + 1) bs v c hs
  have hlt := scanVarint_ok_lt maxLast hm (t + 1) bs v c hs
  have hv : v < 128 ^ (t + 1) := by
    have h1 : (maxLast + 1) * 128 ^ t ≤ 128 * 128 ^ t := Nat.mul_le_mul_right _ (by omega)
    rw [Nat.pow_succ, Nat.mul_comm (128 ^ t)]
    simpa using lt_of_lt_of_le hlt h1
  rw [htake, List.getLast?_concat]
  constructor
  · intro hcan
    obtain ⟨pre2, last2, hcan2, _, _, _, _, hlb, hlast⟩ := canonicalVarint_shape t v hv
    rw [hcan] at hcan2
    obtain ⟨hp, hlst⟩ := List.append_inj' hcan2 rfl
    have hl2 : last2 = last := by simpa using hlst.symm
    subst hp hl2
    by_cases h0 : last2 = 0
    · left
      have hz : v / 128 ^ pre.length = 0 := by rw [← hlast, h0]; rfl
      rcases hlb with h | h
      · exfalso
        have hpos : 0 < 128 ^ pre.length := by positivity
        have := (Nat.div_eq_zero_iff hpos).1 hz
        omega
      · rw [h]; rfl
    · right
      intro h
      exact h0 (Option.some.inj h)
  · intro h
    rw [hval]
    apply canonicalVarint_value pre last t hpre hl _ (by omega)
    rcases h with h | h
    · left
      have : pre.length = 0 := by simpa using h
      exact List.length_eq_zero.1 this
    · right
      intro h0
      apply h
      congr 1
      exact Fin.ext h0

theorem scan_of_decode (dec : Res Nat × Nat) (r : Res Nat × Nat) (pos n p : Nat)
    (hdec : dec = (r.1, pos + r.2)) (h : dec = (Res.ok n, p)) :
    r = (Res.ok n, p - pos) ∧ p = pos + r.2 := by
  rw [hdec] at h
  obtain ⟨h1, h2⟩ := Prod.mk.inj h
  refine ⟨?_, h2.symm⟩
  rw [← h2, ← h1]
  simp

theorem consumed_eq (data : List Byte) (pos p : Nat) :
    (data.take p).drop pos = (data.drop pos).take (p - pos) :=
  List.drop_take p pos data

/-- C3 (as stated, refuted): the 32-bit decoder accepts the padded zero
`[0x80, 0x00]`, returning `0` after consuming two bytes, although
`encodeVarintUint32(0)` is the single byte `[0x00]`; likewise at widths 16 and 64. -/
theorem padded_zero_accepted :
    decodeVarintUint32 [0x80, 0x00] 0 = (Res.ok 0, 2) ∧
    encodeVarintUint32 0 = some [0x00] ∧
    (([0x80, 0x00] : List Byte).take 2).drop 0 ≠ [0x00] ∧
    decodeVarintUint16 [0x80, 0x00] 0 = (Res.ok 0, 2) ∧
    decodeVarintUint64 [0x80, 0x00] 0 = (Res.ok 0, 2) := by
  decide

/-- C3 (amended): for each width, when the decoder succeeds with value `n`
leaving the cursor at `p`, the bytes it consumed are exactly the encoder's
output for `n` if and only if it consumed a single byte or the last consumed
byte is non-zero; the zero-padded `[0x80, 0x00]` is accepted and decodes to `0`. -/
theorem varint_consumed_canonical_iff (data : List Byte) (pos n p : Nat) :
    (decodeVarintUint16 data pos = (Res.ok n, p) →
      (encodeVarintUint16 n = some ((data.take p).drop pos) ↔
        (((data.take p).drop pos).length = 1 ∨ ((data.take p).drop pos).getLast? ≠ some 0))) ∧
    (decodeVarintUint32 data pos = (Res.ok n, p) →
      (encodeVarintUint32 n = some ((data.take p).drop pos) ↔
        (((data.take p).drop pos).length = 1 ∨ ((data.take p).drop pos).getLast? ≠ some 0))) ∧
    (decodeVarintUint64 data pos = (Res.ok n, p) →
      (encodeVarintUint64 n = some ((data.take p).drop pos) ↔
        (((data.take p).drop pos).length = 1 ∨
          ((data.take p).drop pos).getLast? ≠ some 0))) ∧
    (decodeVarintUint16 [0x80, 0x00] 0 = (Res.ok 0, 2) ∧
      decodeVarintUint32 [0x80, 0x00] 0 = (Res.ok 0, 2) ∧
      decodeVarintUint64 [0x80, 0x00] 0 = (Res.ok 0, 2)) := by
  refine ⟨fun h => ?_, fun h => ?_, fun h => ?_, by decide⟩
  · obtain ⟨hs, _⟩ := scan_of_decode _ _ pos n p (decodeVarintUint16_eq_scan data pos) h
    have hn := scanVarint_ok_lt 3 (by decide) 3 _ n _ hs
    rw [encodeVarintUint16_eq n (by omega), consumed_eq, Option.some.injEq]
    exact consumed_canonical_iff 3 2 (by decide) _ n _ hs
  · obtain ⟨hs, _⟩ := scan_of_decode _ _ pos n p (decodeVarintUint32_eq_scan data pos) h
    have hn := scanVarint_ok_lt 15 (by decide) 5 _ n _ hs
    rw [encodeVarintUint32_eq n (by omega), consumed_eq, Option.some.injEq]
    exact consumed_canonical_iff 15 4 (by decide) _ n _ hs
  · obtain ⟨hs, _⟩ := scan_of_decode _ _ pos n p (decodeVarintUint64_eq_scan data pos) h
    have hn := scanVarint_ok_lt 1 (by decide) 10 _ n _ hs
    rw [encodeVarintUint64_eq n (by omega), consumed_eq, Option.some.injEq]
    exact consumed_canonical_iff 1 9 (by decide) _ n _ hs

theorem varint_consumed_canonical_iff_witness :
    decodeVarintUint32 [0x09, 0xAC, 0x02, 0x07] 1 = (Res.ok 300, 3) ∧
    (encodeVarintUint32 300 = some ((([0x09, 0xAC, 0x02, 0x07] : List Byte).take 3).drop 1) ↔
      (((([0x09, 0xAC, 0x02, 0x07] : List Byte).take 3).drop 1).length = 1 ∨
        ((([0x09, 0xAC, 0x02, 0x07] : List Byte).take 3).drop 1).getLast? ≠ some 0)) :=
  ⟨by decide, (varint_consumed_canonical_iff [0x09, 0xAC, 0x02, 0x07] 1 300 3).2.1 (by decide)⟩

/-- C7: for each width and every unsigned `n` of that width the encoder
returns a byte sequence of between 1 and `ceil(k/7)` (3, 5, 10) bytes, whose
bytes all have the high bit set except the last, which has it clear; its
length is the least `L ≥ 1` with `n < 2 ^ (7 * L)`, and its last byte is zero
only when the output is the single byte `0x00`. -/
theorem encoder_output_minimal (n : Nat) :
    (varintMax 2 = 3 ∧ varintMax 4 = 5 ∧ varintMax 8 = 10) ∧
    (n < 2 ^ 16 → ∃ bs, encodeVarintUint16 n = some bs ∧ MinimalVarint 3 n bs) ∧
    (n < 2 ^ 32 → ∃ bs, encodeVarintUint32 n = some bs ∧ MinimalVarint 5 n bs) ∧
    (n < 2 ^ 64 → ∃ bs, encodeVarintUint64 n = some bs ∧ MinimalVarint 10 n bs) := by
  refine ⟨by decide, fun h => ?_, fun h => ?_, fun h => ?_⟩
  · exact ⟨_, encodeVarintUint16_eq n h, canonicalVarint_minimal 2 n (lt_trans h (by decide))⟩
  · exact ⟨_, encodeVarintUint32_eq n h, canonicalVarint_minimal 4 n (lt_trans h (by decide))⟩
  · exact ⟨_, encodeVarintUint64_eq n h, canonicalVarint_minimal 9 n (lt_trans h (by decide))⟩

theorem encoder_output_minimal_witness :
    16384 < 2 ^ 16 ∧ ∃ bs, encodeVarintUint16 16384 = some bs ∧ MinimalVarint 3 16384 bs :=
  ⟨by decide, (encoder_output_minimal 16384).2.1 (by decide)⟩

/-! ## Lemmas on the zigzag transform -/

theorem int_xor_zero (x : Int) : Int.xor x 0 = x := by
  cases x <;> simp [Int.xor]

theorem int_xor_neg_one (x : Int) : Int.xor x (-1) = -x - 1 := by
  cases x with
  | ofNat m =>
    show Int.xor (Int.ofNat m) (Int.negSucc 0) = _
    simp [Int.xor, Int.negSucc_eq]
    omega
  | negSucc m =>
    show Int.xor (Int.negSucc m) (Int.negSucc 0) = _
    simp [Int.xor, Int.negSucc_eq]

theorem zigzagEncodeInt16_eq (n : Int) (hlo : -2 ^ 15 ≤ n) (hhi : n < 2 ^ 15) :
    (zigzagEncodeInt16 n : Int) = if 0 ≤ n then 2 * n else -2 * n - 1 := by
  have hshift : n >>> ((16 - 1 : Nat)) = if 0 ≤ n then 0 else -1 := by
    rw [Int.shiftRight_eq_div_pow]
    split <;> omega
  unfold zigzagEncodeInt16 zigzagEncodeSized toUint toInt
  rw [hshift, Int.bmod_def]
  by_cases h0 : 0 ≤ n
  · simp only [h0, if_true, int_xor_zero]
    rw [Int.toNat_of_nonneg (Int.emod_nonneg _ (by norm_num))]
    split <;> omega
  · simp only [h0, if_false, int_xor_neg_one]
    rw [Int.toNat_of_nonneg (Int.emod_nonneg _ (by norm_num))]
    split <;> omega

theorem zigzagDecodeInt16_eq (u : Nat) (h : u < 2 ^ 16) :
    zigzagDecodeInt16 u = if u % 2 = 0 then ((u / 2 : Nat) : Int) else -((u / 2 : Nat) : Int) - 1 := by
  have hmask : (u >>> 1) &&& (2 ^ (16 - 1) - 1) = u / 2 := by
    rw [Nat.and_pow_two_sub_one_eq_mod, Nat.shiftRight_eq_div_pow]
    apply Nat.mod_eq_of_lt
    norm_num
    omega
  have hbit : u &&& 0b1 = u % 2 := Nat.and_one_is_mod u
  unfold zigzagDecodeInt16 zigzagDecodeSized toInt
  rw [hmask, hbit]
  have h1 : (((u / 2 : Nat) : Int)).bmod (2 ^ 16) = ((u / 2 : Nat) : Int) := by
    rw [Int.bmod_def]; split <;> omega
  rw [h1]
  by_cases hpar : u % 2 = 0
  · simp only [hpar, if_true]
    norm_num
    exact int_xor_zero _
  · have hodd : u % 2 = 1 := by omega
    simp only [hodd, if_false]
    have h2 : (-(((1 : Nat) : Int)).bmod (2 ^ 16)).bmod (2 ^ 16) = -1 := by decide
    rw [h2]
    simp only [one_ne_zero, if_false]
    exact int_xor_neg_one _

theorem zigzagEncodeInt32_eq (n : Int) (hlo : -2 ^ 31 ≤ n) (hhi : n < 2 ^ 31) :
    (zigzagEncodeInt32 n : Int) = if 0 ≤ n then 2 * n else -2 * n - 1 := by
  have hshift : n >>> ((32 - 1 : Nat)) = if 0 ≤ n then 0 else -1 := by
    rw [Int.shiftRight_eq_div_pow]
    split <;> omega
  unfold zigzagEncodeInt32 zigzagEncodeSized toUint toInt
  rw [hshift, Int.bmod_def]
  by_cases h0 : 0 ≤ n
  · simp only [h0, if_true, int_xor_zero]
    rw [Int.toNat_of_nonneg (Int.emod_nonneg _ (by norm_num))]
    split <;> omega
  · simp only [h0, if_false, int_xor_neg_one]
    rw [Int.toNat_of_nonneg (Int.emod_nonneg _ (by norm_num))]
    split <;> omega

theorem zigzagDecodeInt32_eq (u : Nat) (h : u < 2 ^ 32) :
    zigzagDecodeInt32 u = if u % 2 = 0 then ((u / 2 : Nat) : Int) else -((u / 2 : Nat) : Int) - 1 := by
  have hmask : (u >>> 1) &&& (2 ^ (32 - 1) - 1) = u / 2 := by
    rw [Nat.and_pow_two_sub_one_eq_mod, Nat.shiftRight_eq_div_pow]
    apply Nat.mod_eq_of_lt
    norm_num
    omega
  have hbit : u &&& 0b1 = u % 2 := Nat.and_one_is_mod u
  unfold zigzagDecodeInt32 zigzagDecodeSized toInt
  rw [hmask, hbit]
  have h1 : (((u / 2 : Nat) : Int)).bmod (2 ^ 32) = ((u / 2 : Nat) : Int) := by
    rw [Int.bmod_def]; split <;> omega
  rw [h1]
  by_cases hpar : u % 2 = 0
  · simp only [hpar, if_true]
    norm_num
    exact int_xor_zero _
  · have hodd : u % 2 = 1 := by omega
    simp only [hodd, if_false]
    have h2 : (-(((1 : Nat) : Int)).bmod (2 ^ 32)).bmod (2 ^ 32) = -1 := by decide
    rw [h2]
    simp only [one_ne_zero, if_false]
    exact int_xor_neg_one _

theorem zigzagEncodeInt64_eq (n : Int) (hlo : -2 ^ 63 ≤ n) (hhi : n < 2 ^ 63) :
    (zigzagEncodeInt64 n : Int) = if 0 ≤ n then 2 * n else -2 * n - 1 := by
  have hshift : n >>> ((64 - 1 : Nat)) = if 0 ≤ n then 0 else -1 := by
    rw [Int.shiftRight_eq_div_pow]
    split <;> omega
  unfold zigzagEncodeInt64 zigzagEncodeSized toUint toInt
  rw [hshift, Int.bmod_def]
  by_cases h0 : 0 ≤ n
  · simp only [h0, if_true, int_xor_zero]
    rw [Int.toNat_of_nonneg (Int.emod_nonneg _ (by norm_num))]
    split <;> omega
  · simp only [h0, if_false, int_xor_neg_one]
    rw [Int.toNat_of_nonneg (Int.emod_nonneg _ (by norm_num))]
    split <;> omega

theorem zigzagDecodeInt64_eq (u : Nat) (h : u < 2 ^ 64) :
    zigzagDecodeInt64 u = if u % 2 = 0 then ((u / 2 : Nat) : Int) else -((u / 2 : Nat) : Int) - 1 := by
  have hmask : (u >>> 1) &&& (2 ^ (64 - 1) - 1) = u / 2 := by
    rw [Nat.and_pow_two_sub_one_eq_mod, Nat.shiftRight_eq_div_pow]
    apply Nat.mod_eq_of_lt
    norm_num
    omega
  have hbit : u &&& 0b1 = u % 2 := Nat.and_one_is_mod u
  unfold zigzagDecodeInt64 zigzagDecodeSized toInt
  rw [hmask, hbit]
  have h1 : (((u / 2 : Nat) : Int)).bmod (2 ^ 64) = ((u / 2 : Nat) : Int) := by
    rw [Int.bmod_def]; split <;> omega
  rw [h1]
  by_cases hpar : u % 2 = 0
  · simp only [hpar, if_true]
    norm_num
    exact int_xor_zero _
  · have hodd : u % 2 = 1 := by omega
    simp only [hodd, if_false]
    have h2 : (-(((1 : Nat) : Int)).bmod (2 ^ 64)).bmod (2 ^ 64) = -1 := by decide
    rw [h2]
    simp only [one_ne_zero, if_false]
    exact int_xor_neg_one _

theorem zigzagEncodeInt16_lt (n : Int) (hlo : -2 ^ 15 ≤ n) (hhi : n < 2 ^ 15) :
    zigzagEncodeInt16 n < 2 ^ 16 := by
  have h := zigzagEncodeInt16_eq n hlo hhi
  split at h <;> omega

theorem zigzagEncodeInt32_lt (n : Int) (hlo : -2 ^ 31 ≤ n) (hhi : n < 2 ^ 31) :
    zigzagEncodeInt32 n < 2 ^ 32 := by
  have h := zigzagEncodeInt32_eq n hlo hhi
  split at h <;> omega

theorem zigzagEncodeInt64_lt (n : Int) (hlo : -2 ^ 63 ≤ n) (hhi : n < 2 ^ 63) :
    zigzagEncodeInt64 n < 2 ^ 64 := by
  have h := zigzagEncodeInt64_eq n hlo hhi
  split at h <;> omega

theorem zigzag16_decode_encode (n : Int) (hlo : -2 ^ 15 ≤ n) (hhi : n < 2 ^ 15) :
    zigzagDecodeInt16 (zigzagEncodeInt16 n) = n := by
  have he := zigzagEncodeInt16_eq n hlo hhi
  rw [zigzagDecodeInt16_eq _ (zigzagEncodeInt16_lt n hlo hhi)]
  split at he <;> split <;> omega

theorem zigzag32_decode_encode (n : Int) (hlo : -2 ^ 31 ≤ n) (hhi : n < 2 ^ 31) :
    zigzagDecodeInt32 (zigzagEncodeInt32 n) = n := by
  have he := zigzagEncodeInt32_eq n hlo hhi
  rw [zigzagDecodeInt32_eq _ (zigzagEncodeInt32_lt n hlo hhi)]
  split at he <;> split <;> omega

theorem zigzag64_decode_encode (n : Int) (hlo : -2 ^ 63 ≤ n) (hhi : n < 2 ^ 63) :
    zigzagDecodeInt64 (zigzagEncodeInt64 n) = n := by
  have he := zigzagEncodeInt64_eq n hlo hhi
  rw [zigzagDecodeInt64_eq _ (zigzagEncodeInt64_lt n hlo hhi)]
  split at he <;> split <;> omega

theorem zigzag16_encode_decode (u : Nat) (h : u < 2 ^ 16) :
    zigzagEncodeInt16 (zigzagDecodeInt16 u) = u := by
  have hd := zigzagDecodeInt16_eq u h
  have he := zigzagEncodeInt16_eq (zigzagDecodeInt16 u) (by split at hd <;> omega)
    (by split at hd <;> omega)
  split at hd <;> split at he <;> omega

theorem zigzag32_encode_decode (u : Nat) (h : u < 2 ^ 32) :
    zigzagEncodeInt32 (zigzagDecodeInt32 u) = u := by
  have hd := zigzagDecodeInt32_eq u h
  have he := zigzagEncodeInt32_eq (zigzagDecodeInt32 u) (by split at hd <;> omega)
    (by split at hd <;> omega)
  split at hd <;> split at he <;> omega

theorem zigzag64_encode_decode (u : Nat) (h : u < 2 ^ 64) :
    zigzagEncodeInt64 (zigzagDecodeInt64 u) = u := by
  have hd := zigzagDecodeInt64_eq u h
  have he := zigzagEncodeInt64_eq (zigzagDecodeInt64 u) (by split at hd <;> omega)
    (by split at hd <;> omega)
  split at hd <;> split at he <;> omega

/-- C4: at each width 16, 32 and 64, zigzag decoding undoes zigzag encoding on
every signed value of the width, and zigzag encoding undoes zigzag decoding on
every unsigned value of the width. -/
theorem zigzag_bijection (n : Int) (u : Nat) :
    (-2 ^ 15 ≤ n → n < 2 ^ 15 → zigzagDecodeInt16 (zigzagEncodeInt16 n) = n) ∧
    (u < 2 ^ 16 → zigzagEncodeInt16 (zigzagDecodeInt16 u) = u) ∧
    (-2 ^ 31 ≤ n → n < 2 ^ 31 → zigzagDecodeInt32 (zigzagEncodeInt32 n) = n) ∧
    (u < 2 ^ 32 → zigzagEncodeInt32 (zigzagDecodeInt32 u) = u) ∧
    (-2 ^ 63 ≤ n → n < 2 ^ 63 → zigzagDecodeInt64 (zigzagEncodeInt64 n) = n) ∧
    (u < 2 ^ 64 → zigzagEncodeInt64 (zigzagDecodeInt64 u) = u) :=
  ⟨zigzag16_decode_encode n, zigzag16_encode_decode u, zigzag32_decode_encode n,
   zigzag32_encode_decode u, zigzag64_decode_encode n, zigzag64_encode_decode u⟩

theorem zigzag_bijection_witness :
    (-2 ^ 15 ≤ (-32768 : Int) ∧ (-32768 : Int) < 2 ^ 15 ∧
      zigzagDecodeInt16 (zigzagEncodeInt16 (-32768)) = -32768) ∧
    (65535 < 2 ^ 16 ∧ zigzagEncodeInt16 (zigzagDecodeInt16 65535) = 65535) :=
  ⟨⟨by decide, by decide, (zigzag_bijection (-32768) 65535).1 (by decide) (by decide)⟩,
   ⟨by decide, (zigzag_bijection (-32768) 65535).2.1 (by decide)⟩⟩

/-- C5: at each width 16, 32 and 64 and for every signed `n` of the width, the
zigzag encoding of `n` is the natural number `2 * n` when `n ≥ 0` and
`-2 * n - 1` when `n < 0`; so `0, -1, 1, -2, 2` map to `0, 1, 2, 3, 4`, and at
width 16 the maximum `32767` maps to `65534` and the minimum `-32768` to `65535`. -/
theorem zigzag_small_magnitude (n : Int) :
    (-2 ^ 15 ≤ n → n < 2 ^ 15 →
      (zigzagEncodeInt16 n : Int) = if 0 ≤ n then 2 * n else -2 * n - 1) ∧
    (-2 ^ 31 ≤ n → n < 2 ^ 31 →
      (zigzagEncodeInt32 n : Int) = if 0 ≤ n then 2 * n else -2 * n - 1) ∧
    (-2 ^ 63 ≤ n → n < 2 ^ 63 →
      (zigzagEncodeInt64 n : Int) = if 0 ≤ n then 2 * n else -2 * n - 1) ∧
    [0, -1, 1, -2, 2, 32767, -32768].map zigzagEncodeInt16 = [0, 1, 2, 3, 4, 65534, 65535] ∧
    [0, -1, 1, -2, 2].map zigzagEncodeInt32 = [0, 1, 2, 3, 4] ∧
    [0, -1, 1, -2, 2].map zigzagEncodeInt64 = [0, 1, 2, 3, 4] :=
  ⟨zigzagEncodeInt16_eq n, zigzagEncodeInt32_eq n, zigzagEncodeInt64_eq n,
   by decide, by decide, by decide⟩

theorem zigzag_small_magnitude_witness :
    -2 ^ 31 ≤ (-7 : Int) ∧ (-7 : Int) < 2 ^ 31 ∧
      (zigzagEncodeInt32 (-7) : Int) = if (0 : Int) ≤ -7 then 2 * -7 else -2 * -7 - 1 :=
  ⟨by decide, by decide, (zigzag_small_magnitude (-7)).2.1 (by decide) (by decide)⟩

/-- C6: `encodeVarintUint32` maps 0, 127, 128, 16383, 16384 and `2^32 - 1` to
`[0x00]`, `[0x7F]`, `[0x80,0x01]`, `[0xFF,0x7F]`, `[0x80,0x80,0x01]` and
`[0xFF,0xFF,0xFF,0xFF,0x0F]`; `encodeVarintUint16` gives the same bytes for the
first five values and maps 65535 to `[0xFF,0xFF,0x03]`. -/
theorem varint_boundary_vectors :
    encodeVarintUint32 0 = some [0x00] ∧
    encodeVarintUint32 127 = some [0x7F] ∧
    encodeVarintUint32 128 = some [0x80, 0x01] ∧
    encodeVarintUint32 16383 = some [0xFF, 0x7F] ∧
    encodeVarintUint32 16384 = some [0x80, 0x80, 0x01] ∧
    encodeVarintUint32 (2 ^ 32 - 1) = some [0xFF, 0xFF, 0xFF, 0xFF, 0x0F] ∧
    encodeVarintUint16 0 = some [0x00] ∧
    encodeVarintUint16 127 = some [0x7F] ∧
    encodeVarintUint16 128 = some [0x80, 0x01] ∧
    encodeVarintUint16 16383 = some [0xFF, 0x7F] ∧
    encodeVarintUint16 16384 = some [0x80, 0x80, 0x01] ∧
    encodeVarintUint16 65535 = some [0xFF, 0xFF, 0x03] := by
  decide

/-! ## Lemmas on the serializer and the deserializer -/

theorem toInt64_of_lt (x : Nat) (h : x < 2 ^ 63) : toInt 64 (x : Int) = (x : Int) := by
  unfold toInt
  rw [Int.bmod_def]
  split <;> omega

theorem takeBytes_exact (pre body rest : List Byte)
    (hlen : pre.length + body.length < 2 ^ 63) :
    Deserializer.takeBytes { data := pre ++ (body ++ rest), pos := pre.length }
        (toInt 64 (body.length : Int)) =
      (Res.ok body, { data := pre ++ (body ++ rest), pos := pre.length + body.length }) := by
  have h1 : toInt 64 (body.length : Int) = (body.length : Int) := toInt64_of_lt _ (by omega)
  have h2 : toInt 64 ((pre.length : Int) + (body.length : Int)) =
      ((pre.length + body.length : Nat) : Int) := by
    rw [← Int.ofNat_add]
    exact toInt64_of_lt _ hlen
  unfold Deserializer.takeBytes
  simp only [h1, h2]
  have hle : ¬ (((pre.length + body.length : Nat) : Int) >
      (((pre ++ (body ++ rest)).length : Nat) : Int)) := by
    simp only [List.length_append]; omega
  have hge : ¬ (((pre.length + body.length : Nat) : Int) < ((pre.length : Nat) : Int)) := by
    omega
  simp only [hle, hge, if_false, Int.toNat_ofNat]
  have hbody : List.drop pre.length (List.take (pre.length + body.length)
      (pre ++ (body ++ rest))) = body := by
    rw [List.take_append, List.drop_left, List.take_left]
  rw [hbody]

theorem pushVarintUint64_ok (s : Serializer) (n : Nat) (h : n < 2 ^ 64) :
    s.pushVarintUint n = (Res.ok (), { buf := s.buf ++ canonicalVarint 9 n }) := by
  unfold Serializer.pushVarintUint encodeVarintUint
  rw [Nat.mod_eq_of_lt h, encodeVarintUint64_eq n h]
  rfl

theorem encodeVarintUint_eq (n : Nat) (h : n < 2 ^ 64) :
    encodeVarintUint n = some (canonicalVarint 9 n) := by
  unfold encodeVarintUint
  rw [Nat.mod_eq_of_lt h, encodeVarintUint64_eq n h]

theorem canonicalVarint_length_le (len n : Nat) : (canonicalVarint len n).length ≤ len + 1 := by
  induction len generalizing n with
  | zero => simp [canonicalVarint]
  | succ l ih =>
    rw [canonicalVarint]
    split
    · simp
    · simp only [List.length_cons]
      have := ih (n / 128)
      omega

theorem serializeLenPrefixed (s : Serializer) (v : List Byte) (h : v.length < 2 ^ 64) :
    s.SerializeBytes v =
      (Res.ok (), { buf := s.buf ++ (canonicalVarint 9 v.length ++ v) }) := by
  unfold Serializer.SerializeBytes
  rw [Nat.mod_eq_of_lt h, pushVarintUint64_ok s _ h]
  simp [Serializer.pushBytes]

theorem serializeString_eq (s : Serializer) (v : List Byte) (h : v.length < 2 ^ 64) :
    s.SerializeString v =
      (Res.ok (), { buf := s.buf ++ (canonicalVarint 9 v.length ++ v) }) := by
  unfold Serializer.SerializeString
  rw [Nat.mod_eq_of_lt h, pushVarintUint64_ok s _ h]
  simp [Serializer.pushBytes]

theorem deserializeUint_leading (body : List Byte) (n : Nat) (h : n < 2 ^ 64) :
    (NewDeserializer (canonicalVarint 9 n ++ body)).DeserializeUint =
      (Res.ok n, { data := canonicalVarint 9 n ++ body, pos := (canonicalVarint 9 n).length }) := by
  unfold Deserializer.DeserializeUint Deserializer.runVarint NewDeserializer decodeVarintUint
  simp only [decodeVarintUint64_zero body n h]

theorem deserializeBytes_prefixed (v : List Byte) (h : v.length + 10 < 2 ^ 63) :
    (NewDeserializer (canonicalVarint 9 v.length ++ v)).DeserializeBytes =
      (Res.ok v, { data := canonicalVarint 9 v.length ++ v,
                   pos := (canonicalVarint 9 v.length ++ v).length }) := by
  have hl := canonicalVarint_length_le 9 v.length
  unfold Deserializer.DeserializeBytes
  rw [deserializeUint_leading v v.length (by omega)]
  have := takeBytes_exact (canonicalVarint 9 v.length) v [] (by omega)
  simp only [List.append_nil] at this
  simp only [this, List.length_append]

theorem takeValid_of_takeBytes (valid : List Byte → Bool) (d d1 : Deserializer) (n : Int)
    (bytes : List Byte) (h : d.takeBytes n = (Res.ok bytes, d1)) :
    Deserializer.takeValid valid d n =
      (if !valid bytes then Res.err Error.ErrDeserializeBadUtf8 else Res.ok bytes, d1) := by
  unfold Deserializer.takeValid
  rw [h]
  cases hv : valid bytes
  · simp only [hv, Bool.not_false, if_true]
  · simp only [hv, Bool.not_true, Bool.false_eq_true, if_false]

theorem takeValid_exact (valid : List Byte → Bool) (pre body : List Byte)
    (hlen : pre.length + body.length < 2 ^ 63) :
    Deserializer.takeValid valid { data := pre ++ body, pos := pre.length }
        (toInt 64 (body.length : Int)) =
      (if !valid body then Res.err Error.ErrDeserializeBadUtf8 else Res.ok body,
        { data := pre ++ body, pos := (pre ++ body).length }) := by
  have h := takeBytes_exact pre body [] hlen
  rw [List.append_nil] at h
  rw [takeValid_of_takeBytes valid _ _ _ body h, List.length_append]

theorem deserializeString_prefixed (valid : List Byte → Bool) (v : List Byte)
    (h : v.length + 10 < 2 ^ 63) :
    (NewDeserializer (canonicalVarint 9 v.length ++ v)).DeserializeString valid =
      (if !valid v then Res.err Error.ErrDeserializeBadUtf8 else Res.ok v,
        { data := canonicalVarint 9 v.length ++ v,
          pos := (canonicalVarint 9 v.length ++ v).length }) := by
  have hl := canonicalVarint_length_le 9 v.length
  have ht := takeValid_exact valid (canonicalVarint 9 v.length) v (by omega)
  unfold Deserializer.DeserializeString
  rw [deserializeUint_leading v v.length (by omega)]
  show (if v.length > 4 then _ else _) = _
  rw [ite_self]
  exact ht

theorem serializeInt16_eq (s : Serializer) (v : Int) (hlo : -2 ^ 15 ≤ v) (hhi : v < 2 ^ 15) :
    s.SerializeInt16 v =
      (Res.ok (), { buf := s.buf ++ canonicalVarint 2 (zigzagEncodeInt16 v) }) := by
  unfold Serializer.SerializeInt16 Serializer.pushVarintUint16
  show s.pushEncoded (encodeVarintUint16 (zigzagEncodeInt16 v)) = _
  rw [encodeVarintUint16_eq _ (zigzagEncodeInt16_lt v hlo hhi)]
  rfl

theorem serializeInt32_eq (s : Serializer) (v : Int) (hlo : -2 ^ 31 ≤ v) (hhi : v < 2 ^ 31) :
    s.SerializeInt32 v =
      (Res.ok (), { buf := s.buf ++ canonicalVarint 4 (zigzagEncodeInt32 v) }) := by
  unfold Serializer.SerializeInt32 Serializer.pushVarintUint32
  show s.pushEncoded (encodeVarintUint32 (zigzagEncodeInt32 v)) = _
  rw [encodeVarintUint32_eq _ (zigzagEncodeInt32_lt v hlo hhi)]
  rfl

theorem serializeInt64_eq (s : Serializer) (v : Int) (hlo : -2 ^ 63 ≤ v) (hhi : v < 2 ^ 63) :
    s.SerializeInt64 v =
      (Res.ok (), { buf := s.buf ++ canonicalVarint 9 (zigzagEncodeInt64 v) }) := by
  unfold Serializer.SerializeInt64 Serializer.pushVarintUint64
  show s.pushEncoded (encodeVarintUint64 (zigzagEncodeInt64 v)) = _
  rw [encodeVarintUint64_eq _ (zigzagEncodeInt64_lt v hlo hhi)]
  rfl

theorem zigzagAfter_ok (data : List Byte) (dec : List Byte → Nat → Res Nat × Nat)
    (zz : Nat → Int) (n p : Nat) (h : dec data 0 = (Res.ok n, p)) :
    (NewDeserializer data).zigzagAfter dec zz = (Res.ok (zz n), { data := data, pos := p }) := by
  unfold Deserializer.zigzagAfter Deserializer.runVarint NewDeserializer
  simp only [h]

/-- C8: for each width 16, 32 and 64 and every signed `v` of the width,
`SerializeIntK(v)` succeeds and appends exactly the bytes
`encodeVarintUintK(zigzagEncodeIntK(v))`, and `DeserializeIntK` over those bytes
(followed by any `rest`) returns `v` with no error, the cursor just after them. -/
theorem signed_int_roundtrip (s : Serializer) (v : Int) (rest : List Byte) :
    (-2 ^ 15 ≤ v → v < 2 ^ 15 →
      ∃ bs, encodeVarintUint16 (zigzagEncodeInt16 v) = some bs ∧
        s.SerializeInt16 v = (Res.ok (), { buf := s.buf ++ bs }) ∧
        (NewDeserializer (bs ++ rest)).DeserializeInt16 =
          (Res.ok v, { data := bs ++ rest, pos := bs.length })) ∧
    (-2 ^ 31 ≤ v → v < 2 ^ 31 →
      ∃ bs, encodeVarintUint32 (zigzagEncodeInt32 v) = some bs ∧
        s.SerializeInt32 v = (Res.ok (), { buf := s.buf ++ bs }) ∧
        (NewDeserializer (bs ++ rest)).DeserializeInt32 =
          (Res.ok v, { data := bs ++ rest, pos := bs.length })) ∧
    (-2 ^ 63 ≤ v → v < 2 ^ 63 →
      ∃ bs, encodeVarintUint64 (zigzagEncodeInt64 v) = some bs ∧
        s.SerializeInt64 v = (Res.ok (), { buf := s.buf ++ bs }) ∧
        (NewDeserializer (bs ++ rest)).DeserializeInt64 =
          (Res.ok v, { data := bs ++ rest, pos := bs.length })) := by
  refine ⟨fun hlo hhi => ?_, fun hlo hhi => ?_, fun hlo hhi => ?_⟩
  · have hz := zigzagEncodeInt16_lt v hlo hhi
    refine ⟨_, encodeVarintUint16_eq _ hz, serializeInt16_eq s v hlo hhi, ?_⟩
    unfold Deserializer.DeserializeInt16
    rw [zigzagAfter_ok _ _ _ _ _ (decodeVarintUint16_zero rest _ hz),
      zigzag16_decode_encode v hlo hhi]
  · have hz := zigzagEncodeInt32_lt v hlo hhi
    refine ⟨_, encodeVarintUint32_eq _ hz, serializeInt32_eq s v hlo hhi, ?_⟩
    unfold Deserializer.DeserializeInt32
    rw [zigzagAfter_ok _ _ _ _ _ (decodeVarintUint32_zero rest _ hz),
      zigzag32_decode_encode v hlo hhi]
  · have hz := zigzagEncodeInt64_lt v hlo hhi
    refine ⟨_, encodeVarintUint64_eq _ hz, serializeInt64_eq s v hlo hhi, ?_⟩
    unfold Deserializer.DeserializeInt64
    rw [zigzagAfter_ok _ _ _ _ _ (decodeVarintUint64_zero rest _ hz),
      zigzag64_decode_encode v hlo hhi]

theorem signed_int_roundtrip_witness :
    -2 ^ 63 ≤ (-9223372036854775808 : Int) ∧ (-9223372036854775808 : Int) < 2 ^ 63 ∧
      ∃ bs, encodeVarintUint64 (zigzagEncodeInt64 (-9223372036854775808)) = some bs ∧
        (NewSerializer [0x2A]).SerializeInt64 (-9223372036854775808) =
          (Res.ok (), { buf := (NewSerializer [0x2A]).buf ++ bs }) ∧
        (NewDeserializer (bs ++ [0x01])).DeserializeInt64 =
          (Res.ok (-9223372036854775808), { data := bs ++ [0x01], pos := bs.length }) :=
  ⟨by decide, by decide,
    (signed_int_roundtrip (NewSerializer [0x2A]) (-9223372036854775808) [0x01]).2.2
      (by decide) (by decide)⟩

/-- C9: for every byte string `s` (its serialized form, like every Go slice,
shorter than `2^63` bytes), `SerializeString(s)` succeeds and appends
`encodeVarintUint(len(s))` followed by the bytes of `s`, whatever `utf8.Valid`
says of `s`; `DeserializeString` over that output returns `s` with the cursor
at the end when `s` is valid UTF-8 and fails with `ErrDeserializeBadUtf8` when
it is not. -/
theorem string_roundtrip (valid : List Byte → Bool) (st : Serializer) (s : List Byte)
    (h : s.length + 10 < 2 ^ 63) :
    ∃ pfx, encodeVarintUint s.length = some pfx ∧
      st.SerializeString s = (Res.ok (), { buf := st.buf ++ (pfx ++ s) }) ∧
      (valid s = true →
        (NewDeserializer (pfx ++ s)).DeserializeString valid =
          (Res.ok s, { data := pfx ++ s, pos := (pfx ++ s).length })) ∧
      (valid s = false →
        ((NewDeserializer (pfx ++ s)).DeserializeString valid).1 =
          Res.err Error.ErrDeserializeBadUtf8) := by
  refine ⟨_, encodeVarintUint_eq _ (by omega), serializeString_eq st s (by omega), ?_, ?_⟩
  · intro hv
    rw [deserializeString_prefixed valid s h, hv]
    rfl
  · intro hv
    rw [deserializeString_prefixed valid s h, hv]
    rfl

theorem string_roundtrip_witness :
    ([0x68, 0xC3, 0xA9] : List Byte).length + 10 < 2 ^ 63 ∧
    ∃ pfx, encodeVarintUint ([0x68, 0xC3, 0xA9] : List Byte).length = some pfx ∧
      (NewSerializer []).SerializeString [0x68, 0xC3, 0xA9] =
        (Res.ok (), { buf := (NewSerializer []).buf ++ (pfx ++ [0x68, 0xC3, 0xA9]) }) ∧
      (utf8Valid [0x68, 0xC3, 0xA9] = true →
        (NewDeserializer (pfx ++ [0x68, 0xC3, 0xA9])).DeserializeString utf8Valid =
          (Res.ok [0x68, 0xC3, 0xA9],
            { data := pfx ++ [0x68, 0xC3, 0xA9], pos := (pfx ++ [0x68, 0xC3, 0xA9]).length })) ∧
      (utf8Valid [0x68, 0xC3, 0xA9] = false →
        ((NewDeserializer (pfx ++ [0x68, 0xC3, 0xA9])).DeserializeString utf8Valid).1 =
          Res.err Error.ErrDeserializeBadUtf8) :=
  ⟨by decide, string_roundtrip utf8Valid (NewSerializer []) [0x68, 0xC3, 0xA9] (by decide)⟩

/-- C10: for every byte sequence `b`, empty or not (its serialized form, like
every Go slice, shorter than `2^63` bytes), `SerializeBytes(b)` succeeds and
appends `encodeVarintUint(len(b))` followed by `b` unchanged, and
`DeserializeBytes` over that output returns exactly `b` and leaves the cursor
at the end of the input. -/
theorem bytes_roundtrip (st : Serializer) (b : List Byte) (h : b.length + 10 < 2 ^ 63) :
    ∃ pfx, encodeVarintUint b.length = some pfx ∧
      st.SerializeBytes b = (Res.ok (), { buf := st.buf ++ (pfx ++ b) }) ∧
      (NewDeserializer (pfx ++ b)).DeserializeBytes =
        (Res.ok b, { data := pfx ++ b, pos := (pfx ++ b).length }) :=
  ⟨_, encodeVarintUint_eq _ (by omega), serializeLenPrefixed st b (by omega),
    deserializeBytes_prefixed b h⟩

theorem bytes_roundtrip_witness :
    ([0x01, 0x02, 0x03] : List Byte).length + 10 < 2 ^ 63 ∧
    ∃ pfx, encodeVarintUint ([0x01, 0x02, 0x03] : List Byte).length = some pfx ∧
      (NewSerializer [0x2A]).SerializeBytes [0x01, 0x02, 0x03] =
        (Res.ok (), { buf := (NewSerializer [0x2A]).buf ++ (pfx ++ [0x01, 0x02, 0x03]) }) ∧
      (NewDeserializer (pfx ++ [0x01, 0x02, 0x03])).DeserializeBytes =
        (Res.ok [0x01, 0x02, 0x03],
          { data := pfx ++ [0x01, 0x02, 0x03], pos := (pfx ++ [0x01, 0x02, 0x03]).length }) :=
  ⟨by decide, bytes_roundtrip (NewSerializer [0x2A]) [0x01, 0x02, 0x03] (by decide)⟩

theorem Serializer.andThen_ok (s1 : Serializer) (next : Serializer → Res Unit × Serializer) :
    Serializer.andThen (Res.ok (), s1) next = next s1 := rfl

theorem toByte_mod (v : Nat) : toByte (v % 2 ^ 8) = toByte v := by
  apply Fin.ext
  show v % 2 ^ 8 % 256 = v % 256
  omega

theorem pushVarintUint_mod (s : Serializer) (n : Nat) :
    s.pushVarintUint (n % 2 ^ 64) =
      (Res.ok (), { buf := s.buf ++ canonicalVarint 9 (n % 2 ^ 64) }) :=
  pushVarintUint64_ok s _ (Nat.mod_lt _ (by decide))

theorem serializeValue_uint8 (L : Lib) (s : Serializer) (v : Nat) :
    s.SerializeValue L (Value.uint8 v) = (Res.ok (), { buf := s.buf ++ [toByte v] }) := by
  rw [Serializer.SerializeValue, Serializer.SerializeUint8, toByte_mod]
  rfl

theorem serializeElems_uint8 (L : Lib) (b : List Nat) :
    ∀ s : Serializer, Serializer.SerializeElems L s (b.map Value.uint8) =
      (Res.ok (), { buf := s.buf ++ b.map toByte }) := by
  induction b with
  | nil => intro s; simp [Serializer.SerializeElems]
  | cons x xs ih =>
    intro s
    rw [List.map_cons, Serializer.SerializeElems, serializeValue_uint8, Serializer.andThen_ok, ih]
    simp

theorem asByte_map (b : List Nat) : (b.map Value.uint8).map Value.asByte = b.map toByte := by
  simp [Value.asByte, Function.comp_def]

theorem serializeBytes_mod (s : Serializer) (v : List Byte) :
    s.SerializeBytes v =
      (Res.ok (), { buf := s.buf ++ (canonicalVarint 9 (v.length % 2 ^ 64) ++ v) }) := by
  unfold Serializer.SerializeBytes
  rw [pushVarintUint_mod]
  simp [Serializer.pushBytes]

theorem encodeVarintUint_mod (n : Nat) :
    encodeVarintUint n = some (canonicalVarint 9 (n % 2 ^ 64)) := by
  unfold encodeVarintUint
  rw [encodeVarintUint64_eq _ (Nat.mod_lt _ (by decide))]

/-- C11: for every list `b` of 8-bit unsigned values, held in a slice of
element kind `uint8`, the element-wise path `SerializeSlice` (count, then each
element through `SerializeValue`, that is `SerializeUint8`), `SerializeBytes`
on the same bytes, and `SerializeValue` all append the same bytes:
`encodeVarintUint(len(b))` followed by the raw bytes. -/
theorem bytes_equals_uint8_sequence (L : Lib) (s : Serializer) (b : List Nat) (isNil : Bool)
    (spare : List Value) :
    ∃ pfx, encodeVarintUint b.length = some pfx ∧
      s.SerializeSlice L (Value.slice Ty.uint8 isNil (b.map Value.uint8) spare) =
        (Res.ok (), { buf := s.buf ++ (pfx ++ b.map toByte) }) ∧
      s.SerializeBytes (b.map toByte) =
        (Res.ok (), { buf := s.buf ++ (pfx ++ b.map toByte) }) ∧
      s.SerializeValue L (Value.slice Ty.uint8 isNil (b.map Value.uint8) spare) =
        (Res.ok (), { buf := s.buf ++ (pfx ++ b.map toByte) }) := by
  refine ⟨_, encodeVarintUint_mod _, ?_, ?_, ?_⟩
  · rw [Serializer.SerializeSlice, List.length_map, pushVarintUint_mod, Serializer.andThen_ok,
      serializeElems_uint8]
    simp
  · rw [serializeBytes_mod, List.length_map]
  · rw [Serializer.SerializeValue]
    simp only [Ty.isUint8, if_true]
    rw [asByte_map, serializeBytes_mod, List.length_map]

theorem framed_pushByte (b : Byte) : Framed (fun s => s.pushByte b) := by
  intro s; simp [Serializer.pushByte]

theorem framed_pushBytes (bs : List Byte) : Framed (fun s => s.pushBytes bs) := by
  intro s; simp [Serializer.pushBytes]

theorem framed_pushEncoded (enc : Option (List Byte)) : Framed (fun s => s.pushEncoded enc) := by
  intro s; cases enc <;> simp [Serializer.pushEncoded]

theorem framed_const (r : Res Unit) : Framed (fun s => (r, s)) := by
  intro s; simp

theorem framed_andThen (F G : Serializer → Res Unit × Serializer) (hF : Framed F)
    (hG : Framed G) : Framed (fun s => Serializer.andThen (F s) G) := by
  intro s
  have h1 := hF s
  rcases h0 : F { buf := [] } with ⟨r, s0⟩
  rw [h0] at h1
  simp only at h1
  beta_reduce
  rw [h1, h0]
  cases r with
  | ok u =>
    cases u
    simp only [Serializer.andThen]
    rw [hG { buf := s.buf ++ s0.buf }, hG s0]
    simp
  | err e => simp [Serializer.andThen]
  | panic => simp [Serializer.andThen]

theorem framed_lenPrefixed (bs : List Byte) : Framed (fun s => s.SerializeBytes bs) := by
  intro s
  beta_reduce
  rw [serializeBytes_mod, serializeBytes_mod]
  simp

theorem framed_congr (F G : Serializer → Res Unit × Serializer) (h : ∀ s, F s = G s)
    (hG : Framed G) : Framed F := by
  have : F = G := funext h
  rw [this]; exact hG

theorem framed_bool (b : Bool) : Framed (fun s => s.SerializeBool b) := by
  cases b
  · exact framed_pushByte 0
  · exact framed_pushByte 1

theorem framed_string (str : List Byte) : Framed (fun s => s.SerializeString str) :=
  framed_lenPrefixed str

theorem framed_float32 (bits : Nat) : Framed (fun s => s.SerializeFloat32 bits) := by
  intro s; simp [Serializer.SerializeFloat32]

theorem framed_float64 (bits : Nat) : Framed (fun s => s.SerializeFloat64 bits) := by
  intro s; simp [Serializer.SerializeFloat64]

theorem framed_int (v : Int) : Framed (fun s => s.SerializeInt v) :=
  framed_pushEncoded (encodeVarintUint (zigzagEncodeInt v))

theorem framed_int8 (v : Int) : Framed (fun s => s.SerializeInt8 v) :=
  framed_pushByte (toByte (toUint 8 v))

theorem framed_int16 (v : Int) : Framed (fun s => s.SerializeInt16 v) :=
  framed_pushEncoded (encodeVarintUint16 (zigzagEncodeInt16 v))

theorem framed_int32 (v : Int) : Framed (fun s => s.SerializeInt32 v) :=
  framed_pushEncoded (encodeVarintUint32 (zigzagEncodeInt32 v))

theorem framed_int64 (v : Int) : Framed (fun s => s.SerializeInt64 v) :=
  framed_pushEncoded (encodeVarintUint64 (zigzagEncodeInt64 v))

theorem framed_uint (v : Nat) : Framed (fun s => s.SerializeUint v) :=
  framed_pushEncoded (encodeVarintUint v)

theorem framed_uint8 (v : Nat) : Framed (fun s => s.SerializeUint8 v) :=
  framed_pushByte (toByte v)

theorem framed_uint16 (v : Nat) : Framed (fun s => s.SerializeUint16 v) :=
  framed_pushEncoded (encodeVarintUint16 v)

theorem framed_uint32 (v : Nat) : Framed (fun s => s.SerializeUint32 v) :=
  framed_pushEncoded (encodeVarintUint32 v)

theorem framed_uint64 (v : Nat) : Framed (fun s => s.SerializeUint64 v) :=
  framed_pushEncoded (encodeVarintUint64 v)

mutual
theorem framed_value (L : Lib) : ∀ v : Value, Framed (fun s => s.SerializeValue L v)
  | Value.nil => framed_congr _ _ (fun s => by rw [Serializer.SerializeValue]) (framed_pushByte 0)
  | Value.bool b => framed_congr _ _ (fun s => by rw [Serializer.SerializeValue]) (framed_bool b)
  | Value.int v =>
    framed_congr _ _ (fun s => by rw [Serializer.SerializeValue]) (framed_int _)
  | Value.int8 v =>
    framed_congr _ _ (fun s => by rw [Serializer.SerializeValue]) (framed_int8 _)
  | Value.int16 v =>
    framed_congr _ _ (fun s => by rw [Serializer.SerializeValue]) (framed_int16 _)
  | Value.int32 v =>
    framed_congr _ _ (fun s => by rw [Serializer.SerializeValue]) (framed_int32 _)
  | Value.int64 v =>
    framed_congr _ _ (fun s => by rw [Serializer.SerializeValue]) (framed_int64 _)
  | Value.uint v =>
    framed_congr _ _ (fun s => by rw [Serializer.SerializeValue]) (framed_uint _)
  | Value.uint8 v =>
    framed_congr _ _ (fun s => by rw [Serializer.SerializeValue]) (framed_uint8 _)
  | Value.uint16 v =>
    framed_congr _ _ (fun s => by rw [Serializer.SerializeValue]) (framed_uint16 _)
  | Value.uint32 v =>
    framed_congr _ _ (fun s => by rw [Serializer.SerializeValue]) (framed_uint32 _)
  | Value.uint64 v =>
    framed_congr _ _ (fun s => by rw [Serializer.SerializeValue]) (framed_uint64 _)
  | Value.float32 bits =>
    framed_congr _ _ (fun s => by rw [Serializer.SerializeValue]) (framed_float32 _)
  | Value.float64 bits =>
    framed_congr _ _ (fun s => by rw [Serializer.SerializeValue]) (framed_float64 _)
  | Value.string str =>
    framed_congr _ _ (fun s => by rw [Serializer.SerializeValue]) (framed_string str)
  | Value.slice elem isNil xs spare => by
    by_cases h : elem.isUint8 = true
    · exact framed_congr _ _ (fun s => by rw [Serializer.SerializeValue]; simp only [h, if_true])
        (framed_lenPrefixed (xs.map Value.asByte))
    · exact framed_congr _ _
        (fun s => by
          rw [Serializer.SerializeValue]
          simp only [h, Bool.false_eq_true, if_false]
          rfl)
        (framed_andThen _ _ (framed_uint (xs.length % 2 ^ 64)) (framed_elems L xs))
  | Value.array xs =>
    framed_congr _ _ (fun s => by rw [Serializer.SerializeValue]) (framed_elems L xs)
  | Value.map isNil entries =>
    framed_congr _ _ (fun s => by rw [Serializer.SerializeValue]; rfl)
      (framed_andThen _ _ (framed_uint (entries.length % 2 ^ 64)) (framed_entries L entries))
  | Value.struct fields =>
    framed_congr _ _ (fun s => by rw [Serializer.SerializeValue]) (framed_fields L fields)
  | Value.nilPtr => framed_congr _ _ (fun s => by rw [Serializer.SerializeValue]) (framed_pushByte 0)
  | Value.ptr target =>
    framed_congr _ _ (fun s => by rw [Serializer.SerializeValue]) (framed_value L target)
  | Value.other =>
    framed_congr _ _ (fun s => by rw [Serializer.SerializeValue]) (framed_const _)
theorem framed_elems (L : Lib) : ∀ xs : List Value, Framed (fun s => Serializer.SerializeElems L s xs)
  | [] => framed_congr _ _ (fun s => by rw [Serializer.SerializeElems]) (framed_const _)
  | x :: xs =>
    framed_congr _ _ (fun s => by rw [Serializer.SerializeElems])
      (framed_andThen _ _ (framed_value L x) (framed_elems L xs))
theorem framed_entries (L : Lib) :
    ∀ es : List (Value × Value), Framed (fun s => Serializer.SerializeEntries L s es)
  | [] => framed_congr _ _ (fun s => by rw [Serializer.SerializeEntries]) (framed_const _)
  | (key, value) :: rest =>
    framed_congr _ _ (fun s => by rw [Serializer.SerializeEntries])
      (framed_andThen _ _ (framed_value L key)
        (framed_andThen _ _ (framed_value L value) (framed_entries L rest)))
theorem framed_fields (L : Lib) :
    ∀ fs : List (StructField Value), Framed (fun s => Serializer.SerializeFields L s fs)
  | [] => framed_congr _ _ (fun s => by rw [Serializer.SerializeFields]) (framed_const _)
  | f :: fs => by
    by_cases h : f.exported = true
    · exact framed_congr _ _
        (fun s => by rw [Serializer.SerializeFields]; simp only [h, Bool.not_true, Bool.false_eq_true, if_false])
        (framed_andThen _ _ (framed_value L f.val) (framed_fields L fs))
    · exact framed_congr _ _
        (fun s => by rw [Serializer.SerializeFields]; simp [h])
        (framed_fields L fs)
end

theorem serialize_ok_iff (L : Lib) (v : Value) (b : List Byte) :
    Serialize L v = Res.ok b ↔
      Serializer.SerializeValue L { buf := [] } v = (Res.ok (), { buf := b }) := by
  simp only [Serialize, NewSerializer, Serializer.Result]
  rcases Serializer.SerializeValue L { buf := [] } v with ⟨r, s1⟩
  cases r with
  | ok u =>
    cases u
    cases s1
    simp
  | err e => simp
  | panic => simp

theorem serializeValue_of_serialize (L : Lib) (v : Value) (b : List Byte)
    (h : Serialize L v = Res.ok b) (s : Serializer) :
    s.SerializeValue L v = (Res.ok (), { buf := s.buf ++ b }) := by
  have h1 := (serialize_ok_iff L v b).1 h
  have h2 := framed_value L v s
  beta_reduce at h2
  rw [h2, h1]

theorem serialize_eq_of_serializeValue (L : Lib) (v w : Value)
    (h : ∀ s : Serializer, s.SerializeValue L v = s.SerializeValue L w) :
    Serialize L v = Serialize L w := by
  simp only [Serialize]
  rw [h]

theorem serializeFields_eq_elems (L : Lib) :
    ∀ (fs : List (StructField Value)) (s : Serializer),
      Serializer.SerializeFields L s fs = Serializer.SerializeElems L s (exportedValues fs) := by
  intro fs
  induction fs with
  | nil => intro s; simp [exportedValues, Serializer.SerializeFields, Serializer.SerializeElems]
  | cons f fs ih =>
    intro s
    rw [Serializer.SerializeFields]
    by_cases h : f.exported = true
    · have he : exportedValues (f :: fs) = f.val :: exportedValues fs := by
        simp [exportedValues, h]
      rw [he, Serializer.SerializeElems]
      simp only [h, Bool.not_true, Bool.false_eq_true, if_false]
      congr 1
      funext s1
      exact ih s1
    · have he : exportedValues (f :: fs) = exportedValues fs := by
        simp [exportedValues, h]
      rw [he]
      simp only [h, Bool.not_false, if_true]
      exact ih s

theorem serializeElems_join (L : Lib) (xs : List Value) (encs : List (List Byte))
    (h : List.Forall₂ (fun v b => Serialize L v = Res.ok b) xs encs) :
    ∀ s : Serializer, Serializer.SerializeElems L s xs =
      (Res.ok (), { buf := s.buf ++ encs.flatten }) := by
  induction h with
  | nil => intro s; simp [Serializer.SerializeElems]
  | cons hx _ ih =>
    intro s
    rw [Serializer.SerializeElems, serializeValue_of_serialize L _ _ hx s,
      Serializer.andThen_ok, ih]
    simp

theorem serializeValue_struct (L : Lib) (fs : List (StructField Value)) (s : Serializer) :
    s.SerializeValue L (Value.struct fs) = Serializer.SerializeElems L s (exportedValues fs) := by
  rw [Serializer.SerializeValue, serializeFields_eq_elems]

theorem exportedValues_rename (rename : String → String) (fs : List (StructField Value)) :
    exportedValues (fs.map fun f => { f with name := rename f.name }) = exportedValues fs := by
  induction fs with
  | nil => rfl
  | cons f fs ih =>
    simp only [exportedValues, List.map_cons] at ih ⊢
    by_cases h : f.exported = true
    · simp only [List.filter_cons, h, if_true, List.map_cons, ih]
    · simp only [List.filter_cons, h, Bool.false_eq_true, if_false, ih]

theorem exportedValues_filter (fs : List (StructField Value)) :
    exportedValues (fs.filter fun f => f.exported) = exportedValues fs := by
  simp [exportedValues, List.filter_filter]

/-- C12: serializing a struct is serializing the values of its exported fields
one after the other in declared order, with nothing in between: the output is
the concatenation of the fields' encodings; two structs whose exported fields
hold the same values in the same order give the same bytes (so renaming the
fields changes nothing), and unexported fields contribute no bytes. -/
theorem struct_wire_form (L : Lib) (fields other : List (StructField Value))
    (encs : List (List Byte)) (rename : String → String) :
    (∀ s : Serializer,
      s.SerializeStruct L (Value.struct fields) =
        Serializer.SerializeElems L s (exportedValues fields) ∧
      s.SerializeValue L (Value.struct fields) =
        Serializer.SerializeElems L s (exportedValues fields)) ∧
    (List.Forall₂ (fun v b => Serialize L v = Res.ok b) (exportedValues fields) encs →
      Serialize L (Value.struct fields) = Res.ok encs.flatten) ∧
    (exportedValues fields = exportedValues other →
      Serialize L (Value.struct fields) = Serialize L (Value.struct other)) ∧
    Serialize L (Value.struct (fields.map fun f => { f with name := rename f.name })) =
      Serialize L (Value.struct fields) ∧
    Serialize L (Value.struct (fields.filter fun f => f.exported)) =
      Serialize L (Value.struct fields) := by
  refine ⟨fun s => ⟨?_, serializeValue_struct L fields s⟩, ?_, ?_, ?_, ?_⟩
  · rw [Serializer.SerializeStruct, serializeFields_eq_elems]
  · intro h
    rw [serialize_ok_iff, serializeValue_struct, serializeElems_join L _ _ h]
    simp
  · intro h
    apply serialize_eq_of_serializeValue
    intro s
    rw [serializeValue_struct, serializeValue_struct, h]
  · apply serialize_eq_of_serializeValue
    intro s
    rw [serializeValue_struct, serializeValue_struct, exportedValues_rename]
  · apply serialize_eq_of_serializeValue
    intro s
    rw [serializeValue_struct, serializeValue_struct, exportedValues_filter]

theorem struct_wire_form_witness :
    List.Forall₂ (fun v b => Serialize { utf8Valid := utf8Valid, float32Conv := id } v = Res.ok b)
        (exportedValues [⟨"A", true, Value.uint16 300⟩, ⟨"hidden", false, Value.bool true⟩,
          ⟨"B", true, Value.string [0x68, 0x69]⟩])
        [[0xAC, 0x02], [0x02, 0x68, 0x69]] ∧
      Serialize { utf8Valid := utf8Valid, float32Conv := id }
          (Value.struct [⟨"A", true, Value.uint16 300⟩, ⟨"hidden", false, Value.bool true⟩,
            ⟨"B", true, Value.string [0x68, 0x69]⟩]) =
        Res.ok ([[0xAC, 0x02], [0x02, 0x68, 0x69]] : List (List Byte)).flatten :=
  have h : List.Forall₂
      (fun v b => Serialize { utf8Valid := utf8Valid, float32Conv := id } v = Res.ok b)
      (exportedValues [⟨"A", true, Value.uint16 300⟩, ⟨"hidden", false, Value.bool true⟩,
        ⟨"B", true, Value.string [0x68, 0x69]⟩])
      [[0xAC, 0x02], [0x02, 0x68, 0x69]] :=
    List.Forall₂.cons (by decide) (List.Forall₂.cons (by decide) List.Forall₂.nil)
  ⟨h, (struct_wire_form _ _ [] _ id).2.1 h⟩

theorem decodes_congr {α : Type} (f g : Deserializer → Res α × Deserializer) (enc : List Byte)
    (x : α) (h : ∀ d, f d = g d) (hg : Decodes g enc x) : Decodes f enc x := by
  have : f = g := funext h
  rw [this]; exact hg

theorem decodes_pure {α : Type} (x : α) :
    Decodes (fun d => ((Res.ok x : Res α), d)) [] x := by
  intro data pos _ _
  refine ⟨fun rest _ => by simp, fun tail ht h => ?_⟩
  simp at h
  exact absurd h.2 ht

theorem drop_append_split (data : List Byte) (pos : Nat) (e1 e2 tail : List Byte)
    (_hpos : pos ≤ data.length) (h : data.drop pos ++ tail = e1 ++ e2) :
    (∃ t1, t1 ≠ [] ∧ data.drop pos ++ t1 = e1) ∨
      (∃ rest, data.drop pos = e1 ++ rest ∧ rest ++ tail = e2) := by
  rcases (List.append_eq_append_iff.1 h) with ⟨a, h1, h2⟩ | ⟨c, h1, h2⟩
  · by_cases ha : a = []
    · right
      subst ha
      refine ⟨[], ?_, ?_⟩
      · simpa using h1.symm
      · simpa using h2
    · left
      exact ⟨a, ha, h1.symm⟩
  · right
    exact ⟨c, h1, h2.symm⟩

theorem drop_drop_of_eq (data : List Byte) (pos : Nat) (e1 rest : List Byte)
    (h : data.drop pos = e1 ++ rest) : data.drop (pos + e1.length) = rest := by
  rw [← List.drop_drop, h, List.drop_left]

theorem le_length_of_drop (data : List Byte) (pos : Nat) (e1 rest : List Byte)
    (hpos : pos ≤ data.length) (h : data.drop pos = e1 ++ rest) :
    pos + e1.length ≤ data.length := by
  have := congrArg List.length h
  simp only [List.length_drop, List.length_append] at this
  omega

theorem decodes_andThen {α β : Type} (f : Deserializer → Res α × Deserializer)
    (g : α → Deserializer → Res β × Deserializer) (e1 e2 : List Byte) (x : α) (y : β)
    (hf : Decodes f e1 x) (hg : Decodes (g x) e2 y) :
    Decodes (fun d => Deserializer.andThen (f d) g) (e1 ++ e2) y := by
  intro data pos hpos hlen
  rw [List.length_append] at hlen
  obtain ⟨hf1, hf2⟩ := hf data pos hpos (by omega)
  constructor
  · intro rest hrest
    rw [List.append_assoc] at hrest
    obtain ⟨hg1, _⟩ := hg data (pos + e1.length) (le_length_of_drop data pos e1 _ hpos hrest)
      (by omega)
    beta_reduce
    rw [hf1 _ hrest]
    simp only [Deserializer.andThen]
    rw [hg1 rest (drop_drop_of_eq data pos e1 _ hrest), List.length_append, Nat.add_assoc]
  · intro tail ht h
    beta_reduce
    rcases drop_append_split data pos e1 e2 tail hpos h with ⟨t1, ht1, h1⟩ | ⟨rest, h1, h2⟩
    · obtain ⟨p, hp⟩ := hf2 t1 ht1 h1
      exact ⟨p, by rw [hp]; rfl⟩
    · obtain ⟨_, hg2⟩ := hg data (pos + e1.length) (le_length_of_drop data pos e1 _ hpos h1)
        (by omega)
      rw [hf1 rest h1]
      simp only [Deserializer.andThen]
      have hd := drop_drop_of_eq data pos e1 rest h1
      exact hg2 tail ht (by rw [hd]; exact h2)

theorem decodes_map {α β : Type} (f : Deserializer → Res α × Deserializer) (k : α → β)
    (enc : List Byte) (x : α) (hf : Decodes f enc x) :
    Decodes (fun d => Deserializer.andThen (f d) fun a d1 => (Res.ok (k a), d1)) enc (k x) := by
  have h := decodes_andThen f (fun a d1 => (Res.ok (k a), d1)) enc [] x (k x) hf
    (decodes_pure (k x))
  rw [List.append_nil] at h
  exact h

theorem scanVarint_truncated (m : Nat) :
    ∀ (avail : List Byte) (t : Nat), (∀ b ∈ avail, 128 ≤ b.val) → avail.length ≤ t →
      ∃ c, scanVarint m (t + 1) avail = (Res.err Error.ErrDeserializeUnexpectedEnd, c) := by
  intro avail
  induction avail with
  | nil => intro t _ _; exact ⟨0, by simp [scanVarint]⟩
  | cons b bs ih =>
    intro t hall hlen
    obtain ⟨t1, rfl⟩ : ∃ t1, t = t1 + 1 := ⟨t - 1, by simp at hlen; omega⟩
    have hb : ¬ b.val < 128 := by
      have := hall b (List.mem_cons_self _ _)
      omega
    obtain ⟨c, hc⟩ := ih t1 (fun x hx => hall x (List.mem_cons_of_mem _ hx))
      (by simp at hlen; omega)
    rw [scanVarint_cons_high m (t1 + 1) b bs hb, hc]
    exact ⟨c + 1, rfl⟩

theorem strict_prefix_of_snoc (avail tail pre : List Byte) (last : Byte) (ht : tail ≠ [])
    (h : avail ++ tail = pre ++ [last]) :
    avail.length ≤ pre.length ∧ ∀ b ∈ avail, b ∈ pre := by
  have hlen := congrArg List.length h
  simp only [List.length_append, List.length_singleton] at hlen
  have htl : 0 < tail.length := List.length_pos.2 ht
  have hle : avail.length ≤ pre.length := by omega
  refine ⟨hle, ?_⟩
  have : avail = pre.take avail.length := by
    have h1 : (avail ++ tail).take avail.length = avail := List.take_left _ _
    rw [h, List.take_append_of_le_length hle] at h1
    exact h1.symm
  intro b hb
  rw [this] at hb
  exact List.mem_of_mem_take hb

theorem decodes_runVarint (dec : List Byte → Nat → Res Nat × Nat) (m t len n : Nat)
    (hdec : ∀ data pos, dec data pos =
      ((scanVarint m (t + 1) (data.drop pos)).1, pos + (scanVarint m (t + 1) (data.drop pos)).2))
    (hm : m < 128) (hlen : t ≤ len) (hn : n < (m + 1) * 128 ^ t) :
    Decodes (fun d => d.runVarint dec) (canonicalVarint len n) n := by
  intro data pos _ _
  constructor
  · intro rest hrest
    simp only [Deserializer.runVarint, hdec, hrest, scanVarint_canonical m hm t len n rest hlen hn]
  · intro tail ht h
    have hn2 : n < 128 ^ (len + 1) := by
      have h1 : (m + 1) * 128 ^ t ≤ 128 * 128 ^ len :=
        Nat.mul_le_mul (by omega) (Nat.pow_le_pow_right (by decide) hlen)
      rw [Nat.pow_succ, Nat.mul_comm (128 ^ len)]
      omega
    obtain ⟨pre, last, hcan, hpre, _, hplen, _, _, _⟩ := canonicalVarint_shape len n hn2
    rw [hcan] at h
    obtain ⟨hle, hmem⟩ := strict_prefix_of_snoc _ tail pre last ht h
    have hcut : t ≤ len := hlen
    -- the canonical encoding of `n` has at most `t` continuation bytes
    have hpt : pre.length ≤ t := by
      by_contra hgt
      have hgt2 : t + 1 ≤ pre.length := by omega
      obtain ⟨_, _, hcan2, _, _, _, hub, hlb, _⟩ := canonicalVarint_shape len n hn2
      obtain ⟨hp, _⟩ := List.append_inj' (hcan.symm.trans hcan2) rfl
      subst hp
      rcases hlb with hlb | hlb
      · have h1 : 128 ^ (t + 1) ≤ 128 ^ pre.length := Nat.pow_le_pow_right (by decide) hgt2
        have h2 : (m + 1) * 128 ^ t ≤ 128 * 128 ^ t := Nat.mul_le_mul_right _ (by omega)
        rw [Nat.pow_succ, Nat.mul_comm (128 ^ t)] at h1
        omega
      · rw [hlb] at hgt2; simp at hgt2
    obtain ⟨c, hc⟩ := scanVarint_truncated m (data.drop pos) t
      (fun b hb => hpre b (hmem b hb)) (by omega)
    exact ⟨pos + c, by simp only [Deserializer.runVarint, hdec, hc]⟩

theorem decodes_popByte (b : Byte) : Decodes (fun d => d.popByte) [b] b := by
  intro data pos hpos _
  constructor
  · intro rest hrest
    have hlt : pos < data.length := by
      by_contra hge
      rw [List.drop_eq_nil_of_le (by omega)] at hrest
      simp at hrest
    have hb : data[pos] = b := by
      have h1 := List.drop_eq_getElem_cons hlt
      rw [h1] at hrest
      injection hrest
    simp [Deserializer.popByte, hlt, hb]
  · intro tail ht h
    have hlen := congrArg List.length h
    simp only [List.length_append, List.length_drop, List.length_singleton] at hlen
    have htl : 0 < tail.length := List.length_pos.2 ht
    have hge : ¬ pos < data.length := by omega
    exact ⟨pos, by simp [Deserializer.popByte, hge]⟩

theorem decodes_takeBytes (bytes : List Byte) :
    Decodes (fun d => d.takeBytes (toInt 64 (bytes.length : Int))) bytes bytes := by
  intro data pos hpos hlen
  constructor
  · intro rest hrest
    have hdata : data = data.take pos ++ (bytes ++ rest) := by
      rw [← hrest, List.take_append_drop]
    have hl : (data.take pos).length = pos := by
      rw [List.length_take]; omega
    have h := takeBytes_exact (data.take pos) bytes rest (by omega)
    rw [← hdata, hl] at h
    exact h
  · intro tail ht h
    have hl := congrArg List.length h
    simp only [List.length_append, List.length_drop] at hl
    have htl : 0 < tail.length := List.length_pos.2 ht
    have h1 : toInt 64 (bytes.length : Int) = (bytes.length : Int) := toInt64_of_lt _ (by omega)
    have h2 : toInt 64 ((pos : Int) + (bytes.length : Int)) =
        ((pos + bytes.length : Nat) : Int) := by
      rw [← Int.ofNat_add]
      exact toInt64_of_lt _ hlen
    refine ⟨pos, ?_⟩
    unfold Deserializer.takeBytes
    simp only [h1, h2]
    have hgt : ((pos + bytes.length : Nat) : Int) > ((data.length : Nat) : Int) := by omega
    simp only [hgt, if_true]

theorem littleEndianBytes_length (k n : Nat) : (littleEndianBytes k n).length = k := by
  induction k generalizing n with
  | zero => rfl
  | succ k ih => simp [littleEndianBytes, ih]

theorem decodes_fixed (k : Nat) (enc : List Byte) (hk : enc.length = k) :
    Decodes (fun d => d.runVarint (decodeFixedLE k)) enc (littleEndianValue enc) := by
  intro data pos hpos hlen
  constructor
  · intro rest hrest
    have hle := le_length_of_drop data pos enc rest hpos hrest
    have hsl : List.drop pos (List.take (pos + k) data) = enc := by
      rw [List.drop_take, hrest, Nat.add_sub_cancel_left, ← hk, List.take_left]
    simp only [Deserializer.runVarint, decodeFixedLE]
    have hng : ¬ (pos + k > data.length) := by omega
    simp only [hng, if_false, hsl, hk]
  · intro tail ht h
    have hl := congrArg List.length h
    simp only [List.length_append, List.length_drop] at hl
    have htl : 0 < tail.length := List.length_pos.2 ht
    have hgt : pos + k > data.length := by omega
    exact ⟨pos, by simp only [Deserializer.runVarint, decodeFixedLE, hgt, if_true]⟩

theorem zigzagAfter_eq_andThen (d : Deserializer) (dec : List Byte → Nat → Res Nat × Nat)
    (zz : Nat → Int) :
    d.zigzagAfter dec zz =
      Deserializer.andThen (d.runVarint dec) fun v d1 => (Res.ok (zz v), d1) := by
  unfold Deserializer.zigzagAfter Deserializer.andThen
  rcases d.runVarint dec with ⟨r, d1⟩
  cases r <;> rfl

theorem decodes_zigzagAfter (dec : List Byte → Nat → Res Nat × Nat) (zz : Nat → Int)
    (enc : List Byte) (n : Nat) (h : Decodes (fun d => d.runVarint dec) enc n) :
    Decodes (fun d => d.zigzagAfter dec zz) enc (zz n) :=
  decodes_congr _ _ _ _ (fun d => zigzagAfter_eq_andThen d dec zz)
    (decodes_map (fun d => d.runVarint dec) zz enc n h)

theorem decodes_uint16 (n : Nat) (h : n < 2 ^ 16) :
    Decodes (fun d => d.DeserializeUint16) (canonicalVarint 2 n) n :=
  decodes_runVarint decodeVarintUint16 3 2 2 n decodeVarintUint16_eq_scan (by decide)
    (le_refl _) (by omega)

theorem decodes_uint32 (n : Nat) (h : n < 2 ^ 32) :
    Decodes (fun d => d.DeserializeUint32) (canonicalVarint 4 n) n :=
  decodes_runVarint decodeVarintUint32 15 4 4 n decodeVarintUint32_eq_scan (by decide)
    (le_refl _) (by omega)

theorem decodes_uint64 (n : Nat) (h : n < 2 ^ 64) :
    Decodes (fun d => d.DeserializeUint64) (canonicalVarint 9 n) n :=
  decodes_runVarint decodeVarintUint64 1 9 9 n decodeVarintUint64_eq_scan (by decide)
    (le_refl _) (by omega)

theorem decodes_uint (n : Nat) (h : n < 2 ^ 64) :
    Decodes (fun d => d.DeserializeUint) (canonicalVarint 9 n) n :=
  decodes_runVarint decodeVarintUint 1 9 9 n decodeVarintUint64_eq_scan (by decide)
    (le_refl _) (by omega)

theorem decodes_int16 (v : Int) (hlo : -2 ^ 15 ≤ v) (hhi : v < 2 ^ 15) :
    Decodes (fun d => d.DeserializeInt16) (canonicalVarint 2 (zigzagEncodeInt16 v)) v := by
  have h := decodes_zigzagAfter decodeVarintUint16 zigzagDecodeInt16 _ _
    (decodes_uint16 _ (zigzagEncodeInt16_lt v hlo hhi))
  rw [zigzag16_decode_encode v hlo hhi] at h
  exact h

theorem decodes_int32 (v : Int) (hlo : -2 ^ 31 ≤ v) (hhi : v < 2 ^ 31) :
    Decodes (fun d => d.DeserializeInt32) (canonicalVarint 4 (zigzagEncodeInt32 v)) v := by
  have h := decodes_zigzagAfter decodeVarintUint32 zigzagDecodeInt32 _ _
    (decodes_uint32 _ (zigzagEncodeInt32_lt v hlo hhi))
  rw [zigzag32_decode_encode v hlo hhi] at h
  exact h

theorem decodes_int64 (v : Int) (hlo : -2 ^ 63 ≤ v) (hhi : v < 2 ^ 63) :
    Decodes (fun d => d.DeserializeInt64) (canonicalVarint 9 (zigzagEncodeInt64 v)) v := by
  have h := decodes_zigzagAfter decodeVarintUint64 zigzagDecodeInt64 _ _
    (decodes_uint64 _ (zigzagEncodeInt64_lt v hlo hhi))
  rw [zigzag64_decode_encode v hlo hhi] at h
  exact h

theorem toInt64_of_range (v : Int) (hlo : -2 ^ 63 ≤ v) (hhi : v < 2 ^ 63) : toInt 64 v = v := by
  unfold toInt
  rw [Int.bmod_def]
  split <;> omega

theorem toUint64_of_lt (n : Nat) (h : n < 2 ^ 64) : toUint 64 (n : Int) = n := by
  unfold toUint
  have : ((n : Int) % 2 ^ 64) = (n : Int) := by omega
  rw [this]
  rfl

theorem zigzagEncodeInt_eq (v : Int) (hlo : -2 ^ 63 ≤ v) (hhi : v < 2 ^ 63) :
    zigzagEncodeInt v = zigzagEncodeInt64 v := by
  unfold zigzagEncodeInt
  rw [toInt64_of_range v hlo hhi, toUint64_of_lt _ (zigzagEncodeInt64_lt v hlo hhi)]

theorem zigzagDecodeInt_encode (v : Int) (hlo : -2 ^ 63 ≤ v) (hhi : v < 2 ^ 63) :
    zigzagDecodeInt (zigzagEncodeInt64 v) = v := by
  unfold zigzagDecodeInt
  rw [Nat.mod_eq_of_lt (zigzagEncodeInt64_lt v hlo hhi), zigzag64_decode_encode v hlo hhi,
    toInt64_of_range v hlo hhi]

theorem decodes_int (v : Int) (hlo : -2 ^ 63 ≤ v) (hhi : v < 2 ^ 63) :
    Decodes (fun d => d.DeserializeInt) (canonicalVarint 9 (zigzagEncodeInt64 v)) v := by
  have h := decodes_zigzagAfter decodeVarintUint zigzagDecodeInt _ _
    (decodes_uint _ (zigzagEncodeInt64_lt v hlo hhi))
  rw [zigzagDecodeInt_encode v hlo hhi] at h
  exact h

theorem decodes_bool (b : Bool) :
    Decodes (fun d => d.DeserializeBool) [if b then 1 else 0] b := by
  have h := decodes_andThen (fun d => d.popByte)
    (fun (x : Byte) d1 =>
      if x = 0 then ((Res.ok false : Res Bool), d1)
      else if x = 1 then (Res.ok true, d1)
      else (Res.err Error.ErrDeserializeBadBool, d1))
    [if b then 1 else 0] [] (if b then 1 else 0) b (decodes_popByte _)
    (by cases b <;> exact decodes_pure _)
  rw [List.append_nil] at h
  exact h

theorem decodes_uint8 (b : Byte) : Decodes (fun d => d.DeserializeUint8) [b] b.val :=
  decodes_map (fun d => d.popByte) (fun x => x.val) [b] b (decodes_popByte b)

theorem decodes_int8 (b : Byte) :
    Decodes (fun d => d.DeserializeInt8) [b] (toInt 8 (b.val : Int)) :=
  decodes_map (fun d => d.popByte) (fun x => toInt 8 (x.val : Int)) [b] b (decodes_popByte b)

theorem decodes_float32 (enc : List Byte) (h : enc.length = 4) :
    Decodes (fun d => d.DeserializeFloat32) enc (littleEndianValue enc) :=
  decodes_fixed 4 enc h

theorem decodes_float64 (enc : List Byte) (h : enc.length = 8) :
    Decodes (fun d => d.DeserializeFloat64) enc (littleEndianValue enc) :=
  decodes_fixed 8 enc h

theorem deserializeBytes_eq_andThen (d : Deserializer) :
    d.DeserializeBytes =
      Deserializer.andThen d.DeserializeUint fun sz d1 => d1.takeBytes (toInt 64 sz) := by
  unfold Deserializer.DeserializeBytes Deserializer.andThen
  rcases d.DeserializeUint with ⟨r, d1⟩
  cases r <;> rfl

theorem decodes_bytes (bytes : List Byte) (h : bytes.length < 2 ^ 63) :
    Decodes (fun d => d.DeserializeBytes) (canonicalVarint 9 bytes.length ++ bytes) bytes :=
  decodes_congr _ _ _ _ deserializeBytes_eq_andThen
    (decodes_andThen (fun d => d.DeserializeUint) (fun sz d1 => d1.takeBytes (toInt 64 sz))
      _ _ bytes.length bytes (decodes_uint _ (by omega)) (decodes_takeBytes bytes))

theorem takeValid_eq_andThen (valid : List Byte → Bool) (d : Deserializer) (n : Int) :
    Deserializer.takeValid valid d n =
      Deserializer.andThen (d.takeBytes n) fun bytes d1 =>
        if !valid bytes then (Res.err Error.ErrDeserializeBadUtf8, d1)
        else (Res.ok bytes, d1) := by
  unfold Deserializer.takeValid Deserializer.andThen
  rcases d.takeBytes n with ⟨r, d1⟩
  cases r <;> rfl

theorem andThen_ok_eq {α β : Type} (x : α) (d1 : Deserializer)
    (next : α → Deserializer → Res β × Deserializer) :
    Deserializer.andThen (Res.ok x, d1) next = next x d1 := rfl

theorem andThen_err_eq {α β : Type} (e : Error) (d1 : Deserializer)
    (next : α → Deserializer → Res β × Deserializer) :
    Deserializer.andThen ((Res.err e : Res α), d1) next = (Res.err e, d1) := rfl

theorem andThen_panic_eq {α β : Type} (d1 : Deserializer)
    (next : α → Deserializer → Res β × Deserializer) :
    Deserializer.andThen ((Res.panic : Res α), d1) next = (Res.panic, d1) := rfl

theorem deserializeString_eq_andThen (valid : List Byte → Bool) (d : Deserializer) :
    d.DeserializeString valid =
      Deserializer.andThen d.DeserializeUint fun sz d1 =>
        Deserializer.andThen (d1.takeBytes (toInt 64 sz)) fun bytes d2 =>
          if !valid bytes then (Res.err Error.ErrDeserializeBadUtf8, d2)
          else (Res.ok bytes, d2) := by
  unfold Deserializer.DeserializeString
  generalize d.DeserializeUint = r
  rcases r with ⟨r, d1⟩
  cases r with
  | ok sz =>
    rw [andThen_ok_eq, ← takeValid_eq_andThen]
    show (if sz > 4 then _ else _) = _
    exact ite_self _
  | err e => rw [andThen_err_eq]
  | panic => rw [andThen_panic_eq]

theorem decodes_string (valid : List Byte → Bool) (str : List Byte) (h : str.length < 2 ^ 63)
    (hv : valid str = true) :
    Decodes (fun d => d.DeserializeString valid) (canonicalVarint 9 str.length ++ str) str := by
  refine decodes_congr _ _ _ _ (deserializeString_eq_andThen valid) ?_
  refine decodes_andThen (fun d => d.DeserializeUint) _ _ _ str.length str
    (decodes_uint _ (by omega)) ?_
  have h2 := decodes_andThen (fun d => d.takeBytes (toInt 64 (str.length : Int)))
    (fun bytes d2 =>
      if !valid bytes then ((Res.err Error.ErrDeserializeBadUtf8 : Res (List Byte)), d2)
      else (Res.ok bytes, d2))
    str [] str str (decodes_takeBytes str)
    (by simp only [hv, Bool.not_true, Bool.false_eq_true, if_false]; exact decodes_pure str)
  rw [List.append_nil] at h2
  exact h2

/-! ### Scalars through `SerializeValue` and `DeserializeValue` -/

theorem ser_bool (L : Lib) (s : Serializer) (b : Bool) :
    s.SerializeValue L (Value.bool b) = (Res.ok (), { buf := s.buf ++ [if b then 1 else 0] }) := by
  rw [Serializer.SerializeValue, Serializer.SerializeBool]
  cases b <;> rfl

theorem ser_int (L : Lib) (s : Serializer) (v : Int) (hlo : -2 ^ 63 ≤ v) (hhi : v < 2 ^ 63) :
    s.SerializeValue L (Value.int v) =
      (Res.ok (), { buf := s.buf ++ canonicalVarint 9 (zigzagEncodeInt64 v) }) := by
  rw [Serializer.SerializeValue, Serializer.SerializeInt, toInt64_of_range v hlo hhi,
    zigzagEncodeInt_eq v hlo hhi]
  exact pushVarintUint64_ok s _ (zigzagEncodeInt64_lt v hlo hhi)

theorem toInt16_of_range (v : Int) (hlo : -2 ^ 15 ≤ v) (hhi : v < 2 ^ 15) : toInt 16 v = v := by
  unfold toInt
  rw [Int.bmod_def]
  split <;> omega

theorem toInt32_of_range (v : Int) (hlo : -2 ^ 31 ≤ v) (hhi : v < 2 ^ 31) : toInt 32 v = v := by
  unfold toInt
  rw [Int.bmod_def]
  split <;> omega

theorem ser_int16 (L : Lib) (s : Serializer) (v : Int) (hlo : -2 ^ 15 ≤ v) (hhi : v < 2 ^ 15) :
    s.SerializeValue L (Value.int16 v) =
      (Res.ok (), { buf := s.buf ++ canonicalVarint 2 (zigzagEncodeInt16 v) }) := by
  rw [Serializer.SerializeValue, toInt16_of_range v hlo hhi]
  exact serializeInt16_eq s v hlo hhi

theorem ser_int32 (L : Lib) (s : Serializer) (v : Int) (hlo : -2 ^ 31 ≤ v) (hhi : v < 2 ^ 31) :
    s.SerializeValue L (Value.int32 v) =
      (Res.ok (), { buf := s.buf ++ canonicalVarint 4 (zigzagEncodeInt32 v) }) := by
  rw [Serializer.SerializeValue, toInt32_of_range v hlo hhi]
  exact serializeInt32_eq s v hlo hhi

theorem ser_int64 (L : Lib) (s : Serializer) (v : Int) (hlo : -2 ^ 63 ≤ v) (hhi : v < 2 ^ 63) :
    s.SerializeValue L (Value.int64 v) =
      (Res.ok (), { buf := s.buf ++ canonicalVarint 9 (zigzagEncodeInt64 v) }) := by
  rw [Serializer.SerializeValue]
  exact serializeInt64_eq s v hlo hhi

theorem ser_int8 (L : Lib) (s : Serializer) (v : Int) :
    s.SerializeValue L (Value.int8 v) =
      (Res.ok (), { buf := s.buf ++ [toByte (toUint 8 (toInt 8 v))] }) := by
  rw [Serializer.SerializeValue]
  rfl

theorem ser_uint (L : Lib) (s : Serializer) (v : Nat) (h : v < 2 ^ 64) :
    s.SerializeValue L (Value.uint v) = (Res.ok (), { buf := s.buf ++ canonicalVarint 9 v }) := by
  rw [Serializer.SerializeValue, Nat.mod_eq_of_lt h]
  exact pushVarintUint64_ok s v h

theorem pushEncoded_some (s : Serializer) (bs : List Byte) :
    s.pushEncoded (some bs) = (Res.ok (), { buf := s.buf ++ bs }) := rfl

theorem ser_uint16 (L : Lib) (s : Serializer) (v : Nat) (h : v < 2 ^ 16) :
    s.SerializeValue L (Value.uint16 v) = (Res.ok (), { buf := s.buf ++ canonicalVarint 2 v }) := by
  rw [Serializer.SerializeValue, Nat.mod_eq_of_lt h, Serializer.SerializeUint16,
    Serializer.pushVarintUint16, encodeVarintUint16_eq v h, pushEncoded_some]

theorem ser_uint32 (L : Lib) (s : Serializer) (v : Nat) (h : v < 2 ^ 32) :
    s.SerializeValue L (Value.uint32 v) = (Res.ok (), { buf := s.buf ++ canonicalVarint 4 v }) := by
  rw [Serializer.SerializeValue, Nat.mod_eq_of_lt h, Serializer.SerializeUint32,
    Serializer.pushVarintUint32, encodeVarintUint32_eq v h, pushEncoded_some]

theorem ser_uint64 (L : Lib) (s : Serializer) (v : Nat) (h : v < 2 ^ 64) :
    s.SerializeValue L (Value.uint64 v) = (Res.ok (), { buf := s.buf ++ canonicalVarint 9 v }) := by
  rw [Serializer.SerializeValue, Serializer.SerializeUint64,
    Serializer.pushVarintUint64, encodeVarintUint64_eq v h, pushEncoded_some]

theorem ser_float32 (L : Lib) (s : Serializer) (bits : Nat) :
    s.SerializeValue L (Value.float32 bits) =
      (Res.ok (), { buf := s.buf ++ encodeFloat32LE (L.float32Conv bits) }) := by
  rw [Serializer.SerializeValue, Serializer.SerializeFloat32]

theorem ser_float64 (L : Lib) (s : Serializer) (bits : Nat) :
    s.SerializeValue L (Value.float64 bits) =
      (Res.ok (), { buf := s.buf ++ encodeFloat64LE bits }) := by
  rw [Serializer.SerializeValue, Serializer.SerializeFloat64]

theorem ser_string (L : Lib) (s : Serializer) (str : List Byte) (h : str.length < 2 ^ 64) :
    s.SerializeValue L (Value.string str) =
      (Res.ok (), { buf := s.buf ++ (canonicalVarint 9 str.length ++ str) }) := by
  rw [Serializer.SerializeValue]
  exact serializeString_eq s str h

theorem dec_bool (L : Lib) (cur : Value) (b : Bool) :
    Decodes (Deserializer.decodeInto L Ty.bool cur) [if b then 1 else 0] (Value.bool b) :=
  decodes_congr _ _ _ _ (fun d => by rw [Deserializer.decodeInto])
    (decodes_map _ Value.bool _ _ (decodes_bool b))

theorem dec_int (L : Lib) (cur : Value) (v : Int) (hlo : -2 ^ 63 ≤ v) (hhi : v < 2 ^ 63) :
    Decodes (Deserializer.decodeInto L Ty.int cur) (canonicalVarint 9 (zigzagEncodeInt64 v))
      (Value.int v) :=
  decodes_congr _ _ _ _ (fun d => by rw [Deserializer.decodeInto])
    (decodes_map _ Value.int _ _ (decodes_int v hlo hhi))

theorem dec_int8 (L : Lib) (cur : Value) (b : Byte) :
    Decodes (Deserializer.decodeInto L Ty.int8 cur) [b] (Value.int8 (toInt 8 (b.val : Int))) :=
  decodes_congr _ _ _ _ (fun d => by rw [Deserializer.decodeInto])
    (decodes_map _ Value.int8 _ _ (decodes_int8 b))

theorem dec_int16 (L : Lib) (cur : Value) (v : Int) (hlo : -2 ^ 15 ≤ v) (hhi : v < 2 ^ 15) :
    Decodes (Deserializer.decodeInto L Ty.int16 cur) (canonicalVarint 2 (zigzagEncodeInt16 v))
      (Value.int16 v) :=
  decodes_congr _ _ _ _ (fun d => by rw [Deserializer.decodeInto])
    (decodes_map _ Value.int16 _ _ (decodes_int16 v hlo hhi))

theorem dec_int32 (L : Lib) (cur : Value) (v : Int) (hlo : -2 ^ 31 ≤ v) (hhi : v < 2 ^ 31) :
    Decodes (Deserializer.decodeInto L Ty.int32 cur) (canonicalVarint 4 (zigzagEncodeInt32 v))
      (Value.int32 v) :=
  decodes_congr _ _ _ _ (fun d => by rw [Deserializer.decodeInto])
    (decodes_map _ Value.int32 _ _ (decodes_int32 v hlo hhi))

theorem dec_int64 (L : Lib) (cur : Value) (v : Int) (hlo : -2 ^ 63 ≤ v) (hhi : v < 2 ^ 63) :
    Decodes (Deserializer.decodeInto L Ty.int64 cur) (canonicalVarint 9 (zigzagEncodeInt64 v))
      (Value.int64 v) :=
  decodes_congr _ _ _ _ (fun d => by rw [Deserializer.decodeInto])
    (decodes_map _ Value.int64 _ _ (decodes_int64 v hlo hhi))

theorem dec_uint (L : Lib) (cur : Value) (v : Nat) (h : v < 2 ^ 64) :
    Decodes (Deserializer.decodeInto L Ty.uint cur) (canonicalVarint 9 v) (Value.uint v) :=
  decodes_congr _ _ _ _ (fun d => by rw [Deserializer.decodeInto])
    (decodes_map _ Value.uint _ _ (decodes_uint v h))

theorem dec_uint8 (L : Lib) (cur : Value) (b : Byte) :
    Decodes (Deserializer.decodeInto L Ty.uint8 cur) [b] (Value.uint8 b.val) :=
  decodes_congr _ _ _ _ (fun d => by rw [Deserializer.decodeInto])
    (decodes_map _ Value.uint8 _ _ (decodes_uint8 b))

theorem dec_uint16 (L : Lib) (cur : Value) (v : Nat) (h : v < 2 ^ 16) :
    Decodes (Deserializer.decodeInto L Ty.uint16 cur) (canonicalVarint 2 v) (Value.uint16 v) :=
  decodes_congr _ _ _ _ (fun d => by rw [Deserializer.decodeInto])
    (decodes_map _ Value.uint16 _ _ (decodes_uint16 v h))

theorem dec_uint32 (L : Lib) (cur : Value) (v : Nat) (h : v < 2 ^ 32) :
    Decodes (Deserializer.decodeInto L Ty.uint32 cur) (canonicalVarint 4 v) (Value.uint32 v) :=
  decodes_congr _ _ _ _ (fun d => by rw [Deserializer.decodeInto])
    (decodes_map _ Value.uint32 _ _ (decodes_uint32 v h))

theorem dec_uint64 (L : Lib) (cur : Value) (v : Nat) (h : v < 2 ^ 64) :
    Decodes (Deserializer.decodeInto L Ty.uint64 cur) (canonicalVarint 9 v) (Value.uint64 v) :=
  decodes_congr _ _ _ _ (fun d => by rw [Deserializer.decodeInto])
    (decodes_map _ Value.uint64 _ _ (decodes_uint64 v h))

theorem dec_float32 (L : Lib) (cur : Value) (enc : List Byte) (h : enc.length = 4) :
    Decodes (Deserializer.decodeInto L Ty.float32 cur) enc
      (Value.float32 (L.float32Conv (littleEndianValue enc))) :=
  decodes_congr _ _ _ _ (fun d => by rw [Deserializer.decodeInto])
    (decodes_map _ (fun bits => Value.float32 (L.float32Conv bits)) _ _ (decodes_float32 enc h))

theorem dec_float64 (L : Lib) (cur : Value) (enc : List Byte) (h : enc.length = 8) :
    Decodes (Deserializer.decodeInto L Ty.float64 cur) enc
      (Value.float64 (littleEndianValue enc)) :=
  decodes_congr _ _ _ _ (fun d => by rw [Deserializer.decodeInto])
    (decodes_map _ Value.float64 _ _ (decodes_float64 enc h))

theorem dec_string (L : Lib) (cur : Value) (str : List Byte) (h : str.length < 2 ^ 63)
    (hv : L.utf8Valid str = true) :
    Decodes (Deserializer.decodeInto L Ty.string cur) (canonicalVarint 9 str.length ++ str)
      (Value.string str) :=
  decodes_congr _ _ _ _ (fun d => by rw [Deserializer.decodeInto])
    (decodes_map _ Value.string _ _ (decodes_string L.utf8Valid str h hv))

/-! ### Sequences of elements -/

theorem exists_forall₂_of_forall_mem {α β : Type} (R : α → β → Prop) :
    ∀ xs : List α, (∀ x ∈ xs, ∃ p, R x p) → ∃ ps, List.Forall₂ R xs ps := by
  intro xs
  induction xs with
  | nil => intro _; exact ⟨[], List.Forall₂.nil⟩
  | cons x xs ih =>
    intro h
    obtain ⟨p, hp⟩ := h x (List.mem_cons_self _ _)
    obtain ⟨ps, hps⟩ := ih (fun y hy => h y (List.mem_cons_of_mem _ hy))
    exact ⟨p :: ps, List.Forall₂.cons hp hps⟩

theorem elems_codec (L : Lib) (step : Value → Deserializer → Res Value × Deserializer)
    (z : Value) (xs : List Value) (ps : List (List Byte × Value))
    (h : List.Forall₂
      (fun x p => (∀ s : Serializer,
          s.SerializeValue L x = (Res.ok (), { buf := s.buf ++ p.1 })) ∧
        Decodes (step z) p.1 p.2) xs ps) :
    (∀ s : Serializer, Serializer.SerializeElems L s xs =
      (Res.ok (), { buf := s.buf ++ (ps.map Prod.fst).flatten })) ∧
    Decodes (Deserializer.loopElems step (List.replicate xs.length z))
      (ps.map Prod.fst).flatten (ps.map Prod.snd) := by
  induction h with
  | nil =>
    refine ⟨fun s => by simp [Serializer.SerializeElems], ?_⟩
    exact decodes_congr _ _ _ _ (fun d => by simp [Deserializer.loopElems]) (decodes_pure [])
  | @cons x p xs ps hx _ ih =>
    obtain ⟨ihs, ihd⟩ := ih
    constructor
    · intro s
      rw [Serializer.SerializeElems, hx.1 s, Serializer.andThen_ok, ihs]
      simp
    · simp only [List.length_cons, List.replicate_succ, List.map_cons, List.flatten_cons]
      refine decodes_congr _ _ _ _ (fun d => by rw [Deserializer.loopElems]) ?_
      exact decodes_andThen (step z) _ _ _ p.2 _ hx.2
        (decodes_map _ (fun vs => p.2 :: vs) _ _ ihd)

theorem sliceTargets_zero (elem : Ty) (n : Nat) (h : n < 2 ^ 63) :
    sliceTargets elem (Value.slice elem true [] []) (toInt 64 (n : Int)) =
      some (List.replicate n (zeroOf elem), []) := by
  rw [toInt64_of_lt n h]
  unfold sliceTargets
  have h0 : ¬ ((n : Int) < 0) := by omega
  simp only [h0, if_false, true_or, if_true, Int.toNat_ofNat]

theorem fillSlice_some (elem : Ty)
    (loop : List Value → Deserializer → Res (List Value) × Deserializer)
    (elems spare : List Value) (d1 : Deserializer) :
    Deserializer.fillSlice elem loop (some (elems, spare)) d1 =
      Deserializer.andThen (loop elems d1) fun xs d2 =>
        (Res.ok (Value.slice elem false xs spare), d2) := rfl

theorem isUint8_iff (t : Ty) : t.isUint8 = true ↔ t = Ty.uint8 := by
  cases t <;> simp [Ty.isUint8]

theorem decodeInto_slice (L : Lib) (elem : Ty) (cur : Value) (hu : ¬ elem.isUint8 = true)
    (d : Deserializer) :
    Deserializer.decodeInto L (Ty.slice elem) cur d =
      Deserializer.andThen d.DeserializeUint fun sz d1 =>
        Deserializer.fillSlice elem (Deserializer.loopElems (Deserializer.decodeInto L elem))
          (sliceTargets elem cur (toInt 64 sz)) d1 := by
  rw [Deserializer.decodeInto]
  simp only [hu, Bool.false_eq_true, if_false]

theorem decodeInto_byteSlice (L : Lib) (elem : Ty) (cur : Value) (hu : elem.isUint8 = true)
    (d : Deserializer) :
    Deserializer.decodeInto L (Ty.slice elem) cur d =
      Deserializer.andThen d.DeserializeBytes fun bytes d1 =>
        (Res.ok (Value.slice elem false (bytes.map fun b => Value.uint8 b.val) []), d1) := by
  rw [Deserializer.decodeInto]
  simp only [hu, if_true]

theorem decodeInto_array (L : Lib) (len : Nat) (elem : Ty) (xs : List Value) (d : Deserializer) :
    Deserializer.decodeInto L (Ty.array len elem) (Value.array xs) d =
      Deserializer.andThen
        (Deserializer.loopElems (Deserializer.decodeInto L elem) xs d) fun ys d1 =>
          (Res.ok (Value.array ys), d1) := by
  rw [Deserializer.decodeInto, Value.arrayElems]

theorem decodeInto_struct (L : Lib) (fields : List (StructField Ty))
    (vals : List (StructField Value)) (d : Deserializer) :
    Deserializer.decodeInto L (Ty.struct fields) (Value.struct vals) d =
      Deserializer.andThen (Deserializer.decodeFields L fields vals d) fun fs d1 =>
        (Res.ok (Value.struct fs), d1) := by
  rw [Deserializer.decodeInto, Value.structFields]

theorem decodeFields_exported (L : Lib) (f : StructField Ty) (fs : List (StructField Ty))
    (g : StructField Value) (gs : List (StructField Value)) (hf : f.exported = true)
    (d : Deserializer) :
    Deserializer.decodeFields L (f :: fs) (g :: gs) d =
      Deserializer.andThen (Deserializer.decodeInto L f.val g.val d) fun v d1 =>
        Deserializer.andThen (Deserializer.decodeFields L fs gs d1) fun rest d2 =>
          (Res.ok ({ name := f.name, exported := f.exported, val := v } :: rest), d2) := by
  rw [Deserializer.decodeFields]
  simp only [hf, Bool.not_true, Bool.false_eq_true, if_false, fieldValue, List.tail_cons]

theorem decodeFields_unexported (L : Lib) (f : StructField Ty) (fs : List (StructField Ty))
    (g : StructField Value) (gs : List (StructField Value)) (hf : ¬ f.exported = true)
    (d : Deserializer) :
    Deserializer.decodeFields L (f :: fs) (g :: gs) d =
      Deserializer.andThen (Deserializer.decodeFields L fs gs d) fun rest d1 =>
        (Res.ok ({ name := f.name, exported := f.exported, val := g.val } :: rest), d1) := by
  rw [Deserializer.decodeFields]
  simp only [hf, Bool.not_false, if_true, fieldValue, List.tail_cons]

theorem slice_codec (L : Lib) (elem : Ty) (isNil : Bool) (xs spare : List Value)
    (hu : ¬ elem.isUint8 = true) (hlen : xs.length < 2 ^ 63) (ps : List (List Byte × Value))
    (hps : List.Forall₂
      (fun x p => (∀ s : Serializer,
          s.SerializeValue L x = (Res.ok (), { buf := s.buf ++ p.1 })) ∧
        Decodes (Deserializer.decodeInto L elem (zeroOf elem)) p.1 p.2) xs ps) :
    (∀ s : Serializer, s.SerializeValue L (Value.slice elem isNil xs spare) =
      (Res.ok (), { buf := s.buf ++
        (canonicalVarint 9 xs.length ++ (ps.map Prod.fst).flatten) })) ∧
    Decodes (Deserializer.decodeInto L (Ty.slice elem) (zeroOf (Ty.slice elem)))
      (canonicalVarint 9 xs.length ++ (ps.map Prod.fst).flatten)
      (Value.slice elem false (ps.map Prod.snd) []) := by
  obtain ⟨hs, hd⟩ := elems_codec L (Deserializer.decodeInto L elem) (zeroOf elem) xs ps hps
  refine ⟨?_, ?_⟩
  · intro s
    rw [Serializer.SerializeValue]
    simp only [hu, Bool.false_eq_true, if_false]
    rw [Nat.mod_eq_of_lt (by omega), pushVarintUint64_ok s _ (by omega), Serializer.andThen_ok, hs]
    simp
  · refine decodes_congr _ _ _ _ (decodeInto_slice L elem _ hu) ?_
    refine decodes_andThen (fun d => d.DeserializeUint) _ _ _ xs.length _
      (decodes_uint _ (by omega)) ?_
    beta_reduce
    rw [zeroOf, sliceTargets_zero elem xs.length hlen]
    refine decodes_congr _ _ _ _ (fun d => fillSlice_some _ _ _ _ d) ?_
    exact decodes_map _ (fun ys => Value.slice elem false ys []) _ _ hd

theorem array_codec (L : Lib) (elem : Ty) (xs : List Value) (ps : List (List Byte × Value))
    (hps : List.Forall₂
      (fun x p => (∀ s : Serializer,
          s.SerializeValue L x = (Res.ok (), { buf := s.buf ++ p.1 })) ∧
        Decodes (Deserializer.decodeInto L elem (zeroOf elem)) p.1 p.2) xs ps) :
    (∀ s : Serializer, s.SerializeValue L (Value.array xs) =
      (Res.ok (), { buf := s.buf ++ (ps.map Prod.fst).flatten })) ∧
    Decodes (Deserializer.decodeInto L (Ty.array xs.length elem)
        (zeroOf (Ty.array xs.length elem)))
      (ps.map Prod.fst).flatten (Value.array (ps.map Prod.snd)) := by
  obtain ⟨hs, hd⟩ := elems_codec L (Deserializer.decodeInto L elem) (zeroOf elem) xs ps hps
  refine ⟨?_, ?_⟩
  · intro s
    rw [Serializer.SerializeValue, hs]
  · rw [zeroOf]
    refine decodes_congr _ _ _ _ (decodeInto_array L _ elem _) ?_
    exact decodes_map _ Value.array _ _ hd

mutual
theorem conforms_codec (L : Lib) :
    ∀ (t : Ty) (v : Value), Conforms L t v →
      ∃ (enc : List Byte) (x : Value),
        (∀ s : Serializer, s.SerializeValue L v = (Res.ok (), { buf := s.buf ++ enc })) ∧
        Decodes (Deserializer.decodeInto L t (zeroOf t)) enc x
  | Ty.bool, v, h => by
    rw [Conforms] at h
    obtain ⟨b, rfl⟩ := h
    exact ⟨_, _, fun s => ser_bool L s b, dec_bool L _ b⟩
  | Ty.int, v, h => by
    rw [Conforms] at h
    obtain ⟨n, rfl, hlo, hhi⟩ := h
    exact ⟨_, _, fun s => ser_int L s n hlo hhi, dec_int L _ n hlo hhi⟩
  | Ty.int8, v, h => by
    rw [Conforms] at h
    obtain ⟨n, rfl, _, _⟩ := h
    exact ⟨_, _, fun s => ser_int8 L s n, dec_int8 L _ _⟩
  | Ty.int16, v, h => by
    rw [Conforms] at h
    obtain ⟨n, rfl, hlo, hhi⟩ := h
    exact ⟨_, _, fun s => ser_int16 L s n hlo hhi, dec_int16 L _ n hlo hhi⟩
  | Ty.int32, v, h => by
    rw [Conforms] at h
    obtain ⟨n, rfl, hlo, hhi⟩ := h
    exact ⟨_, _, fun s => ser_int32 L s n hlo hhi, dec_int32 L _ n hlo hhi⟩
  | Ty.int64, v, h => by
    rw [Conforms] at h
    obtain ⟨n, rfl, hlo, hhi⟩ := h
    exact ⟨_, _, fun s => ser_int64 L s n hlo hhi, dec_int64 L _ n hlo hhi⟩
  | Ty.uint, v, h => by
    rw [Conforms] at h
    obtain ⟨n, rfl, hn⟩ := h
    exact ⟨_, _, fun s => ser_uint L s n hn, dec_uint L _ n hn⟩
  | Ty.uint8, v, h => by
    rw [Conforms] at h
    obtain ⟨n, rfl, _⟩ := h
    exact ⟨_, _, fun s => serializeValue_uint8 L s n, dec_uint8 L _ _⟩
  | Ty.uint16, v, h => by
    rw [Conforms] at h
    obtain ⟨n, rfl, hn⟩ := h
    exact ⟨_, _, fun s => ser_uint16 L s n hn, dec_uint16 L _ n hn⟩
  | Ty.uint32, v, h => by
    rw [Conforms] at h
    obtain ⟨n, rfl, hn⟩ := h
    exact ⟨_, _, fun s => ser_uint32 L s n hn, dec_uint32 L _ n hn⟩
  | Ty.uint64, v, h => by
    rw [Conforms] at h
    obtain ⟨n, rfl, hn⟩ := h
    exact ⟨_, _, fun s => ser_uint64 L s n hn, dec_uint64 L _ n hn⟩
  | Ty.float32, v, h => by
    rw [Conforms] at h
    obtain ⟨bits, rfl⟩ := h
    exact ⟨_, _, fun s => ser_float32 L s bits,
      dec_float32 L _ _ (littleEndianBytes_length 4 _)⟩
  | Ty.float64, v, h => by
    rw [Conforms] at h
    obtain ⟨bits, rfl⟩ := h
    exact ⟨_, _, fun s => ser_float64 L s bits,
      dec_float64 L _ _ (littleEndianBytes_length 8 _)⟩
  | Ty.string, v, h => by
    rw [Conforms] at h
    obtain ⟨str, rfl, hlen, hv⟩ := h
    exact ⟨_, _, fun s => ser_string L s str (by omega), dec_string L _ str hlen hv⟩
  | Ty.slice elem, v, h => by
    rw [Conforms] at h
    obtain ⟨isNil, xs, spare, rfl, hlen, hall⟩ := h
    by_cases hu : elem.isUint8 = true
    · refine ⟨canonicalVarint 9 (xs.map Value.asByte).length ++ xs.map Value.asByte,
        Value.slice elem false ((xs.map Value.asByte).map fun b => Value.uint8 b.val) [], ?_, ?_⟩
      · intro s
        rw [Serializer.SerializeValue]
        simp only [hu, if_true]
        exact serializeLenPrefixed s _ (by rw [List.length_map]; omega)
      · refine decodes_congr _ _ _ _ (decodeInto_byteSlice L elem _ hu) ?_
        exact decodes_map _
          (fun bytes => Value.slice elem false (bytes.map fun b => Value.uint8 b.val) []) _ _
          (decodes_bytes (xs.map Value.asByte) (by rw [List.length_map]; omega))
    · obtain ⟨ps, hps⟩ := exists_forall₂_of_forall_mem
        (fun (x : Value) (p : List Byte × Value) =>
          (∀ s : Serializer, s.SerializeValue L x = (Res.ok (), { buf := s.buf ++ p.1 })) ∧
            Decodes (Deserializer.decodeInto L elem (zeroOf elem)) p.1 p.2) xs
        (fun x hx => by
          obtain ⟨enc, y, h1, h2⟩ := conforms_codec L elem x (hall x hx)
          exact ⟨(enc, y), h1, h2⟩)
      obtain ⟨hs, hd⟩ := slice_codec L elem isNil xs spare hu hlen ps hps
      exact ⟨_, _, hs, hd⟩
  | Ty.array len elem, v, h => by
    rw [Conforms] at h
    obtain ⟨xs, rfl, rfl, hall⟩ := h
    obtain ⟨ps, hps⟩ := exists_forall₂_of_forall_mem
        (fun (x : Value) (p : List Byte × Value) =>
          (∀ s : Serializer, s.SerializeValue L x = (Res.ok (), { buf := s.buf ++ p.1 })) ∧
            Decodes (Deserializer.decodeInto L elem (zeroOf elem)) p.1 p.2) xs
      (fun x hx => by
        obtain ⟨enc, y, h1, h2⟩ := conforms_codec L elem x (hall x hx)
        exact ⟨(enc, y), h1, h2⟩)
    obtain ⟨hs, hd⟩ := array_codec L elem xs ps hps
    exact ⟨_, _, hs, hd⟩
  | Ty.struct fields, v, h => by
    rw [Conforms] at h
    obtain ⟨vals, rfl, hf⟩ := h
    obtain ⟨enc, ys, hs, hd⟩ := conformsFields_codec L fields vals hf
    refine ⟨enc, Value.struct ys, ?_, ?_⟩
    · intro s
      rw [Serializer.SerializeValue, hs]
    · rw [zeroOf]
      refine decodes_congr _ _ _ _ (decodeInto_struct L fields _) ?_
      exact decodes_map _ Value.struct _ _ hd
  | Ty.map _ _, v, h => by rw [Conforms] at h; exact h.elim
  | Ty.ptr _, v, h => by rw [Conforms] at h; exact h.elim
  | Ty.iface, v, h => by rw [Conforms] at h; exact h.elim
  | Ty.other, v, h => by rw [Conforms] at h; exact h.elim
theorem conformsFields_codec (L : Lib) :
    ∀ (fs : List (StructField Ty)) (vs : List (StructField Value)), ConformsFields L fs vs →
      ∃ (enc : List Byte) (ys : List (StructField Value)),
        (∀ s : Serializer, Serializer.SerializeFields L s vs =
          (Res.ok (), { buf := s.buf ++ enc })) ∧
        Decodes (Deserializer.decodeFields L fs (zeroFields fs)) enc ys
  | [], vs, h => by
    rw [ConformsFields] at h
    subst h
    refine ⟨[], [], fun s => by simp [Serializer.SerializeFields], ?_⟩
    exact decodes_congr _ _ _ _ (fun d => by rw [Deserializer.decodeFields]) (decodes_pure [])
  | f :: fs, vs, h => by
    rw [ConformsFields] at h
    obtain ⟨g, gs, rfl, hexp, hval, hrest⟩ := h
    obtain ⟨enc2, ys, hs2, hd2⟩ := conformsFields_codec L fs gs hrest
    by_cases hf : f.exported = true
    · obtain ⟨enc1, y, hs1, hd1⟩ := conforms_codec L f.val g.val (hval hf)
      refine ⟨enc1 ++ enc2, { name := f.name, exported := f.exported, val := y } :: ys, ?_, ?_⟩
      · intro s
        rw [Serializer.SerializeFields]
        simp only [hexp, hf, Bool.not_true, Bool.false_eq_true, if_false]
        rw [hs1, Serializer.andThen_ok, hs2]
        simp
      · rw [zeroFields]
        refine decodes_congr _ _ _ _ (decodeFields_exported L f fs _ _ hf) ?_
        exact decodes_andThen _ _ _ _ y _ hd1
          (decodes_map _
            (fun rest => { name := f.name, exported := f.exported, val := y } :: rest) _ _ hd2)
    · refine ⟨enc2,
        { name := f.name, exported := f.exported, val := zeroOf f.val } :: ys, ?_, ?_⟩
      · intro s
        rw [Serializer.SerializeFields]
        simp only [hexp, hf, Bool.not_false, if_true]
        exact hs2 s
      · rw [zeroFields]
        refine decodes_congr _ _ _ _ (decodeFields_unexported L f fs _ _ hf) ?_
        exact decodes_map _
          (fun rest => { name := f.name, exported := f.exported, val := zeroOf f.val } :: rest)
          _ _ hd2
end

/-! ### From a decoder step to the entry points -/

theorem serialize_of_appends (L : Lib) (v : Value) (enc : List Byte)
    (h : ∀ s : Serializer, s.SerializeValue L v = (Res.ok (), { buf := s.buf ++ enc })) :
    Serialize L v = Res.ok enc := by
  rw [serialize_ok_iff, h]
  simp

theorem deserializeValue_of_decodes (L : Lib) (t : Ty) (cur x : Value) (enc : List Byte)
    (h : Decodes (Deserializer.decodeInto L t cur) enc x) (hlen : enc.length < 2 ^ 63) :
    (NewDeserializer enc).DeserializeValue L (Target.pointer t cur) =
      (Res.ok (Target.pointer t x), { data := enc, pos := enc.length }) := by
  have h1 := (h enc 0 (Nat.zero_le _) (by omega)).1 [] (by simp)
  simp only [NewDeserializer, Deserializer.DeserializeValue]
  rw [h1]
  simp [Deserializer.andThen]

theorem deserialize_of_decodes (L : Lib) (t : Ty) (cur x : Value) (enc : List Byte)
    (h : Decodes (Deserializer.decodeInto L t cur) enc x) (hlen : enc.length < 2 ^ 63) :
    Deserialize L enc (Target.pointer t cur) = Res.ok (Target.pointer t x) := by
  unfold Deserialize
  rw [deserializeValue_of_decodes L t cur x enc h hlen]

theorem deserialize_truncated (L : Lib) (t : Ty) (cur x : Value) (enc p tail : List Byte)
    (h : Decodes (Deserializer.decodeInto L t cur) enc x) (hlen : enc.length < 2 ^ 63)
    (ht : tail ≠ []) (hp : p ++ tail = enc) :
    Deserialize L p (Target.pointer t cur) = Res.err Error.ErrDeserializeUnexpectedEnd := by
  obtain ⟨q, hq⟩ := (h p 0 (Nat.zero_le _) (by omega)).2 tail ht (by simpa using hp)
  simp only [Deserialize, NewDeserializer, Deserializer.DeserializeValue]
  rw [hq]
  simp [Deserializer.andThen]

theorem forall₂_map_map {α β γ : Type} (R : β → γ → Prop) (f : α → β) (g : α → γ) :
    ∀ xs : List α, (∀ x ∈ xs, R (f x) (g x)) → List.Forall₂ R (xs.map f) (xs.map g) := by
  intro xs
  induction xs with
  | nil => intro _; exact List.Forall₂.nil
  | cons x xs ih =>
    intro h
    exact List.Forall₂.cons (h x (List.mem_cons_self _ _))
      (ih fun y hy => h y (List.mem_cons_of_mem _ hy))

theorem canonicalVarint_ne_nil (len n : Nat) : canonicalVarint len n ≠ [] := by
  cases len with
  | zero => simp [canonicalVarint]
  | succ k =>
    unfold canonicalVarint
    split <;> simp

/-! ### Structs -/

theorem basicStruct_codec (L : Lib) (a b c d : Nat) (ha : a < 2 ^ 16) (hb : b < 2 ^ 8)
    (hc : c < 2 ^ 64) (hd : d < 2 ^ 32) :
    (∀ s : Serializer, s.SerializeValue L (BasicStruct a b c d) =
      (Res.ok (), { buf := s.buf ++
        (canonicalVarint 2 a ++ ([toByte b] ++ (canonicalVarint 9 c ++ canonicalVarint 4 d))) })) ∧
    Decodes (Deserializer.decodeInto L BasicStructTy (zeroOf BasicStructTy))
      (canonicalVarint 2 a ++ ([toByte b] ++ (canonicalVarint 9 c ++ (canonicalVarint 4 d ++ []))))
      (BasicStruct a b c d) := by
  constructor
  · intro s
    unfold BasicStruct
    rw [Serializer.SerializeValue]
    simp only [Serializer.SerializeFields, Bool.not_true, Bool.false_eq_true, if_false]
    rw [ser_uint16 L s a ha, Serializer.andThen_ok, serializeValue_uint8, Serializer.andThen_ok,
      ser_uint64 L _ c hc, Serializer.andThen_ok, ser_uint32 L _ d hd, Serializer.andThen_ok]
    simp
  · unfold BasicStructTy BasicStruct
    simp only [zeroOf, zeroFields]
    refine decodes_congr _ _ _ _ (decodeInto_struct L _ _) ?_
    refine decodes_map _ Value.struct _ _ ?_
    refine decodes_congr _ _ _ _ (decodeFields_exported L _ _ _ _ rfl) ?_
    refine decodes_andThen _ _ _ _ (Value.uint16 a) _ (dec_uint16 L _ a ha) ?_
    refine decodes_map _ (fun rest => (⟨"A", true, Value.uint16 a⟩ : StructField Value) :: rest)
      _ _ ?_
    refine decodes_congr _ _ _ _ (decodeFields_exported L _ _ _ _ rfl) ?_
    have hb8 := dec_uint8 L (Value.uint8 0) (toByte b)
    rw [toByte_val_of_lt b (by omega)] at hb8
    refine decodes_andThen _ _ _ _ (Value.uint8 b) _ hb8 ?_
    refine decodes_map _ (fun rest => (⟨"B", true, Value.uint8 b⟩ : StructField Value) :: rest)
      _ _ ?_
    refine decodes_congr _ _ _ _ (decodeFields_exported L _ _ _ _ rfl) ?_
    refine decodes_andThen _ _ _ _ (Value.uint64 c) _ (dec_uint64 L _ c hc) ?_
    refine decodes_map _ (fun rest => (⟨"C", true, Value.uint64 c⟩ : StructField Value) :: rest)
      _ _ ?_
    refine decodes_congr _ _ _ _ (decodeFields_exported L _ _ _ _ rfl) ?_
    refine decodes_andThen _ _ _ _ (Value.uint32 d) _ (dec_uint32 L _ d hd) ?_
    refine decodes_map _ (fun rest => (⟨"D", true, Value.uint32 d⟩ : StructField Value) :: rest)
      _ _ ?_
    exact decodes_congr _ _ _ _ (fun d => by rw [Deserializer.decodeFields]) (decodes_pure [])

/-- C13: for all `a: uint16`, `b: uint8`, `c: uint64`, `d: uint32`,
`Serialize(BasicStruct{a, b, c, d})` succeeds with the four field encodings
one after the other, and deserializing these bytes into a zero `BasicStruct`
succeeds, consumes all of them and yields the struct with the same four field
values. -/
theorem struct_roundtrip (L : Lib) (a b c d : Nat) (ha : a < 2 ^ 16) (hb : b < 2 ^ 8)
    (hc : c < 2 ^ 64) (hd : d < 2 ^ 32) :
    ∃ bytes, Serialize L (BasicStruct a b c d) = Res.ok bytes ∧
      bytes = canonicalVarint 2 a ++ [toByte b] ++ canonicalVarint 9 c ++ canonicalVarint 4 d ∧
      (NewDeserializer bytes).DeserializeValue L
          (Target.pointer BasicStructTy (zeroOf BasicStructTy)) =
        (Res.ok (Target.pointer BasicStructTy (BasicStruct a b c d)),
          { data := bytes, pos := bytes.length }) ∧
      Deserialize L bytes (Target.pointer BasicStructTy (zeroOf BasicStructTy)) =
        Res.ok (Target.pointer BasicStructTy (BasicStruct a b c d)) := by
  obtain ⟨hs, hdec⟩ := basicStruct_codec L a b c d ha hb hc hd
  have hlen : (canonicalVarint 2 a ++ ([toByte b] ++
      (canonicalVarint 9 c ++ (canonicalVarint 4 d ++ [])))).length < 2 ^ 63 := by
    have h1 := canonicalVarint_length_le 2 a
    have h2 := canonicalVarint_length_le 9 c
    have h3 := canonicalVarint_length_le 4 d
    simp only [List.length_append, List.length_cons, List.length_nil]
    omega
  have hv := deserializeValue_of_decodes L _ _ _ _ hdec hlen
  have hd2 := deserialize_of_decodes L _ _ _ _ hdec hlen
  simp only [List.append_nil] at hv hd2
  refine ⟨_, serialize_of_appends L _ _ hs, ?_, ?_, ?_⟩
  · simp
  · exact hv
  · exact hd2

theorem struct_roundtrip_witness :
    0xABCD < 2 ^ 16 ∧ 0xFE < 2 ^ 8 ∧ 0x12344321ABCDDCBA < 2 ^ 64 ∧ 0xACACACAC < 2 ^ 32 ∧
    ∃ bytes, Serialize stdLib (BasicStruct 0xABCD 0xFE 0x12344321ABCDDCBA 0xACACACAC) =
        Res.ok bytes ∧
      bytes = canonicalVarint 2 0xABCD ++ [toByte 0xFE] ++ canonicalVarint 9 0x12344321ABCDDCBA ++
        canonicalVarint 4 0xACACACAC ∧
      (NewDeserializer bytes).DeserializeValue stdLib
          (Target.pointer BasicStructTy (zeroOf BasicStructTy)) =
        (Res.ok (Target.pointer BasicStructTy
            (BasicStruct 0xABCD 0xFE 0x12344321ABCDDCBA 0xACACACAC)),
          { data := bytes, pos := bytes.length }) ∧
      Deserialize stdLib bytes (Target.pointer BasicStructTy (zeroOf BasicStructTy)) =
        Res.ok (Target.pointer BasicStructTy
          (BasicStruct 0xABCD 0xFE 0x12344321ABCDDCBA 0xACACACAC)) :=
  ⟨by decide, by decide, by decide, by decide,
    struct_roundtrip stdLib 0xABCD 0xFE 0x12344321ABCDDCBA 0xACACACAC
      (by decide) (by decide) (by decide) (by decide)⟩

theorem length_le_flatten (encs : List (List Byte)) (h : ∀ e ∈ encs, e ≠ []) :
    encs.length ≤ encs.flatten.length := by
  induction encs with
  | nil => simp
  | cons e es ih =>
    have he : e ≠ [] := h e (List.mem_cons_self _ _)
    have h1 : 1 ≤ e.length := List.length_pos.2 he
    have h2 := ih fun x hx => h x (List.mem_cons_of_mem _ hx)
    simp only [List.flatten_cons, List.length_append, List.length_cons]
    omega

theorem intSlice_codec (L : Lib) (xs : List Int) (isNil : Bool) (spare : List Value)
    (hx : ∀ x ∈ xs, -2 ^ 63 ≤ x ∧ x < 2 ^ 63) (hlen : xs.length < 2 ^ 63) :
    (∀ s : Serializer, s.SerializeValue L (Value.slice Ty.int isNil (xs.map Value.int) spare) =
      (Res.ok (), { buf := s.buf ++ intSliceEncoding xs })) ∧
    Decodes (Deserializer.decodeInto L (Ty.slice Ty.int) (zeroOf (Ty.slice Ty.int)))
      (intSliceEncoding xs) (Value.slice Ty.int false (xs.map Value.int) []) := by
  have hps := forall₂_map_map
    (fun (x : Value) (p : List Byte × Value) =>
      (∀ s : Serializer, s.SerializeValue L x = (Res.ok (), { buf := s.buf ++ p.1 })) ∧
        Decodes (Deserializer.decodeInto L Ty.int (zeroOf Ty.int)) p.1 p.2)
    Value.int (fun x => (canonicalVarint 9 (zigzagEncodeInt x), Value.int x)) xs
    (fun x hmem => by
      obtain ⟨hlo, hhi⟩ := hx x hmem
      beta_reduce
      rw [zigzagEncodeInt_eq x hlo hhi]
      exact ⟨fun s => ser_int L s x hlo hhi, dec_int L _ x hlo hhi⟩)
  have h := slice_codec L Ty.int isNil (xs.map Value.int) spare (by simp [Ty.isUint8])
    (by rw [List.length_map]; exact hlen) _ hps
  simp only [List.map_map, List.length_map] at h
  exact h

/-- C14: for every list `xs` of `int` values (64 bits), `Serialize(xs)`
succeeds with `encodeVarintUint(len(xs))` followed by the zigzag varint of
each element in order, and deserializing these bytes (fewer than `2^63`, as in
every Go slice) into a `nil` slice succeeds, consumes all of them and yields a
slice with the same elements in the same order. -/
theorem slice_roundtrip (L : Lib) (xs : List Int) (isNil : Bool) (spare : List Value)
    (hx : ∀ x ∈ xs, -2 ^ 63 ≤ x ∧ x < 2 ^ 63)
    (hlen : (intSliceEncoding xs).length < 2 ^ 63) :
    encodeVarintUint xs.length = some (canonicalVarint 9 xs.length) ∧
    (∀ x ∈ xs, encodeVarintUint (zigzagEncodeInt x) =
      some (canonicalVarint 9 (zigzagEncodeInt x))) ∧
    Serialize L (Value.slice Ty.int isNil (xs.map Value.int) spare) =
      Res.ok (intSliceEncoding xs) ∧
    (NewDeserializer (intSliceEncoding xs)).DeserializeValue L
        (Target.pointer (Ty.slice Ty.int) (Value.slice Ty.int true [] [])) =
      (Res.ok (Target.pointer (Ty.slice Ty.int) (Value.slice Ty.int false (xs.map Value.int) [])),
        { data := intSliceEncoding xs, pos := (intSliceEncoding xs).length }) ∧
    Deserialize L (intSliceEncoding xs)
        (Target.pointer (Ty.slice Ty.int) (Value.slice Ty.int true [] [])) =
      Res.ok (Target.pointer (Ty.slice Ty.int)
        (Value.slice Ty.int false (xs.map Value.int) [])) := by
  have hn : xs.length < 2 ^ 63 := by
    have h1 := length_le_flatten (xs.map fun x => canonicalVarint 9 (zigzagEncodeInt x))
      (fun e he => by
        obtain ⟨x, _, rfl⟩ := List.mem_map.1 he
        exact canonicalVarint_ne_nil _ _)
    rw [List.length_map] at h1
    unfold intSliceEncoding at hlen
    rw [List.length_append] at hlen
    omega
  obtain ⟨hs, hdec⟩ := intSlice_codec L xs isNil spare hx hn
  rw [zeroOf] at hdec
  refine ⟨encodeVarintUint_eq _ (by omega), ?_, serialize_of_appends L _ _ hs,
    deserializeValue_of_decodes L _ _ _ _ hdec hlen, deserialize_of_decodes L _ _ _ _ hdec hlen⟩
  intro x hmem
  obtain ⟨hlo, hhi⟩ := hx x hmem
  rw [zigzagEncodeInt_eq x hlo hhi]
  exact encodeVarintUint_eq _ (zigzagEncodeInt64_lt x hlo hhi)

theorem slice_roundtrip_witness :
    (∀ x ∈ ([1, -2, 300] : List Int), -2 ^ 63 ≤ x ∧ x < 2 ^ 63) ∧
    (intSliceEncoding [1, -2, 300]).length < 2 ^ 63 ∧
    Serialize stdLib (Value.slice Ty.int false (([1, -2, 300] : List Int).map Value.int) []) =
      Res.ok (intSliceEncoding [1, -2, 300]) ∧
    Deserialize stdLib (intSliceEncoding [1, -2, 300])
        (Target.pointer (Ty.slice Ty.int) (Value.slice Ty.int true [] [])) =
      Res.ok (Target.pointer (Ty.slice Ty.int)
        (Value.slice Ty.int false (([1, -2, 300] : List Int).map Value.int) [])) :=
  have hx : ∀ x ∈ ([1, -2, 300] : List Int), -2 ^ 63 ≤ x ∧ x < 2 ^ 63 := by decide
  have hlen : (intSliceEncoding [1, -2, 300]).length < 2 ^ 63 := by decide
  have h := slice_roundtrip stdLib [1, -2, 300] false [] hx hlen
  ⟨hx, hlen, h.2.2.1, h.2.2.2.2⟩

/-! ### Maps -/

theorem length_le_flatten_of_mem (encs : List (List Byte)) (e : List Byte) (h : e ∈ encs) :
    e.length ≤ encs.flatten.length := by
  induction encs with
  | nil => simp at h
  | cons a as ih =>
    rw [List.flatten_cons, List.length_append]
    rcases List.mem_cons.1 h with rfl | h1
    · omega
    · have := ih h1
      omega

theorem serializeEntries_eq (L : Lib) :
    ∀ (es : List (List Byte × Int)) (s : Serializer),
      (∀ kv ∈ es, kv.1.length < 2 ^ 64 ∧ -2 ^ 63 ≤ kv.2 ∧ kv.2 < 2 ^ 63) →
      Serializer.SerializeEntries L s (es.map mapEntry) =
        (Res.ok (), { buf := s.buf ++ (es.map entryEncoding).flatten }) := by
  intro es
  induction es with
  | nil => intro s _; simp [Serializer.SerializeEntries]
  | cons kv es ih =>
    intro s h
    obtain ⟨hk, hlo, hhi⟩ := h kv (List.mem_cons_self _ _)
    rw [List.map_cons, mapEntry, Serializer.SerializeEntries, ser_string L s kv.1 hk,
      Serializer.andThen_ok, ser_int L _ kv.2 hlo hhi, Serializer.andThen_ok,
      ih _ (fun x hx => h x (List.mem_cons_of_mem _ hx))]
    simp [entryEncoding, zigzagEncodeInt_eq kv.2 hlo hhi]

theorem setMapIndex_fresh (key value : Value) :
    ∀ acc : List (Value × Value), (∀ e ∈ acc, e.1.keyEq key = false) →
      setMapIndex key value acc = acc ++ [(key, value)] := by
  intro acc
  induction acc with
  | nil => intro _; rfl
  | cons e acc ih =>
    intro h
    obtain ⟨k, v⟩ := e
    have hk : k.keyEq key = false := h (k, v) (List.mem_cons_self _ _)
    rw [setMapIndex]
    simp only [hk, Bool.false_eq_true, if_false, List.cons_append]
    rw [ih fun x hx => h x (List.mem_cons_of_mem _ hx)]

theorem keyEq_string (a b : List Byte) (h : a ≠ b) :
    (Value.string a).keyEq (Value.string b) = false := by
  simp [Value.keyEq, h]

theorem loopEntries_codec (L : Lib) :
    ∀ (es acc : List (List Byte × Int)),
      (∀ kv ∈ es, kv.1.length < 2 ^ 63 ∧ L.utf8Valid kv.1 = true ∧
        -2 ^ 63 ≤ kv.2 ∧ kv.2 < 2 ^ 63) →
      ((acc ++ es).map Prod.fst).Nodup →
      Decodes
        (Deserializer.loopEntries (Deserializer.decodeInto L Ty.string (zeroOf Ty.string))
          (Deserializer.decodeInto L Ty.int (zeroOf Ty.int)) es.length (acc.map mapEntry))
        (es.map entryEncoding).flatten ((acc ++ es).map mapEntry) := by
  intro es
  induction es with
  | nil =>
    intro acc _ _
    rw [List.append_nil]
    exact decodes_congr _ _ _ _ (fun d => by simp [Deserializer.loopEntries]) (decodes_pure _)
  | cons kv es ih =>
    intro acc h hnd
    obtain ⟨hk, hvalid, hlo, hhi⟩ := h kv (List.mem_cons_self _ _)
    have hfresh : ∀ e ∈ acc.map mapEntry, e.1.keyEq (Value.string kv.1) = false := by
      intro e he
      obtain ⟨a, ha, rfl⟩ := List.mem_map.1 he
      apply keyEq_string
      intro heq
      rw [List.map_append, List.map_cons] at hnd
      have hdis := (List.nodup_append.1 hnd).2.2
      exact hdis (List.mem_map.2 ⟨a, ha, rfl⟩) (by rw [heq]; exact List.mem_cons_self _ _)
    have hrec := ih (acc ++ [kv]) (fun x hx => h x (List.mem_cons_of_mem _ hx))
      (by simpa using hnd)
    rw [List.map_append, List.map_cons, List.map_nil, mapEntry,
      ← setMapIndex_fresh (Value.string kv.1) (Value.int kv.2) _ hfresh] at hrec
    have hassoc : acc ++ [kv] ++ es = acc ++ kv :: es := by simp
    rw [hassoc] at hrec
    rw [List.map_cons, List.flatten_cons, entryEncoding, List.append_assoc,
      zigzagEncodeInt_eq kv.2 hlo hhi, List.length_cons]
    refine decodes_congr _ _ _ _ (fun d => by rw [Deserializer.loopEntries]) ?_
    refine decodes_andThen _ _ _ _ (Value.string kv.1) _ (dec_string L _ kv.1 hk hvalid) ?_
    exact decodes_andThen _ _ _ _ (Value.int kv.2) _ (dec_int L _ kv.2 hlo hhi) hrec

theorem decodeInto_map (L : Lib) (key elem : Ty) (isNil : Bool) (entries : List (Value × Value))
    (d : Deserializer) :
    Deserializer.decodeInto L (Ty.map key elem) (Value.map isNil entries) d =
      Deserializer.andThen d.DeserializeUint fun sz d1 =>
        Deserializer.andThen
          (Deserializer.fillMap (Deserializer.decodeInto L key (zeroOf key))
            (Deserializer.decodeInto L elem (zeroOf elem)) (toInt 64 sz) entries d1)
          fun entries d2 => (Res.ok (Value.map false entries), d2) := by
  rw [Deserializer.decodeInto, Value.mapEntries]

theorem stringIntMap_codec (L : Lib) (es : List (List Byte × Int)) (isNil : Bool)
    (h : ∀ kv ∈ es, kv.1.length < 2 ^ 63 ∧ L.utf8Valid kv.1 = true ∧
      -2 ^ 63 ≤ kv.2 ∧ kv.2 < 2 ^ 63)
    (hlen : es.length < 2 ^ 63) (hnd : (es.map Prod.fst).Nodup) :
    (∀ s : Serializer, s.SerializeValue L (Value.map isNil (es.map mapEntry)) =
      (Res.ok (), { buf := s.buf ++ mapEncoding es })) ∧
    Decodes (Deserializer.decodeInto L (Ty.map Ty.string Ty.int) (Value.map true []))
      (mapEncoding es) (Value.map false (es.map mapEntry)) := by
  constructor
  · intro s
    rw [Serializer.SerializeValue, List.length_map, Nat.mod_eq_of_lt (by omega),
      pushVarintUint64_ok s _ (by omega), Serializer.andThen_ok,
      serializeEntries_eq L es _ (fun kv hkv => by
        obtain ⟨h1, _, h3, h4⟩ := h kv hkv
        exact ⟨by omega, h3, h4⟩)]
    simp [mapEncoding]
  · refine decodes_congr _ _ _ _ (decodeInto_map L _ _ _ _) ?_
    unfold mapEncoding
    refine decodes_andThen (fun d => d.DeserializeUint) _ _ _ es.length _
      (decodes_uint _ (by omega)) ?_
    beta_reduce
    rw [toInt64_of_lt es.length hlen]
    refine decodes_map _ (fun entries => Value.map false entries) _ _ ?_
    have hl := loopEntries_codec L es [] h (by simpa using hnd)
    simp only [List.map_nil, List.nil_append] at hl
    exact decodes_congr _ _ _ _ (fun d => by simp [Deserializer.fillMap]) hl

/-- C15: let `m` be a `map[string]int` (distinct keys, each valid UTF-8, values
of 64 bits) and `es` any order in which its entries are enumerated. Then
`Serialize(m)` succeeds with `encodeVarintUint(|m|)` followed by each key and
its value in that order, and deserializing these bytes (fewer than `2^63`)
into a `nil` map succeeds, consumes all of them and yields a map holding
exactly the entries of `m`. -/
theorem map_roundtrip (L : Lib) (m es : List (List Byte × Int)) (isNil : Bool)
    (hperm : es.Perm m) (hnd : (m.map Prod.fst).Nodup)
    (hk : ∀ kv ∈ m, L.utf8Valid kv.1 = true)
    (hv : ∀ kv ∈ m, -2 ^ 63 ≤ kv.2 ∧ kv.2 < 2 ^ 63)
    (hlen : (mapEncoding es).length < 2 ^ 63) :
    encodeVarintUint m.length = some (canonicalVarint 9 es.length) ∧
    Serialize L (Value.map isNil (es.map mapEntry)) = Res.ok (mapEncoding es) ∧
    (NewDeserializer (mapEncoding es)).DeserializeValue L
        (Target.pointer (Ty.map Ty.string Ty.int) (Value.map true [])) =
      (Res.ok (Target.pointer (Ty.map Ty.string Ty.int) (Value.map false (es.map mapEntry))),
        { data := mapEncoding es, pos := (mapEncoding es).length }) ∧
    Deserialize L (mapEncoding es)
        (Target.pointer (Ty.map Ty.string Ty.int) (Value.map true [])) =
      Res.ok (Target.pointer (Ty.map Ty.string Ty.int) (Value.map false (es.map mapEntry))) ∧
    (es.map mapEntry).Perm (m.map mapEntry) := by
  have hflat : ((es.map entryEncoding).flatten).length < 2 ^ 63 := by
    unfold mapEncoding at hlen
    rw [List.length_append] at hlen
    omega
  have hn : es.length < 2 ^ 63 := by
    have h1 := length_le_flatten (es.map entryEncoding) (fun e he => by
      obtain ⟨kv, _, rfl⟩ := List.mem_map.1 he
      unfold entryEncoding
      intro h0
      exact canonicalVarint_ne_nil _ _ (List.append_eq_nil.1 h0).2)
    rw [List.length_map] at h1
    omega
  have hall : ∀ kv ∈ es, kv.1.length < 2 ^ 63 ∧ L.utf8Valid kv.1 = true ∧
      -2 ^ 63 ≤ kv.2 ∧ kv.2 < 2 ^ 63 := by
    intro kv hkv
    have hmem : kv ∈ m := hperm.subset hkv
    have h1 := length_le_flatten_of_mem (es.map entryEncoding) (entryEncoding kv)
      (List.mem_map.2 ⟨kv, hkv, rfl⟩)
    have h2 : kv.1.length ≤ (entryEncoding kv).length := by
      unfold entryEncoding
      simp only [List.length_append]
      omega
    exact ⟨by omega, hk kv hmem, hv kv hmem⟩
  have hnd2 : (es.map Prod.fst).Nodup := (hperm.map Prod.fst).nodup_iff.2 hnd
  obtain ⟨hs, hdec⟩ := stringIntMap_codec L es isNil hall hn hnd2
  refine ⟨?_, serialize_of_appends L _ _ hs, deserializeValue_of_decodes L _ _ _ _ hdec hlen,
    deserialize_of_decodes L _ _ _ _ hdec hlen, hperm.map mapEntry⟩
  rw [← hperm.length_eq]
  exact encodeVarintUint_eq _ (by omega)

theorem map_roundtrip_witness :
    ([([0x62], 2), ([0x61], 1)] : List (List Byte × Int)).Perm [([0x61], 1), ([0x62], 2)] ∧
    (([([0x61], 1), ([0x62], 2)] : List (List Byte × Int)).map Prod.fst).Nodup ∧
    (∀ kv ∈ ([([0x61], 1), ([0x62], 2)] : List (List Byte × Int)),
      stdLib.utf8Valid kv.1 = true) ∧
    (∀ kv ∈ ([([0x61], 1), ([0x62], 2)] : List (List Byte × Int)),
      -2 ^ 63 ≤ kv.2 ∧ kv.2 < 2 ^ 63) ∧
    (mapEncoding [([0x62], 2), ([0x61], 1)]).length < 2 ^ 63 ∧
    Serialize stdLib (Value.map false
        (([([0x62], 2), ([0x61], 1)] : List (List Byte × Int)).map mapEntry)) =
      Res.ok (mapEncoding [([0x62], 2), ([0x61], 1)]) ∧
    Deserialize stdLib (mapEncoding [([0x62], 2), ([0x61], 1)])
        (Target.pointer (Ty.map Ty.string Ty.int) (Value.map true [])) =
      Res.ok (Target.pointer (Ty.map Ty.string Ty.int)
        (Value.map false (([([0x62], 2), ([0x61], 1)] : List (List Byte × Int)).map mapEntry))) :=
  have hperm : ([([0x62], 2), ([0x61], 1)] : List (List Byte × Int)).Perm
      [([0x61], 1), ([0x62], 2)] := List.Perm.swap _ _ _
  have hnd : (([([0x61], 1), ([0x62], 2)] : List (List Byte × Int)).map Prod.fst).Nodup := by
    decide
  have hk : ∀ kv ∈ ([([0x61], 1), ([0x62], 2)] : List (List Byte × Int)),
      stdLib.utf8Valid kv.1 = true := by decide
  have hv : ∀ kv ∈ ([([0x61], 1), ([0x62], 2)] : List (List Byte × Int)),
      -2 ^ 63 ≤ kv.2 ∧ kv.2 < 2 ^ 63 := by decide
  have hlen : (mapEncoding [([0x62], 2), ([0x61], 1)]).length < 2 ^ 63 := by decide
  have h := map_roundtrip stdLib _ _ false hperm hnd hk hv hlen
  ⟨hperm, hnd, hk, hv, hlen, h.2.1, h.2.2.2.1⟩

/-! ### The errors a decoder may return -/

theorem errsIn_ok {α : Type} (P : Error → Prop) (x : α) (d : Deserializer) :
    ErrsIn P ((Res.ok x : Res α), d) := by
  intro e h
  cases h

theorem errsIn_panic {α : Type} (P : Error → Prop) (d : Deserializer) :
    ErrsIn P ((Res.panic : Res α), d) := by
  intro e h
  cases h

theorem errsIn_err {α : Type} (P : Error → Prop) (e0 : Error) (h0 : P e0) (d : Deserializer) :
    ErrsIn P ((Res.err e0 : Res α), d) := by
  intro e h
  cases h
  exact h0

theorem errsIn_andThen {α β : Type} (P : Error → Prop) (r : Res α × Deserializer)
    (next : α → Deserializer → Res β × Deserializer) (hr : ErrsIn P r)
    (hn : ∀ a d, ErrsIn P (next a d)) : ErrsIn P (Deserializer.andThen r next) := by
  rcases r with ⟨r, d1⟩
  cases r with
  | ok x => exact hn x d1
  | err e0 => exact errsIn_err P e0 (hr e0 rfl) d1
  | panic => exact errsIn_panic P d1

theorem errsIn_popByte (P : Error → Prop) (hEnd : P Error.ErrDeserializeUnexpectedEnd)
    (d : Deserializer) : ErrsIn P d.popByte := by
  unfold Deserializer.popByte
  split
  · exact errsIn_ok P _ _
  · exact errsIn_err P _ hEnd _

theorem errsIn_takeBytes (P : Error → Prop) (hEnd : P Error.ErrDeserializeUnexpectedEnd)
    (d : Deserializer) (n : Int) : ErrsIn P (d.takeBytes n) := by
  intro e h
  unfold Deserializer.takeBytes at h
  generalize toInt 64 ((d.pos : Int) + n) = hi at h
  by_cases h1 : hi > (d.data.length : Int)
  · simp only [h1, if_true] at h
    cases h
    exact hEnd
  · by_cases h2 : hi < (d.pos : Int)
    · simp only [h1, h2, if_true, if_false] at h
      cases h
    · simp only [h1, h2, if_false] at h
      cases h

theorem scanVarint_errs (P : Error → Prop) (hEnd : P Error.ErrDeserializeUnexpectedEnd)
    (hVar : P Error.ErrDeserializeBadVarint) (maxLast : Nat) :
    ∀ (todo : Nat) (bs : List Byte) (e : Error),
      (scanVarint maxLast todo bs).1 = Res.err e → P e := by
  intro todo
  induction todo with
  | zero =>
    intro bs e h
    rw [scanVarint] at h
    cases h
    exact hVar
  | succ t ih =>
    intro bs e h
    cases bs with
    | nil =>
      rw [scanVarint] at h
      cases h
      exact hEnd
    | cons b bs =>
      rw [scanVarint] at h
      split at h
      · split at h
        · cases h
          exact hVar
        · cases h
      · have ih2 := ih bs
        rcases hscan : scanVarint maxLast t bs with ⟨r, c⟩
        rw [hscan] at h ih2
        cases r with
        | ok v => cases h
        | err e0 =>
          injection h with h
          subst h
          exact ih2 e0 rfl
        | panic => cases h

theorem errsIn_uint16 (P : Error → Prop) (hEnd : P Error.ErrDeserializeUnexpectedEnd)
    (hVar : P Error.ErrDeserializeBadVarint) (d : Deserializer) :
    ErrsIn P (d.runVarint decodeVarintUint16) := by
  intro e h
  unfold Deserializer.runVarint at h
  rw [decodeVarintUint16_eq_scan] at h
  exact scanVarint_errs P hEnd hVar _ _ _ e h

theorem errsIn_uint32 (P : Error → Prop) (hEnd : P Error.ErrDeserializeUnexpectedEnd)
    (hVar : P Error.ErrDeserializeBadVarint) (d : Deserializer) :
    ErrsIn P (d.runVarint decodeVarintUint32) := by
  intro e h
  unfold Deserializer.runVarint at h
  rw [decodeVarintUint32_eq_scan] at h
  exact scanVarint_errs P hEnd hVar _ _ _ e h

theorem errsIn_uint64 (P : Error → Prop) (hEnd : P Error.ErrDeserializeUnexpectedEnd)
    (hVar : P Error.ErrDeserializeBadVarint) (d : Deserializer) :
    ErrsIn P (d.runVarint decodeVarintUint64) := by
  intro e h
  unfold Deserializer.runVarint at h
  rw [decodeVarintUint64_eq_scan] at h
  exact scanVarint_errs P hEnd hVar _ _ _ e h

theorem errsIn_fixed (P : Error → Prop) (hEnd : P Error.ErrDeserializeUnexpectedEnd)
    (k : Nat) (d : Deserializer) : ErrsIn P (d.runVarint (decodeFixedLE k)) := by
  intro e h
  unfold Deserializer.runVarint decodeFixedLE at h
  split at h
  · cases h
    exact hEnd
  · cases h

theorem errsIn_zigzagAfter (P : Error → Prop) (dec : List Byte → Nat → Res Nat × Nat)
    (zz : Nat → Int) (d : Deserializer) (h : ErrsIn P (d.runVarint dec)) :
    ErrsIn P (d.zigzagAfter dec zz) := by
  rw [zigzagAfter_eq_andThen]
  exact errsIn_andThen P _ _ h fun a d1 => errsIn_ok P _ _

theorem errsIn_bytes (P : Error → Prop) (hEnd : P Error.ErrDeserializeUnexpectedEnd)
    (hVar : P Error.ErrDeserializeBadVarint) (d : Deserializer) :
    ErrsIn P d.DeserializeBytes := by
  rw [deserializeBytes_eq_andThen]
  exact errsIn_andThen P _ _ (errsIn_uint64 P hEnd hVar d) fun sz d1 =>
    errsIn_takeBytes P hEnd d1 _

theorem errsIn_string (P : Error → Prop) (hEnd : P Error.ErrDeserializeUnexpectedEnd)
    (hVar : P Error.ErrDeserializeBadVarint) (hUtf : P Error.ErrDeserializeBadUtf8)
    (valid : List Byte → Bool) (d : Deserializer) :
    ErrsIn P (d.DeserializeString valid) := by
  rw [deserializeString_eq_andThen]
  refine errsIn_andThen P _ _ (errsIn_uint64 P hEnd hVar d) fun sz d1 => ?_
  refine errsIn_andThen P _ _ (errsIn_takeBytes P hEnd d1 _) fun bytes d2 => ?_
  split
  · exact errsIn_err P _ hUtf _
  · exact errsIn_ok P _ _

theorem errsIn_bool (P : Error → Prop) (hEnd : P Error.ErrDeserializeUnexpectedEnd)
    (hBool : P Error.ErrDeserializeBadBool) (d : Deserializer) :
    ErrsIn P d.DeserializeBool := by
  unfold Deserializer.DeserializeBool
  refine errsIn_andThen P _ _ (errsIn_popByte P hEnd d) fun b d1 => ?_
  split
  · exact errsIn_ok P _ _
  · split
    · exact errsIn_ok P _ _
    · exact errsIn_err P _ hBool _

theorem errsIn_loopElems (P : Error → Prop)
    (step : Value → Deserializer → Res Value × Deserializer)
    (hstep : ∀ cur d, ErrsIn P (step cur d)) :
    ∀ (xs : List Value) (d : Deserializer), ErrsIn P (Deserializer.loopElems step xs d) := by
  intro xs
  induction xs with
  | nil => intro d; rw [Deserializer.loopElems]; exact errsIn_ok P _ _
  | cons x xs ih =>
    intro d
    rw [Deserializer.loopElems]
    refine errsIn_andThen P _ _ (hstep x d) fun v d1 => ?_
    exact errsIn_andThen P _ _ (ih d1) fun vs d2 => errsIn_ok P _ _

theorem errsIn_loopEntries (P : Error → Prop)
    (stepKey stepVal : Deserializer → Res Value × Deserializer)
    (hk : ∀ d, ErrsIn P (stepKey d)) (hv : ∀ d, ErrsIn P (stepVal d)) :
    ∀ (n : Nat) (entries : List (Value × Value)) (d : Deserializer),
      ErrsIn P (Deserializer.loopEntries stepKey stepVal n entries d) := by
  intro n
  induction n with
  | zero => intro entries d; rw [Deserializer.loopEntries]; exact errsIn_ok P _ _
  | succ n ih =>
    intro entries d
    rw [Deserializer.loopEntries]
    refine errsIn_andThen P _ _ (hk d) fun key d1 => ?_
    exact errsIn_andThen P _ _ (hv d1) fun value d2 => ih _ d2

theorem errsIn_fillSlice (P : Error → Prop) (elem : Ty)
    (loop : List Value → Deserializer → Res (List Value) × Deserializer)
    (hloop : ∀ xs d, ErrsIn P (loop xs d)) (targets : Option (List Value × List Value))
    (d1 : Deserializer) : ErrsIn P (Deserializer.fillSlice elem loop targets d1) := by
  unfold Deserializer.fillSlice
  cases targets with
  | none => exact errsIn_panic P _
  | some p =>
    obtain ⟨elems, spare⟩ := p
    exact errsIn_andThen P _ _ (hloop elems d1) fun xs d2 => errsIn_ok P _ _

mutual
theorem errsIn_decodeInto (L : Lib) (P : Error → Prop)
    (hEnd : P Error.ErrDeserializeUnexpectedEnd) (hVar : P Error.ErrDeserializeBadVarint)
    (hBool : P Error.ErrDeserializeBadBool) (hUtf : P Error.ErrDeserializeBadUtf8)
    (hUns : P (Error.Errorf Msg.unsupportedType)) :
    ∀ (t : Ty) (cur : Value) (d : Deserializer), ErrsIn P (Deserializer.decodeInto L t cur d)
  | Ty.bool, cur, d => by
    rw [Deserializer.decodeInto]
    exact errsIn_andThen P _ _ (errsIn_bool P hEnd hBool d) fun a d1 => errsIn_ok P _ _
  | Ty.int, cur, d => by
    rw [Deserializer.decodeInto]
    exact errsIn_andThen P _ _ (errsIn_zigzagAfter P _ _ d (errsIn_uint64 P hEnd hVar d))
      fun a d1 => errsIn_ok P _ _
  | Ty.int8, cur, d => by
    rw [Deserializer.decodeInto]
    exact errsIn_andThen P _ _
      (errsIn_andThen P _ _ (errsIn_popByte P hEnd d) fun b d1 => errsIn_ok P _ _)
      fun a d1 => errsIn_ok P _ _
  | Ty.int16, cur, d => by
    rw [Deserializer.decodeInto]
    exact errsIn_andThen P _ _ (errsIn_zigzagAfter P _ _ d (errsIn_uint16 P hEnd hVar d))
      fun a d1 => errsIn_ok P _ _
  | Ty.int32, cur, d => by
    rw [Deserializer.decodeInto]
    exact errsIn_andThen P _ _ (errsIn_zigzagAfter P _ _ d (errsIn_uint32 P hEnd hVar d))
      fun a d1 => errsIn_ok P _ _
  | Ty.int64, cur, d => by
    rw [Deserializer.decodeInto]
    exact errsIn_andThen P _ _ (errsIn_zigzagAfter P _ _ d (errsIn_uint64 P hEnd hVar d))
      fun a d1 => errsIn_ok P _ _
  | Ty.uint, cur, d => by
    rw [Deserializer.decodeInto]
    exact errsIn_andThen P _ _ (errsIn_uint64 P hEnd hVar d) fun a d1 => errsIn_ok P _ _
  | Ty.uint8, cur, d => by
    rw [Deserializer.decodeInto]
    exact errsIn_andThen P _ _
      (errsIn_andThen P _ _ (errsIn_popByte P hEnd d) fun b d1 => errsIn_ok P _ _)
      fun a d1 => errsIn_ok P _ _
  | Ty.uint16, cur, d => by
    rw [Deserializer.decodeInto]
    exact errsIn_andThen P _ _ (errsIn_uint16 P hEnd hVar d) fun a d1 => errsIn_ok P _ _
  | Ty.uint32, cur, d => by
    rw [Deserializer.decodeInto]
    exact errsIn_andThen P _ _ (errsIn_uint32 P hEnd hVar d) fun a d1 => errsIn_ok P _ _
  | Ty.uint64, cur, d => by
    rw [Deserializer.decodeInto]
    exact errsIn_andThen P _ _ (errsIn_uint64 P hEnd hVar d) fun a d1 => errsIn_ok P _ _
  | Ty.float32, cur, d => by
    rw [Deserializer.decodeInto]
    exact errsIn_andThen P _ _ (errsIn_fixed P hEnd 4 d) fun a d1 => errsIn_ok P _ _
  | Ty.float64, cur, d => by
    rw [Deserializer.decodeInto]
    exact errsIn_andThen P _ _ (errsIn_fixed P hEnd 8 d) fun a d1 => errsIn_ok P _ _
  | Ty.string, cur, d => by
    rw [Deserializer.decodeInto]
    exact errsIn_andThen P _ _ (errsIn_string P hEnd hVar hUtf _ d) fun a d1 => errsIn_ok P _ _
  | Ty.slice elem, cur, d => by
    by_cases hu : elem.isUint8 = true
    · rw [decodeInto_byteSlice L elem cur hu]
      exact errsIn_andThen P _ _ (errsIn_bytes P hEnd hVar d) fun a d1 => errsIn_ok P _ _
    · rw [decodeInto_slice L elem cur hu]
      refine errsIn_andThen P _ _ (errsIn_uint64 P hEnd hVar d) fun sz d1 => ?_
      exact errsIn_fillSlice P elem _
        (errsIn_loopElems P _ (errsIn_decodeInto L P hEnd hVar hBool hUtf hUns elem)) _ d1
  | Ty.array len elem, cur, d => by
    rw [Deserializer.decodeInto]
    exact errsIn_andThen P _ _
      (errsIn_loopElems P _ (errsIn_decodeInto L P hEnd hVar hBool hUtf hUns elem) _ d)
      fun a d1 => errsIn_ok P _ _
  | Ty.map key elem, cur, d => by
    rw [Deserializer.decodeInto]
    refine errsIn_andThen P _ _ (errsIn_uint64 P hEnd hVar d) fun sz d1 => ?_
    refine errsIn_andThen P _ _ ?_ fun a d2 => errsIn_ok P _ _
    unfold Deserializer.fillMap
    exact errsIn_loopEntries P _ _
      (errsIn_decodeInto L P hEnd hVar hBool hUtf hUns key _)
      (errsIn_decodeInto L P hEnd hVar hBool hUtf hUns elem _) _ _ d1
  | Ty.struct fields, cur, d => by
    rw [Deserializer.decodeInto]
    exact errsIn_andThen P _ _
      (errsIn_decodeFields L P hEnd hVar hBool hUtf hUns fields _ d)
      fun a d1 => errsIn_ok P _ _
  | Ty.ptr _, cur, d => by
    rw [Deserializer.decodeInto]
    exact errsIn_err P _ hUns _
  | Ty.iface, cur, d => by
    rw [Deserializer.decodeInto]
    exact errsIn_err P _ hUns _
  | Ty.other, cur, d => by
    rw [Deserializer.decodeInto]
    exact errsIn_err P _ hUns _
theorem errsIn_decodeFields (L : Lib) (P : Error → Prop)
    (hEnd : P Error.ErrDeserializeUnexpectedEnd) (hVar : P Error.ErrDeserializeBadVarint)
    (hBool : P Error.ErrDeserializeBadBool) (hUtf : P Error.ErrDeserializeBadUtf8)
    (hUns : P (Error.Errorf Msg.unsupportedType)) :
    ∀ (fs : List (StructField Ty)) (cur : List (StructField Value)) (d : Deserializer),
      ErrsIn P (Deserializer.decodeFields L fs cur d)
  | [], cur, d => by
    rw [Deserializer.decodeFields]
    exact errsIn_ok P _ _
  | f :: fs, cur, d => by
    rw [Deserializer.decodeFields]
    split
    · exact errsIn_andThen P _ _
        (errsIn_decodeFields L P hEnd hVar hBool hUtf hUns fs _ d)
        fun a d1 => errsIn_ok P _ _
    · refine errsIn_andThen P _ _
        (errsIn_decodeInto L P hEnd hVar hBool hUtf hUns f.val _ d) fun v d1 => ?_
      exact errsIn_andThen P _ _
        (errsIn_decodeFields L P hEnd hVar hBool hUtf hUns fs _ d1)
        fun a d2 => errsIn_ok P _ _
end

/-! ### Options and pointers -/

theorem popByte_at (pre : List Byte) (b : Byte) (rest : List Byte) :
    ({ data := pre ++ b :: rest, pos := pre.length } : Deserializer).popByte =
      (Res.ok b, { data := pre ++ b :: rest, pos := pre.length + 1 }) := by
  have hlt : pre.length < (pre ++ b :: rest).length := by simp
  have hb : (pre ++ b :: rest)[pre.length] = b := by
    rw [List.getElem_append_right (Nat.le_refl _)]
    simp
  unfold Deserializer.popByte
  simp only [hlt, dite_true, hb]

theorem popByte_end (pre : List Byte) :
    ({ data := pre, pos := pre.length } : Deserializer).popByte =
      (Res.err Error.ErrDeserializeUnexpectedEnd, { data := pre, pos := pre.length }) := by
  simp [Deserializer.popByte]

theorem pushByte_eq (s : Serializer) (b : Byte) :
    s.pushByte b = (Res.ok (), { buf := s.buf ++ [b] }) := rfl

theorem serializeOption_pointer (L : Lib) (s : Serializer) (x : Value) (enc : List Byte)
    (hx : Serialize L x = Res.ok enc) :
    s.SerializeOption L (Value.ptr x) = (Res.ok (), { buf := s.buf ++ 0x01 :: enc }) := by
  have hv := serializeValue_of_serialize L x enc hx
  show Serializer.andThen (s.pushByte 1) (fun s1 => s1.SerializeValue L x) = _
  rw [pushByte_eq, Serializer.andThen_ok, hv]
  simp

theorem serialize_ptr (L : Lib) (v : Value) : Serialize L (Value.ptr v) = Serialize L v := by
  apply serialize_eq_of_serializeValue
  intro s1
  rw [Serializer.SerializeValue]

theorem serializeOption_present (L : Lib) (s : Serializer) (x : Value) (enc : List Byte)
    (hx : Serialize L x = Res.ok enc) (h1 : x ≠ Value.nil) (h2 : x ≠ Value.nilPtr) :
    s.SerializeOption L x = (Res.ok (), { buf := s.buf ++ 0x01 :: enc }) := by
  have hv := serializeValue_of_serialize L x enc hx
  have key : Serializer.andThen (s.pushByte 1) (fun s1 => s1.SerializeValue L x) =
      (Res.ok (), { buf := s.buf ++ 0x01 :: enc }) := by
    rw [pushByte_eq, Serializer.andThen_ok, hv]
    simp
  cases x with
  | nil => exact absurd rfl h1
  | nilPtr => exact absurd rfl h2
  | ptr y =>
    rw [serialize_ptr] at hx
    exact serializeOption_pointer L s y enc hx
  | _ => exact key

theorem deserializeOption_present (L : Lib) (ty : Ty) (cur x : Value) (enc rest : List Byte)
    (h : Decodes (Deserializer.decodeInto L ty cur) enc x) (hlen : 1 + enc.length < 2 ^ 63) :
    ({ data := 0x01 :: enc ++ rest, pos := 0 } : Deserializer).DeserializeOption L
        (Target.pointer ty cur) =
      (Res.ok (Target.pointer ty x),
        { data := 0x01 :: enc ++ rest, pos := (0x01 :: enc).length }) := by
  have h1 := (h (0x01 :: (enc ++ rest)) 1 (by simp) hlen).1 rest (by simp)
  have hp := popByte_at [] 0x01 (enc ++ rest)
  simp only [List.nil_append, List.length_nil, Nat.zero_add] at hp
  unfold Deserializer.DeserializeOption
  rw [List.cons_append, hp, andThen_ok_eq]
  simp only [Fin.reduceEq, if_false, if_true]
  rw [h1, andThen_ok_eq, List.length_cons, Nat.add_comm]

theorem deserializeOption_absent (L : Lib) (ty : Ty) (cur : Value) (rest : List Byte) :
    (NewDeserializer (0x00 :: rest)).DeserializeOption L (Target.pointer ty cur) =
      (Res.ok (Target.pointer ty (zeroOf ty)), { data := 0x00 :: rest, pos := 1 }) := by
  have hp := popByte_at [] 0x00 rest
  simp only [List.nil_append, List.length_nil, Nat.zero_add] at hp
  unfold Deserializer.DeserializeOption NewDeserializer
  rw [hp, andThen_ok_eq]
  simp only [if_true]

/-- C16: `SerializeOption` of `nil` and of a `nil` pointer appends exactly the
byte `0x00`; of a present value `x`, directly or behind a pointer, it appends
`0x01` followed by the encoding of `x`. `DeserializeOption` over the present
form of an `int` sets the target to that integer; over the absent form it
consumes one byte and sets the target to the zero value of its type,
whatever it held before. -/
theorem option_roundtrip (L : Lib) (s : Serializer) (x : Value) (enc : List Byte) (n : Int)
    (rest : List Byte) (ty : Ty) (cur : Value)
    (hx : Serialize L x = Res.ok enc) (hlo : -2 ^ 63 ≤ n) (hhi : n < 2 ^ 63) :
    s.SerializeOption L Value.nil = (Res.ok (), { buf := s.buf ++ [0x00] }) ∧
    s.SerializeOption L Value.nilPtr = (Res.ok (), { buf := s.buf ++ [0x00] }) ∧
    s.SerializeOption L (Value.ptr x) = (Res.ok (), { buf := s.buf ++ 0x01 :: enc }) ∧
    (x ≠ Value.nil → x ≠ Value.nilPtr →
      s.SerializeOption L x = (Res.ok (), { buf := s.buf ++ 0x01 :: enc })) ∧
    (∃ bytes, (NewSerializer []).SerializeOption L (Value.int n) =
        (Res.ok (), { buf := bytes }) ∧
      ({ data := bytes ++ rest, pos := 0 } : Deserializer).DeserializeOption L
          (Target.pointer Ty.int cur) =
        (Res.ok (Target.pointer Ty.int (Value.int n)),
          { data := bytes ++ rest, pos := bytes.length })) ∧
    (NewDeserializer (0x00 :: rest)).DeserializeOption L (Target.pointer ty cur) =
      (Res.ok (Target.pointer ty (zeroOf ty)), { data := 0x00 :: rest, pos := 1 }) := by
  refine ⟨rfl, rfl, serializeOption_pointer L s x enc hx,
    serializeOption_present L s x enc hx, ?_, deserializeOption_absent L ty cur rest⟩
  refine ⟨0x01 :: canonicalVarint 9 (zigzagEncodeInt64 n), ?_, ?_⟩
  · have h := serializeOption_present L (NewSerializer []) (Value.int n) _
      (serialize_of_appends L _ _ fun s => ser_int L s n hlo hhi)
      (fun h => by cases h) (fun h => by cases h)
    simpa [NewSerializer] using h
  · have hl := canonicalVarint_length_le 9 (zigzagEncodeInt64 n)
    exact deserializeOption_present L Ty.int cur (Value.int n) _ rest
      (dec_int L cur n hlo hhi) (by omega)

theorem option_roundtrip_witness :
    Serialize stdLib (Value.string [0x68, 0x69]) = Res.ok [0x02, 0x68, 0x69] ∧
    (-2 : Int) ^ 63 ≤ -3 ∧ (-3 : Int) < 2 ^ 63 ∧
    (NewSerializer [0x2A]).SerializeOption stdLib (Value.ptr (Value.string [0x68, 0x69])) =
      (Res.ok (), { buf := [0x2A, 0x01, 0x02, 0x68, 0x69] }) ∧
    (NewSerializer [0x2A]).SerializeOption stdLib (Value.string [0x68, 0x69]) =
      (Res.ok (), { buf := [0x2A, 0x01, 0x02, 0x68, 0x69] }) ∧
    (NewDeserializer [0x00, 0x07]).DeserializeOption stdLib
        (Target.pointer Ty.int (Value.int 99)) =
      (Res.ok (Target.pointer Ty.int (Value.int 0)), { data := [0x00, 0x07], pos := 1 }) :=
  have hx : Serialize stdLib (Value.string [0x68, 0x69]) = Res.ok [0x02, 0x68, 0x69] := by
    decide
  have h := option_roundtrip stdLib (NewSerializer [0x2A]) (Value.string [0x68, 0x69])
    [0x02, 0x68, 0x69] (-3) [0x07] Ty.int (Value.int 99) hx (by decide) (by decide)
  ⟨hx, by decide, by decide, h.2.2.1, h.2.2.2.1 (fun h => by cases h) (fun h => by cases h),
    h.2.2.2.2.2⟩

/-- C17 (as stated, refuted): `Serialize` of a non-`nil` pointer to the `int` 5
is the encoding `[0x0A]` of 5 itself, with no tag byte `0x01` before it. -/
theorem pointer_not_tagged :
    Serialize stdLib (Value.int 5) = Res.ok [0x0A] ∧
    Serialize stdLib (Value.ptr (Value.int 5)) = Res.ok [0x0A] ∧
    Serialize stdLib (Value.ptr (Value.int 5)) ≠ Res.ok [0x01, 0x0A] := by
  decide

/-- C17 (amended): for every pointer passed to `Serialize`, a `nil` pointer
encodes to the single byte `0x00` and a non-`nil` pointer to `v` encodes to
exactly `Serialize(v)`, with no tag byte; the same holds of `SerializeValue`
on any serializer. -/
theorem pointer_encoding (L : Lib) (v : Value) (s : Serializer) :
    Serialize L Value.nilPtr = Res.ok [0x00] ∧
    Serialize L (Value.ptr v) = Serialize L v ∧
    s.SerializeValue L Value.nilPtr = (Res.ok (), { buf := s.buf ++ [0x00] }) ∧
    s.SerializeValue L (Value.ptr v) = s.SerializeValue L v := by
  refine ⟨rfl, serialize_ptr L v, rfl, ?_⟩
  rw [Serializer.SerializeValue]

/-- C18: for every `int` `n` (64 bits), `Serialize` of a pointer to `n`
succeeds and deserializing its output into an `int` target succeeds and
yields `n`; `Serialize` of a `nil` `*int` is `[0x00]`, and deserializing it
into an `int` target succeeds and yields 0, whatever the target held. -/
theorem pointer_to_int_roundtrip (L : Lib) (n : Int) (cur : Value)
    (hlo : -2 ^ 63 ≤ n) (hhi : n < 2 ^ 63) :
    (∃ bytes, Serialize L (Value.ptr (Value.int n)) = Res.ok bytes ∧
      Deserialize L bytes (Target.pointer Ty.int cur) =
        Res.ok (Target.pointer Ty.int (Value.int n))) ∧
    Serialize L Value.nilPtr = Res.ok [0x00] ∧
    Deserialize L [0x00] (Target.pointer Ty.int cur) =
      Res.ok (Target.pointer Ty.int (Value.int 0)) := by
  have hl := canonicalVarint_length_le 9 (zigzagEncodeInt64 n)
  refine ⟨⟨canonicalVarint 9 (zigzagEncodeInt64 n), ?_, ?_⟩, rfl, ?_⟩
  · apply serialize_of_appends
    intro s
    rw [Serializer.SerializeValue]
    exact ser_int L s n hlo hhi
  · exact deserialize_of_decodes L Ty.int cur _ _ (dec_int L cur n hlo hhi) (by omega)
  · have h0 := deserialize_of_decodes L Ty.int cur _ _
      (dec_int L cur 0 (by decide) (by decide)) (by decide)
    exact h0

theorem pointer_to_int_roundtrip_witness :
    (-2 : Int) ^ 63 ≤ 42 ∧ (42 : Int) < 2 ^ 63 ∧
    (∃ bytes, Serialize stdLib (Value.ptr (Value.int 42)) = Res.ok bytes ∧
      Deserialize stdLib bytes (Target.pointer Ty.int (Value.int 0)) =
        Res.ok (Target.pointer Ty.int (Value.int 42))) ∧
    Serialize stdLib Value.nilPtr = Res.ok [0x00] ∧
    Deserialize stdLib [0x00] (Target.pointer Ty.int (Value.int 0)) =
      Res.ok (Target.pointer Ty.int (Value.int 0)) :=
  ⟨by decide, by decide,
    pointer_to_int_roundtrip stdLib 42 (Value.int 0) (by decide) (by decide)⟩

/-! ### Tag bytes -/

theorem deserializeBool_at (pre : List Byte) (b : Byte) (rest : List Byte) :
    ({ data := pre ++ b :: rest, pos := pre.length } : Deserializer).DeserializeBool =
      (if b = 0 then Res.ok false else if b = 1 then Res.ok true
        else Res.err Error.ErrDeserializeBadBool,
        { data := pre ++ b :: rest, pos := pre.length + 1 }) := by
  unfold Deserializer.DeserializeBool
  rw [popByte_at, andThen_ok_eq]
  by_cases h0 : b = 0
  · simp [h0]
  · by_cases h1 : b = 1
    · simp [h1]
    · simp [h0, h1]

theorem deserializeOption_bad_iff (L : Lib) (pre : List Byte) (b : Byte) (rest : List Byte)
    (v : Target) :
    (({ data := pre ++ b :: rest, pos := pre.length } : Deserializer).DeserializeOption L v).1 =
        Res.err Error.ErrDeserializeBadOption ↔ (b ≠ 0 ∧ b ≠ 1) := by
  unfold Deserializer.DeserializeOption
  rw [popByte_at, andThen_ok_eq]
  by_cases h0 : b = 0
  · subst h0
    simp only [if_true, ne_eq, not_true_eq_false, false_and, iff_false]
    cases v <;> simp
  · by_cases h1 : b = 1
    · subst h1
      simp only [Fin.reduceEq, if_false, if_true, ne_eq, not_true_eq_false, and_false, iff_false]
      cases v with
      | nil => simp
      | nonPointer => simp
      | nilPointer => simp
      | pointer ty cur =>
        intro hbad
        have hE : ErrsIn (fun e => e ≠ Error.ErrDeserializeBadOption)
            (Deserializer.andThen
              (Deserializer.decodeInto L ty cur
                { data := pre ++ 1 :: rest, pos := pre.length + 1 })
              fun x d2 => (Res.ok (Target.pointer ty x), d2)) :=
          errsIn_andThen _ _ _
            (errsIn_decodeInto L _ (by simp) (by simp) (by simp) (by simp) (by simp) ty cur _)
            fun a d => errsIn_ok _ _ _
        exact hE _ hbad rfl
    · simp [h0, h1]

/-- C19: where at least one byte `b` is left to read, `DeserializeBool`
returns `false` for `b = 0`, `true` for `b = 1` and `ErrDeserializeBadBool`
for every other byte, and `DeserializeOption` returns
`ErrDeserializeBadOption` if and only if `b` is neither 0 nor 1; where no byte
is left, both return `ErrDeserializeUnexpectedEnd`. `Serialize(true)` is
`[0x01]` and `Serialize(false)` is `[0x00]`, and both decode back to the same
boolean. -/
theorem tag_byte_validation (L : Lib) (pre : List Byte) (b : Byte) (rest : List Byte)
    (v : Target) (cur : Value) :
    ({ data := pre ++ b :: rest, pos := pre.length } : Deserializer).DeserializeBool =
      (if b = 0 then Res.ok false else if b = 1 then Res.ok true
        else Res.err Error.ErrDeserializeBadBool,
        { data := pre ++ b :: rest, pos := pre.length + 1 }) ∧
    ((({ data := pre ++ b :: rest, pos := pre.length } : Deserializer).DeserializeOption L v).1 =
        Res.err Error.ErrDeserializeBadOption ↔ (b ≠ 0 ∧ b ≠ 1)) ∧
    ({ data := pre, pos := pre.length } : Deserializer).DeserializeBool =
      (Res.err Error.ErrDeserializeUnexpectedEnd, { data := pre, pos := pre.length }) ∧
    ({ data := pre, pos := pre.length } : Deserializer).DeserializeOption L v =
      (Res.err Error.ErrDeserializeUnexpectedEnd, { data := pre, pos := pre.length }) ∧
    Serialize L (Value.bool true) = Res.ok [0x01] ∧
    Serialize L (Value.bool false) = Res.ok [0x00] ∧
    Deserialize L [0x01] (Target.pointer Ty.bool cur) =
      Res.ok (Target.pointer Ty.bool (Value.bool true)) ∧
    Deserialize L [0x00] (Target.pointer Ty.bool cur) =
      Res.ok (Target.pointer Ty.bool (Value.bool false)) := by
  refine ⟨deserializeBool_at pre b rest, deserializeOption_bad_iff L pre b rest v, ?_, ?_,
    rfl, rfl, ?_, ?_⟩
  · unfold Deserializer.DeserializeBool
    rw [popByte_end, andThen_err_eq]
  · unfold Deserializer.DeserializeOption
    rw [popByte_end, andThen_err_eq]
  · exact deserialize_of_decodes L Ty.bool cur _ _ (dec_bool L cur true) (by decide)
  · exact deserialize_of_decodes L Ty.bool cur _ _ (dec_bool L cur false) (by decide)

/-! ### Truncated input -/

/-- C20 (as stated, refuted): the array of the one-byte string `0xFF` and the
empty string serializes to `[0x01, 0xFF, 0x00]`, and deserializing the strict prefix
`[0x01, 0xFF]` into an array of two strings fails with
`ErrDeserializeBadUtf8`, not with `ErrDeserializeUnexpectedEnd`: the first
string is complete and is validated before the missing second one is read. -/
theorem truncation_masked_by_bad_utf8 :
    Serialize stdLib (Value.array [Value.string [0xFF], Value.string []]) =
      Res.ok [0x01, 0xFF, 0x00] ∧
    Deserialize stdLib [0x01, 0xFF]
        (Target.pointer (Ty.array 2 Ty.string) (zeroOf (Ty.array 2 Ty.string))) =
      Res.err Error.ErrDeserializeBadUtf8 :=
  ⟨by decide, by rfl⟩

/-- C20 (amended): for every value `v` of a type `t` built from bool, the
integers of every width, floats, strings, byte sequences, slices, arrays and
structs, all of whose strings are valid UTF-8, `Serialize(v)` succeeds; when
its output has fewer than `2^63` bytes (as every Go slice has), deserializing
the whole output into a zero target of type `t` succeeds, and deserializing
any strict prefix of it fails with `ErrDeserializeUnexpectedEnd`. -/
theorem truncation_detected (L : Lib) (t : Ty) (v : Value) (hc : Conforms L t v) :
    ∃ bytes, Serialize L v = Res.ok bytes ∧
      (bytes.length < 2 ^ 63 →
        (∃ x, Deserialize L bytes (Target.pointer t (zeroOf t)) =
          Res.ok (Target.pointer t x)) ∧
        ∀ p tail, tail ≠ [] → p ++ tail = bytes →
          Deserialize L p (Target.pointer t (zeroOf t)) =
            Res.err Error.ErrDeserializeUnexpectedEnd) := by
  obtain ⟨enc, x, hs, hd⟩ := conforms_codec L t v hc
  refine ⟨enc, serialize_of_appends L v enc hs, fun hlen => ⟨⟨x, ?_⟩, ?_⟩⟩
  · exact deserialize_of_decodes L t _ x enc hd hlen
  · intro p tail ht hp
    exact deserialize_truncated L t _ x enc p tail hd hlen ht hp

theorem truncation_detected_witness :
    Conforms stdLib (Ty.array 2 Ty.string) (Value.array [Value.string [0x68], Value.string []]) ∧
    Serialize stdLib (Value.array [Value.string [0x68], Value.string []]) =
      Res.ok [0x01, 0x68, 0x00] ∧
    Deserialize stdLib [0x01, 0x68]
        (Target.pointer (Ty.array 2 Ty.string) (zeroOf (Ty.array 2 Ty.string))) =
      Res.err Error.ErrDeserializeUnexpectedEnd := by
  have hc : Conforms stdLib (Ty.array 2 Ty.string)
      (Value.array [Value.string [0x68], Value.string []]) := by
    rw [Conforms]
    refine ⟨_, rfl, rfl, ?_⟩
    intro x hx
    rw [Conforms]
    simp only [List.mem_cons, List.mem_singleton, List.not_mem_nil, or_false] at hx
    rcases hx with rfl | rfl
    · exact ⟨_, rfl, by decide, by decide⟩
    · exact ⟨_, rfl, by decide, by decide⟩
  have h0 : Serialize stdLib (Value.array [Value.string [0x68], Value.string []]) =
      Res.ok [0x01, 0x68, 0x00] := by decide
  obtain ⟨bytes, hs, hp⟩ := truncation_detected stdLib _ _ hc
  rw [h0] at hs
  injection hs with hs
  subst hs
  exact ⟨hc, h0, (hp (by decide)).2 [0x01, 0x68] [0x00] (by simp) rfl⟩

/-! ### Length prefixes beyond the input -/

/-- C21: the claim asks for `ErrDeserializeUnexpectedEnd` whenever the length
prefix exceeds the bytes that remain. The code does so for the prefix 5 before
a single byte, but on the well-formed prefix `2^64 - 1` (ten bytes), whose
conversion `int(sz)` is `-1`, and on the prefix `2^63 - 1` (nine bytes), for
which `d.pos + n` overflows, the test `d.pos+n > len(d.data)` of `takeBytes`
does not fire and the slice expression `d.data[d.pos : d.pos+n]` panics, in
`DeserializeBytes` and in `DeserializeString` alike. -/
theorem overlong_length_panics :
    DeserializeBytes [0x05, 0x01] = Res.err Error.ErrDeserializeUnexpectedEnd ∧
    DeserializeString utf8Valid [0x05, 0x01] = Res.err Error.ErrDeserializeUnexpectedEnd ∧
    (NewDeserializer [0xFF, 0xFF, 0xFF, 0xFF, 0xFF, 0xFF, 0xFF, 0xFF, 0xFF, 0x01]).DeserializeUint =
      (Res.ok (2 ^ 64 - 1),
        { data := [0xFF, 0xFF, 0xFF, 0xFF, 0xFF, 0xFF, 0xFF, 0xFF, 0xFF, 0x01], pos := 10 }) ∧
    toInt 64 ((2 ^ 64 - 1 : Nat) : Int) = -1 ∧
    DeserializeBytes [0xFF, 0xFF, 0xFF, 0xFF, 0xFF, 0xFF, 0xFF, 0xFF, 0xFF, 0x01] = Res.panic ∧
    DeserializeString utf8Valid [0xFF, 0xFF, 0xFF, 0xFF, 0xFF, 0xFF, 0xFF, 0xFF, 0xFF, 0x01] =
      Res.panic ∧
    (NewDeserializer [0xFF, 0xFF, 0xFF, 0xFF, 0xFF, 0xFF, 0xFF, 0xFF, 0x7F]).DeserializeUint =
      (Res.ok (2 ^ 63 - 1),
        { data := [0xFF, 0xFF, 0xFF, 0xFF, 0xFF, 0xFF, 0xFF, 0xFF, 0x7F], pos := 9 }) ∧
    DeserializeBytes [0xFF, 0xFF, 0xFF, 0xFF, 0xFF, 0xFF, 0xFF, 0xFF, 0x7F] = Res.panic ∧
    DeserializeString utf8Valid [0xFF, 0xFF, 0xFF, 0xFF, 0xFF, 0xFF, 0xFF, 0xFF, 0x7F] =
      Res.panic := by
  decide

/-! ### Single characters -/

/-- C22: the claim asks for `ErrDeserializeBadChar` whenever the payload is not
exactly one valid code point. The code does so for a length above 4, for an
empty payload and for a payload that starts ill-formed, but `DeserializeRune`
discards the width `utf8.DecodeRune` returns: on the two-character payload
`[0x02, 'a', 'b']` it returns `'a'` with no error, and likewise on `'a'`
followed by the ill-formed byte `0xFF`. -/
theorem rune_trailing_bytes_accepted :
    DeserializeRune utf8DecodeRune [0x02, 0x61, 0x62] = Res.ok 0x61 ∧
    DeserializeRune utf8DecodeRune [0x02, 0x61, 0xFF] = Res.ok 0x61 ∧
    DeserializeRune utf8DecodeRune [0x04, 0xC3, 0xA9, 0xC3, 0xA9] = Res.ok 0xE9 ∧
    DeserializeRune utf8DecodeRune [0x05, 0x61, 0x62, 0x63, 0x64, 0x65] =
      Res.err Error.ErrDeserializeBadChar ∧
    DeserializeRune utf8DecodeRune [0x00] = Res.err Error.ErrDeserializeBadChar ∧
    DeserializeRune utf8DecodeRune [0x01, 0xFF] = Res.err Error.ErrDeserializeBadChar ∧
    DeserializeRune utf8DecodeRune [0x02, 0xC3, 0x28] = Res.err Error.ErrDeserializeBadChar := by
  decide

/-! ### Enums -/

theorem serializeEnum_nil (L : Lib) (s : Serializer) (idx : Nat) (h : idx < 2 ^ 32) :
    s.SerializeEnum L idx Value.nil =
      (Res.ok (), { buf := s.buf ++ canonicalVarint 4 idx }) := by
  unfold Serializer.SerializeEnum
  rw [Serializer.pushVarintUint32, encodeVarintUint32_eq idx h, pushEncoded_some,
    Serializer.andThen_ok]

theorem serializeEnum_value (L : Lib) (s : Serializer) (idx : Nat) (h : idx < 2 ^ 32)
    (v : Value) (enc : List Byte) (hv : Serialize L v = Res.ok enc) (hne : v ≠ Value.nil) :
    s.SerializeEnum L idx v =
      (Res.ok (), { buf := s.buf ++ (canonicalVarint 4 idx ++ enc) }) := by
  have hs := serializeValue_of_serialize L v enc hv
  unfold Serializer.SerializeEnum
  rw [Serializer.pushVarintUint32, encodeVarintUint32_eq idx h, pushEncoded_some,
    Serializer.andThen_ok]
  have key : Serializer.SerializeValue L { buf := s.buf ++ canonicalVarint 4 idx } v =
      (Res.ok (), { buf := s.buf ++ (canonicalVarint 4 idx ++ enc) }) := by
    rw [hs]
    simp
  cases v with
  | nil => exact absurd rfl hne
  | _ => exact key

theorem deserializeUint32_leading (tail : List Byte) (idx : Nat) (h : idx < 2 ^ 32) :
    (NewDeserializer (canonicalVarint 4 idx ++ tail)).DeserializeUint32 =
      (Res.ok idx,
        { data := canonicalVarint 4 idx ++ tail, pos := (canonicalVarint 4 idx).length }) := by
  unfold Deserializer.DeserializeUint32 Deserializer.runVarint NewDeserializer
  simp only [decodeVarintUint32_zero tail idx h]

theorem deserializeEnum_nil (L : Lib) (tail : List Byte) (idx : Nat) (h : idx < 2 ^ 32)
    (vi : Option Nat) :
    (NewDeserializer (canonicalVarint 4 idx ++ tail)).DeserializeEnum L vi Target.nil =
      ((Res.ok Target.nil,
        { data := canonicalVarint 4 idx ++ tail, pos := (canonicalVarint 4 idx).length }),
        vi.map fun _ => idx) := by
  unfold Deserializer.DeserializeEnum
  rw [deserializeUint32_leading tail idx h]

theorem deserializeEnum_value (L : Lib) (tail : List Byte) (idx : Nat) (h : idx < 2 ^ 32)
    (vi : Option Nat) (t : Target) (ht : t ≠ Target.nil) :
    (NewDeserializer (canonicalVarint 4 idx ++ tail)).DeserializeEnum L vi t =
      (({ data := canonicalVarint 4 idx ++ tail, pos := (canonicalVarint 4 idx).length } :
        Deserializer).DeserializeValue L t, vi.map fun _ => idx) := by
  unfold Deserializer.DeserializeEnum
  rw [deserializeUint32_leading tail idx h]
  cases t with
  | nil => exact absurd rfl ht
  | _ => rfl

theorem deserializeValue_at (L : Lib) (t : Ty) (cur x : Value) (pre enc rest : List Byte)
    (h : Decodes (Deserializer.decodeInto L t cur) enc x)
    (hlen : pre.length + enc.length < 2 ^ 63) :
    ({ data := pre ++ (enc ++ rest), pos := pre.length } : Deserializer).DeserializeValue L
        (Target.pointer t cur) =
      (Res.ok (Target.pointer t x),
        { data := pre ++ (enc ++ rest), pos := pre.length + enc.length }) := by
  have h1 := (h (pre ++ (enc ++ rest)) pre.length (by simp) hlen).1 rest (by simp)
  simp only [Deserializer.DeserializeValue]
  rw [h1]
  rfl

/-- C23: for every 32-bit `idx`, `SerializeEnum(idx, nil)` appends exactly
`encodeVarintUint32(idx)`, between 1 and 5 bytes, and `SerializeEnum(idx, v)`
appends those bytes followed by the encoding of `v`. `DeserializeEnum` over
such bytes stores `idx` in `*variantIndex` (a `nil` `variantIndex` is left
alone) and stops there when no payload target is supplied; with a payload
target it goes on with `DeserializeValue` of the target at the byte after
the discriminant, so that an `int` payload comes back as it was written. -/
theorem enum_roundtrip (L : Lib) (s : Serializer) (idx : Nat) (v : Value) (enc : List Byte)
    (n : Int) (tail : List Byte) (old : Nat) (target : Target) (cur : Value)
    (hidx : idx < 2 ^ 32) (hv : Serialize L v = Res.ok enc) (hne : v ≠ Value.nil)
    (hlo : -2 ^ 63 ≤ n) (hhi : n < 2 ^ 63) :
    ∃ pfx, encodeVarintUint32 idx = some pfx ∧ 1 ≤ pfx.length ∧ pfx.length ≤ 5 ∧
      s.SerializeEnum L idx Value.nil = (Res.ok (), { buf := s.buf ++ pfx }) ∧
      s.SerializeEnum L idx v = (Res.ok (), { buf := s.buf ++ (pfx ++ enc) }) ∧
      (NewDeserializer (pfx ++ tail)).DeserializeEnum L (some old) Target.nil =
        ((Res.ok Target.nil, { data := pfx ++ tail, pos := pfx.length }), some idx) ∧
      (NewDeserializer (pfx ++ tail)).DeserializeEnum L none Target.nil =
        ((Res.ok Target.nil, { data := pfx ++ tail, pos := pfx.length }), none) ∧
      (target ≠ Target.nil →
        (NewDeserializer (pfx ++ tail)).DeserializeEnum L (some old) target =
          (({ data := pfx ++ tail, pos := pfx.length } : Deserializer).DeserializeValue L target,
            some idx)) ∧
      ∃ payload, (NewSerializer []).SerializeEnum L idx (Value.int n) =
          (Res.ok (), { buf := pfx ++ payload }) ∧
        (NewDeserializer (pfx ++ payload)).DeserializeEnum L (some old)
            (Target.pointer Ty.int cur) =
          ((Res.ok (Target.pointer Ty.int (Value.int n)),
            { data := pfx ++ payload, pos := (pfx ++ payload).length }), some idx) := by
  have hl5 := canonicalVarint_length_le 4 idx
  have hl1 : 1 ≤ (canonicalVarint 4 idx).length :=
    List.length_pos.2 (canonicalVarint_ne_nil 4 idx)
  have hl10 := canonicalVarint_length_le 9 (zigzagEncodeInt64 n)
  refine ⟨canonicalVarint 4 idx, encodeVarintUint32_eq idx hidx, hl1, hl5,
    serializeEnum_nil L s idx hidx, serializeEnum_value L s idx hidx v enc hv hne,
    deserializeEnum_nil L tail idx hidx (some old), deserializeEnum_nil L tail idx hidx none,
    fun ht => deserializeEnum_value L tail idx hidx (some old) target ht,
    canonicalVarint 9 (zigzagEncodeInt64 n), ?_, ?_⟩
  · have h := serializeEnum_value L (NewSerializer []) idx hidx (Value.int n) _
      (serialize_of_appends L _ _ fun s => ser_int L s n hlo hhi) (fun h => by cases h)
    simpa [NewSerializer] using h
  · rw [deserializeEnum_value L _ idx hidx (some old) _ (fun h => by cases h)]
    have h := deserializeValue_at L Ty.int cur (Value.int n) (canonicalVarint 4 idx)
      (canonicalVarint 9 (zigzagEncodeInt64 n)) [] (dec_int L cur n hlo hhi) (by omega)
    simp only [List.append_nil] at h
    rw [h, List.length_append]
    rfl

theorem enum_roundtrip_witness :
    (300 : Nat) < 2 ^ 32 ∧ Serialize stdLib (Value.bool true) = Res.ok [0x01] ∧
    Value.bool true ≠ Value.nil ∧ (-2 : Int) ^ 63 ≤ -3 ∧ (-3 : Int) < 2 ^ 63 ∧
    ∃ pfx, encodeVarintUint32 300 = some pfx ∧ 1 ≤ pfx.length ∧ pfx.length ≤ 5 ∧
      (NewSerializer [0x2A]).SerializeEnum stdLib 300 Value.nil =
        (Res.ok (), { buf := (NewSerializer [0x2A]).buf ++ pfx }) ∧
      (NewSerializer [0x2A]).SerializeEnum stdLib 300 (Value.bool true) =
        (Res.ok (), { buf := (NewSerializer [0x2A]).buf ++ (pfx ++ [0x01]) }) ∧
      (NewDeserializer (pfx ++ [0x01])).DeserializeEnum stdLib (some 7) Target.nil =
        ((Res.ok Target.nil, { data := pfx ++ [0x01], pos := pfx.length }), some 300) ∧
      (NewDeserializer (pfx ++ [0x01])).DeserializeEnum stdLib (some 7)
          (Target.pointer Ty.bool (Value.bool false)) =
        (({ data := pfx ++ [0x01], pos := pfx.length } : Deserializer).DeserializeValue stdLib
            (Target.pointer Ty.bool (Value.bool false)), some 300) :=
  have hv : Serialize stdLib (Value.bool true) = Res.ok [0x01] := by decide
  have hne : Value.bool true ≠ Value.nil := fun h => by cases h
  have h := enum_roundtrip stdLib (NewSerializer [0x2A]) 300 (Value.bool true) [0x01] (-3)
    [0x01] 7 (Target.pointer Ty.bool (Value.bool false)) (Value.int 0) (by decide) hv hne
    (by decide) (by decide)
  ⟨by decide, hv, hne, by decide, by decide,
    h.elim fun pfx hp => ⟨pfx, hp.1, hp.2.1, hp.2.2.1, hp.2.2.2.1, hp.2.2.2.2.1,
      hp.2.2.2.2.2.1, hp.2.2.2.2.2.2.2.1 (fun h => by cases h)⟩⟩

/-! ### Fixed-width little-endian values -/

theorem littleEndianValue_bytes :
    ∀ (k n : Nat), littleEndianValue (littleEndianBytes k n) = n % 2 ^ (8 * k) := by
  intro k
  induction k with
  | zero => intro n; simp [littleEndianBytes, littleEndianValue, Nat.mod_one]
  | succ k ih =>
    intro n
    rw [littleEndianBytes, littleEndianValue, ih, Nat.shiftRight_eq_div_pow]
    have hb : (toByte n).val = n % 256 := rfl
    rw [hb, or_shift_eq_add (n % 256) _ 8 (Nat.mod_lt _ (by decide))]
    have hpow : 2 ^ (8 * (k + 1)) = 2 ^ 8 * 2 ^ (8 * k) := by
      rw [Nat.mul_succ, Nat.add_comm, Nat.pow_add]
    rw [hpow, Nat.mod_mul]
    norm_num

theorem littleEndianBytes_div (n : Nat) :
    littleEndianBytes 4 n =
      [toByte n, toByte (n / 256), toByte (n / 256 ^ 2), toByte (n / 256 ^ 3)] ∧
    littleEndianBytes 8 n =
      [toByte n, toByte (n / 256), toByte (n / 256 ^ 2), toByte (n / 256 ^ 3),
        toByte (n / 256 ^ 4), toByte (n / 256 ^ 5), toByte (n / 256 ^ 6),
        toByte (n / 256 ^ 7)] := by
  simp only [littleEndianBytes, Nat.shiftRight_eq_div_pow, Nat.div_div_eq_div_mul]
  norm_num

theorem decodeFixedLE_at (k n : Nat) (pre rest : List Byte) (h : n < 2 ^ (8 * k)) :
    decodeFixedLE k (pre ++ (littleEndianBytes k n ++ rest)) pre.length =
      (Res.ok n, pre.length + k) := by
  have hl := littleEndianBytes_length k n
  unfold decodeFixedLE
  have hnot : ¬ (pre.length + k > (pre ++ (littleEndianBytes k n ++ rest)).length) := by
    simp only [List.length_append, hl]
    omega
  simp only [hnot, if_false]
  have htake : ((pre ++ (littleEndianBytes k n ++ rest)).take (pre.length + k)).drop pre.length =
      littleEndianBytes k n := by
    rw [List.take_append, List.drop_left]
    generalize littleEndianBytes k n = body at hl ⊢
    subst hl
    exact List.take_left _ _
  rw [htake, littleEndianValue_bytes, Nat.mod_eq_of_lt h]

theorem decodeFixedLE_short (k : Nat) (data : List Byte) (pos : Nat)
    (h : data.length < pos + k) :
    decodeFixedLE k data pos = (Res.err Error.ErrDeserializeUnexpectedEnd, pos) := by
  unfold decodeFixedLE
  have : pos + k > data.length := h
  simp only [this, if_true]

/-- C24: for every 32-bit pattern `w32` and 64-bit pattern `w64`, the encoding
of the float with that bit pattern is its 4 (8) bytes, least significant
first; `SerializeFloat32/64` append exactly these bytes; `decodeFloat32LE`
(`decodeFloat64LE`) over them, at any cursor, returns the same bit pattern
and advances the cursor by 4 (8); where fewer than 4 (8) bytes remain it
returns `ErrDeserializeUnexpectedEnd` and leaves the cursor where it was. -/
theorem float_codec (w32 w64 : Nat) (s : Serializer) (pre rest data : List Byte) (pos : Nat)
    (h32 : w32 < 2 ^ 32) (h64 : w64 < 2 ^ 64) :
    encodeFloat32LE w32 =
      [toByte w32, toByte (w32 / 256), toByte (w32 / 256 ^ 2), toByte (w32 / 256 ^ 3)] ∧
    encodeFloat64LE w64 =
      [toByte w64, toByte (w64 / 256), toByte (w64 / 256 ^ 2), toByte (w64 / 256 ^ 3),
        toByte (w64 / 256 ^ 4), toByte (w64 / 256 ^ 5), toByte (w64 / 256 ^ 6),
        toByte (w64 / 256 ^ 7)] ∧
    s.SerializeFloat32 w32 = (Res.ok (), { buf := s.buf ++ encodeFloat32LE w32 }) ∧
    s.SerializeFloat64 w64 = (Res.ok (), { buf := s.buf ++ encodeFloat64LE w64 }) ∧
    decodeFloat32LE (pre ++ (encodeFloat32LE w32 ++ rest)) pre.length =
      (Res.ok w32, pre.length + 4) ∧
    decodeFloat64LE (pre ++ (encodeFloat64LE w64 ++ rest)) pre.length =
      (Res.ok w64, pre.length + 8) ∧
    (data.length < pos + 4 →
      decodeFloat32LE data pos = (Res.err Error.ErrDeserializeUnexpectedEnd, pos)) ∧
    (data.length < pos + 8 →
      decodeFloat64LE data pos = (Res.err Error.ErrDeserializeUnexpectedEnd, pos)) :=
  ⟨(littleEndianBytes_div w32).1, (littleEndianBytes_div w64).2, rfl, rfl,
    decodeFixedLE_at 4 w32 pre rest h32, decodeFixedLE_at 8 w64 pre rest h64,
    decodeFixedLE_short 4 data pos, decodeFixedLE_short 8 data pos⟩

theorem float_codec_witness :
    (0x3FC00000 : Nat) < 2 ^ 32 ∧ (0xC000000000000001 : Nat) < 2 ^ 64 ∧
    encodeFloat32LE 0x3FC00000 = [0x00, 0x00, 0xC0, 0x3F] ∧
    decodeFloat32LE ([0x2A] ++ (encodeFloat32LE 0x3FC00000 ++ [0x07])) ([0x2A] : List Byte).length =
      (Res.ok 0x3FC00000, ([0x2A] : List Byte).length + 4) ∧
    decodeFloat64LE ([0x2A] ++ (encodeFloat64LE 0xC000000000000001 ++ [0x07]))
        ([0x2A] : List Byte).length =
      (Res.ok 0xC000000000000001, ([0x2A] : List Byte).length + 8) ∧
    decodeFloat32LE [0x00, 0x00, 0xC0] 0 = (Res.err Error.ErrDeserializeUnexpectedEnd, 0) ∧
    decodeFloat64LE [0x00, 0x00, 0xC0] 1 = (Res.err Error.ErrDeserializeUnexpectedEnd, 1) :=
  have h := float_codec 0x3FC00000 0xC000000000000001 (NewSerializer []) [0x2A] [0x07]
    [0x00, 0x00, 0xC0] 0 (by decide) (by decide)
  have h1 := float_codec 0x3FC00000 0xC000000000000001 (NewSerializer []) [0x2A] [0x07]
    [0x00, 0x00, 0xC0] 1 (by decide) (by decide)
  ⟨by decide, by decide, by decide, h.2.2.2.2.1, h.2.2.2.2.2.1,
    h.2.2.2.2.2.2.1 (by decide), h1.2.2.2.2.2.2.2 (by decide)⟩

/-! ### Serializing into an existing buffer -/

theorem append_inArray (s : BackedSerializer) (data : List Byte) (h : s.InArray) :
    (s.append data).InArray ∧ (s.append data).buf = s.buf ++ data := by
  unfold BackedSerializer.InArray at h ⊢
  unfold BackedSerializer.append BackedSerializer.buf
  rcases hm : s.moved with _ | own
  · have h0 := h hm
    simp only
    by_cases hc : s.len + data.length ≤ s.cap
    · simp only [hc, if_true, hm]
      refine ⟨fun _ => ?_, ?_⟩
      · simp only [List.length_append, List.length_take, List.length_drop]
        omega
      · have h1 : (List.take (s.off + s.len) s.arr).length = s.off + s.len := by
          rw [List.length_take]; omega
        have h2 : List.drop s.off (List.take (s.off + s.len) s.arr) =
            List.take s.len (List.drop s.off s.arr) := by
          rw [List.drop_take]
          congr 1
          omega
        have h3 : (List.take s.len (List.drop s.off s.arr)).length = s.len := by
          rw [List.length_take, List.length_drop]; omega
        rw [List.append_assoc, List.drop_append_of_le_length (by omega), h2,
          ← List.append_assoc, List.take_append_of_le_length (by simp; omega)]
        exact List.take_of_length_le (by rw [List.length_append, h3])
    · simp only [hc, if_false]
      exact ⟨fun h => by simp at h, trivial⟩
  · simp only
    exact ⟨fun h => by simp at h, trivial⟩


theorem simulates_append (data : List Byte) :
    Simulates (fun s => (Res.ok (), s.append data)) (fun s => (Res.ok (), { buf := s.buf ++ data })) := by
  intro s h
  obtain ⟨h1, h2⟩ := append_inArray s data h
  refine ⟨h1, rfl, ?_⟩
  simp only [BackedSerializer.view, h2]

theorem simulates_const (r : Res Unit) : Simulates (fun s => (r, s)) (fun s => (r, s)) :=
  fun _ h => ⟨h, rfl, rfl⟩

theorem simulates_congr (F F2 : BackedSerializer → Res Unit × BackedSerializer)
    (G G2 : Serializer → Res Unit × Serializer) (hF : ∀ s, F s = F2 s) (hG : ∀ s, G s = G2 s)
    (h : Simulates F2 G2) : Simulates F G := by
  have e1 : F = F2 := funext hF
  have e2 : G = G2 := funext hG
  rw [e1, e2]; exact h

theorem simulates_andThen (F K : BackedSerializer → Res Unit × BackedSerializer)
    (G K2 : Serializer → Res Unit × Serializer) (hF : Simulates F G) (hK : Simulates K K2) :
    Simulates (fun s => BackedSerializer.andThen (F s) K)
      (fun s => Serializer.andThen (G s) K2) := by
  intro s h
  obtain ⟨h1, h2, h3⟩ := hF s h
  beta_reduce
  rcases hf : F s with ⟨r, s1⟩
  rcases hg : G s.view with ⟨r2, t1⟩
  rw [hf] at h1 h2 h3
  rw [hg] at h2 h3
  simp only at h1 h2 h3
  subst h2
  subst h3
  cases r with
  | ok u =>
    cases u
    simp only [BackedSerializer.andThen, Serializer.andThen]
    exact hK s1 h1
  | err e =>
    simp only [BackedSerializer.andThen, Serializer.andThen]
    exact ⟨h1, trivial, trivial⟩
  | panic =>
    simp only [BackedSerializer.andThen, Serializer.andThen]
    exact ⟨h1, trivial, trivial⟩

theorem simulates_pushByte (b : Byte) :
    Simulates (fun s => s.pushByte b) (fun s => s.pushByte b) :=
  simulates_append [b]

theorem simulates_pushBytes (data : List Byte) :
    Simulates (fun s => s.pushBytes data) (fun s => s.pushBytes data) :=
  simulates_append data

theorem simulates_pushEncoded (enc : Option (List Byte)) :
    Simulates (fun s => s.pushEncoded enc) (fun s => s.pushEncoded enc) := by
  cases enc with
  | none => exact simulates_const Res.panic
  | some bs => exact simulates_append bs

theorem simulates_lenPrefixed (bs : List Byte) :
    Simulates (fun s => s.SerializeBytes bs) (fun s => s.SerializeBytes bs) :=
  simulates_congr _ _ _ _ (fun _ => rfl) (fun _ => rfl)
    (simulates_andThen _ _ _ _ (simulates_pushEncoded (encodeVarintUint (bs.length % 2 ^ 64)))
      (simulates_pushBytes bs))

theorem simulates_bool (b : Bool) :
    Simulates (fun s => s.SerializeBool b) (fun s => s.SerializeBool b) := by
  cases b
  · exact simulates_pushByte 0
  · exact simulates_pushByte 1

theorem simulates_float32 (bits : Nat) :
    Simulates (fun s => s.SerializeFloat32 bits) (fun s => s.SerializeFloat32 bits) :=
  simulates_append (encodeFloat32LE bits)

theorem simulates_float64 (bits : Nat) :
    Simulates (fun s => s.SerializeFloat64 bits) (fun s => s.SerializeFloat64 bits) :=
  simulates_append (encodeFloat64LE bits)

theorem simulates_string (str : List Byte) :
    Simulates (fun s => s.SerializeString str) (fun s => s.SerializeString str) :=
  simulates_lenPrefixed str

theorem simulates_int (v : Int) :
    Simulates (fun s => s.SerializeInt v) (fun s => s.SerializeInt v) :=
  simulates_pushEncoded (encodeVarintUint (zigzagEncodeInt v))

theorem simulates_int8 (v : Int) :
    Simulates (fun s => s.SerializeInt8 v) (fun s => s.SerializeInt8 v) :=
  simulates_pushByte (toByte (toUint 8 v))

theorem simulates_int16 (v : Int) :
    Simulates (fun s => s.SerializeInt16 v) (fun s => s.SerializeInt16 v) :=
  simulates_pushEncoded (encodeVarintUint16 (zigzagEncodeInt16 v))

theorem simulates_int32 (v : Int) :
    Simulates (fun s => s.SerializeInt32 v) (fun s => s.SerializeInt32 v) :=
  simulates_pushEncoded (encodeVarintUint32 (zigzagEncodeInt32 v))

theorem simulates_int64 (v : Int) :
    Simulates (fun s => s.SerializeInt64 v) (fun s => s.SerializeInt64 v) :=
  simulates_pushEncoded (encodeVarintUint64 (zigzagEncodeInt64 v))

theorem simulates_uint (v : Nat) :
    Simulates (fun s => s.SerializeUint v) (fun s => s.SerializeUint v) :=
  simulates_pushEncoded (encodeVarintUint v)

theorem simulates_uint8 (v : Nat) :
    Simulates (fun s => s.SerializeUint8 v) (fun s => s.SerializeUint8 v) :=
  simulates_pushByte (toByte v)

theorem simulates_uint16 (v : Nat) :
    Simulates (fun s => s.SerializeUint16 v) (fun s => s.SerializeUint16 v) :=
  simulates_pushEncoded (encodeVarintUint16 v)

theorem simulates_uint32 (v : Nat) :
    Simulates (fun s => s.SerializeUint32 v) (fun s => s.SerializeUint32 v) :=
  simulates_pushEncoded (encodeVarintUint32 v)

theorem simulates_uint64 (v : Nat) :
    Simulates (fun s => s.SerializeUint64 v) (fun s => s.SerializeUint64 v) :=
  simulates_pushEncoded (encodeVarintUint64 v)

mutual
theorem simulates_value (L : Lib) :
    ∀ v : Value, Simulates (fun s => s.SerializeValue L v) (fun s => s.SerializeValue L v)
  | Value.nil =>
    simulates_congr _ _ _ _ (fun s => by rw [BackedSerializer.SerializeValue])
      (fun s => by rw [Serializer.SerializeValue]) (simulates_pushByte 0)
  | Value.bool b =>
    simulates_congr _ _ _ _ (fun s => by rw [BackedSerializer.SerializeValue])
      (fun s => by rw [Serializer.SerializeValue]) (simulates_bool b)
  | Value.int v =>
    simulates_congr _ _ _ _ (fun s => by rw [BackedSerializer.SerializeValue])
      (fun s => by rw [Serializer.SerializeValue]) (simulates_int _)
  | Value.int8 v =>
    simulates_congr _ _ _ _ (fun s => by rw [BackedSerializer.SerializeValue])
      (fun s => by rw [Serializer.SerializeValue]) (simulates_int8 _)
  | Value.int16 v =>
    simulates_congr _ _ _ _ (fun s => by rw [BackedSerializer.SerializeValue])
      (fun s => by rw [Serializer.SerializeValue]) (simulates_int16 _)
  | Value.int32 v =>
    simulates_congr _ _ _ _ (fun s => by rw [BackedSerializer.SerializeValue])
      (fun s => by rw [Serializer.SerializeValue]) (simulates_int32 _)
  | Value.int64 v =>
    simulates_congr _ _ _ _ (fun s => by rw [BackedSerializer.SerializeValue])
      (fun s => by rw [Serializer.SerializeValue]) (simulates_int64 _)
  | Value.uint v =>
    simulates_congr _ _ _ _ (fun s => by rw [BackedSerializer.SerializeValue])
      (fun s => by rw [Serializer.SerializeValue]) (simulates_uint _)
  | Value.uint8 v =>
    simulates_congr _ _ _ _ (fun s => by rw [BackedSerializer.SerializeValue])
      (fun s => by rw [Serializer.SerializeValue]) (simulates_uint8 _)
  | Value.uint16 v =>
    simulates_congr _ _ _ _ (fun s => by rw [BackedSerializer.SerializeValue])
      (fun s => by rw [Serializer.SerializeValue]) (simulates_uint16 _)
  | Value.uint32 v =>
    simulates_congr _ _ _ _ (fun s => by rw [BackedSerializer.SerializeValue])
      (fun s => by rw [Serializer.SerializeValue]) (simulates_uint32 _)
  | Value.uint64 v =>
    simulates_congr _ _ _ _ (fun s => by rw [BackedSerializer.SerializeValue])
      (fun s => by rw [Serializer.SerializeValue]) (simulates_uint64 _)
  | Value.float32 v =>
    simulates_congr _ _ _ _ (fun s => by rw [BackedSerializer.SerializeValue])
      (fun s => by rw [Serializer.SerializeValue]) (simulates_float32 _)
  | Value.float64 v =>
    simulates_congr _ _ _ _ (fun s => by rw [BackedSerializer.SerializeValue])
      (fun s => by rw [Serializer.SerializeValue]) (simulates_float64 _)
  | Value.string v =>
    simulates_congr _ _ _ _ (fun s => by rw [BackedSerializer.SerializeValue])
      (fun s => by rw [Serializer.SerializeValue]) (simulates_string _)
  | Value.slice elem isNil xs spare => by
    by_cases h : elem.isUint8 = true
    · exact simulates_congr _ _ _ _
        (fun s => by rw [BackedSerializer.SerializeValue]; simp only [h, if_true])
        (fun s => by rw [Serializer.SerializeValue]; simp only [h, if_true])
        (simulates_lenPrefixed (xs.map Value.asByte))
    · exact simulates_congr _ _ _ _
        (fun s => by
          rw [BackedSerializer.SerializeValue]
          simp only [h, Bool.false_eq_true, if_false]
          rfl)
        (fun s => by
          rw [Serializer.SerializeValue]
          simp only [h, Bool.false_eq_true, if_false]
          rfl)
        (simulates_andThen _ _ _ _ (simulates_pushEncoded (encodeVarintUint (xs.length % 2 ^ 64)))
          (simulates_elems L xs))
  | Value.array xs =>
    simulates_congr _ _ _ _ (fun s => by rw [BackedSerializer.SerializeValue])
      (fun s => by rw [Serializer.SerializeValue]) (simulates_elems L xs)
  | Value.map isNil entries =>
    simulates_congr _ _ _ _ (fun s => by rw [BackedSerializer.SerializeValue]; rfl)
      (fun s => by rw [Serializer.SerializeValue]; rfl)
      (simulates_andThen _ _ _ _
        (simulates_pushEncoded (encodeVarintUint (entries.length % 2 ^ 64)))
        (simulates_entries L entries))
  | Value.struct fields =>
    simulates_congr _ _ _ _ (fun s => by rw [BackedSerializer.SerializeValue])
      (fun s => by rw [Serializer.SerializeValue]) (simulates_fields L fields)
  | Value.nilPtr =>
    simulates_congr _ _ _ _ (fun s => by rw [BackedSerializer.SerializeValue])
      (fun s => by rw [Serializer.SerializeValue]) (simulates_pushByte 0)
  | Value.ptr target =>
    simulates_congr _ _ _ _ (fun s => by rw [BackedSerializer.SerializeValue])
      (fun s => by rw [Serializer.SerializeValue]) (simulates_value L target)
  | Value.other =>
    simulates_congr _ _ _ _ (fun s => by rw [BackedSerializer.SerializeValue])
      (fun s => by rw [Serializer.SerializeValue])
      (simulates_const (Res.err (Error.Errorf Msg.unsupportedType)))
theorem simulates_elems (L : Lib) :
    ∀ xs : List Value,
      Simulates (fun s => BackedSerializer.SerializeElems L s xs)
        (fun s => Serializer.SerializeElems L s xs)
  | [] =>
    simulates_congr _ _ _ _ (fun s => by rw [BackedSerializer.SerializeElems])
      (fun s => by rw [Serializer.SerializeElems]) (simulates_const (Res.ok ()))
  | x :: xs =>
    simulates_congr _ _ _ _ (fun s => by rw [BackedSerializer.SerializeElems])
      (fun s => by rw [Serializer.SerializeElems])
      (simulates_andThen _ _ _ _ (simulates_value L x) (simulates_elems L xs))
theorem simulates_entries (L : Lib) :
    ∀ es : List (Value × Value),
      Simulates (fun s => BackedSerializer.SerializeEntries L s es)
        (fun s => Serializer.SerializeEntries L s es)
  | [] =>
    simulates_congr _ _ _ _ (fun s => by rw [BackedSerializer.SerializeEntries])
      (fun s => by rw [Serializer.SerializeEntries]) (simulates_const (Res.ok ()))
  | (key, value) :: rest =>
    simulates_congr _ _ _ _ (fun s => by rw [BackedSerializer.SerializeEntries])
      (fun s => by rw [Serializer.SerializeEntries])
      (simulates_andThen _ _ _ _ (simulates_value L key)
        (simulates_andThen _ _ _ _ (simulates_value L value) (simulates_entries L rest)))
theorem simulates_fields (L : Lib) :
    ∀ fs : List (StructField Value),
      Simulates (fun s => BackedSerializer.SerializeFields L s fs)
        (fun s => Serializer.SerializeFields L s fs)
  | [] =>
    simulates_congr _ _ _ _ (fun s => by rw [BackedSerializer.SerializeFields])
      (fun s => by rw [Serializer.SerializeFields]) (simulates_const (Res.ok ()))
  | f :: fs => by
    by_cases h : f.exported = true
    · exact simulates_congr _ _ _ _
        (fun s => by
          rw [BackedSerializer.SerializeFields]
          simp only [h, Bool.not_true, Bool.false_eq_true, if_false])
        (fun s => by
          rw [Serializer.SerializeFields]
          simp only [h, Bool.not_true, Bool.false_eq_true, if_false])
        (simulates_andThen _ _ _ _ (simulates_value L f.val) (simulates_fields L fs))
    · exact simulates_congr _ _ _ _
        (fun s => by rw [BackedSerializer.SerializeFields]; simp [h])
        (fun s => by rw [Serializer.SerializeFields]; simp [h])
        (simulates_fields L fs)
end

/-- C25 (as stated, refuted): `buf` is the three bytes `1, 2, 3` at the start
of an array of eight, and `v` is the same slice. `SerializeToSlice(v, buf)`
writes the length prefix `3` over the first byte before the payload is read,
and returns `[3, 3, 2, 3]`, while `Serialize(v)` returns `[3, 1, 2, 3]`. -/
theorem serialize_to_slice_aliased :
    BufValue.value [1, 2, 3, 0, 0, 0, 0, 0] (BufValue.window 0 3) =
      Value.slice Ty.uint8 false [Value.uint8 1, Value.uint8 2, Value.uint8 3]
        [Value.uint8 0, Value.uint8 0, Value.uint8 0, Value.uint8 0, Value.uint8 0] ∧
    Serialize stdLib (BufValue.value [1, 2, 3, 0, 0, 0, 0, 0] (BufValue.window 0 3)) =
      Res.ok [3, 1, 2, 3] ∧
    SerializeToSlice stdLib (BufValue.window 0 3)
        { arr := [1, 2, 3, 0, 0, 0, 0, 0], off := 0, len := 3, cap := 8 } =
      Res.ok [3, 3, 2, 3] :=
  ⟨by rfl, by decide, by decide⟩

/-- C25 (amended): for every value `v` that shares no storage with `buf` and
every byte buffer `buf`, a slice of its backing array with whatever offset,
length, capacity and contents, `SerializeToSlice(v, buf)` returns what
`Serialize(v)` returns, the same bytes on success and the same failure
otherwise; so the result does not depend on `buf` and holds none of its
previous contents. -/
theorem serialize_to_slice_detached (L : Lib) (v : Value) (buf : Buffer)
    (h : buf.off + buf.cap ≤ buf.arr.length) :
    SerializeToSlice L (BufValue.detached v) buf = Serialize L v := by
  have h0 : (NewBackedSerializer { buf with len := 0 }).InArray := by
    intro _
    show buf.off + 0 ≤ buf.arr.length
    omega
  obtain ⟨_, h2, h3⟩ := simulates_value L v _ h0
  have hv : (NewBackedSerializer { buf with len := 0 }).view = NewSerializer [] := by
    simp [BackedSerializer.view, BackedSerializer.buf, NewBackedSerializer, NewSerializer]
  rw [hv] at h2 h3
  beta_reduce at h2 h3
  unfold SerializeToSlice Serialize
  simp only
  rcases hf : BackedSerializer.SerializeValue L (NewBackedSerializer { buf with len := 0 }) v
    with ⟨r, s1⟩
  rcases hg : Serializer.SerializeValue L (NewSerializer []) v with ⟨r2, t1⟩
  rw [hf] at h2 h3
  rw [hg] at h2 h3
  simp only at h2 h3
  subst h2
  subst h3
  cases r with
  | ok u => cases u; rfl
  | err e => rfl
  | panic => rfl

theorem serialize_to_slice_detached_witness :
    (1 : Nat) + 2 ≤ ([9, 9, 9, 9] : List Byte).length ∧
    SerializeToSlice stdLib (BufValue.detached (Value.string [0x68, 0x69]))
        { arr := [9, 9, 9, 9], off := 1, len := 2, cap := 2 } =
      Serialize stdLib (Value.string [0x68, 0x69]) :=
  ⟨by decide, serialize_to_slice_detached stdLib (Value.string [0x68, 0x69])
    { arr := [9, 9, 9, 9], off := 1, len := 2, cap := 2 } (by decide)⟩

/-! ### The value of a decoded varint -/

theorem varintValue_eq_sum :
    ∀ bs : List Byte,
      varintValue bs = ∑ i in Finset.range bs.length, (bs.getD i 0).val % 128 * 128 ^ i := by
  intro bs
  induction bs with
  | nil => simp [varintValue]
  | cons b bs ih =>
    rw [varintValue, List.length_cons, Finset.sum_range_succ', ih, Finset.mul_sum]
    simp only [List.getD_cons_succ, List.getD_cons_zero, pow_zero, Nat.mul_one, pow_succ]
    rw [Nat.add_comm]
    congr 1
    apply Finset.sum_congr rfl
    intro i _
    ring

theorem decoded_value_exact (dec : List Byte → Nat → Res Nat × Nat) (maxLast t w : Nat)
    (hm : maxLast < 128) (hw : (maxLast + 1) * 128 ^ (t - 1) = 2 ^ w)
    (hdec : ∀ data pos, dec data pos =
      ((scanVarint maxLast t (data.drop pos)).1, pos + (scanVarint maxLast t (data.drop pos)).2))
    (data : List Byte) (pos n p : Nat) (h : dec data pos = (Res.ok n, p)) :
    pos < p ∧ p ≤ data.length ∧ p - pos ≤ t ∧ ((data.take p).drop pos).length = p - pos ∧
      n = ∑ i in Finset.range (p - pos),
        (((data.take p).drop pos).getD i 0).val % 128 * 128 ^ i ∧
      ∑ i in Finset.range (p - pos),
        (((data.take p).drop pos).getD i 0).val % 128 * 128 ^ i < 2 ^ w := by
  obtain ⟨hs, hp⟩ := scan_of_decode _ _ pos n p (hdec data pos) h
  obtain ⟨pre, last, htake, hc, hct, _, _, hval, _⟩ :=
    scanVarint_ok_inv maxLast t (data.drop pos) n (p - pos) hs
  have hlt := scanVarint_ok_lt maxLast hm t (data.drop pos) n (p - pos) hs
  rw [hw] at hlt
  have hlen : ((data.drop pos).take (p - pos)).length = p - pos := by
    rw [htake, hc]
    simp
  have hle : p - pos ≤ data.length - pos := by
    rw [List.length_take, List.length_drop] at hlen
    omega
  have hcons := consumed_eq data pos p
  have hsum : n = ∑ i in Finset.range (p - pos),
      (((data.take p).drop pos).getD i 0).val % 128 * 128 ^ i := by
    rw [hval, ← htake, varintValue_eq_sum, hlen, hcons]
  refine ⟨by omega, by omega, hct, by rw [hcons, hlen], hsum, ?_⟩
  rw [← hsum]
  exact hlt

/-- C28: for `k` in 16, 32, 64, whenever `decodeVarintUintK` succeeds with value
`n`, moving the cursor from `pos` to `p`, it has consumed between 1 and
`ceil(k/7)` bytes `b_0 .. b_j` of the input, `n` equals the sum of
`(b_i mod 128) * 128 ^ i` computed as an unbounded natural number, and that
sum is below `2 ^ k`. -/
theorem varint_value_exact (data : List Byte) (pos n p : Nat) :
    (decodeVarintUint16 data pos = (Res.ok n, p) →
      pos < p ∧ p ≤ data.length ∧ p - pos ≤ 3 ∧ ((data.take p).drop pos).length = p - pos ∧
        n = ∑ i in Finset.range (p - pos),
          (((data.take p).drop pos).getD i 0).val % 128 * 128 ^ i ∧
        ∑ i in Finset.range (p - pos),
          (((data.take p).drop pos).getD i 0).val % 128 * 128 ^ i < 2 ^ 16) ∧
    (decodeVarintUint32 data pos = (Res.ok n, p) →
      pos < p ∧ p ≤ data.length ∧ p - pos ≤ 5 ∧ ((data.take p).drop pos).length = p - pos ∧
        n = ∑ i in Finset.range (p - pos),
          (((data.take p).drop pos).getD i 0).val % 128 * 128 ^ i ∧
        ∑ i in Finset.range (p - pos),
          (((data.take p).drop pos).getD i 0).val % 128 * 128 ^ i < 2 ^ 32) ∧
    (decodeVarintUint64 data pos = (Res.ok n, p) →
      pos < p ∧ p ≤ data.length ∧ p - pos ≤ 10 ∧ ((data.take p).drop pos).length = p - pos ∧
        n = ∑ i in Finset.range (p - pos),
          (((data.take p).drop pos).getD i 0).val % 128 * 128 ^ i ∧
        ∑ i in Finset.range (p - pos),
          (((data.take p).drop pos).getD i 0).val % 128 * 128 ^ i < 2 ^ 64) :=
  ⟨decoded_value_exact decodeVarintUint16 3 3 16 (by decide) (by norm_num)
      decodeVarintUint16_eq_scan data pos n p,
    decoded_value_exact decodeVarintUint32 15 5 32 (by decide) (by norm_num)
      decodeVarintUint32_eq_scan data pos n p,
    decoded_value_exact decodeVarintUint64 1 10 64 (by decide) (by norm_num)
      decodeVarintUint64_eq_scan data pos n p⟩

theorem varint_value_exact_witness :
    decodeVarintUint32 [0x2A, 0xAC, 0x02, 0x07] 1 = (Res.ok 300, 3) ∧
    1 < 3 ∧ 3 ≤ ([0x2A, 0xAC, 0x02, 0x07] : List Byte).length ∧
    (300 : Nat) = ∑ i in Finset.range (3 - 1),
      (((([0x2A, 0xAC, 0x02, 0x07] : List Byte).take 3).drop 1).getD i 0).val % 128 * 128 ^ i ∧
    ∑ i in Finset.range (3 - 1),
      (((([0x2A, 0xAC, 0x02, 0x07] : List Byte).take 3).drop 1).getD i 0).val % 128 * 128 ^ i <
        2 ^ 32 :=
  have hd : decodeVarintUint32 [0x2A, 0xAC, 0x02, 0x07] 1 = (Res.ok 300, 3) := by decide
  have h := (varint_value_exact [0x2A, 0xAC, 0x02, 0x07] 1 300 3).2.1 hd
  ⟨hd, h.1, h.2.1, h.2.2.2.2.1, h.2.2.2.2.2⟩

/-! ### The cursor invariant -/

theorem cursorOK_same {α : Type} (d : Deserializer) (h : d.pos ≤ d.data.length) (x : Res α) :
    CursorOK d (x, d) :=
  ⟨rfl, Nat.le_refl _, h⟩

theorem cursorOK_andThen {α β : Type} (d : Deserializer) (r : Res α × Deserializer)
    (next : α → Deserializer → Res β × Deserializer) (hr : CursorOK d r)
    (hn : ∀ a, Advances (next a)) : CursorOK d (Deserializer.andThen r next) := by
  rcases r with ⟨r, d1⟩
  obtain ⟨h1, h2, h3⟩ := hr
  simp only at h1 h2 h3
  cases r with
  | ok x =>
    obtain ⟨k1, k2, k3⟩ := hn x d1 (by rw [h1]; exact h3)
    rw [andThen_ok_eq]
    exact ⟨k1.trans h1, Nat.le_trans h2 k2, by rw [h1] at k3; exact k3⟩
  | err e => exact ⟨h1, h2, h3⟩
  | panic => exact ⟨h1, h2, h3⟩

theorem advances_andThen {α β : Type} (f : Deserializer → Res α × Deserializer)
    (next : α → Deserializer → Res β × Deserializer) (hf : Advances f)
    (hn : ∀ a, Advances (next a)) : Advances (fun d => Deserializer.andThen (f d) next) :=
  fun d hd => cursorOK_andThen d (f d) next (hf d hd) hn

theorem advances_const {α : Type} (x : Res α) : Advances (fun d => (x, d)) :=
  fun d hd => cursorOK_same d hd x

theorem advances_congr {α : Type} (f g : Deserializer → Res α × Deserializer)
    (h : ∀ d, f d = g d) (hg : Advances g) : Advances f := by
  have : f = g := funext h
  rw [this]
  exact hg

theorem advances_popByte : Advances (fun d => d.popByte) := by
  intro d hd
  show CursorOK d d.popByte
  unfold Deserializer.popByte
  split
  · rename_i h
    exact ⟨rfl, Nat.le_succ _, h⟩
  · exact cursorOK_same d hd _

theorem advances_takeBytes (n : Int) : Advances (fun d => d.takeBytes n) := by
  intro d hd
  show CursorOK d (d.takeBytes n)
  unfold Deserializer.takeBytes
  generalize toInt 64 ((d.pos : Int) + n) = hi
  by_cases h1 : hi > (d.data.length : Int)
  · simp only [h1, if_true]
    exact cursorOK_same d hd _
  · by_cases h2 : hi < (d.pos : Int)
    · simp only [h1, h2, if_true, if_false]
      exact cursorOK_same d hd _
    · simp only [h1, h2, if_false]
      refine ⟨rfl, ?_, ?_⟩
      · show d.pos ≤ hi.toNat
        omega
      · show hi.toNat ≤ d.data.length
        omega

theorem scanVarint_consumed_le (maxLast : Nat) :
    ∀ (t : Nat) (bs : List Byte), (scanVarint maxLast t bs).2 ≤ bs.length := by
  intro t
  induction t with
  | zero => intro bs; rw [scanVarint]; exact Nat.zero_le _
  | succ t ih =>
    intro bs
    cases bs with
    | nil => rw [scanVarint]; exact Nat.zero_le _
    | cons b bs =>
      rw [scanVarint]
      split
      · split <;> simp
      · have h := ih bs
        rcases hsc : scanVarint maxLast t bs with ⟨r, c⟩
        rw [hsc] at h
        cases r <;> simpa using h

theorem scan_decoder_cursor (dec : List Byte → Nat → Res Nat × Nat) (maxLast t : Nat)
    (hdec : ∀ data pos, dec data pos =
      ((scanVarint maxLast t (data.drop pos)).1, pos + (scanVarint maxLast t (data.drop pos)).2))
    (data : List Byte) (pos : Nat) (h : pos ≤ data.length) :
    pos ≤ (dec data pos).2 ∧ (dec data pos).2 ≤ data.length := by
  have hc := scanVarint_consumed_le maxLast t (data.drop pos)
  rw [List.length_drop] at hc
  rw [hdec]
  simp only
  omega

theorem decodeFixedLE_cursor (k : Nat) (data : List Byte) (pos : Nat) (h : pos ≤ data.length) :
    pos ≤ (decodeFixedLE k data pos).2 ∧ (decodeFixedLE k data pos).2 ≤ data.length := by
  unfold decodeFixedLE
  split
  · exact ⟨Nat.le_refl _, h⟩
  · simp only
    omega

theorem advances_runVarint (dec : List Byte → Nat → Res Nat × Nat)
    (h : ∀ data pos, pos ≤ data.length →
      pos ≤ (dec data pos).2 ∧ (dec data pos).2 ≤ data.length) :
    Advances (fun d => d.runVarint dec) := by
  intro d hd
  obtain ⟨h1, h2⟩ := h d.data d.pos hd
  exact ⟨rfl, h1, h2⟩

theorem advances_uint16 : Advances (fun d => d.DeserializeUint16) :=
  advances_runVarint _ (scan_decoder_cursor _ 3 3 decodeVarintUint16_eq_scan)

theorem advances_uint32 : Advances (fun d => d.DeserializeUint32) :=
  advances_runVarint _ (scan_decoder_cursor _ 15 5 decodeVarintUint32_eq_scan)

theorem advances_uint64 : Advances (fun d => d.DeserializeUint64) :=
  advances_runVarint _ (scan_decoder_cursor _ 1 10 decodeVarintUint64_eq_scan)

theorem advances_uint : Advances (fun d => d.DeserializeUint) :=
  advances_runVarint _ (scan_decoder_cursor _ 1 10 decodeVarintUint64_eq_scan)

theorem advances_fixed (k : Nat) : Advances (fun d => d.runVarint (decodeFixedLE k)) :=
  advances_runVarint _ (decodeFixedLE_cursor k)

theorem advances_zigzagAfter (dec : List Byte → Nat → Res Nat × Nat) (zz : Nat → Int)
    (h : Advances (fun d => d.runVarint dec)) : Advances (fun d => d.zigzagAfter dec zz) :=
  advances_congr _ _ (fun d => zigzagAfter_eq_andThen d dec zz)
    (advances_andThen _ _ h fun _ => advances_const _)

theorem advances_int : Advances (fun d => d.DeserializeInt) :=
  advances_zigzagAfter decodeVarintUint zigzagDecodeInt advances_uint

theorem advances_int16 : Advances (fun d => d.DeserializeInt16) :=
  advances_zigzagAfter decodeVarintUint16 zigzagDecodeInt16 advances_uint16

theorem advances_int32 : Advances (fun d => d.DeserializeInt32) :=
  advances_zigzagAfter decodeVarintUint32 zigzagDecodeInt32 advances_uint32

theorem advances_int64 : Advances (fun d => d.DeserializeInt64) :=
  advances_zigzagAfter decodeVarintUint64 zigzagDecodeInt64 advances_uint64

theorem advances_float32 : Advances (fun d => d.DeserializeFloat32) :=
  advances_fixed 4

theorem advances_float64 : Advances (fun d => d.DeserializeFloat64) :=
  advances_fixed 8

theorem advances_map {α β : Type} (f : Deserializer → Res α × Deserializer) (k : α → β)
    (h : Advances f) :
    Advances (fun d => Deserializer.andThen (f d) fun a d1 => (Res.ok (k a), d1)) :=
  advances_andThen _ _ h fun _ => advances_const _

theorem advances_bool : Advances (fun d => d.DeserializeBool) := by
  unfold Deserializer.DeserializeBool
  refine advances_andThen _ _ advances_popByte fun b => ?_
  by_cases h0 : b = 0
  · simp only [h0, if_true]
    exact advances_const _
  · by_cases h1 : b = 1
    · simp only [h1, if_true]
      exact advances_const _
    · simp only [h0, h1, if_false]
      exact advances_const _

theorem advances_int8 : Advances (fun d => d.DeserializeInt8) :=
  advances_map _ _ advances_popByte

theorem advances_uint8 : Advances (fun d => d.DeserializeUint8) :=
  advances_map _ _ advances_popByte

theorem advances_bytes : Advances (fun d => d.DeserializeBytes) :=
  advances_congr _ _ (fun d => deserializeBytes_eq_andThen d)
    (advances_andThen _ _ advances_uint fun _ => advances_takeBytes _)

theorem advances_string (valid : List Byte → Bool) :
    Advances (fun d => d.DeserializeString valid) := by
  refine advances_congr _ _ (fun d => deserializeString_eq_andThen valid d) ?_
  refine advances_andThen _ _ advances_uint fun sz => ?_
  refine advances_andThen _ _ (advances_takeBytes _) fun bytes => ?_
  by_cases hv : (!valid bytes) = true
  · simp only [hv, if_true]
    exact advances_const _
  · simp only [hv, if_false]
    exact advances_const _

theorem advances_loopElems (step : Value → Deserializer → Res Value × Deserializer)
    (hstep : ∀ cur, Advances (step cur)) :
    ∀ xs : List Value, Advances (Deserializer.loopElems step xs) := by
  intro xs
  induction xs with
  | nil =>
    exact advances_congr _ _ (fun d => by rw [Deserializer.loopElems]) (advances_const _)
  | cons x xs ih =>
    refine advances_congr _ _ (fun d => by rw [Deserializer.loopElems]) ?_
    exact advances_andThen _ _ (hstep x) fun v => advances_map _ _ ih

theorem advances_loopEntries (stepKey stepVal : Deserializer → Res Value × Deserializer)
    (hk : Advances stepKey) (hv : Advances stepVal) :
    ∀ (n : Nat) (entries : List (Value × Value)),
      Advances (Deserializer.loopEntries stepKey stepVal n entries) := by
  intro n
  induction n with
  | zero =>
    intro entries
    exact advances_congr _ _ (fun d => by rw [Deserializer.loopEntries]) (advances_const _)
  | succ n ih =>
    intro entries
    refine advances_congr _ _ (fun d => by rw [Deserializer.loopEntries]) ?_
    exact advances_andThen _ _ hk fun key => advances_andThen _ _ hv fun value => ih _

theorem advances_fillSlice (elem : Ty)
    (loop : List Value → Deserializer → Res (List Value) × Deserializer)
    (hloop : ∀ xs, Advances (loop xs)) (targets : Option (List Value × List Value)) :
    Advances (Deserializer.fillSlice elem loop targets) := by
  cases targets with
  | none => exact advances_const _
  | some p =>
    obtain ⟨elems, spare⟩ := p
    exact advances_map _ _ (hloop elems)

theorem advances_sliceWith (elem : Ty)
    (step : Value → Deserializer → Res Value × Deserializer) (hstep : ∀ c, Advances (step c))
    (targets : Nat → Option (List Value × List Value)) :
    Advances (fun d => Deserializer.andThen d.DeserializeUint fun sz d1 =>
      Deserializer.fillSlice elem (Deserializer.loopElems step) (targets sz) d1) := by
  intro d hd
  refine cursorOK_andThen d _ _ (advances_uint d hd) fun sz => ?_
  exact advances_fillSlice elem _ (advances_loopElems _ hstep) _

theorem advances_sliceBody (elem : Ty) (cur : Value)
    (step : Value → Deserializer → Res Value × Deserializer) (hstep : ∀ c, Advances (step c)) :
    Advances (fun d => Deserializer.andThen d.DeserializeUint fun sz d1 =>
      Deserializer.fillSlice elem (Deserializer.loopElems step)
        (sliceTargets elem cur (toInt 64 sz)) d1) :=
  advances_sliceWith elem step hstep fun sz => sliceTargets elem cur (toInt 64 sz)

theorem advances_mapWith (stepKey stepVal : Deserializer → Res Value × Deserializer)
    (hk : Advances stepKey) (hv : Advances stepVal) (entries : List (Value × Value))
    (count : Nat → Int) :
    Advances (fun d => Deserializer.andThen d.DeserializeUint fun sz d1 =>
      Deserializer.andThen (Deserializer.fillMap stepKey stepVal (count sz) entries d1)
        fun entries d2 => (Res.ok (Value.map false entries), d2)) := by
  intro d hd
  refine cursorOK_andThen d _ _ (advances_uint d hd) fun sz => ?_
  exact advances_map _ _ (advances_loopEntries _ _ hk hv (count sz).toNat entries)

theorem advances_mapBody (stepKey stepVal : Deserializer → Res Value × Deserializer)
    (hk : Advances stepKey) (hv : Advances stepVal) (entries : List (Value × Value)) :
    Advances (fun d => Deserializer.andThen d.DeserializeUint fun sz d1 =>
      Deserializer.andThen (Deserializer.fillMap stepKey stepVal (toInt 64 sz) entries d1)
        fun entries d2 => (Res.ok (Value.map false entries), d2)) :=
  advances_mapWith stepKey stepVal hk hv entries fun sz => toInt 64 sz

mutual
theorem cursor_decodeInto (L : Lib) :
    ∀ (t : Ty) (cur : Value) (d : Deserializer), d.pos ≤ d.data.length →
      CursorOK d (Deserializer.decodeInto L t cur d)
  | Ty.bool, cur, d, hd => by
    rw [Deserializer.decodeInto]
    exact advances_map _ _ advances_bool d hd
  | Ty.int, cur, d, hd => by
    rw [Deserializer.decodeInto]
    exact advances_map _ _ advances_int d hd
  | Ty.int8, cur, d, hd => by
    rw [Deserializer.decodeInto]
    exact advances_map _ _ advances_int8 d hd
  | Ty.int16, cur, d, hd => by
    rw [Deserializer.decodeInto]
    exact advances_map _ _ advances_int16 d hd
  | Ty.int32, cur, d, hd => by
    rw [Deserializer.decodeInto]
    exact advances_map _ _ advances_int32 d hd
  | Ty.int64, cur, d, hd => by
    rw [Deserializer.decodeInto]
    exact advances_map _ _ advances_int64 d hd
  | Ty.uint, cur, d, hd => by
    rw [Deserializer.decodeInto]
    exact advances_map _ _ advances_uint d hd
  | Ty.uint8, cur, d, hd => by
    rw [Deserializer.decodeInto]
    exact advances_map _ _ advances_uint8 d hd
  | Ty.uint16, cur, d, hd => by
    rw [Deserializer.decodeInto]
    exact advances_map _ _ advances_uint16 d hd
  | Ty.uint32, cur, d, hd => by
    rw [Deserializer.decodeInto]
    exact advances_map _ _ advances_uint32 d hd
  | Ty.uint64, cur, d, hd => by
    rw [Deserializer.decodeInto]
    exact advances_map _ _ advances_uint64 d hd
  | Ty.float32, cur, d, hd => by
    rw [Deserializer.decodeInto]
    exact advances_map _ _ advances_float32 d hd
  | Ty.float64, cur, d, hd => by
    rw [Deserializer.decodeInto]
    exact advances_map _ _ advances_float64 d hd
  | Ty.string, cur, d, hd => by
    rw [Deserializer.decodeInto]
    exact advances_map _ _ (advances_string _) d hd
  | Ty.slice elem, cur, d, hd => by
    by_cases hu : elem.isUint8 = true
    · rw [decodeInto_byteSlice L elem cur hu]
      exact advances_map _ _ advances_bytes d hd
    · rw [decodeInto_slice L elem cur hu]
      exact advances_sliceBody elem cur _ (fun c d hd => cursor_decodeInto L elem c d hd) d hd
  | Ty.array len elem, cur, d, hd => by
    rw [Deserializer.decodeInto]
    exact advances_map _ _ (advances_loopElems _ (fun c d hd => cursor_decodeInto L elem c d hd) _) d hd
  | Ty.map key elem, cur, d, hd => by
    rw [Deserializer.decodeInto]
    exact advances_mapBody _ _ (fun d hd => cursor_decodeInto L key _ d hd)
      (fun d hd => cursor_decodeInto L elem _ d hd) _ d hd
  | Ty.struct fields, cur, d, hd => by
    rw [Deserializer.decodeInto]
    exact advances_map _ _ (cursor_decodeFields L fields _) d hd
  | Ty.ptr _, cur, d, hd => by
    rw [Deserializer.decodeInto]
    exact cursorOK_same d hd _
  | Ty.iface, cur, d, hd => by
    rw [Deserializer.decodeInto]
    exact cursorOK_same d hd _
  | Ty.other, cur, d, hd => by
    rw [Deserializer.decodeInto]
    exact cursorOK_same d hd _
theorem cursor_decodeFields (L : Lib) :
    ∀ (fs : List (StructField Ty)) (cur : List (StructField Value)) (d : Deserializer),
      d.pos ≤ d.data.length → CursorOK d (Deserializer.decodeFields L fs cur d)
  | [], cur, d, hd => by
    rw [Deserializer.decodeFields]
    exact cursorOK_same d hd _
  | f :: fs, cur, d, hd => by
    rw [Deserializer.decodeFields]
    split
    · exact advances_map _ _ (fun d hd => cursor_decodeFields L fs _ d hd) d hd
    · exact advances_andThen _ _ (fun d hd => cursor_decodeInto L f.val _ d hd) (fun v =>
        advances_map _ _ (fun d hd => cursor_decodeFields L fs _ d hd)) d hd
end

theorem advances_decodeInto (L : Lib) (t : Ty) (cur : Value) :
    Advances (Deserializer.decodeInto L t cur) :=
  cursor_decodeInto L t cur

theorem advances_option (L : Lib) (v : Target) :
    Advances (fun d => d.DeserializeOption L v) := by
  unfold Deserializer.DeserializeOption
  refine advances_andThen _ _ advances_popByte fun b => ?_
  by_cases h0 : b = 0
  · simp only [h0, if_true]
    cases v <;> exact advances_const _
  · by_cases h1 : b = 1
    · simp only [h1, Fin.reduceEq, if_false, if_true]
      cases v with
      | nil => exact advances_const _
      | nonPointer => exact advances_const _
      | nilPointer => exact advances_const _
      | pointer ty cur => exact advances_map _ _ (advances_decodeInto L ty cur)
    · simp only [h0, h1, if_false]
      exact advances_const _

theorem advances_value (L : Lib) (v : Target) :
    Advances (fun d => d.DeserializeValue L v) := by
  cases v with
  | nil => exact advances_option L Target.nil
  | nonPointer => exact advances_const _
  | nilPointer => exact advances_const _
  | pointer ty cur => exact advances_map _ _ (advances_decodeInto L ty cur)

theorem advances_enum (L : Lib) (vi : Option Nat) (v : Target) :
    Advances (fun d => (d.DeserializeEnum L vi v).1) := by
  intro d hd
  show CursorOK d (d.DeserializeEnum L vi v).1
  unfold Deserializer.DeserializeEnum
  have h32 : CursorOK d d.DeserializeUint32 := advances_uint32 d hd
  rcases h : d.DeserializeUint32 with ⟨r, d1⟩
  rw [h] at h32
  obtain ⟨k1, k2, k3⟩ := h32
  simp only at k1 k2 k3
  cases r with
  | ok x =>
    have hv := advances_value L v d1 (by rw [k1]; exact k3)
    obtain ⟨j1, j2, j3⟩ := hv
    have hres : CursorOK d (d1.DeserializeValue L v) :=
      ⟨j1.trans k1, Nat.le_trans k2 j2, by rw [k1] at j3; exact j3⟩
    cases v with
    | nil => exact ⟨k1, k2, k3⟩
    | nonPointer => exact hres
    | nilPointer => exact hres
    | pointer ty cur => exact hres
  | err e => exact ⟨k1, k2, k3⟩
  | panic => exact ⟨k1, k2, k3⟩

/-- C27: from a state whose cursor is within the input, every deserializer
operation, whether it succeeds or fails, returns with the same input and a
cursor that has not moved back and is still within the input: `popByte`,
`takeBytes`, `DeserializeBool`, the signed and unsigned integer and float
methods, `DeserializeString`, `DeserializeBytes`, `DeserializeOption`,
`DeserializeEnum` and `DeserializeValue` for any target; likewise the varint
and fixed-width decoders leave `*pos` between its old value and the length
of the data. -/
theorem cursor_invariant (L : Lib) (valid : List Byte → Bool) (d : Deserializer) (n : Int)
    (v : Target) (vi : Option Nat) (hd : d.pos ≤ d.data.length) :
    (CursorOK d d.popByte ∧ CursorOK d (d.takeBytes n)) ∧
    ((d.pos ≤ (decodeVarintUint16 d.data d.pos).2 ∧
        (decodeVarintUint16 d.data d.pos).2 ≤ d.data.length) ∧
      (d.pos ≤ (decodeVarintUint32 d.data d.pos).2 ∧
        (decodeVarintUint32 d.data d.pos).2 ≤ d.data.length) ∧
      (d.pos ≤ (decodeVarintUint64 d.data d.pos).2 ∧
        (decodeVarintUint64 d.data d.pos).2 ≤ d.data.length) ∧
      (d.pos ≤ (decodeVarintUint d.data d.pos).2 ∧
        (decodeVarintUint d.data d.pos).2 ≤ d.data.length)) ∧
    ((d.pos ≤ (decodeUint16LE d.data d.pos).2 ∧
        (decodeUint16LE d.data d.pos).2 ≤ d.data.length) ∧
      (d.pos ≤ (decodeUint32LE d.data d.pos).2 ∧
        (decodeUint32LE d.data d.pos).2 ≤ d.data.length) ∧
      (d.pos ≤ (decodeUint64LE d.data d.pos).2 ∧
        (decodeUint64LE d.data d.pos).2 ≤ d.data.length) ∧
      (d.pos ≤ (decodeFloat32LE d.data d.pos).2 ∧
        (decodeFloat32LE d.data d.pos).2 ≤ d.data.length) ∧
      (d.pos ≤ (decodeFloat64LE d.data d.pos).2 ∧
        (decodeFloat64LE d.data d.pos).2 ≤ d.data.length)) ∧
    (CursorOK d d.DeserializeBool ∧ CursorOK d d.DeserializeInt8 ∧
      CursorOK d d.DeserializeInt16 ∧ CursorOK d d.DeserializeInt32 ∧
      CursorOK d d.DeserializeInt64 ∧ CursorOK d d.DeserializeInt ∧
      CursorOK d d.DeserializeUint8 ∧ CursorOK d d.DeserializeUint16 ∧
      CursorOK d d.DeserializeUint32 ∧ CursorOK d d.DeserializeUint64 ∧
      CursorOK d d.DeserializeUint ∧ CursorOK d d.DeserializeFloat32 ∧
      CursorOK d d.DeserializeFloat64) ∧
    (CursorOK d (d.DeserializeString valid) ∧ CursorOK d d.DeserializeBytes ∧
      CursorOK d (d.DeserializeOption L v) ∧ CursorOK d (d.DeserializeEnum L vi v).1 ∧
      CursorOK d (d.DeserializeValue L v)) :=
  ⟨⟨advances_popByte d hd, advances_takeBytes n d hd⟩,
    ⟨scan_decoder_cursor _ 3 3 decodeVarintUint16_eq_scan d.data d.pos hd,
      scan_decoder_cursor _ 15 5 decodeVarintUint32_eq_scan d.data d.pos hd,
      scan_decoder_cursor _ 1 10 decodeVarintUint64_eq_scan d.data d.pos hd,
      scan_decoder_cursor _ 1 10 decodeVarintUint64_eq_scan d.data d.pos hd⟩,
    ⟨decodeFixedLE_cursor 2 d.data d.pos hd, decodeFixedLE_cursor 4 d.data d.pos hd,
      decodeFixedLE_cursor 8 d.data d.pos hd, decodeFixedLE_cursor 4 d.data d.pos hd,
      decodeFixedLE_cursor 8 d.data d.pos hd⟩,
    ⟨advances_bool d hd, advances_int8 d hd, advances_int16 d hd, advances_int32 d hd,
      advances_int64 d hd, advances_int d hd, advances_uint8 d hd, advances_uint16 d hd,
      advances_uint32 d hd, advances_uint64 d hd, advances_uint d hd, advances_float32 d hd,
      advances_float64 d hd⟩,
    ⟨advances_string valid d hd, advances_bytes d hd, advances_option L v d hd,
      advances_enum L vi v d hd, advances_value L v d hd⟩⟩

theorem cursor_invariant_witness :
    ({ data := [0x02, 0x80], pos := 1 } : Deserializer).pos ≤
      ({ data := [0x02, 0x80], pos := 1 } : Deserializer).data.length ∧
    CursorOK { data := [0x02, 0x80], pos := 1 }
      ({ data := [0x02, 0x80], pos := 1 } : Deserializer).popByte ∧
    CursorOK { data := [0x02, 0x80], pos := 1 }
      (({ data := [0x02, 0x80], pos := 1 } : Deserializer).takeBytes (-1)) ∧
    ({ data := [0x02, 0x80], pos := 1 } : Deserializer).DeserializeUint32 =
      (Res.err Error.ErrDeserializeUnexpectedEnd, { data := [0x02, 0x80], pos := 2 }) ∧
    CursorOK { data := [0x02, 0x80], pos := 1 }
      ({ data := [0x02, 0x80], pos := 1 } : Deserializer).DeserializeUint32 ∧
    CursorOK { data := [0x02, 0x80], pos := 1 }
      (({ data := [0x02, 0x80], pos := 1 } : Deserializer).DeserializeValue stdLib
        (Target.pointer (Ty.slice Ty.string) (Value.slice Ty.string true [] []))) :=
  have h := cursor_invariant stdLib utf8Valid { data := [0x02, 0x80], pos := 1 } (-1)
    (Target.pointer (Ty.slice Ty.string) (Value.slice Ty.string true [] [])) none (by decide)
  ⟨by decide, h.1.1, h.1.2, by decide, h.2.2.2.1.2.2.2.2.2.2.2.2.1, h.2.2.2.2.2.2.2.2⟩

/-! ### Values of scalar, string and byte-sequence shape -/

theorem int8_byte_roundtrip (n : Int) (hlo : -2 ^ 7 ≤ n) (hhi : n < 2 ^ 7) :
    toInt 8 (((toByte (toUint 8 (toInt 8 n))).val : Nat) : Int) = n := by
  have h1 : toInt 8 n = n := by
    unfold toInt
    rw [Int.bmod_def]
    split <;> omega
  rw [h1]
  have h2 : ((toByte (toUint 8 n)).val : Int) = n % 256 := by
    show (((n % 2 ^ 8).toNat % 256 : Nat) : Int) = n % 256
    omega
  rw [h2]
  unfold toInt
  rw [Int.bmod_def]
  split <;> omega

theorem asByte_bytes (bytes : List Byte) :
    (bytes.map fun b => Value.uint8 b.val).map Value.asByte = bytes := by
  induction bytes with
  | nil => rfl
  | cons b bs ih =>
    simp only [List.map_cons, Value.asByte, toByte_val, ih]

theorem flat_codec (L : Lib) :
    ∀ (t : Ty) (v : Value), Flat L t v →
      ∃ enc : List Byte,
        (∀ s : Serializer, s.SerializeValue L v = (Res.ok (), { buf := s.buf ++ enc })) ∧
        ∀ cur : Value, Decodes (Deserializer.decodeInto L t cur) enc v.settled := by
  intro t v h
  cases t with
  | bool =>
    obtain ⟨b, rfl⟩ := h
    exact ⟨_, fun s => ser_bool L s b, fun cur => dec_bool L cur b⟩
  | int =>
    obtain ⟨n, rfl, hlo, hhi⟩ := h
    exact ⟨_, fun s => ser_int L s n hlo hhi, fun cur => dec_int L cur n hlo hhi⟩
  | int8 =>
    obtain ⟨n, rfl, hlo, hhi⟩ := h
    refine ⟨_, fun s => ser_int8 L s n, fun cur => ?_⟩
    have hd := dec_int8 L cur (toByte (toUint 8 (toInt 8 n)))
    rw [int8_byte_roundtrip n hlo hhi] at hd
    exact hd
  | int16 =>
    obtain ⟨n, rfl, hlo, hhi⟩ := h
    exact ⟨_, fun s => ser_int16 L s n hlo hhi, fun cur => dec_int16 L cur n hlo hhi⟩
  | int32 =>
    obtain ⟨n, rfl, hlo, hhi⟩ := h
    exact ⟨_, fun s => ser_int32 L s n hlo hhi, fun cur => dec_int32 L cur n hlo hhi⟩
  | int64 =>
    obtain ⟨n, rfl, hlo, hhi⟩ := h
    exact ⟨_, fun s => ser_int64 L s n hlo hhi, fun cur => dec_int64 L cur n hlo hhi⟩
  | uint =>
    obtain ⟨n, rfl, hn⟩ := h
    exact ⟨_, fun s => ser_uint L s n hn, fun cur => dec_uint L cur n hn⟩
  | uint8 =>
    obtain ⟨n, rfl, hn⟩ := h
    refine ⟨_, fun s => serializeValue_uint8 L s n, fun cur => ?_⟩
    have hd := dec_uint8 L cur (toByte n)
    rw [toByte_val_of_lt n (by omega)] at hd
    exact hd
  | uint16 =>
    obtain ⟨n, rfl, hn⟩ := h
    exact ⟨_, fun s => ser_uint16 L s n hn, fun cur => dec_uint16 L cur n hn⟩
  | uint32 =>
    obtain ⟨n, rfl, hn⟩ := h
    exact ⟨_, fun s => ser_uint32 L s n hn, fun cur => dec_uint32 L cur n hn⟩
  | uint64 =>
    obtain ⟨n, rfl, hn⟩ := h
    exact ⟨_, fun s => ser_uint64 L s n hn, fun cur => dec_uint64 L cur n hn⟩
  | float32 =>
    obtain ⟨bits, rfl, hb, hconv⟩ := h
    refine ⟨_, fun s => ser_float32 L s bits, fun cur => ?_⟩
    have hd := dec_float32 L cur (encodeFloat32LE (L.float32Conv bits))
      (littleEndianBytes_length 4 _)
    rw [hconv, encodeFloat32LE, littleEndianValue_bytes, Nat.mod_eq_of_lt (by omega), hconv] at hd
    rw [hconv]
    exact hd
  | float64 =>
    obtain ⟨bits, rfl, hb⟩ := h
    refine ⟨_, fun s => ser_float64 L s bits, fun cur => ?_⟩
    have hd := dec_float64 L cur (encodeFloat64LE bits) (littleEndianBytes_length 8 _)
    rw [encodeFloat64LE, littleEndianValue_bytes, Nat.mod_eq_of_lt (by omega)] at hd
    exact hd
  | string =>
    obtain ⟨str, rfl, hlen, hv⟩ := h
    exact ⟨_, fun s => ser_string L s str (by omega), fun cur => dec_string L cur str hlen hv⟩
  | slice elem =>
    obtain ⟨rfl, isNil, bytes, spare, rfl, hlen⟩ := h
    refine ⟨canonicalVarint 9 bytes.length ++ bytes, fun s => ?_, fun cur => ?_⟩
    · rw [Serializer.SerializeValue]
      simp only [Ty.isUint8, if_true]
      rw [asByte_bytes]
      exact serializeLenPrefixed s bytes (by omega)
    · refine decodes_congr _ _ _ _ (decodeInto_byteSlice L Ty.uint8 cur rfl) ?_
      exact decodes_map _
        (fun bs => Value.slice Ty.uint8 false (bs.map fun b => Value.uint8 b.val) []) _ _
        (decodes_bytes bytes hlen)
  | array _ _ => exact h.elim
  | map _ _ => exact h.elim
  | struct _ => exact h.elim
  | ptr _ => exact h.elim
  | iface => exact h.elim
  | other => exact h.elim

theorem float32ViaFloat64_eq_iff (bits : Nat) :
    float32ViaFloat64 bits = bits ↔
      ¬ (bits / 2 ^ 23 % 256 = 255 ∧ bits % 2 ^ 23 ≠ 0 ∧ bits / 2 ^ 22 % 2 = 0) := by
  unfold float32ViaFloat64
  by_cases h : bits / 2 ^ 23 % 256 = 255 ∧ bits % 2 ^ 23 ≠ 0 ∧ bits / 2 ^ 22 % 2 = 0
  · rw [if_pos h]
    constructor
    · intro h1
      omega
    · intro h1
      exact absurd h h1
  · rw [if_neg h]
    exact ⟨fun _ => h, fun _ => rfl⟩

/-- C26 (as stated, refuted): two values of the shapes the claim covers do not
come back. The one-byte string `0xFF` serializes to `[0x01, 0xFF]`, and
deserializing these bytes, with or without trailing bytes, fails with
`ErrDeserializeBadUtf8`. The `float32` with the bit pattern `0x7FA00000`, a
signalling NaN, serializes to `[0x00, 0x00, 0xE0, 0x7F]`, and these bytes, with
or without trailing bytes, decode to the bit pattern `0x7FE00000`. -/
theorem invalid_string_and_signalling_nan_not_restored :
    Serialize ieeeLib (Value.string [0xFF]) = Res.ok [0x01, 0xFF] ∧
    Deserialize ieeeLib ([0x01, 0xFF] ++ []) (Target.pointer Ty.string (Value.string [])) =
      Res.err Error.ErrDeserializeBadUtf8 ∧
    Deserialize ieeeLib ([0x01, 0xFF] ++ [0x01]) (Target.pointer Ty.string (Value.string [])) =
      Res.err Error.ErrDeserializeBadUtf8 ∧
    Serialize ieeeLib (Value.float32 0x7FA00000) = Res.ok [0x00, 0x00, 0xE0, 0x7F] ∧
    Deserialize ieeeLib ([0x00, 0x00, 0xE0, 0x7F] ++ [])
        (Target.pointer Ty.float32 (Value.float32 0)) =
      Res.ok (Target.pointer Ty.float32 (Value.float32 0x7FE00000)) ∧
    Deserialize ieeeLib ([0x00, 0x00, 0xE0, 0x7F] ++ [0x01])
        (Target.pointer Ty.float32 (Value.float32 0)) =
      Res.ok (Target.pointer Ty.float32 (Value.float32 0x7FE00000)) :=
  ⟨by decide, by rfl, by rfl, by decide, by rfl, by rfl⟩

/-- C26 (amended): for all values `a` and `b` of scalar, string or
byte-sequence shape whose strings are valid UTF-8 and whose `float32` values
are left unchanged by the conversion to `float64` and back, `Serialize`
succeeds on both, and one deserializer over `Serialize(a) ++ Serialize(b)`
(fewer than `2^63` bytes) that decodes the shape of `a` and then the shape of `b` returns
`a` and then `b`, with the cursor at `len(Serialize(a))` after the first
decode and at the end after the second; and `Deserialize(Serialize(a) ++ rest)`
yields `a` for every trailing `rest`. -/
theorem concatenated_decode (L : Lib) (ta tb : Ty) (a b cura curb : Value) (rest : List Byte)
    (ha : Flat L ta a) (hb : Flat L tb b) :
    ∃ ea eb, Serialize L a = Res.ok ea ∧ Serialize L b = Res.ok eb ∧
      ((ea ++ eb).length < 2 ^ 63 →
        (NewDeserializer (ea ++ eb)).DeserializeValue L (Target.pointer ta cura) =
          (Res.ok (Target.pointer ta a.settled), { data := ea ++ eb, pos := ea.length }) ∧
        ({ data := ea ++ eb, pos := ea.length } : Deserializer).DeserializeValue L
            (Target.pointer tb curb) =
          (Res.ok (Target.pointer tb b.settled),
            { data := ea ++ eb, pos := (ea ++ eb).length })) ∧
      ((ea ++ rest).length < 2 ^ 63 →
        Deserialize L (ea ++ rest) (Target.pointer ta cura) =
          Res.ok (Target.pointer ta a.settled)) := by
  obtain ⟨ea, hsa, hda⟩ := flat_codec L ta a ha
  obtain ⟨eb, hsb, hdb⟩ := flat_codec L tb b hb
  refine ⟨ea, eb, serialize_of_appends L a ea hsa, serialize_of_appends L b eb hsb, ?_, ?_⟩
  · intro hlen
    rw [List.length_append] at hlen
    have h1 := deserializeValue_at L ta cura a.settled [] ea eb (hda cura) (by simp; omega)
    have h2 := deserializeValue_at L tb curb b.settled ea eb [] (hdb curb) hlen
    simp only [List.nil_append, List.length_nil, Nat.zero_add] at h1
    simp only [List.append_nil] at h2
    rw [List.length_append]
    exact ⟨h1, h2⟩
  · intro hlen
    rw [List.length_append] at hlen
    have h1 := deserializeValue_at L ta cura a.settled [] ea rest (hda cura) (by simp; omega)
    simp only [List.nil_append, List.length_nil, Nat.zero_add] at h1
    unfold Deserialize
    rw [show NewDeserializer (ea ++ rest) = { data := ea ++ rest, pos := 0 } from rfl, h1]

theorem concatenated_decode_witness :
    Flat ieeeLib Ty.float32 (Value.float32 0x3FC00000) ∧
    Flat ieeeLib Ty.string (Value.string [0x68, 0x69]) ∧
    Serialize ieeeLib (Value.float32 0x3FC00000) = Res.ok [0x00, 0x00, 0xC0, 0x3F] ∧
    Serialize ieeeLib (Value.string [0x68, 0x69]) = Res.ok [0x02, 0x68, 0x69] ∧
    (NewDeserializer ([0x00, 0x00, 0xC0, 0x3F] ++ [0x02, 0x68, 0x69])).DeserializeValue ieeeLib
        (Target.pointer Ty.float32 (Value.float32 0)) =
      (Res.ok (Target.pointer Ty.float32 (Value.float32 0x3FC00000)),
        { data := [0x00, 0x00, 0xC0, 0x3F] ++ [0x02, 0x68, 0x69], pos := 4 }) ∧
    ({ data := [0x00, 0x00, 0xC0, 0x3F] ++ [0x02, 0x68, 0x69], pos := 4 } :
        Deserializer).DeserializeValue ieeeLib (Target.pointer Ty.string (Value.string [])) =
      (Res.ok (Target.pointer Ty.string (Value.string [0x68, 0x69])),
        { data := [0x00, 0x00, 0xC0, 0x3F] ++ [0x02, 0x68, 0x69], pos := 7 }) ∧
    Deserialize ieeeLib ([0x00, 0x00, 0xC0, 0x3F] ++ [0xFF])
        (Target.pointer Ty.float32 (Value.float32 0)) =
      Res.ok (Target.pointer Ty.float32 (Value.float32 0x3FC00000)) := by
  have ha : Flat ieeeLib Ty.float32 (Value.float32 0x3FC00000) :=
    ⟨_, rfl, by decide, by decide⟩
  have hb : Flat ieeeLib Ty.string (Value.string [0x68, 0x69]) :=
    ⟨_, rfl, by decide, by decide⟩
  have h0 : Serialize ieeeLib (Value.float32 0x3FC00000) = Res.ok [0x00, 0x00, 0xC0, 0x3F] := by
    decide
  have h1 : Serialize ieeeLib (Value.string [0x68, 0x69]) = Res.ok [0x02, 0x68, 0x69] := by
    decide
  obtain ⟨ea, eb, hsa, hsb, hcat, hrest⟩ := concatenated_decode ieeeLib Ty.float32 Ty.string
    (Value.float32 0x3FC00000) (Value.string [0x68, 0x69]) (Value.float32 0) (Value.string [])
    [0xFF] ha hb
  rw [h0] at hsa
  rw [h1] at hsb
  injection hsa with hsa
  injection hsb with hsb
  subst hsa
  subst hsb
  obtain ⟨r1, r2⟩ := hcat (by decide)
  exact ⟨ha, hb, h0, h1, r1, r2, hrest (by decide)⟩

/-! ### The first nested error -/

theorem andThen_ok_inv {α β : Type} (r : Res α × Deserializer)
    (next : α → Deserializer → Res β × Deserializer) (y : β) (d1 : Deserializer)
    (h : Deserializer.andThen r next = (Res.ok y, d1)) :
    ∃ x d0, r = (Res.ok x, d0) ∧ next x d0 = (Res.ok y, d1) := by
  rcases r with ⟨r, d0⟩
  cases r with
  | ok x => exact ⟨x, d0, rfl, h⟩
  | err e => cases h
  | panic => cases h

theorem serAndThen_ok_inv (r : Res Unit × Serializer)
    (next : Serializer → Res Unit × Serializer) (s1 : Serializer)
    (h : Serializer.andThen r next = (Res.ok (), s1)) :
    ∃ s0, r = (Res.ok (), s0) ∧ next s0 = (Res.ok (), s1) := by
  rcases r with ⟨r, s0⟩
  cases r with
  | ok u => exact ⟨s0, rfl, h⟩
  | err e => cases h
  | panic => cases h

theorem serAndThen_err (e : Error) (s1 : Serializer)
    (next : Serializer → Res Unit × Serializer) :
    Serializer.andThen (Res.err e, s1) next = (Res.err e, s1) := rfl

theorem loopElems_first_error (step : Value → Deserializer → Res Value × Deserializer)
    (c : Value) (post : List Value) (e : Error) (d1 d2 : Deserializer)
    (hc : step c d1 = (Res.err e, d2)) :
    ∀ (pre : List Value) (d : Deserializer) (vs : List Value),
      Deserializer.loopElems step pre d = (Res.ok vs, d1) →
      Deserializer.loopElems step (pre ++ c :: post) d = (Res.err e, d2) := by
  intro pre
  induction pre with
  | nil =>
    intro d vs h
    rw [Deserializer.loopElems] at h
    obtain ⟨_, hd⟩ := Prod.mk.inj h
    subst hd
    rw [List.nil_append, Deserializer.loopElems, hc, andThen_err_eq]
  | cons x pre ih =>
    intro d vs h
    rw [Deserializer.loopElems] at h
    obtain ⟨v, d0, h1, h2⟩ := andThen_ok_inv _ _ _ _ h
    obtain ⟨vs1, d3, h3, h4⟩ := andThen_ok_inv _ _ _ _ h2
    obtain ⟨_, hd⟩ := Prod.mk.inj h4
    subst hd
    rw [List.cons_append, Deserializer.loopElems, h1, andThen_ok_eq, ih d0 vs1 h3,
      andThen_err_eq]

theorem drop_tail_eq (cur : List (StructField Value)) (n : Nat) :
    cur.tail.drop n = cur.drop (n + 1) := by
  cases cur <;> simp

theorem decodeFields_first_error (L : Lib) (f : StructField Ty) (fpost : List (StructField Ty))
    (e : Error) (d1 d2 : Deserializer) (hf : f.exported = true) :
    ∀ (fpre : List (StructField Ty)) (cur done : List (StructField Value)) (d : Deserializer),
      Deserializer.decodeFields L fpre cur d = (Res.ok done, d1) →
      Deserializer.decodeInto L f.val (fieldValue f.val (cur.drop fpre.length)) d1 =
        (Res.err e, d2) →
      Deserializer.decodeFields L (fpre ++ f :: fpost) cur d = (Res.err e, d2) := by
  intro fpre
  induction fpre with
  | nil =>
    intro cur done d h hc
    rw [Deserializer.decodeFields] at h
    obtain ⟨_, hd⟩ := Prod.mk.inj h
    subst hd
    rw [List.nil_append, Deserializer.decodeFields]
    simp only [hf, Bool.not_true, Bool.false_eq_true, if_false]
    rw [List.length_nil, List.drop_zero] at hc
    rw [hc, andThen_err_eq]
  | cons g fpre ih =>
    intro cur done d h hc
    rw [List.length_cons, ← drop_tail_eq] at hc
    rw [Deserializer.decodeFields] at h
    rw [List.cons_append, Deserializer.decodeFields]
    by_cases hg : (!g.exported) = true
    · simp only [hg, if_true] at h ⊢
      obtain ⟨rest, d0, h1, h2⟩ := andThen_ok_inv _ _ _ _ h
      obtain ⟨_, hd⟩ := Prod.mk.inj h2
      subst hd
      rw [ih cur.tail rest d h1 hc, andThen_err_eq]
    · simp only [hg, Bool.false_eq_true, if_false] at h ⊢
      obtain ⟨v, d0, h1, h2⟩ := andThen_ok_inv _ _ _ _ h
      obtain ⟨rest, d3, h3, h4⟩ := andThen_ok_inv _ _ _ _ h2
      obtain ⟨_, hd⟩ := Prod.mk.inj h4
      subst hd
      rw [h1, andThen_ok_eq, ih cur.tail rest d0 h3 hc, andThen_err_eq]

theorem loopEntries_after (stepKey stepVal : Deserializer → Res Value × Deserializer)
    (m : Nat) (d1 : Deserializer) (es : List (Value × Value)) :
    ∀ (k : Nat) (entries : List (Value × Value)) (d : Deserializer),
      Deserializer.loopEntries stepKey stepVal k entries d = (Res.ok es, d1) →
      Deserializer.loopEntries stepKey stepVal (k + (m + 1)) entries d =
        Deserializer.andThen (stepKey d1) fun key d3 =>
          Deserializer.andThen (stepVal d3) fun value d4 =>
            Deserializer.loopEntries stepKey stepVal m (setMapIndex key value es) d4 := by
  intro k
  induction k with
  | zero =>
    intro entries d h
    rw [Deserializer.loopEntries] at h
    obtain ⟨he, hd⟩ := Prod.mk.inj h
    injection he with he
    subst he
    subst hd
    rw [Nat.zero_add, Deserializer.loopEntries]
  | succ k ih =>
    intro entries d h
    rw [Deserializer.loopEntries] at h
    obtain ⟨key, d0, h1, h2⟩ := andThen_ok_inv _ _ _ _ h
    obtain ⟨value, d3, h3, h4⟩ := andThen_ok_inv _ _ _ _ h2
    rw [Nat.succ_add, Deserializer.loopEntries, h1, andThen_ok_eq, h3, andThen_ok_eq,
      ih _ d3 h4]

theorem serializeElems_first_error (L : Lib) (x : Value) (post : List Value) (e : Error)
    (s1 s2 : Serializer) (hx : Serializer.SerializeValue L s1 x = (Res.err e, s2)) :
    ∀ (pre : List Value) (s : Serializer),
      Serializer.SerializeElems L s pre = (Res.ok (), s1) →
      Serializer.SerializeElems L s (pre ++ x :: post) = (Res.err e, s2) := by
  intro pre
  induction pre with
  | nil =>
    intro s h
    rw [Serializer.SerializeElems] at h
    obtain ⟨_, hs⟩ := Prod.mk.inj h
    subst hs
    rw [List.nil_append, Serializer.SerializeElems, hx, serAndThen_err]
  | cons y pre ih =>
    intro s h
    rw [Serializer.SerializeElems] at h
    obtain ⟨s0, h1, h2⟩ := serAndThen_ok_inv _ _ _ h
    rw [List.cons_append, Serializer.SerializeElems, h1, Serializer.andThen_ok, ih s0 h2]

theorem serializeFields_first_error (L : Lib) (f : StructField Value)
    (fpost : List (StructField Value)) (e : Error) (s1 s2 : Serializer)
    (hf : f.exported = true) (hx : Serializer.SerializeValue L s1 f.val = (Res.err e, s2)) :
    ∀ (fpre : List (StructField Value)) (s : Serializer),
      Serializer.SerializeFields L s fpre = (Res.ok (), s1) →
      Serializer.SerializeFields L s (fpre ++ f :: fpost) = (Res.err e, s2) := by
  intro fpre
  induction fpre with
  | nil =>
    intro s h
    rw [Serializer.SerializeFields] at h
    obtain ⟨_, hs⟩ := Prod.mk.inj h
    subst hs
    rw [List.nil_append, Serializer.SerializeFields]
    simp only [hf, Bool.not_true, Bool.false_eq_true, if_false]
    rw [hx, serAndThen_err]
  | cons g fpre ih =>
    intro s h
    rw [Serializer.SerializeFields] at h
    rw [List.cons_append, Serializer.SerializeFields]
    by_cases hg : (!g.exported) = true
    · simp only [hg, if_true] at h ⊢
      exact ih s h
    · simp only [hg, Bool.false_eq_true, if_false] at h ⊢
      obtain ⟨s0, h1, h2⟩ := serAndThen_ok_inv _ _ _ h
      rw [h1, Serializer.andThen_ok, ih s0 h2]

theorem serializeEntries_first_error (L : Lib) (key value : Value)
    (post : List (Value × Value)) (e : Error) (s1 s2 : Serializer)
    (hx : Serializer.SerializeValue L s1 key = (Res.err e, s2) ∨
      ∃ s3, Serializer.SerializeValue L s1 key = (Res.ok (), s3) ∧
        Serializer.SerializeValue L s3 value = (Res.err e, s2)) :
    ∀ (pre : List (Value × Value)) (s : Serializer),
      Serializer.SerializeEntries L s pre = (Res.ok (), s1) →
      Serializer.SerializeEntries L s (pre ++ (key, value) :: post) = (Res.err e, s2) := by
  intro pre
  induction pre with
  | nil =>
    intro s h
    rw [Serializer.SerializeEntries] at h
    obtain ⟨_, hs⟩ := Prod.mk.inj h
    subst hs
    rw [List.nil_append, Serializer.SerializeEntries]
    rcases hx with hk | ⟨s3, hk, hv⟩
    · rw [hk, serAndThen_err]
    · rw [hk, Serializer.andThen_ok, hv, serAndThen_err]
  | cons y pre ih =>
    intro s h
    obtain ⟨k0, v0⟩ := y
    rw [Serializer.SerializeEntries] at h
    obtain ⟨s0, h1, h2⟩ := serAndThen_ok_inv _ _ _ h
    obtain ⟨s3, h3, h4⟩ := serAndThen_ok_inv _ _ _ h2
    rw [List.cons_append, Serializer.SerializeEntries, h1, Serializer.andThen_ok, h3,
      Serializer.andThen_ok, ih s3 h4]

theorem deserializeValue_err (L : Lib) (t : Ty) (cur : Value) (d d2 : Deserializer) (e : Error)
    (h : Deserializer.decodeInto L t cur d = (Res.err e, d2)) :
    d.DeserializeValue L (Target.pointer t cur) = (Res.err e, d2) := by
  simp only [Deserializer.DeserializeValue]
  rw [h, andThen_err_eq]

theorem serialize_err (L : Lib) (v : Value) (e : Error) (s2 : Serializer)
    (h : (NewSerializer []).SerializeValue L v = (Res.err e, s2)) :
    Serialize L v = Res.err e := by
  unfold Serialize
  simp only [h]

theorem slice_first_error (L : Lib) (e : Error) (elem : Ty) (cur : Value)
    (d d0 d1 d2 : Deserializer) (sz : Nat) (pre post spare vs : List Value) (c : Value)
    (targets : Option (List Value × List Value))
    (ht : targets = sliceTargets elem cur (toInt 64 sz))
    (hu : ¬ elem.isUint8 = true) (hsz : d.DeserializeUint = (Res.ok sz, d0))
    (hsome : targets = some (pre ++ c :: post, spare))
    (hpre : Deserializer.loopElems (Deserializer.decodeInto L elem) pre d0 = (Res.ok vs, d1))
    (hc : Deserializer.decodeInto L elem c d1 = (Res.err e, d2)) :
    Deserializer.decodeInto L (Ty.slice elem) cur d = (Res.err e, d2) := by
  rw [decodeInto_slice L elem cur hu, hsz, andThen_ok_eq, ← ht, hsome, fillSlice_some,
    loopElems_first_error _ c post e d1 d2 hc pre d0 vs hpre, andThen_err_eq]

theorem map_first_error (L : Lib) (e : Error) (key elem : Ty) (isNil : Bool)
    (entries es : List (Value × Value)) (d d0 d1 d2 : Deserializer) (sz k m : Nat) (n : Int)
    (hn : n = toInt 64 sz)
    (hsz : d.DeserializeUint = (Res.ok sz, d0)) (hk : n.toNat = k + (m + 1))
    (hpre : Deserializer.loopEntries (Deserializer.decodeInto L key (zeroOf key))
      (Deserializer.decodeInto L elem (zeroOf elem)) k entries d0 = (Res.ok es, d1))
    (hc : Deserializer.decodeInto L key (zeroOf key) d1 = (Res.err e, d2) ∨
      ∃ kv d3, Deserializer.decodeInto L key (zeroOf key) d1 = (Res.ok kv, d3) ∧
        Deserializer.decodeInto L elem (zeroOf elem) d3 = (Res.err e, d2)) :
    Deserializer.decodeInto L (Ty.map key elem) (Value.map isNil entries) d =
      (Res.err e, d2) := by
  rw [decodeInto_map, hsz, andThen_ok_eq, ← hn]
  unfold Deserializer.fillMap
  rw [hk, loopEntries_after _ _ m d1 es k entries d0 hpre]
  rcases hc with h1 | ⟨kv, d3, h1, h2⟩
  · rw [h1, andThen_err_eq, andThen_err_eq]
  · rw [h1, andThen_ok_eq, h2, andThen_err_eq, andThen_err_eq]

/-- C29: in the decoding of a slice, an array, a struct or a map, when the
nested elements (elements, exported fields, keys and values) before one decode
without error and that one fails with error `e`, leaving the deserializer in
state `d2`, the composite call returns exactly `e` and leaves the deserializer
in `d2`: nothing is read after the failure. Likewise `SerializeSlice`,
`SerializeArray`, `SerializeStruct` and `SerializeMap` return the error of the
first nested value that fails, `SerializeValue` does the same on these kinds,
and `Serialize` then returns the error and no bytes. -/
theorem first_nested_error (L : Lib) (e : Error) :
    (∀ (elem : Ty) (cur : Value) (d d0 d1 d2 : Deserializer) (sz : Nat)
        (pre post spare vs : List Value) (c : Value),
      ¬ elem.isUint8 = true → d.DeserializeUint = (Res.ok sz, d0) →
      sliceTargets elem cur (toInt 64 sz) = some (pre ++ c :: post, spare) →
      Deserializer.loopElems (Deserializer.decodeInto L elem) pre d0 = (Res.ok vs, d1) →
      Deserializer.decodeInto L elem c d1 = (Res.err e, d2) →
      d.DeserializeValue L (Target.pointer (Ty.slice elem) cur) = (Res.err e, d2)) ∧
    (∀ (len : Nat) (elem : Ty) (d d1 d2 : Deserializer) (pre post vs : List Value) (c : Value),
      Deserializer.loopElems (Deserializer.decodeInto L elem) pre d = (Res.ok vs, d1) →
      Deserializer.decodeInto L elem c d1 = (Res.err e, d2) →
      d.DeserializeValue L (Target.pointer (Ty.array len elem) (Value.array (pre ++ c :: post))) =
        (Res.err e, d2)) ∧
    (∀ (fpre fpost : List (StructField Ty)) (f : StructField Ty)
        (cur done : List (StructField Value)) (d d1 d2 : Deserializer),
      f.exported = true → Deserializer.decodeFields L fpre cur d = (Res.ok done, d1) →
      Deserializer.decodeInto L f.val (fieldValue f.val (cur.drop fpre.length)) d1 =
        (Res.err e, d2) →
      d.DeserializeValue L (Target.pointer (Ty.struct (fpre ++ f :: fpost)) (Value.struct cur)) =
        (Res.err e, d2)) ∧
    (∀ (key elem : Ty) (isNil : Bool) (entries es : List (Value × Value))
        (d d0 d1 d2 : Deserializer) (sz k m : Nat),
      d.DeserializeUint = (Res.ok sz, d0) → (toInt 64 sz).toNat = k + (m + 1) →
      Deserializer.loopEntries (Deserializer.decodeInto L key (zeroOf key))
        (Deserializer.decodeInto L elem (zeroOf elem)) k entries d0 = (Res.ok es, d1) →
      (Deserializer.decodeInto L key (zeroOf key) d1 = (Res.err e, d2) ∨
        ∃ kv d3, Deserializer.decodeInto L key (zeroOf key) d1 = (Res.ok kv, d3) ∧
          Deserializer.decodeInto L elem (zeroOf elem) d3 = (Res.err e, d2)) →
      d.DeserializeValue L (Target.pointer (Ty.map key elem) (Value.map isNil entries)) =
        (Res.err e, d2)) ∧
    (∀ (elem : Ty) (isNil : Bool) (pre post spare : List Value) (x : Value)
        (s s1 s2 : Serializer),
      Serializer.SerializeElems L
        { buf := s.buf ++ canonicalVarint 9 ((pre ++ x :: post).length % 2 ^ 64) } pre =
          (Res.ok (), s1) →
      Serializer.SerializeValue L s1 x = (Res.err e, s2) →
      s.SerializeSlice L (Value.slice elem isNil (pre ++ x :: post) spare) = (Res.err e, s2) ∧
        (¬ elem.isUint8 = true →
          s.SerializeValue L (Value.slice elem isNil (pre ++ x :: post) spare) =
            (Res.err e, s2))) ∧
    (∀ (pre post : List Value) (x : Value) (s s1 s2 : Serializer),
      Serializer.SerializeElems L s pre = (Res.ok (), s1) →
      Serializer.SerializeValue L s1 x = (Res.err e, s2) →
      s.SerializeArray L (Value.array (pre ++ x :: post)) = (Res.err e, s2) ∧
        s.SerializeValue L (Value.array (pre ++ x :: post)) = (Res.err e, s2)) ∧
    (∀ (fpre fpost : List (StructField Value)) (f : StructField Value) (s s1 s2 : Serializer),
      f.exported = true → Serializer.SerializeFields L s fpre = (Res.ok (), s1) →
      Serializer.SerializeValue L s1 f.val = (Res.err e, s2) →
      s.SerializeStruct L (Value.struct (fpre ++ f :: fpost)) = (Res.err e, s2) ∧
        s.SerializeValue L (Value.struct (fpre ++ f :: fpost)) = (Res.err e, s2)) ∧
    (∀ (isNil : Bool) (pre post : List (Value × Value)) (key value : Value)
        (s s1 s2 : Serializer),
      Serializer.SerializeEntries L
        { buf := s.buf ++ canonicalVarint 9 ((pre ++ (key, value) :: post).length % 2 ^ 64) }
          pre = (Res.ok (), s1) →
      (Serializer.SerializeValue L s1 key = (Res.err e, s2) ∨
        ∃ s3, Serializer.SerializeValue L s1 key = (Res.ok (), s3) ∧
          Serializer.SerializeValue L s3 value = (Res.err e, s2)) →
      s.SerializeMap L (Value.map isNil (pre ++ (key, value) :: post)) = (Res.err e, s2) ∧
        s.SerializeValue L (Value.map isNil (pre ++ (key, value) :: post)) = (Res.err e, s2)) ∧
    (∀ (v : Value) (s2 : Serializer),
      (NewSerializer []).SerializeValue L v = (Res.err e, s2) → Serialize L v = Res.err e) := by
  refine ⟨?_, ?_, ?_, ?_, ?_, ?_, ?_, ?_, ?_⟩
  · intro elem cur d d0 d1 d2 sz pre post spare vs c hu hsz hsome hpre hc
    exact deserializeValue_err L _ _ d d2 e
      (slice_first_error L e elem cur d d0 d1 d2 sz pre post spare vs c _ rfl hu hsz hsome
        hpre hc)
  · intro len elem d d1 d2 pre post vs c hpre hc
    apply deserializeValue_err
    rw [decodeInto_array, loopElems_first_error _ c post e d1 d2 hc pre d vs hpre,
      andThen_err_eq]
  · intro fpre fpost f cur done d d1 d2 hf hpre hc
    apply deserializeValue_err
    rw [decodeInto_struct, decodeFields_first_error L f fpost e d1 d2 hf fpre cur done d hpre hc,
      andThen_err_eq]
  · intro key elem isNil entries es d d0 d1 d2 sz k m hsz hk hpre hc
    exact deserializeValue_err L _ _ d d2 e
      (map_first_error L e key elem isNil entries es d d0 d1 d2 sz k m _ rfl hsz hk hpre hc)
  · intro elem isNil pre post spare x s s1 s2 hpre hx
    have key : Serializer.andThen (s.pushVarintUint ((pre ++ x :: post).length % 2 ^ 64))
        (fun s0 => Serializer.SerializeElems L s0 (pre ++ x :: post)) = (Res.err e, s2) := by
      rw [pushVarintUint_mod, Serializer.andThen_ok,
        serializeElems_first_error L x post e s1 s2 hx pre _ hpre]
    refine ⟨key, fun hu => ?_⟩
    rw [Serializer.SerializeValue]
    simp only [hu, Bool.false_eq_true, if_false]
    exact key
  · intro pre post x s s1 s2 hpre hx
    have key := serializeElems_first_error L x post e s1 s2 hx pre s hpre
    refine ⟨key, ?_⟩
    rw [Serializer.SerializeValue]
    exact key
  · intro fpre fpost f s s1 s2 hf hpre hx
    have key := serializeFields_first_error L f fpost e s1 s2 hf hx fpre s hpre
    refine ⟨key, ?_⟩
    rw [Serializer.SerializeValue]
    exact key
  · intro isNil pre post key value s s1 s2 hpre hx
    have hkey : Serializer.andThen
        (s.pushVarintUint ((pre ++ (key, value) :: post).length % 2 ^ 64))
        (fun s0 => Serializer.SerializeEntries L s0 (pre ++ (key, value) :: post)) =
          (Res.err e, s2) := by
      rw [pushVarintUint_mod, Serializer.andThen_ok,
        serializeEntries_first_error L key value post e s1 s2 hx pre _ hpre]
    refine ⟨hkey, ?_⟩
    rw [Serializer.SerializeValue]
    exact hkey
  · intro v s2 h
    exact serialize_err L v e s2 h

theorem first_nested_error_witness :
    (NewDeserializer [0x02, 0x01, 0x61, 0x01, 0xFF, 0x07]).DeserializeUint =
      (Res.ok 2, { data := [0x02, 0x01, 0x61, 0x01, 0xFF, 0x07], pos := 1 }) ∧
    Deserializer.loopElems (Deserializer.decodeInto stdLib Ty.string) [Value.string []]
        { data := [0x02, 0x01, 0x61, 0x01, 0xFF, 0x07], pos := 1 } =
      (Res.ok [Value.string [0x61]], { data := [0x02, 0x01, 0x61, 0x01, 0xFF, 0x07], pos := 3 }) ∧
    Deserializer.decodeInto stdLib Ty.string (Value.string [])
        { data := [0x02, 0x01, 0x61, 0x01, 0xFF, 0x07], pos := 3 } =
      (Res.err Error.ErrDeserializeBadUtf8,
        { data := [0x02, 0x01, 0x61, 0x01, 0xFF, 0x07], pos := 5 }) ∧
    (NewDeserializer [0x02, 0x01, 0x61, 0x01, 0xFF, 0x07]).DeserializeValue stdLib
        (Target.pointer (Ty.slice Ty.string) (Value.slice Ty.string true [] [])) =
      (Res.err Error.ErrDeserializeBadUtf8,
        { data := [0x02, 0x01, 0x61, 0x01, 0xFF, 0x07], pos := 5 }) :=
  have h1 : (NewDeserializer [0x02, 0x01, 0x61, 0x01, 0xFF, 0x07]).DeserializeUint =
      (Res.ok 2, { data := [0x02, 0x01, 0x61, 0x01, 0xFF, 0x07], pos := 1 }) := by decide
  have h2 : Deserializer.loopElems (Deserializer.decodeInto stdLib Ty.string) [Value.string []]
        { data := [0x02, 0x01, 0x61, 0x01, 0xFF, 0x07], pos := 1 } =
      (Res.ok [Value.string [0x61]],
        { data := [0x02, 0x01, 0x61, 0x01, 0xFF, 0x07], pos := 3 }) := by rfl
  have h3 : Deserializer.decodeInto stdLib Ty.string (Value.string [])
        { data := [0x02, 0x01, 0x61, 0x01, 0xFF, 0x07], pos := 3 } =
      (Res.err Error.ErrDeserializeBadUtf8,
        { data := [0x02, 0x01, 0x61, 0x01, 0xFF, 0x07], pos := 5 }) := by rfl
  ⟨h1, h2, h3,
    (first_nested_error stdLib Error.ErrDeserializeBadUtf8).1 Ty.string
      (Value.slice Ty.string true [] []) _ _ _ _ 2 [Value.string []] [] [] _ (Value.string [])
      (by decide) h1 (by rfl) h2 h3⟩

/-! ### Single characters: the round trip -/

theorem serializeRune_eq (encodeRune : Int → List Byte) (r : Int)
    (h : (encodeRune r).length < 2 ^ 64) :
    SerializeRune encodeRune r =
      Res.ok (canonicalVarint 9 (encodeRune r).length ++ encodeRune r) := by
  unfold SerializeRune SerializeBytes
  simp only [serializeLenPrefixed (NewSerializer []) (encodeRune r) h]
  rfl

theorem deserializeRune_payload (decodeRune : List Byte → Nat × Nat) (bytes : List Byte)
    (h : bytes.length ≤ 4) :
    DeserializeRune decodeRune (canonicalVarint 9 bytes.length ++ bytes) =
      if (decodeRune bytes).1 = runeError then Res.err Error.ErrDeserializeBadChar
      else Res.ok (decodeRune bytes).1 := by
  have hl := canonicalVarint_length_le 9 bytes.length
  have ht := takeBytes_exact (canonicalVarint 9 bytes.length) bytes [] (by omega)
  simp only [List.append_nil] at ht
  unfold DeserializeRune
  rw [deserializeUint_leading bytes bytes.length (by omega), andThen_ok_eq]
  have h4 : ¬ bytes.length > 4 := by omega
  simp only [h4, if_false]
  rw [ht, andThen_ok_eq]
  split <;> rfl

theorem utf8EncodeRune_length (r : Int) : (utf8EncodeRune r).length ≤ 4 := by
  unfold utf8EncodeRune
  simp only
  split
  · simp
  · split
    · simp
    · split
      · simp
      · split <;> simp

theorem decodeRune_one (b0 : Byte) (h : b0.val < 0x80) :
    utf8DecodeRune [b0] = (b0.val, 1) := by
  rw [utf8DecodeRune, if_pos h]

theorem decodeRune_two (b0 b1 : Byte) (h0 : 0xC2 ≤ b0.val ∧ b0.val ≤ 0xDF)
    (h1 : 0x80 ≤ b1.val ∧ b1.val ≤ 0xBF) :
    utf8DecodeRune [b0, b1] = (b0.val % 32 * 64 + b1.val % 64, 2) := by
  rw [utf8DecodeRune, if_neg (by omega), if_pos h0]
  simp only [h1, and_self, if_true]

theorem decodeRune_three (b0 b1 b2 : Byte) (h0 : 0xE0 ≤ b0.val ∧ b0.val ≤ 0xEF)
    (h1 : (if b0.val = 0xE0 then 0xA0 else 0x80) ≤ b1.val ∧
      b1.val ≤ (if b0.val = 0xED then 0x9F else 0xBF) ∧ 0x80 ≤ b2.val ∧ b2.val ≤ 0xBF) :
    utf8DecodeRune [b0, b1, b2] =
      (b0.val % 16 * 4096 + b1.val % 64 * 64 + b2.val % 64, 3) := by
  rw [utf8DecodeRune, if_neg (by omega), if_neg (by omega), if_pos h0]
  simp only [h1, and_self, if_true]

theorem decodeRune_four (b0 b1 b2 b3 : Byte) (h0 : 0xF0 ≤ b0.val ∧ b0.val ≤ 0xF4)
    (h1 : (if b0.val = 0xF0 then 0x90 else 0x80) ≤ b1.val ∧
      b1.val ≤ (if b0.val = 0xF4 then 0x8F else 0xBF) ∧ 0x80 ≤ b2.val ∧ b2.val ≤ 0xBF ∧
      0x80 ≤ b3.val ∧ b3.val ≤ 0xBF) :
    utf8DecodeRune [b0, b1, b2, b3] =
      (b0.val % 8 * 262144 + b1.val % 64 * 4096 + b2.val % 64 * 64 + b3.val % 64, 4) := by
  rw [utf8DecodeRune, if_neg (by omega), if_neg (by omega), if_neg (by omega), if_pos h0]
  simp only [h1, and_self, if_true]

theorem toUint32_of_nonneg (r : Int) (h0 : 0 ≤ r) (h1 : r < 2 ^ 32) :
    toUint 32 r = r.toNat := by
  unfold toUint
  have : r % 2 ^ 32 = r := Int.emod_eq_of_lt h0 h1
  rw [this]

theorem toByte_val_eq (x : Nat) : (toByte x).val = x % 256 := rfl

theorem utf8_decode_encode (r : Int) (h0 : 0 ≤ r) (h1 : r ≤ 0x10FFFF)
    (hs : ¬ (0xD800 ≤ r ∧ r ≤ 0xDFFF)) :
    (utf8DecodeRune (utf8EncodeRune r)).1 = r.toNat := by
  have hi := toUint32_of_nonneg r h0 (by omega)
  unfold utf8EncodeRune
  simp only [hi]
  generalize hn : r.toNat = i
  have hr : (i : Int) = r := by omega
  have hi1 : i ≤ 0x10FFFF := by omega
  have hi2 : ¬ (0xD800 ≤ i ∧ i ≤ 0xDFFF) := by omega
  by_cases c1 : i ≤ 0x7F
  · rw [if_pos c1, decodeRune_one _ (by rw [toByte_val_eq]; omega), toByte_val_eq]
    show i % 256 = i
    omega
  · rw [if_neg c1]
    by_cases c2 : i ≤ 0x7FF
    · rw [if_pos c2, decodeRune_two _ _ (by simp only [toByte_val_eq]; omega)
        (by simp only [toByte_val_eq]; omega)]
      simp only [toByte_val_eq]
      omega
    · rw [if_neg c2, if_neg (by omega)]
      by_cases c3 : i ≤ 0xFFFF
      · rw [if_pos c3, decodeRune_three _ _ _ (by simp only [toByte_val_eq]; omega)
          (by simp only [toByte_val_eq]; split <;> split <;> omega)]
        simp only [toByte_val_eq]
        omega
      · rw [if_neg c3, decodeRune_four _ _ _ _ (by simp only [toByte_val_eq]; omega)
          (by simp only [toByte_val_eq]; split <;> split <;> omega)]
        simp only [toByte_val_eq]
        omega

theorem utf8EncodeRune_invalid (r : Int) (hlo : -2 ^ 31 ≤ r) (hhi : r < 2 ^ 31)
    (h : r < 0 ∨ 0x10FFFF < r ∨ (0xD800 ≤ r ∧ r ≤ 0xDFFF)) :
    utf8EncodeRune r = [0xEF, 0xBF, 0xBD] := by
  have hb : (0x10FFFF < toUint 32 r) ∨ (0xD800 ≤ toUint 32 r ∧ toUint 32 r ≤ 0xDFFF) := by
    unfold toUint
    omega
  unfold utf8EncodeRune
  simp only
  rw [if_neg (by omega), if_neg (by omega), if_pos (by omega)]

theorem replacement_rune_rejected :
    utf8EncodeRune 0xFFFD = [0xEF, 0xBF, 0xBD] ∧
    SerializeRune utf8EncodeRune 0xFFFD = Res.ok [0x03, 0xEF, 0xBF, 0xBD] ∧
    DeserializeRune utf8DecodeRune [0x03, 0xEF, 0xBF, 0xBD] =
      Res.err Error.ErrDeserializeBadChar := by
  decide

/-- C30: for every `rune` `r` (an `int32`), `SerializeRune(r)` succeeds. When
`r` is a Unicode scalar value other than U+FFFD, `DeserializeRune` of the
output returns `r` with no error. When `r` is U+FFFD, or is not a Unicode
scalar value (negative, above U+10FFFF or a surrogate, which `SerializeRune`
encodes as U+FFFD, `[0x03, 0xEF, 0xBF, 0xBD]`), `DeserializeRune` of the
output fails with `ErrDeserializeBadChar`. -/
theorem rune_roundtrip (r : Int) (hlo : -2 ^ 31 ≤ r) (hhi : r < 2 ^ 31) :
    ∃ bytes, SerializeRune utf8EncodeRune r = Res.ok bytes ∧
      ((0 ≤ r ∧ r ≤ 0x10FFFF ∧ ¬ (0xD800 ≤ r ∧ r ≤ 0xDFFF) ∧ r ≠ 0xFFFD) →
        DeserializeRune utf8DecodeRune bytes = Res.ok r.toNat) ∧
      ((r < 0 ∨ 0x10FFFF < r ∨ (0xD800 ≤ r ∧ r ≤ 0xDFFF)) →
        bytes = [0x03, 0xEF, 0xBF, 0xBD] ∧
        SerializeRune utf8EncodeRune 0xFFFD = Res.ok bytes ∧
        DeserializeRune utf8DecodeRune bytes = Res.err Error.ErrDeserializeBadChar) ∧
      (r = 0xFFFD →
        DeserializeRune utf8DecodeRune bytes = Res.err Error.ErrDeserializeBadChar) := by
  have hlen := utf8EncodeRune_length r
  refine ⟨_, serializeRune_eq utf8EncodeRune r (by omega), ?_, ?_, ?_⟩
  · intro ⟨h0, h1, hs, hne⟩
    rw [deserializeRune_payload utf8DecodeRune _ hlen, utf8_decode_encode r h0 h1 hs]
    have : ¬ r.toNat = runeError := by
      unfold runeError
      omega
    rw [if_neg this]
  · intro h
    have he := utf8EncodeRune_invalid r hlo hhi h
    rw [he]
    exact ⟨by decide, replacement_rune_rejected.2.1, replacement_rune_rejected.2.2⟩
  · intro h
    subst h
    rw [replacement_rune_rejected.1]
    exact replacement_rune_rejected.2.2

theorem rune_roundtrip_witness :
    (-2 : Int) ^ 31 ≤ 0x20AC ∧ (0x20AC : Int) < 2 ^ 31 ∧
    ∃ bytes, SerializeRune utf8EncodeRune 0x20AC = Res.ok bytes ∧
      DeserializeRune utf8DecodeRune bytes = Res.ok (0x20AC : Int).toNat :=
  ⟨by decide, by decide,
    (rune_roundtrip 0x20AC (by decide) (by decide)).elim fun bytes h =>
      ⟨bytes, h.1, h.2.1 ⟨by decide, by decide, by decide, by decide⟩⟩⟩

end Postcard
